import Mathlib

/-!
# GMRES-DR (`solver/gmres_dr.c`): a shallow embedding

The solver of `src/solver/gmres_dr.c` is embedded as pure functions over an
arbitrary linearly ordered field `K` with a square-root function `sqrt`
passed explicitly.  Theorems in exact arithmetic take `K = ℝ` and
`sqrt = Real.sqrt`; the same definitions evaluate on `ℚ`.

The file-scope `static` buffers of the C file are the record `Workspace`,
threaded through `gmres_dr` so that a call on a reused workspace can be
expressed.
-/

namespace GmresDR

/-! ## Complex scalars (`complex`, fields `re` and `im`) -/

/-- The C struct `complex` with its two members `re` and `im`. -/
structure Cx (K : Type) where
  re : K
  im : K
deriving DecidableEq, Repr

namespace Cx

variable {K : Type} [LinearOrderedField K]

/-- The constant `czero` of the C file (`czero.re = 0.; czero.im = 0.`). -/
def czero : Cx K := ⟨0, 0⟩

instance : Inhabited (Cx K) := ⟨czero⟩

/-- Modelled from the spec: the header `complex.h` is absent; `_complex_set(z, r, i)`
sets `z.re = r; z.im = i`. -/
def _complex_set (r i : K) : Cx K := ⟨r, i⟩

/-- Modelled from the spec: `complex.h` is absent; `_mult_real(z, w, r)` is
`z.re = r*w.re; z.im = r*w.im`. -/
def _mult_real (w : Cx K) (r : K) : Cx K := ⟨r * w.re, r * w.im⟩

/-- Modelled from the spec: `complex.h` is absent; `_complex_square_norm(z)` is
`z.re*z.re + z.im*z.im`. -/
def _complex_square_norm (z : Cx K) : K := z.re * z.re + z.im * z.im

/-- Modelled from the spec: `complex.h` is absent; `_add_assign_complex_conj(x, z, w)` is
`x += conj(z)*w`. -/
def _add_assign_complex_conj (x z w : Cx K) : Cx K :=
  ⟨x.re + (z.re * w.re + z.im * w.im), x.im + (z.re * w.im - z.im * w.re)⟩

/-- Modelled from the spec: `complex.h` is absent; `_diff_assign_complex(x, z, w)` is
`x -= z*w`. -/
def _diff_assign_complex (x z w : Cx K) : Cx K :=
  ⟨x.re - (z.re * w.re - z.im * w.im), x.im - (z.re * w.im + z.im * w.re)⟩

/-- Modelled from the spec: `complex.h` is absent; `_mult_assign_complex_conj(x, z, w)` is
`x = conj(z)*w`. -/
def _mult_assign_complex_conj (z w : Cx K) : Cx K :=
  ⟨z.re * w.re + z.im * w.im, z.re * w.im - z.im * w.re⟩

/-- Modelled from the spec: `complex.h` is absent; `_mult_assign_complex(x, z, w)` is
`x = z*w`. -/
def _mult_assign_complex (z w : Cx K) : Cx K :=
  ⟨z.re * w.re - z.im * w.im, z.re * w.im + z.im * w.re⟩

/-- Modelled from the spec: `complex.h` is absent; `_diff_complex(x, z)` is `x -= z`. -/
def _diff_complex (x z : Cx K) : Cx K := ⟨x.re - z.re, x.im - z.im⟩

end Cx

/-! ## Vectors and the consumed vector primitives (`linalg_eo.h`) -/

/-- A spinor field seen as its sequence of complex components (spec §3: a Vector is a
length-N sequence of complex values). -/
abbrev Vec (K : Type) := List (Cx K)

/-- The operator callback type `matrix_mult`: `f(out, in)` returns `out`. -/
abbrev matrix_mult (K : Type) := Vec K → Vec K

section VectorOps

variable {K : Type} [LinearOrderedField K]

/-- Modelled from the spec: `linalg_eo.h` is absent; `square_norm(x, N)` is the sum of
`|x_i|^2` (spec §6 `norm2`). -/
def square_norm : Vec K → K
  | [] => 0
  | z :: x => (z.re * z.re + z.im * z.im) + square_norm x

/-- Modelled from the spec: `linalg_eo.h` is absent; `scalar_prod(x, y, N)` is the inner
product `sum conj(x_i) * y_i` (spec §6 `innerProduct`). -/
def scalar_prod : Vec K → Vec K → Cx K
  | x :: xs, y :: ys =>
      let r := scalar_prod xs ys
      ⟨(x.re * y.re + x.im * y.im) + r.re, (x.re * y.im - x.im * y.re) + r.im⟩
  | _, _ => ⟨0, 0⟩

/-- Modelled from the spec: `linalg_eo.h` is absent; `diff(out, a, b, N)` is `out = a - b`
(spec §6 `diff`). -/
def diff (a b : Vec K) : Vec K :=
  List.zipWith (fun x y => (⟨x.re - y.re, x.im - y.im⟩ : Cx K)) a b

/-- Modelled from the spec: `linalg_eo.h` is absent; `mul_r(out, r, in, N)` is
`out = r * in` with real `r` (spec §6 `scale`). -/
def mul_r (r : K) (x : Vec K) : Vec K :=
  x.map (fun z => (⟨r * z.re, r * z.im⟩ : Cx K))

/-- Modelled from the spec: `linalg_eo.h` is absent; `assign_diff_mul(w, v, h, N)` is
`w -= h * v` with complex `h` (spec §6 `axpy`). -/
def assign_diff_mul (w v : Vec K) (h : Cx K) : Vec K :=
  List.zipWith (fun a b => (⟨a.re - (h.re * b.re - h.im * b.im),
    a.im - (h.re * b.im + h.im * b.re)⟩ : Cx K)) w v

/-- Modelled from the spec: `linalg_eo.h` is absent; `assign_add_mul(p, v, h, N)` is
`p += h * v` with complex `h` (spec §6 `axpy`). -/
def assign_add_mul (p v : Vec K) (h : Cx K) : Vec K :=
  List.zipWith (fun a b => (⟨a.re + (h.re * b.re - h.im * b.im),
    a.im + (h.re * b.im + h.im * b.re)⟩ : Cx K)) p v

end VectorOps

/-! ## The static workspace of `gmres_dr.c` -/

/-- Write `A[i][j] = v` into a two-index buffer. -/
def set2 {X : Type} (A : Nat → Nat → X) (i j : Nat) (v : X) : Nat → Nat → X :=
  Function.update A i (Function.update (A i) j v)

/-- The file-scope `static` buffers (`H`, `G`, `work`, `work2`, `alpha`, `c`, `s`, `V`,
`Z`, `evalues`, `sortarray`, `idx`) together with the three `static int`s of `init_gmres`
(`Vo`, `M`, `init`).  A row pointer such as `H[i]` is the function `H i`; `V i` holds the
components of basis vector `V[i]` that the solver touches. -/
structure Workspace (K : Type) where
  Vo : Int
  M : Int
  init : Int
  H : Nat → Nat → Cx K
  G : Nat → Nat → Cx K
  work : Nat → Nat → Cx K
  work2 : Nat → Nat → Cx K
  alpha : Nat → Cx K
  c : Nat → Cx K
  s : Nat → K
  evalues : Nat → Cx K
  sortarray : Nat → K
  idx : Nat → Int
  V : Nat → Vec K
  Z : Nat → Vec K

section Init

variable {K : Type} [LinearOrderedField K]

/-- The workspace as `init_gmres` leaves it after its `calloc` calls: every buffer
zero-filled, configuration `(M, Vo)` stored, `init = 1`. -/
def callocWorkspace (_M _V : Int) : Workspace K where
  Vo := _V
  M := _M
  init := 1
  H := fun _ _ => Cx.czero
  G := fun _ _ => Cx.czero
  work := fun _ _ => Cx.czero
  work2 := fun _ _ => Cx.czero
  alpha := fun _ => Cx.czero
  c := fun _ => Cx.czero
  s := fun _ => 0
  evalues := fun _ => Cx.czero
  sortarray := fun _ => 0
  idx := fun _ => 0
  V := fun _ => List.replicate (12 * _V.toNat) Cx.czero
  Z := fun _ => List.replicate (12 * _V.toNat) Cx.czero

/-- The workspace before the first call: the statics `Vo = -1`, `M = -1`, `init = 0`
(the buffer pointers are not yet allocated; they are never read in this state). -/
def staticWorkspace : Workspace K :=
  { (callocWorkspace 0 0 : Workspace K) with Vo := -1, M := -1, init := 0 }

/-- The function `init_gmres(_M, _V)`: reallocate (and so zero) every buffer when the stored
configuration differs or nothing is configured yet, otherwise leave the workspace as is. -/
def init_gmres (ws : Workspace K) (_M _V : Int) : Workspace K :=
  if ws.M ≠ _M ∨ ws.init = 0 ∨ ws.Vo ≠ _V then callocWorkspace _M _V else ws

end Init

/-! ## Heap blocks of `init_gmres` -/

/-- The eighteen heap blocks that `init_gmres` obtains with `calloc`: the six row-pointer
tables, the six data blocks behind them and the six scalar arrays. -/
inductive Block
  | H | Z | G | V | work | work2
  | _h | _work | _work2 | _g | _v | _z
  | s | c | alpha | evalues | sortarray | idx
  deriving DecidableEq, Repr

/-- One call of the allocator: `free(b)` or `b = calloc(nmemb, sizeof(..))`. -/
inductive MemEvent
  | free (b : Block)
  | calloc (b : Block) (nmemb : Int)
  deriving DecidableEq, Repr

/-- Lines 420-435: the blocks handed to `free` when `init == 1`, in source order. -/
def freed_blocks : List Block :=
  [.Z, ._z, .H, .G, .V, ._h, ._g, ._v, .alpha, .c, .s, .evalues, .work, ._work, .work2, ._work2]

/-- Lines 439-476: the blocks obtained with `calloc`, in source order. -/
def calloc_blocks : List Block :=
  [.H, .Z, .G, .V, .work, .work2, ._h, ._work, ._work2, ._g, ._v, ._z,
   .s, .c, .alpha, .evalues, .sortarray, .idx]

/-- The first argument of each `calloc` of lines 439-476, counted in elements of the block;
`sse` selects the branch `#if (defined SSE || defined SSE2)`, `false` is the default build. -/
def calloc_nmemb (sse : Bool) (M Vo : Int) : Block → Int
  | .H | .Z | .G | .V | .work | .work2 => M + 1
  | ._h | ._work | ._work2 | ._g => if sse then (M + 2) * (M + 1) else (M + 1) * (M + 1)
  | ._v => if sse then (M + 1) * Vo + 1 else M * Vo
  | ._z => if sse then M * Vo + 1 else M * Vo
  | .s => M
  | .c | .alpha | .evalues | .sortarray | .idx => M + 1

/-- The allocator calls of one call `init_gmres(_M, _V)` on the statics held in `ws`. -/
def init_gmres_events {K : Type} (sse : Bool) (ws : Workspace K) (_M _V : Int) :
    List MemEvent :=
  if ws.M ≠ _M ∨ ws.init = 0 ∨ ws.Vo ≠ _V then
    (if ws.init = 1 then freed_blocks.map MemEvent.free else []) ++
      calloc_blocks.map (fun b => MemEvent.calloc b (calloc_nmemb sse _M _V b))
  else []

/-- Lines 478-489: the row pointer `X[i]` as an element offset from `X[0]`, as stored by the
loop `for(i = 1; i < M; i++) X[i] = X[i-1] + stride` and, when `last` holds, by the
assignment `X[M] = X[M-1] + stride` after it; `none` is an entry that no statement assigns
or, for `M = 0`, one that is assigned from the undefined `X[-1]`.
The stride is `M+1` for `H`, `G`, `work`, `work2` and `Vo` for `V`, `Z`; `last` holds for
all of them but `Z`. -/
def row_offset (M : Nat) (stride : Int) (last : Bool) : Nat → Option Int
  | 0 => if M = 0 ∧ last = true then none else some 0
  | i + 1 =>
    if i + 1 < M ∨ (i + 1 = M ∧ last = true) then
      (row_offset M stride last i).map (fun p => p + stride)
    else none

/-! ## Solver state and the first (plain GMRES) cycle -/

/-- The state of a running `gmres_dr` call: the static workspace, the three scratch spinor
fields, the local `beta2`, and observation fields that the C code does not store:
`napply` counts the calls of `f`, `recips` lists every `x` whose reciprocal `1./x` was
handed to `mul_r` (latest first), `resid` lists the explicitly recomputed residuals, that
is the content of `g_spinor_field[DUM_SOLVER]` right after each of the lines 106, 208 and
366 (latest first), `ndefl` and `rsteps` record the deflation steps and the Arnoldi passes
of the restart cycles. -/
structure St (K : Type) extends Workspace K where
  /-- The field `g_spinor_field[DUM_SOLVER+2]`, the running iterate. -/
  sol : Vec K
  /-- The field `g_spinor_field[DUM_SOLVER]`. -/
  r : Vec K
  /-- The field `g_spinor_field[DUM_SOLVER+1]`. -/
  w : Vec K
  beta2 : K
  napply : Nat
  recips : List K
  resid : List (Vec K)
  /-- Observation: the number of deflation steps (lines 225-315) run so far. -/
  ndefl : Nat
  /-- Observation: the indices `j` of the Arnoldi passes of restart cycles (lines 317-344)
  run so far, latest first. -/
  rsteps : List Nat

section Cycle0

variable {K : Type} [LinearOrderedField K]

/-- Lines 132-138: one pass of the projection loop of cycle 0 (index `i`, column `j`). -/
def project0 (j : Nat) (st : St K) (i : Nat) : St K :=
  let h := scalar_prod (st.V i) st.w
  { st with
    H := set2 st.H i j h
    G := set2 st.G j i h
    work2 := set2 st.work2 j i h
    work := set2 st.work i j ⟨h.re, -h.im⟩
    w := assign_diff_mul st.w (st.V i) h }

/-- Lines 148-153: one pass of the loop applying the stored rotation `i` to column `j`. -/
def rotate0 (j : Nat) (st : St K) (i : Nat) : St K :=
  let tmp1 := st.H i j
  let tmp2 := st.H (i + 1) j
  let H1 := set2 st.H i j
    (Cx._add_assign_complex_conj (Cx._mult_real tmp2 (st.s i)) (st.c i) tmp1)
  { st with
    H := set2 H1 (i + 1) j
      (Cx._diff_assign_complex (Cx._mult_real tmp1 (st.s i)) (st.c i) tmp2) }

/-- Lines 126-163: the body of the cycle-0 loop up to (not including) the convergence
test, for inner index `j`. -/
def arnoldi0 (sqrt : K → K) (f : matrix_mult K) (j : Nat) (st : St K) : St K :=
  let st : St K := { st with r := f (st.V j), napply := st.napply + 1 }
  let st : St K := { st with w := st.r }
  let st : St K := (List.range (j + 1)).foldl (project0 j) st
  let hn : Cx K := Cx._complex_set (sqrt (square_norm st.w)) 0
  let st : St K := { st with
    H := set2 st.H (j + 1) j hn
    G := set2 st.G j (j + 1) hn
    work2 := set2 st.work2 j (j + 1) hn
    work := set2 st.work (j + 1) j ⟨hn.re, -hn.im⟩
    beta2 := hn.re * hn.re }
  let st : St K := (List.range j).foldl (rotate0 j) st
  let beta : K := sqrt (Cx._complex_square_norm (st.H j j)
    + Cx._complex_square_norm (st.H (j + 1) j))
  let sj : K := (st.H (j + 1) j).re / beta
  let cj : Cx K := Cx._mult_real (st.H j j) (1 / beta)
  let st : St K := { st with
    s := Function.update st.s j sj
    c := Function.update st.c j cj
    H := set2 st.H j j (Cx._complex_set beta 0) }
  let st : St K := { st with
    alpha := Function.update st.alpha (j + 1) (Cx._mult_real (st.alpha j) sj) }
  let tmp1 := st.alpha j
  { st with alpha := Function.update st.alpha j (Cx._mult_assign_complex_conj cj tmp1) }

/-- Line 170: the convergence test on the recursive estimate `alpha[j+1].re`. -/
def precision_reached (eps norm : K) (rel_prec : Int) (st : St K) (j : Nat) : Prop :=
  ((st.alpha (j + 1)).re ≤ eps ∧ rel_prec = 0)
    ∨ ((st.alpha (j + 1)).re ≤ eps * norm ∧ rel_prec = 1)

instance (eps norm : K) (rel_prec : Int) (st : St K) (j : Nat) :
    Decidable (precision_reached eps norm rel_prec st j) := by
  unfold precision_reached; infer_instance

/-- Lines 174-178 (and 199-202): the inner loop `for(k = i+1; k <= j; k++)` subtracting
`H[i][k]*alpha[k]` from `alpha[i]`. -/
def backsub_row (j i : Nat) (st : St K) : St K :=
  (List.range' (i + 1) (j - i)).foldl (fun (st : St K) (k : Nat) =>
    let tmp1 := Cx._mult_assign_complex (st.H i k) (st.alpha k)
    { st with alpha := Function.update st.alpha i (Cx._diff_complex (st.alpha i) tmp1) }) st

/-- Lines 171-181 (repeated verbatim as lines 196-205): back substitution of the rotated
triangular system for columns `0..j`, accumulating the update into the iterate. -/
def backsubst (j : Nat) (st : St K) : St K :=
  let a := Cx._mult_real (st.alpha j) (1 / (st.H j j).re)
  let st : St K := { st with
    alpha := Function.update st.alpha j a
    sol := assign_add_mul st.sol (st.V j) a }
  (List.range j).reverse.foldl (fun (st : St K) (i : Nat) =>
    let st : St K := backsub_row j i st
    let ai := Cx._mult_real (st.alpha i) (1 / (st.H i i).re)
    { st with
      alpha := Function.update st.alpha i ai
      sol := assign_add_mul st.sol (st.V i) ai }) st

/-- Lines 182-184: `for(i = 0; i < m; i++) alpha[i].im = 0.`. -/
def clear_alpha_im (m : Nat) (st : St K) : St K :=
  (List.range m).foldl (fun (st : St K) (i : Nat) =>
    { st with alpha := Function.update st.alpha i ⟨(st.alpha i).re, 0⟩ }) st

/-- Line 190: the `else` branch normalising `V[j+1]`. -/
def normalise0 (j : Nat) (st : St K) : St K :=
  { st with
    V := Function.update st.V (j + 1) (mul_r (1 / (st.H (j + 1) j).re) st.w)
    recips := (st.H (j + 1) j).re :: st.recips }

/-- Lines 123-193: the loop `for(j = 0; j < m; j++)` of cycle 0, started at index `j` with
`n` passes left.  Left: the test of line 170 passed at the returned index, the state is
the one right after the test.  Right: the loop ran to `j = m`. -/
def cycle0 (sqrt : K → K) (f : matrix_mult K) (eps norm : K) (rel_prec : Int) :
    Nat → Nat → St K → (Nat × St K) ⊕ St K
  | 0, _, st => Sum.inr st
  | n + 1, j, st =>
      let st1 := arnoldi0 sqrt f j st
      if precision_reached eps norm rel_prec st1 j then Sum.inl (j, st1)
      else cycle0 sqrt f eps norm rel_prec n (j + 1) (normalise0 j st1)

end Cycle0

/-! ## Dense helpers of the restart cycle -/

section Dense

variable {K : Type} [LinearOrderedField K]

/-- The function `short_scalar_prod(y, x, N)` (lines 381-393): `sum conj(y_ix) * x_ix`. -/
def short_scalar_prod (y x : Nat → Cx K) (N : Nat) : Cx K :=
  (List.range N).foldl (fun (res : Cx K) (ix : Nat) =>
    ⟨res.re + ((x ix).re * (y ix).re + (x ix).im * (y ix).im),
     res.im + (-(x ix).re * (y ix).im + (x ix).im * (y ix).re)⟩) ⟨0, 0⟩

/-- Modelled from the spec: the BLAS routine `zaxpy(n, a, x, 1, y, 1)` is absent; it is
`y += a * x` on the first `n` entries. -/
def zaxpy (n : Nat) (a : Cx K) (x y : Nat → Cx K) : Nat → Cx K :=
  fun i => if i < n then
    ⟨(y i).re + (a.re * (x i).re - a.im * (x i).im),
     (y i).im + (a.re * (x i).im + a.im * (x i).re)⟩
  else y i

/-- The function `short_ModifiedGS(v, n, m, A)` (lines 395-410), for `v` not overlapping
the first `m` rows of `A` (row `i` of `A` is `A + i*n`, here `A i`): project the rows out
of `v` one after the other, then divide `v` by its norm. -/
def short_ModifiedGS (sqrt : K → K) (v : Nat → Cx K) (n m : Nat) (A : Nat → Nat → Cx K) :
    Nat → Cx K :=
  let v := (List.range m).foldl (fun (v : Nat → Cx K) (i : Nat) =>
    let s := short_scalar_prod (A i) v n
    let s : Cx K := ⟨-s.re, -s.im⟩
    zaxpy n s (A i) v) v
  let sre := sqrt (short_scalar_prod v v n).re
  fun i => if i < n then ⟨(v i).re / sre, (v i).im / sre⟩ else v i

/-- The dense routines whose code is not part of the repository sources and whose result
the solver takes as computed (spec §4.4, §7): each is a function of the buffers it reads.
`zgesv n A b` returns the overwritten `A`, the pivot indices and the solution;
`diagonalise_general_matrix n A vl` the overwritten `A`, `vl` and the eigenvalues;
`quicksort n sortarray idx` the two permuted arrays; `zgels rows cols A b` the overwritten
`A` and `b`. -/
structure DenseLA (K : Type) where
  zgesv : Nat → (Nat → Nat → Cx K) → (Nat → Cx K) →
    (Nat → Nat → Cx K) × (Nat → Int) × (Nat → Cx K)
  diagonalise_general_matrix : Nat → (Nat → Nat → Cx K) → (Nat → Cx K) →
    (Nat → Nat → Cx K) × (Nat → Cx K) × (Nat → Cx K)
  quicksort : Nat → (Nat → K) → (Nat → Int) → (Nat → K) × (Nat → Int)
  zgels : Nat → Nat → (Nat → Nat → Cx K) → (Nat → Cx K) →
    (Nat → Nat → Cx K) × (Nat → Cx K)

/-- Complex product `z * w`. -/
def cmul (z w : Cx K) : Cx K := ⟨z.re * w.re - z.im * w.im, z.re * w.im + z.im * w.re⟩

/-- Complex sum `z + w`. -/
def cadd (z w : Cx K) : Cx K := ⟨z.re + w.re, z.im + w.im⟩

/-- Complex conjugate. -/
def conj (z : Cx K) : Cx K := ⟨z.re, -z.im⟩

/-- Sum of `t k` over `k < n`. -/
def csum (n : Nat) (t : Nat → Cx K) : Cx K :=
  (List.range n).foldl (fun acc k => cadd acc (t k)) ⟨0, 0⟩

/-- Modelled from the spec: BLAS `zgemv("N", rows, cols, -1, A, lda, x, 1, 1, y, 1)` is
absent; with column `k` of the Fortran matrix stored in row pointer `A k` it is
`y[r] = y[r] - sum_k A[k][r] * x[k]` for `r < rows`, `k < cols`. -/
def zgemv_sub (rows cols : Nat) (A : Nat → Nat → Cx K) (x y : Nat → Cx K) : Nat → Cx K :=
  fun r => if r < rows then
    let t := csum cols (fun k => cmul (A k r) (x k))
    ⟨(y r).re - t.re, (y r).im - t.im⟩
  else y r

/-- Modelled from the spec: BLAS `zgemm("N", "N", rows, cols, inner, 1, A, lda, B, ldb, 0,
C, ldc)` is absent; in row-pointer storage (column `c` of a Fortran matrix is row pointer
`C c`) it is `C[c][r] = sum_k A[k][r] * B[c][k]` for `r < rows`, `c < cols`, `k < inner`. -/
def zgemm_NN (rows cols inner : Nat) (A B C : Nat → Nat → Cx K) : Nat → Nat → Cx K :=
  fun c r => if c < cols ∧ r < rows then csum inner (fun k => cmul (A k r) (B c k)) else C c r

/-- Modelled from the spec: BLAS `zgemm("C", "N", rows, cols, inner, 1, A, lda, B, ldb, 0,
C, ldc)` is absent; in row-pointer storage it is
`C[c][r] = sum_k conj(A[r][k]) * B[c][k]` for `r < rows`, `c < cols`, `k < inner`. -/
def zgemm_CN (rows cols inner : Nat) (A B C : Nat → Nat → Cx K) : Nat → Nat → Cx K :=
  fun c r => if c < cols ∧ r < rows then csum inner (fun k => cmul (conj (A r k)) (B c k))
    else C c r

/-- Modelled from the spec: the `zgemm` of line 284 acting on the basis, absent like the
other BLAS routines: `Z[c] = sum_k work[c][k] * V[k]` for `c < cols`, `k < inner`, taken
here for the case that the leading dimension `V2` equals the stride between basis
vectors. -/
def zgemm_basis (cols inner : Nat) (V : Nat → Vec K) (B : Nat → Nat → Cx K)
    (Z : Nat → Vec K) : Nat → Vec K :=
  fun c => if c < cols then
    (List.range inner).foldl (fun (acc : Vec K) (k : Nat) => assign_add_mul acc (V k) (B c k))
      ((V 0).map (fun _ => (Cx.czero : Cx K)))
  else Z c

/-- Modelled from the spec: LAPACK `zlacpy("A", rows, cols, Z, ldz, V, ldv)` is absent; it
copies the first `cols` columns, here the vectors `Z[0..cols-1]`, into `V`. -/
def zlacpy (cols : Nat) (Z V : Nat → Vec K) : Nat → Vec K :=
  fun c => if c < cols then Z c else V c

end Dense

/-! ## The restart cycle (lines 223-372) -/

section Restart

variable {K : Type} [LinearOrderedField K]

/-- Lines 326-332: one pass of the projection loop of a restart cycle; `H` is now stored
columns first (`H[j][i]`). -/
def projectR (j : Nat) (st : St K) (i : Nat) : St K :=
  let h := scalar_prod (st.V i) st.w
  { st with
    H := set2 st.H j i h
    G := set2 st.G j i h
    work2 := set2 st.work2 j i h
    work := set2 st.work i j ⟨h.re, -h.im⟩
    w := assign_diff_mul st.w (st.V i) h }

/-- Lines 320-342: the body of the Arnoldi loop of a restart cycle for index `j`; the
normalisation of line 342 is unconditional. -/
def arnoldiR (sqrt : K → K) (f : matrix_mult K) (st : St K) (j : Nat) : St K :=
  let st : St K := { st with r := f (st.V j), napply := st.napply + 1 }
  let st : St K := { st with w := st.r }
  let st : St K := (List.range (j + 1)).foldl (projectR j) st
  let hn : Cx K := Cx._complex_set (sqrt (square_norm st.w)) 0
  let st : St K := { st with
    H := set2 st.H j (j + 1) hn
    G := set2 st.G j (j + 1) hn
    work2 := set2 st.work2 j (j + 1) hn
    work := set2 st.work (j + 1) j ⟨hn.re, -hn.im⟩
    beta2 := hn.re * hn.re }
  { st with
    V := Function.update st.V (j + 1) (mul_r (1 / (st.H j (j + 1)).re) st.w)
    recips := (st.H j (j + 1)).re :: st.recips
    rsteps := j :: st.rsteps }

/-- Lines 225-270: the dense solve, the eigen-decomposition, the sort and the
orthonormalisation of the selected vectors in `work`. -/
def deflate_select (sqrt : K → K) (la : DenseLA K) (m nr_ev : Nat) (st : St K) : St K :=
  let c0 : Nat → Cx K := fun i => if i < m then Cx.czero else st.c i
  let c0 := Function.update c0 (m - 1) ⟨1, (c0 (m - 1)).im⟩
  let (work1, idx1, c1) := la.zgesv m st.work c0
  let p := (idx1 (m - 1) - 1).toNat
  let g := st.G (m - 1) (m - 1)
  let G1 := set2 st.G (m - 1) (m - 1) ⟨g.re + st.beta2 * (c1 p).re, g.im + st.beta2 * (c1 p).im⟩
  let row : Nat → Cx K := fun i =>
    if i = 0 then ⟨sqrt st.beta2, 0⟩ else if i < m + 1 then Cx.czero else work1 nr_ev i
  let row := zgemv_sub (m + 1) m G1 st.alpha row
  let work3 := Function.update work1 nr_ev row
  let (G2, c2, ev) := la.diagonalise_general_matrix m G1 c1
  let sa : Nat → K := fun i => if i < m then Cx._complex_square_norm (ev i) else st.sortarray i
  let id0 : Nat → Int := fun i => if i < m then (i : Int) else idx1 i
  let (sa1, id1) := la.quicksort m sa id0
  let work4 : Nat → Nat → Cx K := fun i l =>
    if i < nr_ev ∧ l < m then G2 (id1 i).toNat l else work3 i l
  let work5 := (List.range nr_ev).foldl (fun (wk : Nat → Nat → Cx K) (i : Nat) =>
    let wk := set2 wk i m Cx.czero
    Function.update wk i (short_ModifiedGS sqrt (wk i) (m + 1) i wk)) work4
  let work6 := Function.update work5 nr_ev
    (short_ModifiedGS sqrt (work5 nr_ev) (m + 1) nr_ev work5)
  { st with
    work := work6, idx := id1, c := c2, G := G2, evalues := ev, sortarray := sa1
    ndefl := st.ndefl + 1 }

/-- Lines 273-315: the change of basis of `H` and `V`, the clearing of `G`, `work`,
`work2` and of the imaginary parts of `alpha`, and the copy of the reduced `H`.  (The
block of lines 287-296 runs only at debug level above 3 and is left out.) -/
def deflate_rebase (m nr_ev : Nat) (st : St K) : St K :=
  let G1 := zgemm_NN (m + 1) nr_ev m st.work2 st.work st.G
  let H1 := zgemm_CN (nr_ev + 1) nr_ev (m + 1) st.work G1 st.H
  let Z1 := zgemm_basis (nr_ev + 1) (m + 1) st.V st.work st.Z
  let V1 := zlacpy (nr_ev + 1) Z1 st.V
  let alpha1 : Nat → Cx K := fun i => if i < m + 1 then ⟨(st.alpha i).re, 0⟩ else st.alpha i
  let clr : (Nat → Nat → Cx K) → Nat → Nat → Cx K := fun A i l =>
    if i < m + 1 ∧ l < m + 1 then Cx.czero else A i l
  let cp : (Nat → Nat → Cx K) → Nat → Nat → Cx K := fun A i l =>
    if i < nr_ev ∧ l < nr_ev + 1 then H1 i l else A i l
  let wk : Nat → Nat → Cx K := fun l i =>
    if i < nr_ev ∧ l < nr_ev + 1 then ⟨(H1 i l).re, -(H1 i l).im⟩ else clr st.work l i
  { st with
    H := H1, Z := Z1, V := V1, alpha := alpha1
    G := cp (clr G1), work2 := cp (clr st.work2), work := wk }

/-- Lines 345-347: the array `alpha` as handed to `zgels`, after the loop
`for(i = 0; i < mp1; i++) alpha[i] = scalar_prod(V[i], g_spinor_field[DUM_SOLVER], N)`. -/
def lsq_rhs (m : Nat) (st : St K) : Nat → Cx K := fun i =>
  if i < m + 1 then scalar_prod (st.V i) st.r else st.alpha i

/-- Lines 345-368: the right-hand side of the least-squares problem, its solution by
`zgels`, the update of the iterate and the explicit residual. -/
def lsq_update (la : DenseLA K) (f : matrix_mult K) (Q : Vec K) (m : Nat) (st : St K) :
    St K :=
  let alpha1 : Nat → Cx K := lsq_rhs m st
  let (H1, alpha2) := la.zgels (m + 1) m st.H alpha1
  let st : St K := { st with H := H1, alpha := alpha2 }
  let st : St K := (List.range m).reverse.foldl (fun (st : St K) (i : Nat) =>
    { st with sol := assign_add_mul st.sol (st.V i) (st.alpha i) }) st
  { st with
    r := diff Q (f st.sol), napply := st.napply + 1
    resid := diff Q (f st.sol) :: st.resid }

/-- Lines 224-344: a restart cycle up to the end of its Arnoldi loop
`for(j = nr_ev; j < m; j++)`, that is the state in which line 345 is reached. -/
def restart_arnoldi (sqrt : K → K) (la : DenseLA K) (f : matrix_mult K) (m nr_ev : Nat)
    (st : St K) : St K :=
  let st := deflate_select sqrt la m nr_ev st
  let st := deflate_rebase m nr_ev st
  (List.range' nr_ev (m - nr_ev)).foldl (arnoldiR sqrt f) st

/-- Lines 224-371: the body of the loop `for(restart = 1; restart < max_restarts;
restart++)`.  The norm computed on line 368 is only printed. -/
def restart_cycle (sqrt : K → K) (la : DenseLA K) (f : matrix_mult K) (Q : Vec K)
    (m nr_ev : Nat) (st : St K) : St K :=
  lsq_update la f Q m (restart_arnoldi sqrt la f m nr_ev st)

/-- The whole loop of line 223: `n` further passes of `restart_cycle`. -/
def restart_loop (sqrt : K → K) (la : DenseLA K) (f : matrix_mult K) (Q : Vec K)
    (m nr_ev : Nat) : Nat → St K → St K
  | 0, st => st
  | n + 1, st => restart_loop sqrt la f Q m nr_ev n (restart_cycle sqrt la f Q m nr_ev st)

end Restart

/-! ## The entry point `gmres_dr` -/

/-- The `return` statement through which a call left `gmres_dr`. -/
inductive ExitPath where
  /-- Line 118: the residual on entry has norm zero. -/
  | entry_zero
  /-- Line 186: the test of line 170 passed at inner index `j` of cycle 0. -/
  | inner (j : Nat)
  /-- Line 220: the residual recomputed after cycle 0 has norm zero. -/
  | cycle0_zero
  /-- Line 378: the restart loop ran out. -/
  | max_restarts
deriving DecidableEq, Repr

/-- What a call of `gmres_dr` leaves behind: the returned `int`, the contents of `P`, the
final state (its `toWorkspace` part is what the statics hold for the next call) and the
`return` statement taken. -/
structure Result (K : Type) where
  ret : Int
  P : Vec K
  st : St K
  exit : ExitPath

section Solver

variable {K : Type} [LinearOrderedField K]

/-- Lines 98-121 after `init_gmres`: the state in which line 116 is reached, with
`alpha[0].re` (and only `.re`) set to the norm of the residual on entry. -/
def entry_state (sqrt : K → K) (ws : Workspace K) (P Q : Vec K) (f : matrix_mult K) : St K :=
  let r := diff Q (f P)
  { toWorkspace :=
      { ws with alpha := Function.update ws.alpha 0 ⟨sqrt (square_norm r), (ws.alpha 0).im⟩ }
    sol := P, r := r, w := [], beta2 := 0, napply := 1, recips := []
    resid := [r], ndefl := 0, rsteps := [] }

/-- Line 121: `mul_r(V[0], 1./alpha[0].re, g_spinor_field[DUM_SOLVER], N)`. -/
def start_basis (st : St K) : St K :=
  { st with
    V := Function.update st.V 0 (mul_r (1 / (st.alpha 0).re) st.r)
    recips := (st.alpha 0).re :: st.recips }

/-- Lines 194-208: with `j = m-1`, back substitution into the iterate and the explicit
residual `Q - A*x` of the new iterate. -/
def prepare_restart (Q : Vec K) (f : matrix_mult K) (m : Nat) (st : St K) : St K :=
  let st := backsubst (m - 1) st
  { st with
    r := diff Q (f st.sol), napply := st.napply + 1
    resid := diff Q (f st.sol) :: st.resid }

/-- The function `gmres_dr(P, Q, m, nr_ev, max_restarts, eps_sq, rel_prec, N, f)` of lines
79-379.  `ws` is the content of the static buffers when the call starts, `VOLUME_RAND` the
value of the global expression `VOLUME + RAND`; the vector length `N` is the length of the
lists `P` and `Q`. -/
def gmres_dr (sqrt : K → K) (la : DenseLA K) (ws : Workspace K) (VOLUME_RAND : Int)
    (P Q : Vec K) (m nr_ev : Nat) (max_restarts : Int) (eps_sq : K) (rel_prec : Int)
    (f : matrix_mult K) : Result K :=
  let eps := sqrt eps_sq
  let ws := init_gmres ws (m : Int) (Int.tdiv VOLUME_RAND 2)
  let norm := sqrt (square_norm Q)
  let st := entry_state sqrt ws P Q f
  if (st.alpha 0).re = 0 then
    { ret := 0 * (m : Int), P := st.sol, st := st, exit := ExitPath.entry_zero }
  else
    match cycle0 sqrt f eps norm rel_prec m 0 (start_basis st) with
    | Sum.inl (j, st) =>
        let st := clear_alpha_im m (backsubst j st)
        { ret := 0 * (m : Int) + (j : Int), P := st.sol, st := st, exit := ExitPath.inner j }
    | Sum.inr st =>
        let st := prepare_restart Q f m st
        if sqrt (square_norm st.r) = 0 then
          { ret := 0 * (m : Int), P := st.sol, st := st, exit := ExitPath.cycle0_zero }
        else
          let st := restart_loop sqrt la f Q m nr_ev (max_restarts - 1).toNat st
          { ret := -1, P := st.sol, st := st, exit := ExitPath.max_restarts }

end Solver

/-! ## Auxiliary definitions used to state the properties -/

section Aux

variable {K : Type} [LinearOrderedField K]

/-- The state right after the Arnoldi body (lines 126-163) of inner index `j + k`, when the
loop of cycle 0 was entered at index `j` in state `st` and the `k` tests before it all
failed. -/
def cycle0_state (sqrt : K → K) (f : matrix_mult K) : Nat → Nat → St K → St K
  | 0, j, st => arnoldi0 sqrt f j st
  | k + 1, j, st => cycle0_state sqrt f k (j + 1) (normalise0 j (arnoldi0 sqrt f j st))

/-- The state in which a call enters the loop of cycle 0 (line 123), reached when the
residual on entry is not zero. -/
def loop_entry (sqrt : K → K) (ws : Workspace K) (VOLUME_RAND : Int) (P Q : Vec K) (m : Nat)
    (f : matrix_mult K) : St K :=
  start_basis (entry_state sqrt (init_gmres ws (m : Int) (Int.tdiv VOLUME_RAND 2)) P Q f)

/-- The state right after the Arnoldi body of inner index `j` of cycle 0, provided the
loop got that far. -/
def state_at (sqrt : K → K) (ws : Workspace K) (VOLUME_RAND : Int) (P Q : Vec K) (m : Nat)
    (f : matrix_mult K) (j : Nat) : St K :=
  cycle0_state sqrt f j 0 (loop_entry sqrt ws VOLUME_RAND P Q m f)

/-- The coefficient `H[0][0] = scalar_prod(V[0], A*V[0])` of the first Arnoldi step, for
the basis vector `v0`. -/
def step0_h (f : matrix_mult K) (v0 : Vec K) : Cx K := scalar_prod v0 (f v0)

/-- The vector left in `g_spinor_field[DUM_SOLVER+1]` by the first Arnoldi step. -/
def step0_w (f : matrix_mult K) (v0 : Vec K) : Vec K :=
  assign_diff_mul (f v0) v0 (step0_h f v0)

/-- The entry `H[1][0].re`, the norm of `step0_w`. -/
def step0_hn (sqrt : K → K) (f : matrix_mult K) (v0 : Vec K) : K :=
  sqrt (square_norm (step0_w f v0))

/-- The value `beta` of line 157 in the first Arnoldi step. -/
def step0_beta (sqrt : K → K) (f : matrix_mult K) (v0 : Vec K) : K :=
  sqrt (Cx._complex_square_norm (step0_h f v0)
    + Cx._complex_square_norm ⟨step0_hn sqrt f v0, 0⟩)

/-- The coefficient by which `V[0]` is added to the iterate when back substitution starts
from column 0 only: `conj(c[0]) * alpha[0] / H[0][0].re` for the entry value `a0` of
`alpha[0]`. -/
def step0_coeff (sqrt : K → K) (f : matrix_mult K) (v0 : Vec K) (a0 : Cx K) : Cx K :=
  Cx._mult_real
    (Cx._mult_assign_complex_conj
      (Cx._mult_real (step0_h f v0) (1 / step0_beta sqrt f v0)) a0)
    (1 / step0_beta sqrt f v0)

/-- The first basis vector `V[0]` of a call: the residual on entry divided by its norm
(lines 105-121). -/
def entry_v0 (sqrt : K → K) (P Q : Vec K) (f : matrix_mult K) : Vec K :=
  mul_r (1 / sqrt (square_norm (diff Q (f P)))) (diff Q (f P))

/-- The value of `alpha[0]` when the loop of cycle 0 is entered: real part set on line 109,
imaginary part as found in the workspace. -/
def entry_alpha0 (sqrt : K → K) (ws : Workspace K) (VOLUME_RAND : Int) (P Q : Vec K) (m : Nat)
    (f : matrix_mult K) : Cx K :=
  ⟨sqrt (square_norm (diff Q (f P))),
   ((init_gmres ws (m : Int) (Int.tdiv VOLUME_RAND 2)).alpha 0).im⟩

/-- The value `s[0]` of the first Arnoldi step. -/
def step0_s (sqrt : K → K) (f : matrix_mult K) (v0 : Vec K) : K :=
  step0_hn sqrt f v0 / step0_beta sqrt f v0

/-- The value `c[0]` of the first Arnoldi step. -/
def step0_c (sqrt : K → K) (f : matrix_mult K) (v0 : Vec K) : Cx K :=
  Cx._mult_real (step0_h f v0) (1 / step0_beta sqrt f v0)

/-- The basis vector `V[1]` written by line 190 after the first Arnoldi step. -/
def step0_v1 (sqrt : K → K) (f : matrix_mult K) (v0 : Vec K) : Vec K :=
  mul_r (1 / step0_hn sqrt f v0) (step0_w f v0)

/-- The coefficient `scalar_prod(V[0], A*V[1])` of the second Arnoldi step. -/
def step1_h0 (f : matrix_mult K) (v0 v1 : Vec K) : Cx K := scalar_prod v0 (f v1)

/-- The coefficient `scalar_prod(V[1], A*V[1] - h0*V[0])` of the second Arnoldi step. -/
def step1_h1 (f : matrix_mult K) (v0 v1 : Vec K) : Cx K :=
  scalar_prod v1 (assign_diff_mul (f v1) v0 (step1_h0 f v0 v1))

/-- The vector left in `g_spinor_field[DUM_SOLVER+1]` by the second Arnoldi step. -/
def step1_w (f : matrix_mult K) (v0 v1 : Vec K) : Vec K :=
  assign_diff_mul (assign_diff_mul (f v1) v0 (step1_h0 f v0 v1)) v1 (step1_h1 f v0 v1)

/-- The entry `H[2][1].re`, the norm of `step1_w`. -/
def step1_hn (sqrt : K → K) (f : matrix_mult K) (v0 v1 : Vec K) : K :=
  sqrt (square_norm (step1_w f v0 v1))

/-- The entry `H[0][1]` after the rotation of lines 148-153. -/
def step1_r0 (f : matrix_mult K) (v0 v1 : Vec K) (s0 : K) (c0 : Cx K) : Cx K :=
  Cx._add_assign_complex_conj (Cx._mult_real (step1_h1 f v0 v1) s0) c0 (step1_h0 f v0 v1)

/-- The entry `H[1][1]` after the rotation of lines 148-153. -/
def step1_r1 (f : matrix_mult K) (v0 v1 : Vec K) (s0 : K) (c0 : Cx K) : Cx K :=
  Cx._diff_assign_complex (Cx._mult_real (step1_h0 f v0 v1) s0) c0 (step1_h1 f v0 v1)

/-- The value `beta` of line 157 in the second Arnoldi step. -/
def step1_beta (sqrt : K → K) (f : matrix_mult K) (v0 v1 : Vec K) (s0 : K) (c0 : Cx K) : K :=
  sqrt (Cx._complex_square_norm (step1_r1 f v0 v1 s0 c0)
    + Cx._complex_square_norm ⟨step1_hn sqrt f v0 v1, 0⟩)

/-- The test of line 170 as a condition on the tested value `a = alpha[j+1].re`. -/
def test_value (eps norm : K) (rel_prec : Int) (a : K) : Prop :=
  (a ≤ eps ∧ rel_prec = 0) ∨ (a ≤ eps * norm ∧ rel_prec = 1)

/-- The estimate `alpha[1].re` tested at inner index 0, for first basis vector `v0` and
entry residual norm `rho`. -/
def estimate1 (sqrt : K → K) (f : matrix_mult K) (v0 : Vec K) (rho : K) : K :=
  step0_s sqrt f v0 * rho

/-- The estimate `alpha[2].re` tested at inner index 1. -/
def estimate2 (sqrt : K → K) (f : matrix_mult K) (v0 : Vec K) (rho : K) : K :=
  (step1_hn sqrt f v0 (step0_v1 sqrt f v0)
    / step1_beta sqrt f v0 (step0_v1 sqrt f v0) (step0_s sqrt f v0) (step0_c sqrt f v0))
    * (step0_s sqrt f v0 * rho)

/-- The coefficient of `V[1]` produced by back substitution over columns 0 and 1, for the
entry value `a0` of `alpha[0]`. -/
def two_step_y1 (sqrt : K → K) (f : matrix_mult K) (v0 : Vec K) (a0 : Cx K) : Cx K :=
  Cx._mult_real
    (Cx._mult_assign_complex_conj
      (Cx._mult_real
        (step1_r1 f v0 (step0_v1 sqrt f v0) (step0_s sqrt f v0) (step0_c sqrt f v0))
        (1 / step1_beta sqrt f v0 (step0_v1 sqrt f v0) (step0_s sqrt f v0)
          (step0_c sqrt f v0)))
      (Cx._mult_real a0 (step0_s sqrt f v0)))
    (1 / step1_beta sqrt f v0 (step0_v1 sqrt f v0) (step0_s sqrt f v0) (step0_c sqrt f v0))

/-- The coefficient of `V[0]` produced by back substitution over columns 0 and 1; it is the
value left in `alpha[0]`. -/
def two_step_y0 (sqrt : K → K) (f : matrix_mult K) (v0 : Vec K) (a0 : Cx K) : Cx K :=
  Cx._mult_real
    (Cx._diff_complex
      (Cx._mult_assign_complex_conj (step0_c sqrt f v0) a0)
      (Cx._mult_assign_complex
        (step1_r0 f v0 (step0_v1 sqrt f v0) (step0_s sqrt f v0) (step0_c sqrt f v0))
        (two_step_y1 sqrt f v0 a0)))
    (1 / step0_beta sqrt f v0)

/-- The iterate after back substitution over columns 0 and 1 (lines 196-205 with
`m = 2`). -/
def two_step_sol (sqrt : K → K) (f : matrix_mult K) (P v0 : Vec K) (a0 : Cx K) : Vec K :=
  assign_add_mul (assign_add_mul P (step0_v1 sqrt f v0) (two_step_y1 sqrt f v0 a0)) v0
    (two_step_y0 sqrt f v0 a0)

/-- A chain `S 0, S 1, ...` of sets of vectors, each closed under the vector primitives
the solver uses, such that the operator `f` maps level `n` into level `n + 1` (as the
Krylov spaces of `f` do). -/
structure KrylovChain (f : matrix_mult K) (S : Nat → Vec K → Prop) : Prop where
  mono : ∀ n x, S n x → S (n + 1) x
  apply : ∀ n x, S n x → S (n + 1) (f x)
  sub : ∀ n x y h, S n x → S n y → S n (assign_diff_mul x y h)
  add : ∀ n x y h, S n x → S n y → S n (assign_add_mul x y h)
  scale : ∀ n r x, S n x → S n (mul_r r x)

/-- The Arnoldi recurrence as the specification words it: `w_0 = x` and
`w_{i+1} = w_i - h_i * V[i]` with `h_i = <V[i], w_i>`. -/
def arnoldi_w (V : Nat → Vec K) (x : Vec K) : Nat → Vec K
  | 0 => x
  | i + 1 => assign_diff_mul (arnoldi_w V x i) (V i) (scalar_prod (V i) (arnoldi_w V x i))

/-- The coefficient `h_i = <V[i], w_i>` of the Arnoldi recurrence. -/
def arnoldi_h (V : Nat → Vec K) (x : Vec K) (i : Nat) : Cx K :=
  scalar_prod (V i) (arnoldi_w V x i)

/-- The vector `z + sum over i < n of c i * V[i]`. -/
def lin_comb (c : Nat → Cx K) (V : Nat → Vec K) (z : Vec K) : Nat → Vec K
  | 0 => z
  | n + 1 => assign_add_mul (lin_comb c V z n) (V n) (c n)

/-- Lines 126-146: the Arnoldi body of cycle 0 for inner index `j` up to the assignment of
`beta2`, that is before the Givens rotations of lines 147-163 touch column `j` of `H`. -/
def arnoldi0_projected (sqrt : K → K) (f : matrix_mult K) (j : Nat) (st : St K) : St K :=
  let st : St K := { st with r := f (st.V j), napply := st.napply + 1 }
  let st : St K := { st with w := st.r }
  let st : St K := (List.range (j + 1)).foldl (project0 j) st
  let hn : Cx K := Cx._complex_set (sqrt (square_norm st.w)) 0
  { st with
    H := set2 st.H (j + 1) j hn
    G := set2 st.G j (j + 1) hn
    work2 := set2 st.work2 j (j + 1) hn
    work := set2 st.work (j + 1) j ⟨hn.re, -hn.im⟩
    beta2 := hn.re * hn.re }

/-- Lines 147-163: the Givens rotations of column `j` and the update of `s`, `c`, `H[j][j]`
and `alpha`, applied to the state that lines 126-146 left. -/
def arnoldi0_rotated (sqrt : K → K) (j : Nat) (st : St K) : St K :=
  let st : St K := (List.range j).foldl (rotate0 j) st
  let beta : K := sqrt (Cx._complex_square_norm (st.H j j)
    + Cx._complex_square_norm (st.H (j + 1) j))
  let sj : K := (st.H (j + 1) j).re / beta
  let cj : Cx K := Cx._mult_real (st.H j j) (1 / beta)
  let st : St K := { st with
    s := Function.update st.s j sj
    c := Function.update st.c j cj
    H := set2 st.H j j (Cx._complex_set beta 0) }
  let st : St K := { st with
    alpha := Function.update st.alpha (j + 1) (Cx._mult_real (st.alpha j) sj) }
  let tmp1 := st.alpha j
  { st with alpha := Function.update st.alpha j (Cx._mult_assign_complex_conj cj tmp1) }

/-- The vectors `V[0], ..., V[n]` are orthonormal: `<V[a], V[b]>` is 1 for `a = b` and 0
otherwise. -/
def basis_orthonormal (V : Nat → Vec K) (n : Nat) : Prop :=
  ∀ a b, a ≤ n → b ≤ n → scalar_prod (V a) (V b) = if a = b then ⟨1, 0⟩ else ⟨0, 0⟩

/-- The sum of `t k` over `k = lo, ..., lo + n - 1`. -/
def usum (t : Nat → Cx K) : Nat → Nat → Cx K
  | _, 0 => ⟨0, 0⟩
  | lo, n + 1 => cadd (t lo) (usum t (lo + 1) n)

/-- Row `i` of the upper-triangular system of columns `0..j` applied to `y`: the sum of
`H[i][k] * y[k]` over `k = i, ..., j`. -/
def tri_row (H : Nat → Nat → Cx K) (y : Nat → Cx K) (i j : Nat) : Cx K :=
  usum (fun k => Cx._mult_assign_complex (H i k) (y k)) i (j + 1 - i)

/-- The state of the back substitution of lines 171-181 for columns `0..j`, started in
`st`, when the rows `n, ..., j` have been solved: `H`, `V` and the entries of `alpha` below
`n` are as in `st`, the rows `n..j` of the triangular system hold for the new `alpha`, and
the iterate has received the terms `alpha[k] * V[k]` for `k = n..j`. -/
def backsub_inv (st : St K) (j n : Nat) (s : St K) : Prop :=
  s.H = st.H ∧ s.V = st.V ∧ (∀ k, k < n → s.alpha k = st.alpha k) ∧
  (∀ i, n ≤ i → i ≤ j → tri_row st.H s.alpha i j = st.alpha i) ∧
  s.sol = lin_comb (fun t => s.alpha (n + t)) (fun t => st.V (n + t)) st.sol (j + 1 - n)

/-- Lines 225-244 of a deflation step: the matrix `G`, the vector `c` and the Ritz values
`evalues` as `diagonalise_general_matrix` returns them. -/
def deflate_eig (la : DenseLA K) (m : Nat) (st : St K) :
    (Nat → Nat → Cx K) × (Nat → Cx K) × (Nat → Cx K) :=
  let c0 : Nat → Cx K := fun i => if i < m then Cx.czero else st.c i
  let c0 := Function.update c0 (m - 1) ⟨1, (c0 (m - 1)).im⟩
  let (_, idx1, c1) := la.zgesv m st.work c0
  let p := (idx1 (m - 1) - 1).toNat
  let g := st.G (m - 1) (m - 1)
  let G1 := set2 st.G (m - 1) (m - 1) ⟨g.re + st.beta2 * (c1 p).re, g.im + st.beta2 * (c1 p).im⟩
  la.diagonalise_general_matrix m G1 c1

/-- Lines 245-248 of a deflation step: the arrays `sortarray` and `idx` handed to
`quicksort`. -/
def deflate_keys (la : DenseLA K) (m : Nat) (st : St K) : (Nat → K) × (Nat → Int) :=
  let c0 : Nat → Cx K := fun i => if i < m then Cx.czero else st.c i
  let c0 := Function.update c0 (m - 1) ⟨1, (c0 (m - 1)).im⟩
  let (_, idx1, _) := la.zgesv m st.work c0
  let ev := (deflate_eig la m st).2.2
  (fun i => if i < m then Cx._complex_square_norm (ev i) else st.sortarray i,
   fun i => if i < m then (i : Int) else idx1 i)

/-- Line 249 of a deflation step: the arrays `sortarray` and `idx` as `quicksort` returns
them. -/
def deflate_sorted (la : DenseLA K) (m : Nat) (st : St K) : (Nat → K) × (Nat → Int) :=
  la.quicksort m (deflate_keys la m st).1 (deflate_keys la m st).2

/-- Lines 225-262 of a deflation step: the matrix `work` after the copy loop of lines
258-262, before the orthonormalisation. -/
def deflate_copied (sqrt : K → K) (la : DenseLA K) (m nr_ev : Nat) (st : St K) :
    Nat → Nat → Cx K :=
  let c0 : Nat → Cx K := fun i => if i < m then Cx.czero else st.c i
  let c0 := Function.update c0 (m - 1) ⟨1, (c0 (m - 1)).im⟩
  let (work1, idx1, c1) := la.zgesv m st.work c0
  let p := (idx1 (m - 1) - 1).toNat
  let g := st.G (m - 1) (m - 1)
  let G1 := set2 st.G (m - 1) (m - 1) ⟨g.re + st.beta2 * (c1 p).re, g.im + st.beta2 * (c1 p).im⟩
  let row : Nat → Cx K := fun i =>
    if i = 0 then ⟨sqrt st.beta2, 0⟩ else if i < m + 1 then Cx.czero else work1 nr_ev i
  let row := zgemv_sub (m + 1) m G1 st.alpha row
  let work3 := Function.update work1 nr_ev row
  fun i l =>
    if i < nr_ev ∧ l < m then (deflate_eig la m st).1 ((deflate_sorted la m st).2 i).toNat l
    else work3 i l

/-- Lines 264-268: the loop orthonormalising the rows `work[0..n-1]`, each of length
`m + 1` with its last entry cleared first. -/
def gs_rows (sqrt : K → K) (m : Nat) (wk : Nat → Nat → Cx K) (n : Nat) : Nat → Nat → Cx K :=
  (List.range n).foldl (fun (wk : Nat → Nat → Cx K) (i : Nat) =>
    let wk := set2 wk i m Cx.czero
    Function.update wk i (short_ModifiedGS sqrt (wk i) (m + 1) i wk)) wk

/-- Lines 264-270: the orthonormalisation of the rows `work[0..nr_ev]`. -/
def deflate_orthonormalise (sqrt : K → K) (m nr_ev : Nat) (wk : Nat → Nat → Cx K) :
    Nat → Nat → Cx K :=
  Function.update (gs_rows sqrt m wk nr_ev) nr_ev
    (short_ModifiedGS sqrt (gs_rows sqrt m wk nr_ev nr_ev) (m + 1) nr_ev
      (gs_rows sqrt m wk nr_ev))

/-- Lines 399-403 of `short_ModifiedGS`: the vector `v` after the first `k` rows of `A`
have been projected out of it. -/
def gs_projected (v : Nat → Cx K) (n k : Nat) (A : Nat → Nat → Cx K) : Nat → Cx K :=
  (List.range k).foldl (fun (v : Nat → Cx K) (i : Nat) =>
    let s := short_scalar_prod (A i) v n
    let s : Cx K := ⟨-s.re, -s.im⟩
    zaxpy n s (A i) v) v

/-- The first `k` rows of `A`, each of length `n`, are orthonormal for
`short_scalar_prod`. -/
def rows_orthonormal (A : Nat → Nat → Cx K) (k n : Nat) : Prop :=
  ∀ a b, a < k → b < k →
    short_scalar_prod (A a) (A b) n = if a = b then ⟨1, 0⟩ else ⟨0, 0⟩

/-- The first `n` entries of `v` are a linear combination (with complex coefficients) of
the first `k` rows of `A`. -/
def in_row_span (A : Nat → Nat → Cx K) (n : Nat) : Nat → (Nat → Cx K) → Prop
  | 0, v => ∀ ix, ix < n → v ix = ⟨0, 0⟩
  | k + 1, v => ∃ (c : Cx K) (w : Nat → Cx K), in_row_span A n k w ∧
      ∀ ix, ix < n → v ix = cadd (w ix) (cmul c (A k ix))

/-- The first `k` rows of `A`, each of length `n`, are linearly independent: none is a
linear combination of the rows before it. -/
def rows_independent (A : Nat → Nat → Cx K) (k n : Nat) : Prop :=
  ∀ i, i < k → ¬ in_row_span A n i (A i)

/-- The matrix `work` as the loop of lines 264-268 reads it: entry `m` of each of the
rows `0..nr_ev-1` cleared (lines 265-266). -/
def cleared_rows (m nr_ev : Nat) (wk : Nat → Nat → Cx K) : Nat → Nat → Cx K :=
  fun i l => if i < nr_ev ∧ l = m then Cx.czero else wk i l

/-- Lines 224-228 of a deflation step: the right-hand side `c = (0, ..., 0, 1)` handed to
`zgesv` (only the real part of `c[m-1]` is assigned on line 228). -/
def deflate_rhs (m : Nat) (st : St K) : Nat → Cx K :=
  let c0 : Nat → Cx K := fun i => if i < m then Cx.czero else st.c i
  Function.update c0 (m - 1) ⟨1, (c0 (m - 1)).im⟩

/-- Lines 224-231 of a deflation step: the matrix `G` after `G[m-1][m-1]` has received
`beta2 * c[idx[m-1]-1]`, that is the matrix handed to `zgemv` and to
`diagonalise_general_matrix`. -/
def deflate_shifted (la : DenseLA K) (m : Nat) (st : St K) : Nat → Nat → Cx K :=
  let (_, idx1, c1) := la.zgesv m st.work (deflate_rhs m st)
  let p := (idx1 (m - 1) - 1).toNat
  let g := st.G (m - 1) (m - 1)
  set2 st.G (m - 1) (m - 1) ⟨g.re + st.beta2 * (c1 p).re, g.im + st.beta2 * (c1 p).im⟩

end Aux

/-! ## Concrete inputs used as test points (one spinor, i.e. twelve complex components) -/

section Inputs

variable {K : Type} [LinearOrderedField K]

/-- A one-spinor field with the given first three components and zeros elsewhere. -/
def spinor3 (a b c : Cx K) : Vec K :=
  [a, b, c, ⟨0, 0⟩, ⟨0, 0⟩, ⟨0, 0⟩, ⟨0, 0⟩, ⟨0, 0⟩, ⟨0, 0⟩, ⟨0, 0⟩, ⟨0, 0⟩, ⟨0, 0⟩]

/-- The linear operator with matrix rows `(3i, 0, 0)`, `(4, 5i, 0)`, `(0, 4, 1)` on the
first three components and the identity on the others. -/
def bidiag_op : matrix_mult K
  | x0 :: x1 :: x2 :: rest =>
      cmul ⟨0, 3⟩ x0 :: cadd (cmul ⟨4, 0⟩ x0) (cmul ⟨0, 5⟩ x1)
        :: cadd (cmul ⟨4, 0⟩ x1) x2 :: rest
  | v => v

/-- The linear operator multiplying component `k` by `d[k]`. -/
def diag_op (d : List (Cx K)) : matrix_mult K := fun v => List.zipWith cmul d v

/-- Dense routines that return their arguments unchanged; a stand-in where no restart
cycle runs. -/
def idle_la : DenseLA K :=
  ⟨fun _ A b => (A, fun _ => 1, b), fun _ A v => (A, v, v), fun _ a b => (a, b),
   fun _ _ A b => (A, b)⟩

/-- The call `gmres_dr(P, Q, 2, 1, 1, 0., 0, N, f)` with `P = 0`, `Q = (1, 0, ..., 0)` and
`f = bidiag_op`, made in a process that has not called the solver before, with
`VOLUME + RAND = 2`. -/
def first_call (sqrt : K → K) (la : DenseLA K) : Result K :=
  gmres_dr sqrt la staticWorkspace 2 (spinor3 ⟨0, 0⟩ ⟨0, 0⟩ ⟨0, 0⟩)
    (spinor3 ⟨1, 0⟩ ⟨0, 0⟩ ⟨0, 0⟩) 2 1 1 0 0 bidiag_op

/-- A following call on the workspace that `first_call` left behind, same `m` and volume,
for the identity operator: `gmres_dr(P, Q, 2, 1, max_restarts, eps_sq, rel_prec, N, id)`
with `P = 0`, `Q = (1, 0, ..., 0)`. -/
def second_call (sqrt : K → K) (la : DenseLA K) (max_restarts : Int) (eps_sq : K)
    (rel_prec : Int) : Result K :=
  gmres_dr sqrt la (first_call sqrt la).st.toWorkspace 2 (spinor3 ⟨0, 0⟩ ⟨0, 0⟩ ⟨0, 0⟩)
    (spinor3 ⟨1, 0⟩ ⟨0, 0⟩ ⟨0, 0⟩) 2 1 max_restarts eps_sq rel_prec id

/-- The vector with components `p(t)` at `t = 1, 2, 3, 1000` for the quadratic polynomial
`p` with complex coefficients `a + b t + c t^2` (real and imaginary parts given
separately). -/
def quad_vec (ar ai br bi cr ci : K) : Vec K :=
  [1, 2, 3, 1000].map
    (fun t : K => (⟨ar + br * t + cr * (t * t), ai + bi * t + ci * (t * t)⟩ : Cx K))

/-- Level `n` of the Krylov chain of `diag(1, 2, 3, 1000)` generated by a constant vector:
polynomials of degree below `n` for `n <= 3`, every 4-vector above. -/
def quad_level : Nat → Vec K → Prop
  | 0, x => x = quad_vec 0 0 0 0 0 0
  | 1, x => ∃ ar ai, x = quad_vec ar ai 0 0 0 0
  | 2, x => ∃ ar ai br bi, x = quad_vec ar ai br bi 0 0
  | 3, x => ∃ ar ai br bi cr ci, x = quad_vec ar ai br bi cr ci
  | _, x => x.length = 4

/-- The state in which the call `P = 0`, `Q = (1, 0, ..., 0)`, `m = 2` on `bidiag_op`, made
on a fresh workspace with `VOLUME + RAND = 2`, enters the loop of cycle 0. -/
def bidiag_loop_entry (sqrt : K → K) : St K :=
  loop_entry sqrt staticWorkspace 2 (spinor3 ⟨0, 0⟩ ⟨0, 0⟩ ⟨0, 0⟩)
    (spinor3 ⟨1, 0⟩ ⟨0, 0⟩ ⟨0, 0⟩) 2 bidiag_op

/-- A one-spinor field with the given first four components and zeros elsewhere. -/
def spinor4 (a b c d : Cx K) : Vec K :=
  [a, b, c, d, ⟨0, 0⟩, ⟨0, 0⟩, ⟨0, 0⟩, ⟨0, 0⟩, ⟨0, 0⟩, ⟨0, 0⟩, ⟨0, 0⟩, ⟨0, 0⟩]

/-- The unit vectors of the first four components (`unit4 i` for `i >= 3` is the fourth). -/
def unit4 : Nat → Vec K
  | 0 => spinor4 ⟨1, 0⟩ ⟨0, 0⟩ ⟨0, 0⟩ ⟨0, 0⟩
  | 1 => spinor4 ⟨0, 0⟩ ⟨1, 0⟩ ⟨0, 0⟩ ⟨0, 0⟩
  | 2 => spinor4 ⟨0, 0⟩ ⟨0, 0⟩ ⟨1, 0⟩ ⟨0, 0⟩
  | _ => spinor4 ⟨0, 0⟩ ⟨0, 0⟩ ⟨0, 0⟩ ⟨1, 0⟩

/-- The linear operator with matrix rows `(3i, 0, 0, 0)`, `(4, 5i, 5i, 0)`, `(0, 4, -1, 0)`,
`(0, 0, 4, 1)` on the first four components and the identity on the others. -/
def hess_op : matrix_mult K
  | x0 :: x1 :: x2 :: x3 :: rest =>
      cmul ⟨0, 3⟩ x0 :: cadd (cmul ⟨4, 0⟩ x0) (cadd (cmul ⟨0, 5⟩ x1) (cmul ⟨0, 5⟩ x2))
        :: cadd (cmul ⟨4, 0⟩ x1) (cmul ⟨-1, 0⟩ x2) :: cadd (cmul ⟨4, 0⟩ x2) x3 :: rest
  | v => v

/-- The vectors whose components beyond the third are zero. -/
def span3 (x : Vec K) : Prop := ∃ a b c : Cx K, x = spinor4 a b c ⟨0, 0⟩

/-- The state in which the call `P = 0`, `Q = (1, 0, ..., 0)`, `m = 3` on `hess_op`, made
on a fresh workspace with `VOLUME + RAND = 2`, is at the top of pass `j` of the cycle-0
loop, provided the loop got that far. -/
def hess_top (sqrt : K → K) : Nat → St K
  | 0 => loop_entry sqrt staticWorkspace 2 (spinor4 ⟨0, 0⟩ ⟨0, 0⟩ ⟨0, 0⟩ ⟨0, 0⟩)
      (spinor4 ⟨1, 0⟩ ⟨0, 0⟩ ⟨0, 0⟩ ⟨0, 0⟩) 3 hess_op
  | j + 1 => normalise0 j (arnoldi0 sqrt hess_op j (hess_top sqrt j))

/-- The call `gmres_dr(P, Q, 3, 1, max_restarts, 0., 0, N, f)` with `P = 0`,
`Q = (1, 0, ..., 0)` and `f = hess_op`, made in a process that has not called the solver
before, with `VOLUME + RAND = 2`. -/
def hess_call (sqrt : K → K) (la : DenseLA K) (max_restarts : Int) : Result K :=
  gmres_dr sqrt la staticWorkspace 2 (spinor4 ⟨0, 0⟩ ⟨0, 0⟩ ⟨0, 0⟩ ⟨0, 0⟩)
    (spinor4 ⟨1, 0⟩ ⟨0, 0⟩ ⟨0, 0⟩ ⟨0, 0⟩) 3 1 max_restarts 0 0 hess_op

/-- The value of an arithmetic result in the 32-bit type `int`: results outside
`-2^31 .. 2^31 - 1` wrap around modulo `2^32` (two's complement). -/
def wrap32 (x : Int) : Int := (x + 2147483648) % 4294967296 - 2147483648

/-- Line 90: the leading dimension `V2 = 12*(VOLUME + RAND)/2` handed to `zgemm` and
`zlacpy` for the basis, in C `int` arithmetic evaluated left to right: the product
`12*(VOLUME + RAND)` is formed first, in 32 bits, and then divided by 2 (truncating). -/
def V2 (VOLUME_RAND : Int) : Int := Int.tdiv (wrap32 (12 * VOLUME_RAND)) 2

/-- Lines 97 and 479: the stride between consecutive basis vectors, `Vo = (VOLUME + RAND)/2`
spinors of 12 complex numbers each, as a number of complex numbers (the stride is applied
by pointer arithmetic on `spinor *`, not computed in `int`). -/
def basis_stride (VOLUME_RAND : Int) : Int := 12 * Int.tdiv VOLUME_RAND 2

/-- A state on which to run the selection of a deflation step by hand (`m = 2`): as
`bidiag_loop_entry`, with `G[0] = (0, 1, 0)`, all other entries of `G` zero, `alpha = 0`
and `beta2 = 1`. -/
def select_probe (sqrt : K → K) : St K :=
  { bidiag_loop_entry sqrt with
    G := fun i l => if i = 0 ∧ l = 1 then ⟨1, 0⟩ else ⟨0, 0⟩
    alpha := fun _ => ⟨0, 0⟩
    beta2 := 1 }

/-- The matrix with first row `(1, 0)` and zero elsewhere. -/
def unit_row : Nat → Nat → Cx K :=
  fun i l => if i = 0 ∧ l = 0 then ⟨1, 0⟩ else ⟨0, 0⟩

/-- The unit vectors of the first three components (`unit3 i` for `i >= 2` is the third). -/
def unit3 : Nat → Vec K
  | 0 => spinor3 ⟨1, 0⟩ ⟨0, 0⟩ ⟨0, 0⟩
  | 1 => spinor3 ⟨0, 0⟩ ⟨1, 0⟩ ⟨0, 0⟩
  | _ => spinor3 ⟨0, 0⟩ ⟨0, 0⟩ ⟨1, 0⟩

/-- The linear operator with matrix rows `(8, 0, b0)`, `(6, 5, b1)`, `(0, 5/3, b2)` on the
first three components and the identity on the others. -/
def defl_op (b0 b1 b2 : K) : matrix_mult K
  | x0 :: x1 :: x2 :: rest =>
      cadd (cmul ⟨8, 0⟩ x0) (cmul ⟨b0, 0⟩ x2)
        :: cadd (cmul ⟨6, 0⟩ x0) (cadd (cmul ⟨5, 0⟩ x1) (cmul ⟨b1, 0⟩ x2))
        :: cadd (cmul ⟨5 / 3, 0⟩ x1) (cmul ⟨b2, 0⟩ x2) :: rest
  | v => v

/-- The state in which the call `P = 0`, `Q = (169/96, 0, ..., 0)`, `m = 2` on
`defl_op b0 b1 b2`, made on a fresh workspace with `VOLUME + RAND = 2`, is at the top of
pass `j` of the cycle-0 loop, provided the loop got that far. -/
def defl_top (sqrt : K → K) (b0 b1 b2 : K) : Nat → St K
  | 0 => loop_entry sqrt staticWorkspace 2 (spinor3 ⟨0, 0⟩ ⟨0, 0⟩ ⟨0, 0⟩)
      (spinor3 ⟨169 / 96, 0⟩ ⟨0, 0⟩ ⟨0, 0⟩) 2 (defl_op b0 b1 b2)
  | j + 1 => normalise0 j (arnoldi0 sqrt (defl_op b0 b1 b2) j (defl_top sqrt b0 b1 b2 j))

/-- The Arnoldi coefficients of cycle 0 of the call on `defl_op` as lines 134 and 143 store
them in `G` and `work2` (`G[j][i] = h_ij`): rows `(8, 6, 0)` and `(0, 5, 5/3)`. -/
def defl_G : Nat → Nat → Cx K := fun a b =>
  if a = 0 ∧ b = 0 then ⟨8, 0⟩ else if a = 0 ∧ b = 1 then ⟨6, 0⟩
  else if a = 1 ∧ b = 1 then ⟨5, 0⟩ else if a = 1 ∧ b = 2 then ⟨5 / 3, 0⟩ else ⟨0, 0⟩

/-- The state in which the call on `defl_op b0 b1 b2` reaches the test of line 218: back
substitution done, the residual of the iterate of cycle 0 recomputed (lines 194-208). -/
def defl_restart_entry (sqrt : K → K) (b0 b1 b2 : K) : St K :=
  prepare_restart (spinor3 ⟨169 / 96, 0⟩ ⟨0, 0⟩ ⟨0, 0⟩) (defl_op b0 b1 b2) 2
    (defl_top sqrt b0 b1 b2 2)

/-- Modelled from the spec: the dense routines are absent; these are their results (linear
solve, eigen-decomposition, ascending sort, least-squares solve) in the first restart
cycle of the call on `defl_op`, written out.  `zgesv` gets the upper-triangular matrix
`[[8, 6], [0, 5]]` (no row exchange, factors stored in place of the unchanged entries,
pivots `1, 2`) and the right-hand side `(0, 1)`, the solution is `(-3/20, 1/5)`;
`diagonalise_general_matrix` gets `[[8, 0], [6, 50/9]]`, whose eigenvalues are `8` and
`50/9` with the unit eigenvectors `(11, 27)/sqrt(850)` and `(0, 1)`; `quicksort` is the
sort of two keys; `zgels` gets a system that the vector `(0, 1)` solves with residual
zero. -/
def defl_la (sqrt : K → K) : DenseLA K where
  zgesv := fun _ A b => (A, fun i => (i : Int) + 1,
    fun i => if i = 0 then ⟨-3 / 20, 0⟩ else if i = 1 then ⟨1 / 5, 0⟩ else b i)
  diagonalise_general_matrix := fun _ A v =>
    (fun k l => if k = 0 ∧ l = 0 then ⟨11 / sqrt 850, 0⟩
      else if k = 0 ∧ l = 1 then ⟨27 / sqrt 850, 0⟩
      else if k = 1 ∧ l = 0 then ⟨0, 0⟩ else if k = 1 ∧ l = 1 then ⟨1, 0⟩ else A k l,
     v, fun i => if i = 0 then ⟨8, 0⟩ else if i = 1 then ⟨50 / 9, 0⟩ else ⟨0, 0⟩)
  quicksort := fun _ a idx =>
    if a 1 < a 0 then
      (fun i => if i = 0 then a 1 else if i = 1 then a 0 else a i,
       fun i => if i = 0 then idx 1 else if i = 1 then idx 0 else idx i)
    else (a, idx)
  zgels := fun _ _ A b =>
    (A, fun i => if i = 0 then ⟨0, 0⟩ else if i = 1 then ⟨1, 0⟩ else if i = 2 then ⟨0, 0⟩
      else b i)

/-- The call `gmres_dr(P, Q, 2, 1, max_restarts, eps_sq, 0, N, f)` with `P = 0`,
`Q = (169/96, 0, ..., 0)` and `f = defl_op b0 b1 b2`, made in a process that has not
called the solver before, with `VOLUME + RAND = 2`. -/
def defl_call (sqrt : K → K) (b0 b1 b2 : K) (max_restarts : Int) (eps_sq : K) : Result K :=
  gmres_dr sqrt (defl_la sqrt) staticWorkspace 2 (spinor3 ⟨0, 0⟩ ⟨0, 0⟩ ⟨0, 0⟩)
    (spinor3 ⟨169 / 96, 0⟩ ⟨0, 0⟩ ⟨0, 0⟩) 2 1 max_restarts eps_sq 0 (defl_op b0 b1 b2)

end Inputs

/-! ## Theorems -/

section Lemmas

variable {K : Type} [LinearOrderedField K]

theorem cycle0_inl_iff (sqrt : K → K) (f : matrix_mult K) (eps norm : K) (rel_prec : Int)
    (n j : Nat) (st : St K) (i : Nat) (st1 : St K) :
    cycle0 sqrt f eps norm rel_prec n j st = Sum.inl (i, st1) ↔
      ∃ k, k < n ∧ i = j + k ∧ st1 = cycle0_state sqrt f k j st ∧
        precision_reached eps norm rel_prec (cycle0_state sqrt f k j st) (j + k) ∧
        ∀ l, l < k → ¬ precision_reached eps norm rel_prec (cycle0_state sqrt f l j st) (j + l) := by
  induction n generalizing j st with
  | zero => simp [cycle0]
  | succ n ih =>
    rw [cycle0]
    by_cases h : precision_reached eps norm rel_prec (arnoldi0 sqrt f j st) j
    · simp only [h, if_true]
      constructor
      · intro e
        injection e with e
        injection e with e1 e2
        refine ⟨0, Nat.succ_pos n, by omega, ?_, ?_, ?_⟩
        · simp [cycle0_state, e2]
        · simpa [cycle0_state] using h
        · intro l hl; omega
      · rintro ⟨k, hk, hi, hst, hp, hall⟩
        cases k with
        | zero => simp [cycle0_state] at hst; simp [hi, hst]
        | succ k =>
          exact absurd (by simpa [cycle0_state] using h) (hall 0 (Nat.succ_pos k))
    · simp only [h, if_false]
      rw [ih]
      constructor
      · rintro ⟨k, hk, hi, hst, hp, hall⟩
        refine ⟨k + 1, by omega, by omega, ?_, ?_, ?_⟩
        · simpa [cycle0_state] using hst
        · have : j + (k + 1) = j + 1 + k := by omega
          rw [this]; simpa [cycle0_state] using hp
        · intro l hl
          cases l with
          | zero => simpa [cycle0_state] using h
          | succ l =>
            have : j + (l + 1) = j + 1 + l := by omega
            rw [this]; simpa [cycle0_state] using hall l (by omega)
      · rintro ⟨k, hk, hi, hst, hp, hall⟩
        cases k with
        | zero => exact absurd (by simpa [cycle0_state] using hp) h
        | succ k =>
          refine ⟨k, by omega, by omega, ?_, ?_, ?_⟩
          · simpa [cycle0_state] using hst
          · have : j + (k + 1) = j + 1 + k := by omega
            rw [this] at hp; simpa [cycle0_state] using hp
          · intro l hl
            have := hall (l + 1) (by omega)
            have e : j + (l + 1) = j + 1 + l := by omega
            rw [e] at this; simpa [cycle0_state] using this

theorem gmres_dr_exit_inner_iff (sqrt : K → K) (la : DenseLA K) (ws : Workspace K)
    (VR : Int) (P Q : Vec K) (m nr_ev : Nat) (max_restarts : Int) (eps_sq : K)
    (rel_prec : Int) (f : matrix_mult K) (j : Nat) :
    (gmres_dr sqrt la ws VR P Q m nr_ev max_restarts eps_sq rel_prec f).exit
        = ExitPath.inner j ↔
      sqrt (square_norm (diff Q (f P))) ≠ 0 ∧
      ∃ st1, cycle0 sqrt f (sqrt eps_sq) (sqrt (square_norm Q)) rel_prec m 0
        (loop_entry sqrt ws VR P Q m f) = Sum.inl (j, st1) := by
  unfold gmres_dr loop_entry
  simp only []
  by_cases h0 : sqrt (square_norm (diff Q (f P))) = 0
  · simp [entry_state, h0]
  · have h0' : ¬ ((entry_state sqrt (init_gmres ws (m : Int) (Int.tdiv VR 2)) P Q f).alpha 0).re
        = 0 := by simpa [entry_state] using h0
    rw [if_neg h0']
    cases hc : cycle0 sqrt f (sqrt eps_sq) (sqrt (square_norm Q)) rel_prec m 0
        (start_basis (entry_state sqrt (init_gmres ws (m : Int) (Int.tdiv VR 2)) P Q f)) with
    | inl p =>
      obtain ⟨i, st1⟩ := p
      simp only [h0, ne_eq, not_false_eq_true, true_and]
      constructor
      · intro e
        injection e with e
        exact ⟨st1, by rw [e]⟩
      · rintro ⟨st2, e⟩
        injection e with e
        injection e with e1 e2
        rw [e1]
    | inr st1 =>
      simp only [h0, ne_eq, not_false_eq_true, true_and]
      constructor
      · intro e
        split at e <;> simp at e
      · rintro ⟨st2, e⟩
        simp at e

theorem gmres_dr_entry_zero (sqrt : K → K) (la : DenseLA K) (ws : Workspace K)
    (VR : Int) (P Q : Vec K) (m nr_ev : Nat) (max_restarts : Int) (eps_sq : K)
    (rel_prec : Int) (f : matrix_mult K)
    (h0 : sqrt (square_norm (diff Q (f P))) = 0) :
    (gmres_dr sqrt la ws VR P Q m nr_ev max_restarts eps_sq rel_prec f).ret = 0 ∧
    (gmres_dr sqrt la ws VR P Q m nr_ev max_restarts eps_sq rel_prec f).exit
      = ExitPath.entry_zero ∧
    (gmres_dr sqrt la ws VR P Q m nr_ev max_restarts eps_sq rel_prec f).P = P ∧
    (gmres_dr sqrt la ws VR P Q m nr_ev max_restarts eps_sq rel_prec f).st
      = entry_state sqrt (init_gmres ws (m : Int) (Int.tdiv VR 2)) P Q f := by
  unfold gmres_dr
  simp [entry_state, h0]

theorem gmres_dr_inner (sqrt : K → K) (la : DenseLA K) (ws : Workspace K)
    (VR : Int) (P Q : Vec K) (m nr_ev : Nat) (max_restarts : Int) (eps_sq : K)
    (rel_prec : Int) (f : matrix_mult K) (j : Nat) (st1 : St K)
    (h0 : sqrt (square_norm (diff Q (f P))) ≠ 0)
    (hc : cycle0 sqrt f (sqrt eps_sq) (sqrt (square_norm Q)) rel_prec m 0
        (loop_entry sqrt ws VR P Q m f) = Sum.inl (j, st1)) :
    (gmres_dr sqrt la ws VR P Q m nr_ev max_restarts eps_sq rel_prec f).ret = (j : Int) ∧
    (gmres_dr sqrt la ws VR P Q m nr_ev max_restarts eps_sq rel_prec f).exit
      = ExitPath.inner j ∧
    (gmres_dr sqrt la ws VR P Q m nr_ev max_restarts eps_sq rel_prec f).st
      = clear_alpha_im m (backsubst j st1) ∧
    (gmres_dr sqrt la ws VR P Q m nr_ev max_restarts eps_sq rel_prec f).P
      = (clear_alpha_im m (backsubst j st1)).sol := by
  unfold loop_entry at hc
  have h0' : ¬ ((entry_state sqrt (init_gmres ws (m : Int) (Int.tdiv VR 2)) P Q f).alpha 0).re
      = 0 := by simpa [entry_state] using h0
  unfold gmres_dr
  simp only []
  rw [if_neg h0', hc]
  simp

theorem arnoldi0_zero (sqrt : K → K) (f : matrix_mult K) (st : St K) :
    (arnoldi0 sqrt f 0 st).alpha 1
      = Cx._mult_real (st.alpha 0) (step0_hn sqrt f (st.V 0) / step0_beta sqrt f (st.V 0)) ∧
    (arnoldi0 sqrt f 0 st).alpha 0
      = Cx._mult_assign_complex_conj
          (Cx._mult_real (step0_h f (st.V 0)) (1 / step0_beta sqrt f (st.V 0))) (st.alpha 0) ∧
    (arnoldi0 sqrt f 0 st).H 0 0 = ⟨step0_beta sqrt f (st.V 0), 0⟩ ∧
    (arnoldi0 sqrt f 0 st).H 1 0 = ⟨step0_hn sqrt f (st.V 0), 0⟩ ∧
    (arnoldi0 sqrt f 0 st).w = step0_w f (st.V 0) ∧
    (arnoldi0 sqrt f 0 st).V = st.V ∧
    (arnoldi0 sqrt f 0 st).sol = st.sol ∧
    (arnoldi0 sqrt f 0 st).napply = st.napply + 1 ∧
    (arnoldi0 sqrt f 0 st).recips = st.recips := by
  refine ⟨?_, ?_, ?_, ?_, ?_, ?_, ?_, ?_, ?_⟩ <;>
    simp [arnoldi0, project0, set2, List.range_succ, step0_h, step0_w, step0_hn, step0_beta,
      Cx._complex_set, Function.update]

theorem clear_alpha_im_frame (m : Nat) (st : St K) :
    (clear_alpha_im m st).sol = st.sol ∧ (clear_alpha_im m st).napply = st.napply ∧
    (clear_alpha_im m st).recips = st.recips ∧ (clear_alpha_im m st).V = st.V := by
  unfold clear_alpha_im
  induction m with
  | zero => simp
  | succ m ih => simp [List.range_succ, List.foldl_append, ih]

theorem backsubst_zero (st : St K) :
    (backsubst 0 st).sol
      = assign_add_mul st.sol (st.V 0) (Cx._mult_real (st.alpha 0) (1 / (st.H 0 0).re)) ∧
    (backsubst 0 st).alpha 0 = Cx._mult_real (st.alpha 0) (1 / (st.H 0 0).re) ∧
    (backsubst 0 st).napply = st.napply ∧ (backsubst 0 st).recips = st.recips := by
  simp [backsubst]

theorem loop_entry_fields (sqrt : K → K) (ws : Workspace K) (VR : Int) (P Q : Vec K)
    (m : Nat) (f : matrix_mult K) :
    (loop_entry sqrt ws VR P Q m f).V 0 = entry_v0 sqrt P Q f ∧
    (loop_entry sqrt ws VR P Q m f).alpha 0 = entry_alpha0 sqrt ws VR P Q m f ∧
    (loop_entry sqrt ws VR P Q m f).sol = P ∧
    (loop_entry sqrt ws VR P Q m f).napply = 1 ∧
    (loop_entry sqrt ws VR P Q m f).recips = [sqrt (square_norm (diff Q (f P)))] := by
  simp [loop_entry, start_basis, entry_state, entry_v0, entry_alpha0]

/-- A call whose residual on entry is not zero and whose test of line 170 passes at inner
index 0: value returned, exit, final `P` and the observation fields. -/
theorem gmres_dr_first_step (sqrt : K → K) (la : DenseLA K) (ws : Workspace K)
    (VR : Int) (P Q : Vec K) (m nr_ev : Nat) (max_restarts : Int) (eps_sq : K)
    (rel_prec : Int) (f : matrix_mult K) (hm : 0 < m)
    (h0 : sqrt (square_norm (diff Q (f P))) ≠ 0)
    (ht : ((step0_hn sqrt f (entry_v0 sqrt P Q f) / step0_beta sqrt f (entry_v0 sqrt P Q f))
              * sqrt (square_norm (diff Q (f P))) ≤ sqrt eps_sq ∧ rel_prec = 0) ∨
          ((step0_hn sqrt f (entry_v0 sqrt P Q f) / step0_beta sqrt f (entry_v0 sqrt P Q f))
              * sqrt (square_norm (diff Q (f P))) ≤ sqrt eps_sq * sqrt (square_norm Q)
            ∧ rel_prec = 1)) :
    (gmres_dr sqrt la ws VR P Q m nr_ev max_restarts eps_sq rel_prec f).ret = 0 ∧
    (gmres_dr sqrt la ws VR P Q m nr_ev max_restarts eps_sq rel_prec f).exit
      = ExitPath.inner 0 ∧
    (gmres_dr sqrt la ws VR P Q m nr_ev max_restarts eps_sq rel_prec f).P
      = assign_add_mul P (entry_v0 sqrt P Q f)
          (step0_coeff sqrt f (entry_v0 sqrt P Q f) (entry_alpha0 sqrt ws VR P Q m f)) ∧
    (gmres_dr sqrt la ws VR P Q m nr_ev max_restarts eps_sq rel_prec f).st.napply = 2 ∧
    (gmres_dr sqrt la ws VR P Q m nr_ev max_restarts eps_sq rel_prec f).st.recips
      = [sqrt (square_norm (diff Q (f P)))] := by
  obtain ⟨n, rfl⟩ : ∃ n, m = n + 1 := ⟨m - 1, by omega⟩
  obtain ⟨e1, e2, e3, e4, e5⟩ := loop_entry_fields sqrt ws VR P Q (n + 1) f
  obtain ⟨a1, a2, a3, a4, a5, a6, a7, a8, a9⟩ :=
    arnoldi0_zero sqrt f (loop_entry sqrt ws VR P Q (n + 1) f)
  have hp : precision_reached (sqrt eps_sq) (sqrt (square_norm Q)) rel_prec
      (arnoldi0 sqrt f 0 (loop_entry sqrt ws VR P Q (n + 1) f)) 0 := by
    unfold precision_reached
    rw [a1, e1, e2]
    simpa [Cx._mult_real, entry_alpha0] using ht
  have hc : cycle0 sqrt f (sqrt eps_sq) (sqrt (square_norm Q)) rel_prec (n + 1) 0
      (loop_entry sqrt ws VR P Q (n + 1) f)
      = Sum.inl (0, arnoldi0 sqrt f 0 (loop_entry sqrt ws VR P Q (n + 1) f)) := by
    rw [cycle0, if_pos hp]
  obtain ⟨r1, r2, r3, r4⟩ := gmres_dr_inner sqrt la ws VR P Q (n + 1) nr_ev max_restarts
    eps_sq rel_prec f 0 _ h0 hc
  obtain ⟨c1, c2, c3, -⟩ := clear_alpha_im_frame (n + 1)
    (backsubst 0 (arnoldi0 sqrt f 0 (loop_entry sqrt ws VR P Q (n + 1) f)))
  obtain ⟨b1, -, b3, b4⟩ :=
    backsubst_zero (arnoldi0 sqrt f 0 (loop_entry sqrt ws VR P Q (n + 1) f))
  refine ⟨by simpa using r1, r2, ?_, ?_, ?_⟩
  · rw [r4, c1, b1, a7, a6, a2, a3, e1, e2, e3]
    rfl
  · rw [r3, c2, b3, a8, e4]
  · rw [r3, c3, b4, a9, e5]

theorem arnoldi0_zero_config (sqrt : K → K) (f : matrix_mult K) (st : St K) :
    (arnoldi0 sqrt f 0 st).M = st.M ∧ (arnoldi0 sqrt f 0 st).init = st.init ∧
    (arnoldi0 sqrt f 0 st).Vo = st.Vo := by
  refine ⟨?_, ?_, ?_⟩ <;> simp [arnoldi0, project0, List.range_succ]

theorem loop_entry_config (sqrt : K → K) (ws : Workspace K) (VR : Int) (P Q : Vec K)
    (m : Nat) (f : matrix_mult K) :
    (loop_entry sqrt ws VR P Q m f).M = (init_gmres ws (m : Int) (Int.tdiv VR 2)).M ∧
    (loop_entry sqrt ws VR P Q m f).init = (init_gmres ws (m : Int) (Int.tdiv VR 2)).init ∧
    (loop_entry sqrt ws VR P Q m f).Vo = (init_gmres ws (m : Int) (Int.tdiv VR 2)).Vo := by
  simp [loop_entry, start_basis, entry_state]

theorem init_gmres_config (ws : Workspace K) (_M _V : Int) :
    (init_gmres ws _M _V).M = _M ∧ (init_gmres ws _M _V).init ≠ 0 ∧
    (init_gmres ws _M _V).Vo = _V := by
  unfold init_gmres
  split
  · simp [callocWorkspace]
  · rename_i h
    simp only [not_or, not_not] at h
    exact h

theorem init_gmres_reuse (ws : Workspace K) (_M _V : Int)
    (hM : ws.M = _M) (hi : ws.init ≠ 0) (hV : ws.Vo = _V) : init_gmres ws _M _V = ws := by
  unfold init_gmres
  rw [if_neg]
  simp [hM, hi, hV]

theorem gmres_dr_exhausted (sqrt : K → K) (la : DenseLA K) (ws : Workspace K)
    (VR : Int) (P Q : Vec K) (m nr_ev : Nat) (max_restarts : Int) (eps_sq : K)
    (rel_prec : Int) (f : matrix_mult K) (st1 : St K)
    (h0 : sqrt (square_norm (diff Q (f P))) ≠ 0)
    (hc : cycle0 sqrt f (sqrt eps_sq) (sqrt (square_norm Q)) rel_prec m 0
        (loop_entry sqrt ws VR P Q m f) = Sum.inr st1) :
    (sqrt (square_norm (prepare_restart Q f m st1).r) = 0 →
      (gmres_dr sqrt la ws VR P Q m nr_ev max_restarts eps_sq rel_prec f).ret = 0 ∧
      (gmres_dr sqrt la ws VR P Q m nr_ev max_restarts eps_sq rel_prec f).exit
        = ExitPath.cycle0_zero ∧
      (gmres_dr sqrt la ws VR P Q m nr_ev max_restarts eps_sq rel_prec f).st
        = prepare_restart Q f m st1) ∧
    (sqrt (square_norm (prepare_restart Q f m st1).r) ≠ 0 →
      (gmres_dr sqrt la ws VR P Q m nr_ev max_restarts eps_sq rel_prec f).ret = -1 ∧
      (gmres_dr sqrt la ws VR P Q m nr_ev max_restarts eps_sq rel_prec f).exit
        = ExitPath.max_restarts ∧
      (gmres_dr sqrt la ws VR P Q m nr_ev max_restarts eps_sq rel_prec f).st
        = restart_loop sqrt la f Q m nr_ev (max_restarts - 1).toNat
            (prepare_restart Q f m st1)) ∧
    (gmres_dr sqrt la ws VR P Q m nr_ev max_restarts eps_sq rel_prec f).P
      = (gmres_dr sqrt la ws VR P Q m nr_ev max_restarts eps_sq rel_prec f).st.sol := by
  unfold loop_entry at hc
  have h0' : ¬ ((entry_state sqrt (init_gmres ws (m : Int) (Int.tdiv VR 2)) P Q f).alpha 0).re
      = 0 := by simpa [entry_state] using h0
  unfold gmres_dr
  simp only []
  rw [if_neg h0', hc]
  simp only []
  by_cases h1 : sqrt (square_norm (prepare_restart Q f m st1).r) = 0
  · rw [if_pos h1]; simp [h1]
  · rw [if_neg h1]; simp [h1]

theorem arnoldi0_zero_sc (sqrt : K → K) (f : matrix_mult K) (st : St K) :
    (arnoldi0 sqrt f 0 st).s 0 = step0_s sqrt f (st.V 0) ∧
    (arnoldi0 sqrt f 0 st).c 0 = step0_c sqrt f (st.V 0) := by
  refine ⟨?_, ?_⟩ <;>
    simp [arnoldi0, project0, set2, List.range_succ, step0_h, step0_w, step0_hn, step0_beta,
      step0_s, step0_c, Cx._complex_set, Function.update]

theorem arnoldi0_one (sqrt : K → K) (f : matrix_mult K) (st : St K) :
    (arnoldi0 sqrt f 1 st).alpha 2
      = Cx._mult_real (st.alpha 1)
          (step1_hn sqrt f (st.V 0) (st.V 1)
            / step1_beta sqrt f (st.V 0) (st.V 1) (st.s 0) (st.c 0)) ∧
    (arnoldi0 sqrt f 1 st).alpha 1
      = Cx._mult_assign_complex_conj
          (Cx._mult_real (step1_r1 f (st.V 0) (st.V 1) (st.s 0) (st.c 0))
            (1 / step1_beta sqrt f (st.V 0) (st.V 1) (st.s 0) (st.c 0))) (st.alpha 1) ∧
    (arnoldi0 sqrt f 1 st).alpha 0 = st.alpha 0 ∧
    (arnoldi0 sqrt f 1 st).H 0 1 = step1_r0 f (st.V 0) (st.V 1) (st.s 0) (st.c 0) ∧
    (arnoldi0 sqrt f 1 st).H 1 1
      = ⟨step1_beta sqrt f (st.V 0) (st.V 1) (st.s 0) (st.c 0), 0⟩ ∧
    (arnoldi0 sqrt f 1 st).H 0 0 = st.H 0 0 ∧
    (arnoldi0 sqrt f 1 st).H 2 1 = ⟨step1_hn sqrt f (st.V 0) (st.V 1), 0⟩ ∧
    (arnoldi0 sqrt f 1 st).w = step1_w f (st.V 0) (st.V 1) ∧
    (arnoldi0 sqrt f 1 st).V = st.V ∧
    (arnoldi0 sqrt f 1 st).sol = st.sol ∧
    (arnoldi0 sqrt f 1 st).napply = st.napply + 1 ∧
    (arnoldi0 sqrt f 1 st).recips = st.recips ∧
    (arnoldi0 sqrt f 1 st).M = st.M ∧ (arnoldi0 sqrt f 1 st).init = st.init ∧
    (arnoldi0 sqrt f 1 st).Vo = st.Vo := by
  refine ⟨?_, ?_, ?_, ?_, ?_, ?_, ?_, ?_, ?_, ?_, ?_, ?_, ?_, ?_, ?_⟩ <;>
    simp [arnoldi0, project0, rotate0, set2, List.range_succ, step1_h0, step1_h1, step1_w,
      step1_hn, step1_r0, step1_r1, step1_beta, Cx._complex_set, Function.update]

theorem precision_reached_iff (eps norm : K) (rel_prec : Int) (st : St K) (j : Nat) :
    precision_reached eps norm rel_prec st j
      ↔ test_value eps norm rel_prec (st.alpha (j + 1)).re := Iff.rfl

theorem backsubst_one (st : St K) :
    (backsubst 1 st).alpha 0
      = Cx._mult_real
          (Cx._diff_complex (st.alpha 0)
            (Cx._mult_assign_complex (st.H 0 1)
              (Cx._mult_real (st.alpha 1) (1 / (st.H 1 1).re))))
          (1 / (st.H 0 0).re) ∧
    (backsubst 1 st).M = st.M ∧ (backsubst 1 st).init = st.init ∧
    (backsubst 1 st).Vo = st.Vo ∧
    (backsubst 1 st).sol
      = assign_add_mul
          (assign_add_mul st.sol (st.V 1) (Cx._mult_real (st.alpha 1) (1 / (st.H 1 1).re)))
          (st.V 0)
          (Cx._mult_real
            (Cx._diff_complex (st.alpha 0)
              (Cx._mult_assign_complex (st.H 0 1)
                (Cx._mult_real (st.alpha 1) (1 / (st.H 1 1).re))))
            (1 / (st.H 0 0).re)) ∧
    (backsubst 1 st).napply = st.napply ∧ (backsubst 1 st).recips = st.recips := by
  refine ⟨?_, ?_, ?_, ?_, ?_, ?_, ?_⟩ <;>
    simp [backsubst, backsub_row, List.range_succ, List.range', Function.update]

/-- The state after the second Arnoldi body of a call: the fields read by the test of line
170 and by back substitution. -/
theorem second_step_fields (sqrt : K → K) (ws : Workspace K) (VR : Int) (P Q : Vec K)
    (m : Nat) (f : matrix_mult K) :
    ((state_at sqrt ws VR P Q m f 1).alpha 2).re
      = estimate2 sqrt f (entry_v0 sqrt P Q f) (sqrt (square_norm (diff Q (f P)))) ∧
    Cx._mult_real
        (Cx._diff_complex ((state_at sqrt ws VR P Q m f 1).alpha 0)
          (Cx._mult_assign_complex ((state_at sqrt ws VR P Q m f 1).H 0 1)
            (Cx._mult_real ((state_at sqrt ws VR P Q m f 1).alpha 1)
              (1 / ((state_at sqrt ws VR P Q m f 1).H 1 1).re))))
        (1 / ((state_at sqrt ws VR P Q m f 1).H 0 0).re)
      = two_step_y0 sqrt f (entry_v0 sqrt P Q f) (entry_alpha0 sqrt ws VR P Q m f) ∧
    Cx._mult_real ((state_at sqrt ws VR P Q m f 1).alpha 1)
        (1 / ((state_at sqrt ws VR P Q m f 1).H 1 1).re)
      = two_step_y1 sqrt f (entry_v0 sqrt P Q f) (entry_alpha0 sqrt ws VR P Q m f) ∧
    (state_at sqrt ws VR P Q m f 1).V 0 = entry_v0 sqrt P Q f ∧
    (state_at sqrt ws VR P Q m f 1).V 1 = step0_v1 sqrt f (entry_v0 sqrt P Q f) ∧
    (state_at sqrt ws VR P Q m f 1).sol = P ∧
    (state_at sqrt ws VR P Q m f 1).M = (m : Int) ∧
    (state_at sqrt ws VR P Q m f 1).init ≠ 0 ∧
    (state_at sqrt ws VR P Q m f 1).Vo = Int.tdiv VR 2 ∧
    (state_at sqrt ws VR P Q m f 1).napply = 3 ∧
    (state_at sqrt ws VR P Q m f 1).recips
      = [step0_hn sqrt f (entry_v0 sqrt P Q f), sqrt (square_norm (diff Q (f P)))] := by
  obtain ⟨e1, e2, e3, e4, e5⟩ := loop_entry_fields sqrt ws VR P Q m f
  obtain ⟨g1, g2, g3⟩ := loop_entry_config sqrt ws VR P Q m f
  obtain ⟨i1, i2, i3⟩ := init_gmres_config ws (m : Int) (Int.tdiv VR 2)
  obtain ⟨a1, a2, a3, a4, a5, a6, a7, a8, a9⟩ :=
    arnoldi0_zero sqrt f (loop_entry sqrt ws VR P Q m f)
  obtain ⟨k1, k2, k3⟩ := arnoldi0_zero_config sqrt f (loop_entry sqrt ws VR P Q m f)
  obtain ⟨sc1, sc2⟩ := arnoldi0_zero_sc sqrt f (loop_entry sqrt ws VR P Q m f)
  obtain ⟨b1, b2, b3, b4, b5, b6, b7, b8, b9, b10, b11, b12, b13, b14, b15⟩ :=
    arnoldi0_one sqrt f (normalise0 0 (arnoldi0 sqrt f 0 (loop_entry sqrt ws VR P Q m f)))
  have hV0 : (normalise0 0 (arnoldi0 sqrt f 0 (loop_entry sqrt ws VR P Q m f))).V 0
      = entry_v0 sqrt P Q f := by simp [normalise0, a6, e1]
  have hV1 : (normalise0 0 (arnoldi0 sqrt f 0 (loop_entry sqrt ws VR P Q m f))).V 1
      = step0_v1 sqrt f (entry_v0 sqrt P Q f) := by
    simp [normalise0, a4, a5, e1, step0_v1]
  have hs : (normalise0 0 (arnoldi0 sqrt f 0 (loop_entry sqrt ws VR P Q m f))).s 0
      = step0_s sqrt f (entry_v0 sqrt P Q f) := by simp [normalise0, sc1, e1]
  have hc : (normalise0 0 (arnoldi0 sqrt f 0 (loop_entry sqrt ws VR P Q m f))).c 0
      = step0_c sqrt f (entry_v0 sqrt P Q f) := by simp [normalise0, sc2, e1]
  have ha1 : (normalise0 0 (arnoldi0 sqrt f 0 (loop_entry sqrt ws VR P Q m f))).alpha 1
      = Cx._mult_real (entry_alpha0 sqrt ws VR P Q m f)
          (step0_s sqrt f (entry_v0 sqrt P Q f)) := by
    simp [normalise0, a1, e1, e2, step0_s]
  have ha0 : (normalise0 0 (arnoldi0 sqrt f 0 (loop_entry sqrt ws VR P Q m f))).alpha 0
      = Cx._mult_assign_complex_conj (step0_c sqrt f (entry_v0 sqrt P Q f))
          (entry_alpha0 sqrt ws VR P Q m f) := by
    simp [normalise0, a2, e1, e2, step0_c]
  have hH : (normalise0 0 (arnoldi0 sqrt f 0 (loop_entry sqrt ws VR P Q m f))).H 0 0
      = ⟨step0_beta sqrt f (entry_v0 sqrt P Q f), 0⟩ := by simp [normalise0, a3, e1]
  simp only [state_at, cycle0_state]
  rw [b1, b2, b3, b4, b5, b6, b9, b10, b11, b12, b13, b14, b15, hV0, hV1, hs, hc, ha1, ha0, hH]
  refine ⟨?_, ?_, ?_, hV0, hV1, ?_, ?_, ?_, ?_, ?_, ?_⟩
  · simp [Cx._mult_real, estimate2, entry_alpha0]
  · simp [two_step_y0, two_step_y1]
  · simp [two_step_y1]
  · simp [normalise0, a7, e3]
  · simpa [normalise0, k1, g1] using i1
  · simpa [normalise0, k2, g2] using i2
  · simpa [normalise0, k3, g3] using i3
  · simp [normalise0, a8, e4]
  · simp [normalise0, a9, e5, a4, e1]

theorem first_step_estimate (sqrt : K → K) (ws : Workspace K) (VR : Int) (P Q : Vec K)
    (m : Nat) (f : matrix_mult K) :
    ((state_at sqrt ws VR P Q m f 0).alpha 1).re
      = estimate1 sqrt f (entry_v0 sqrt P Q f) (sqrt (square_norm (diff Q (f P)))) := by
  obtain ⟨e1, e2, -⟩ := loop_entry_fields sqrt ws VR P Q m f
  obtain ⟨a1, -⟩ := arnoldi0_zero sqrt f (loop_entry sqrt ws VR P Q m f)
  simp only [state_at, cycle0_state]
  rw [a1, e1, e2]
  simp [Cx._mult_real, estimate1, entry_alpha0, step0_s]

/-- A call whose test of line 170 fails at inner index 0 and passes at inner index 1. -/
theorem gmres_dr_second_step (sqrt : K → K) (la : DenseLA K) (ws : Workspace K)
    (VR : Int) (P Q : Vec K) (m nr_ev : Nat) (max_restarts : Int) (eps_sq : K)
    (rel_prec : Int) (f : matrix_mult K) (hm : 1 < m)
    (h0 : sqrt (square_norm (diff Q (f P))) ≠ 0)
    (ht0 : ¬ test_value (sqrt eps_sq) (sqrt (square_norm Q)) rel_prec
      (estimate1 sqrt f (entry_v0 sqrt P Q f) (sqrt (square_norm (diff Q (f P))))))
    (ht1 : test_value (sqrt eps_sq) (sqrt (square_norm Q)) rel_prec
      (estimate2 sqrt f (entry_v0 sqrt P Q f) (sqrt (square_norm (diff Q (f P)))))) :
    (gmres_dr sqrt la ws VR P Q m nr_ev max_restarts eps_sq rel_prec f).ret = 1 ∧
    (gmres_dr sqrt la ws VR P Q m nr_ev max_restarts eps_sq rel_prec f).exit
      = ExitPath.inner 1 ∧
    (gmres_dr sqrt la ws VR P Q m nr_ev max_restarts eps_sq rel_prec f).st.napply = 3 ∧
    (gmres_dr sqrt la ws VR P Q m nr_ev max_restarts eps_sq rel_prec f).st.recips
      = [step0_hn sqrt f (entry_v0 sqrt P Q f), sqrt (square_norm (diff Q (f P)))] := by
  have e0 := first_step_estimate sqrt ws VR P Q m f
  obtain ⟨s1, -, -, -, -, -, -, -, -, s9, s10⟩ := second_step_fields sqrt ws VR P Q m f
  have hc : cycle0 sqrt f (sqrt eps_sq) (sqrt (square_norm Q)) rel_prec m 0
      (loop_entry sqrt ws VR P Q m f)
      = Sum.inl (1, state_at sqrt ws VR P Q m f 1) := by
    rw [cycle0_inl_iff]
    refine ⟨1, hm, by omega, rfl, ?_, ?_⟩
    · rw [precision_reached_iff]
      have : (cycle0_state sqrt f 1 0 (loop_entry sqrt ws VR P Q m f))
          = state_at sqrt ws VR P Q m f 1 := rfl
      rw [this, Nat.zero_add, s1]; exact ht1
    · intro l hl
      have hl0 : l = 0 := by omega
      subst hl0
      rw [precision_reached_iff]
      have : (cycle0_state sqrt f 0 0 (loop_entry sqrt ws VR P Q m f))
          = state_at sqrt ws VR P Q m f 0 := rfl
      rw [this, Nat.zero_add, e0]; exact ht0
  obtain ⟨r1, r2, r3, -⟩ := gmres_dr_inner sqrt la ws VR P Q m nr_ev max_restarts
    eps_sq rel_prec f 1 _ h0 hc
  obtain ⟨-, c2, c3, -⟩ := clear_alpha_im_frame m
    (backsubst 1 (state_at sqrt ws VR P Q m f 1))
  obtain ⟨-, -, -, -, -, b6, b7⟩ := backsubst_one (state_at sqrt ws VR P Q m f 1)
  refine ⟨by simpa using r1, r2, ?_, ?_⟩
  · rw [r3, c2, b6, s9]
  · rw [r3, c3, b7, s10]

/-- A call with `m = 2` whose test of line 170 fails at both inner indices: what it
returns, and what it leaves in the workspace when the restart budget allows no restart
cycle. -/
theorem gmres_dr_two_steps_exhausted (sqrt : K → K) (la : DenseLA K) (ws : Workspace K)
    (VR : Int) (P Q : Vec K) (nr_ev : Nat) (max_restarts : Int) (eps_sq : K)
    (rel_prec : Int) (f : matrix_mult K)
    (h0 : sqrt (square_norm (diff Q (f P))) ≠ 0)
    (ht0 : ¬ test_value (sqrt eps_sq) (sqrt (square_norm Q)) rel_prec
      (estimate1 sqrt f (entry_v0 sqrt P Q f) (sqrt (square_norm (diff Q (f P))))))
    (ht1 : ¬ test_value (sqrt eps_sq) (sqrt (square_norm Q)) rel_prec
      (estimate2 sqrt f (entry_v0 sqrt P Q f) (sqrt (square_norm (diff Q (f P)))))) :
    (max_restarts ≤ 1 →
    (gmres_dr sqrt la ws VR P Q 2 nr_ev max_restarts eps_sq rel_prec f).st.alpha 0
      = two_step_y0 sqrt f (entry_v0 sqrt P Q f) (entry_alpha0 sqrt ws VR P Q 2 f) ∧
    (gmres_dr sqrt la ws VR P Q 2 nr_ev max_restarts eps_sq rel_prec f).st.M = 2 ∧
    (gmres_dr sqrt la ws VR P Q 2 nr_ev max_restarts eps_sq rel_prec f).st.init ≠ 0 ∧
    (gmres_dr sqrt la ws VR P Q 2 nr_ev max_restarts eps_sq rel_prec f).st.Vo
      = Int.tdiv VR 2 ∧
    (gmres_dr sqrt la ws VR P Q 2 nr_ev max_restarts eps_sq rel_prec f).P
      = two_step_sol sqrt f P (entry_v0 sqrt P Q f) (entry_alpha0 sqrt ws VR P Q 2 f)) ∧
    (sqrt (square_norm (diff Q (f (two_step_sol sqrt f P (entry_v0 sqrt P Q f)
        (entry_alpha0 sqrt ws VR P Q 2 f))))) ≠ 0 →
      (gmres_dr sqrt la ws VR P Q 2 nr_ev max_restarts eps_sq rel_prec f).ret = -1 ∧
      (gmres_dr sqrt la ws VR P Q 2 nr_ev max_restarts eps_sq rel_prec f).exit
        = ExitPath.max_restarts) := by
  have e0 := first_step_estimate sqrt ws VR P Q 2 f
  obtain ⟨s1, s2, s3, s4, s5, s6, s7, s8, s9, -, -⟩ :=
    second_step_fields sqrt ws VR P Q 2 f
  have hp0 : ¬ precision_reached (sqrt eps_sq) (sqrt (square_norm Q)) rel_prec
      (arnoldi0 sqrt f 0 (loop_entry sqrt ws VR P Q 2 f)) 0 := by
    rw [precision_reached_iff]
    have : arnoldi0 sqrt f 0 (loop_entry sqrt ws VR P Q 2 f)
        = state_at sqrt ws VR P Q 2 f 0 := rfl
    rw [this, e0]; exact ht0
  have hst1 : arnoldi0 sqrt f (0 + 1)
      (normalise0 0 (arnoldi0 sqrt f 0 (loop_entry sqrt ws VR P Q 2 f)))
      = state_at sqrt ws VR P Q 2 f 1 := rfl
  have hp1 : ¬ precision_reached (sqrt eps_sq) (sqrt (square_norm Q)) rel_prec
      (state_at sqrt ws VR P Q 2 f 1) (0 + 1) := by
    rw [precision_reached_iff, s1]; exact ht1
  have hc : cycle0 sqrt f (sqrt eps_sq) (sqrt (square_norm Q)) rel_prec 2 0
      (loop_entry sqrt ws VR P Q 2 f)
      = Sum.inr (normalise0 1 (state_at sqrt ws VR P Q 2 f 1)) := by
    rw [cycle0, if_neg hp0, cycle0, hst1, if_neg hp1, cycle0]
  obtain ⟨b1, b2, b3, b4, b5, -, -⟩ :=
    backsubst_one (normalise0 1 (state_at sqrt ws VR P Q 2 f 1))
  have hV0 : (normalise0 1 (state_at sqrt ws VR P Q 2 f 1)).V 0 = entry_v0 sqrt P Q f := by
    simp [normalise0, s4]
  have hV1 : (normalise0 1 (state_at sqrt ws VR P Q 2 f 1)).V 1
      = step0_v1 sqrt f (entry_v0 sqrt P Q f) := by
    simp [normalise0, s5]
  have hsol : (prepare_restart Q f 2 (normalise0 1 (state_at sqrt ws VR P Q 2 f 1))).sol
      = two_step_sol sqrt f P (entry_v0 sqrt P Q f) (entry_alpha0 sqrt ws VR P Q 2 f) := by
    show (backsubst 1 (normalise0 1 (state_at sqrt ws VR P Q 2 f 1))).sol = _
    rw [b5, hV0, hV1]
    have x1 : (normalise0 1 (state_at sqrt ws VR P Q 2 f 1)).alpha
        = (state_at sqrt ws VR P Q 2 f 1).alpha := rfl
    have x2 : (normalise0 1 (state_at sqrt ws VR P Q 2 f 1)).H
        = (state_at sqrt ws VR P Q 2 f 1).H := rfl
    have x3 : (normalise0 1 (state_at sqrt ws VR P Q 2 f 1)).sol
        = (state_at sqrt ws VR P Q 2 f 1).sol := rfl
    rw [x1, x2, x3, s2, s3, s6]
    rfl
  have halpha : (prepare_restart Q f 2
      (normalise0 1 (state_at sqrt ws VR P Q 2 f 1))).alpha 0
      = two_step_y0 sqrt f (entry_v0 sqrt P Q f) (entry_alpha0 sqrt ws VR P Q 2 f) := by
    show (backsubst 1 (normalise0 1 (state_at sqrt ws VR P Q 2 f 1))).alpha 0 = _
    rw [b1]
    exact s2
  have hM : (prepare_restart Q f 2 (normalise0 1 (state_at sqrt ws VR P Q 2 f 1))).M = 2 := by
    show (backsubst 1 (normalise0 1 (state_at sqrt ws VR P Q 2 f 1))).M = _
    rw [b2]; exact s7
  have hI : (prepare_restart Q f 2 (normalise0 1 (state_at sqrt ws VR P Q 2 f 1))).init
      ≠ 0 := by
    show (backsubst 1 (normalise0 1 (state_at sqrt ws VR P Q 2 f 1))).init ≠ _
    rw [b3]; exact s8
  have hVo : (prepare_restart Q f 2 (normalise0 1 (state_at sqrt ws VR P Q 2 f 1))).Vo
      = Int.tdiv VR 2 := by
    show (backsubst 1 (normalise0 1 (state_at sqrt ws VR P Q 2 f 1))).Vo = _
    rw [b4]; exact s9
  have hr' : (prepare_restart Q f 2 (normalise0 1 (state_at sqrt ws VR P Q 2 f 1))).r
      = diff Q (f (two_step_sol sqrt f P (entry_v0 sqrt P Q f)
          (entry_alpha0 sqrt ws VR P Q 2 f))) := by
    rw [← hsol]; rfl
  obtain ⟨hz, hx, hP⟩ := gmres_dr_exhausted sqrt la ws VR P Q 2 nr_ev max_restarts eps_sq
    rel_prec f _ h0 hc
  constructor
  · intro hr
    have hn : (max_restarts - 1).toNat = 0 := by omega
    rw [hn] at hx
    simp only [restart_loop] at hx
    have hst : (gmres_dr sqrt la ws VR P Q 2 nr_ev max_restarts eps_sq rel_prec f).st
        = prepare_restart Q f 2 (normalise0 1 (state_at sqrt ws VR P Q 2 f 1)) := by
      by_cases h1 : sqrt (square_norm (prepare_restart Q f 2
          (normalise0 1 (state_at sqrt ws VR P Q 2 f 1))).r) = 0
      · exact (hz h1).2.2
      · exact (hx h1).2.2
    exact ⟨by rw [hst, halpha], by rw [hst, hM], by rw [hst]; exact hI, by rw [hst, hVo],
      by rw [hP, hst, hsol]⟩
  · intro h1
    rw [← hr'] at h1
    exact ⟨(hx h1).1, (hx h1).2.1⟩

theorem clear_alpha_im_re (m : Nat) (st : St K) (i : Nat) :
    ((clear_alpha_im m st).alpha i).re = (st.alpha i).re := by
  unfold clear_alpha_im
  induction m with
  | zero => simp
  | succ m ih =>
    simp only [List.range_succ, List.foldl_append, List.foldl_cons, List.foldl_nil]
    by_cases h : i = m
    · subst h; simp [ih]
    · simp [Function.update, h, ih]

/-- Up to the restart loop the argument `nr_ev` is not read: a call that does not end on
line 378 gives the same result for every `nr_ev`. -/
theorem gmres_dr_nr_ev_irrelevant (sqrt : K → K) (la : DenseLA K) (ws : Workspace K)
    (VR : Int) (P Q : Vec K) (m nr_ev nr_ev2 : Nat) (max_restarts : Int) (eps_sq : K)
    (rel_prec : Int) (f : matrix_mult K)
    (h : (gmres_dr sqrt la ws VR P Q m nr_ev max_restarts eps_sq rel_prec f).exit
      ≠ ExitPath.max_restarts) :
    gmres_dr sqrt la ws VR P Q m nr_ev2 max_restarts eps_sq rel_prec f
      = gmres_dr sqrt la ws VR P Q m nr_ev max_restarts eps_sq rel_prec f := by
  unfold gmres_dr at h ⊢
  simp only [] at h ⊢
  split
  · rfl
  · rename_i h0
    rw [if_neg h0] at h
    split
    · rfl
    · rename_i st1 hc
      rw [hc] at h
      simp only [] at h
      split
      · rfl
      · rename_i h1
        rw [if_neg h1] at h
        exact absurd rfl h

theorem foldl_frame {α β γ : Type} (g : β → α → β) (proj : β → γ)
    (h : ∀ b a, proj (g b a) = proj b) (l : List α) (b : β) :
    proj (l.foldl g b) = proj b := by
  induction l generalizing b with
  | nil => rfl
  | cons a l ih => rw [List.foldl_cons, ih, h]

/-- Line 342 is unconditional: every Arnoldi step of a restart cycle hands the reciprocal
of the norm just computed to `mul_r`. -/
theorem arnoldiR_recips (sqrt : K → K) (f : matrix_mult K) (st : St K) (j : Nat) :
    (arnoldiR sqrt f st j).recips
      = sqrt (square_norm (arnoldiR sqrt f st j).w) :: st.recips := by
  have hr : ((List.range (j + 1)).foldl (projectR j)
      ({ st with r := f (st.V j), napply := st.napply + 1, w := f (st.V j) } : St K)).recips
      = st.recips :=
    foldl_frame (projectR j) (fun s => s.recips) (fun _ _ => rfl) _ _
  simp only [arnoldiR, Cx._complex_set, set2, Function.update_same]
  rw [hr]

theorem foldl_inv_mem {α β : Type} (p : β → Prop) (g : β → α → β) (l : List α) (b : β)
    (hb : p b) (h : ∀ b a, a ∈ l → p b → p (g b a)) : p (l.foldl g b) := by
  induction l generalizing b with
  | nil => exact hb
  | cons a l ih =>
    rw [List.foldl_cons]
    exact ih _ (h b a (List.mem_cons_self _ _) hb)
      (fun b' a' ha' hb' => h b' a' (List.mem_cons_of_mem _ ha') hb')

theorem KrylovChain.mono_le {f : matrix_mult K} {S : Nat → Vec K → Prop}
    (hS : KrylovChain f S) {n k : Nat} (hnk : n ≤ k) {x : Vec K} (hx : S n x) : S k x := by
  induction hnk with
  | refl => exact hx
  | step _ ih => exact hS.mono _ _ ih

/-- The Arnoldi body of cycle 0 leaves `V` and the iterate alone, and the vector it leaves
in `w` lies one level above the basis vectors it combined. -/
theorem arnoldi0_krylov (sqrt : K → K) {f : matrix_mult K} {S : Nat → Vec K → Prop}
    (hS : KrylovChain f S) (j : Nat) (st : St K)
    (hV : ∀ i, i ≤ j → S (i + 1) (st.V i)) :
    (arnoldi0 sqrt f j st).V = st.V ∧ (arnoldi0 sqrt f j st).sol = st.sol ∧
    S (j + 2) (arnoldi0 sqrt f j st).w := by
  have h1 : ((List.range (j + 1)).foldl (project0 j)
      ({ st with r := f (st.V j), napply := st.napply + 1, w := f (st.V j) } : St K)).V
        = st.V ∧
      ((List.range (j + 1)).foldl (project0 j)
      ({ st with r := f (st.V j), napply := st.napply + 1, w := f (st.V j) } : St K)).sol
        = st.sol ∧
      S (j + 2) ((List.range (j + 1)).foldl (project0 j)
      ({ st with r := f (st.V j), napply := st.napply + 1, w := f (st.V j) } : St K)).w := by
    apply foldl_inv_mem (fun s : St K => s.V = st.V ∧ s.sol = st.sol ∧ S (j + 2) s.w)
    · exact ⟨rfl, rfl, hS.apply _ _ (hV j (le_refl j))⟩
    · rintro b a ha ⟨b1, b2, b3⟩
      refine ⟨b1, b2, ?_⟩
      have ha' : a ≤ j := by
        have := List.mem_range.1 ha
        omega
      have hVa : S (j + 2) (b.V a) := by
        rw [b1]
        exact hS.mono_le (by omega) (hV a ha')
      exact hS.sub _ _ _ _ b3 hVa
  obtain ⟨x1, x2, x3⟩ := h1
  have hrot : ∀ s0 : St K,
      ((List.range j).foldl (rotate0 j) s0).V = s0.V ∧
      ((List.range j).foldl (rotate0 j) s0).sol = s0.sol ∧
      ((List.range j).foldl (rotate0 j) s0).w = s0.w := fun s0 =>
    ⟨foldl_frame (rotate0 j) (fun s => s.V) (fun _ _ => rfl) _ _,
     foldl_frame (rotate0 j) (fun s => s.sol) (fun _ _ => rfl) _ _,
     foldl_frame (rotate0 j) (fun s => s.w) (fun _ _ => rfl) _ _⟩
  simp only [arnoldi0]
  refine ⟨?_, ?_, ?_⟩
  · rw [(hrot _).1]; exact x1
  · rw [(hrot _).2.1]; exact x2
  · rw [(hrot _).2.2]; exact x3

/-- Back substitution adds multiples of `V[0..j]` to the iterate. -/
theorem backsubst_krylov {f : matrix_mult K} {S : Nat → Vec K → Prop}
    (hS : KrylovChain f S) (n j : Nat) (st : St K) (hsol : S n st.sol)
    (hV : ∀ i, i ≤ j → S n (st.V i)) : S n (backsubst j st).sol := by
  have hrow : ∀ (i : Nat) (s0 : St K),
      (backsub_row j i s0).V = s0.V ∧ (backsub_row j i s0).sol = s0.sol := by
    intro i s0
    unfold backsub_row
    apply foldl_inv_mem (fun s : St K => s.V = s0.V ∧ s.sol = s0.sol)
    · exact ⟨rfl, rfl⟩
    · rintro b a - ⟨b1, b2⟩
      exact ⟨b1, b2⟩
  have key : ((backsubst j st).V = st.V ∧ S n (backsubst j st).sol) := by
    unfold backsubst
    apply foldl_inv_mem (fun s : St K => s.V = st.V ∧ S n s.sol)
    · exact ⟨rfl, hS.add _ _ _ _ hsol (hV j (le_refl j))⟩
    · rintro b a ha ⟨b1, b2⟩
      have ha' : a ≤ j := by
        have := List.mem_range.1 (List.mem_reverse.1 ha)
        omega
      refine ⟨?_, ?_⟩
      · show (backsub_row j a b).V = st.V
        rw [(hrow a b).1, b1]
      · show S n (assign_add_mul (backsub_row j a b).sol ((backsub_row j a b).V a) _)
        rw [(hrow a b).1, (hrow a b).2, b1]
        exact hS.add _ _ _ _ b2 (hV a ha')
  exact key.2

/-- Along the loop of cycle 0 the basis vector `V[i]` stays in level `i + 1` and the
iterate is not touched. -/
theorem cycle0_krylov (sqrt : K → K) {f : matrix_mult K} {S : Nat → Vec K → Prop}
    (hS : KrylovChain f S) (eps norm : K) (rel_prec : Int) (n j : Nat) (st : St K)
    (hV : ∀ i, i ≤ j → S (i + 1) (st.V i)) :
    (∀ i st1, cycle0 sqrt f eps norm rel_prec n j st = Sum.inl (i, st1) →
      i < j + n ∧ st1.sol = st.sol ∧ ∀ k, k ≤ i → S (k + 1) (st1.V k)) ∧
    (∀ st1, cycle0 sqrt f eps norm rel_prec n j st = Sum.inr st1 →
      st1.sol = st.sol ∧ ∀ k, k < j + n → S (k + 1) (st1.V k)) := by
  induction n generalizing j st with
  | zero =>
    constructor
    · intro i st1 h; simp [cycle0] at h
    · intro st1 h
      simp only [cycle0, Sum.inr.injEq] at h
      subst h
      exact ⟨rfl, fun k hk => hV k (by omega)⟩
  | succ n ih =>
    obtain ⟨a1, a2, a3⟩ := arnoldi0_krylov sqrt hS j st hV
    have hV1 : ∀ i, i ≤ j + 1 → S (i + 1) ((normalise0 j (arnoldi0 sqrt f j st)).V i) := by
      intro i hi
      by_cases hij : i = j + 1
      · subst hij
        simp only [normalise0, Function.update_same]
        exact hS.scale _ _ _ a3
      · simp only [normalise0, Function.update_noteq hij]
        rw [a1]
        exact hV i (by omega)
    obtain ⟨ih1, ih2⟩ := ih (j + 1) (normalise0 j (arnoldi0 sqrt f j st)) hV1
    constructor
    · intro i st1 h
      rw [cycle0] at h
      split at h
      · simp only [Sum.inl.injEq, Prod.mk.injEq] at h
        obtain ⟨h1, h2⟩ := h
        subst h1 h2
        exact ⟨by omega, a2, fun k hk => by rw [a1]; exact hV k hk⟩
      · obtain ⟨b1, b2, b3⟩ := ih1 i st1 h
        exact ⟨by omega, by rw [b2]; exact a2, b3⟩
    · intro st1 h
      rw [cycle0] at h
      split at h
      · simp at h
      · obtain ⟨b1, b2⟩ := ih2 st1 h
        exact ⟨by rw [b1]; exact a2, fun k hk => b2 k (by omega)⟩

/-- A call that ends before the restart loop returns a `P` in level `m` of any Krylov
chain that contains the initial guess at level `m` and the residual on entry at level 1. -/
theorem gmres_dr_krylov (sqrt : K → K) (la : DenseLA K) (ws : Workspace K)
    (VR : Int) (P Q : Vec K) (m nr_ev : Nat) (max_restarts : Int) (eps_sq : K)
    (rel_prec : Int) (f : matrix_mult K) (S : Nat → Vec K → Prop) (hS : KrylovChain f S)
    (hm : 1 ≤ m) (hP : S m P) (hr : S 1 (diff Q (f P)))
    (hexit : (gmres_dr sqrt la ws VR P Q m nr_ev max_restarts eps_sq rel_prec f).exit
      ≠ ExitPath.max_restarts) :
    S m (gmres_dr sqrt la ws VR P Q m nr_ev max_restarts eps_sq rel_prec f).P := by
  by_cases h0 : sqrt (square_norm (diff Q (f P))) = 0
  · rw [(gmres_dr_entry_zero sqrt la ws VR P Q m nr_ev max_restarts eps_sq rel_prec f
      h0).2.2.1]
    exact hP
  · obtain ⟨e1, -, e3, -, -⟩ := loop_entry_fields sqrt ws VR P Q m f
    have hV : ∀ i, i ≤ 0 → S (i + 1) ((loop_entry sqrt ws VR P Q m f).V i) := by
      intro i hi
      have : i = 0 := by omega
      subst this
      rw [e1]
      exact hS.scale _ _ _ hr
    obtain ⟨c1, c2⟩ := cycle0_krylov sqrt hS (sqrt eps_sq) (sqrt (square_norm Q)) rel_prec
      m 0 (loop_entry sqrt ws VR P Q m f) hV
    cases hc : cycle0 sqrt f (sqrt eps_sq) (sqrt (square_norm Q)) rel_prec m 0
        (loop_entry sqrt ws VR P Q m f) with
    | inl p =>
      obtain ⟨j, st1⟩ := p
      obtain ⟨d1, d2, d3⟩ := c1 j st1 hc
      rw [(gmres_dr_inner sqrt la ws VR P Q m nr_ev max_restarts eps_sq rel_prec f j st1
        h0 hc).2.2.2, (clear_alpha_im_frame m (backsubst j st1)).1]
      apply backsubst_krylov hS
      · rw [d2, e3]; exact hP
      · intro i hi
        exact hS.mono_le (by omega) (d3 i hi)
    | inr st1 =>
      obtain ⟨d1, d2⟩ := c2 st1 hc
      obtain ⟨x1, x2, x3⟩ := gmres_dr_exhausted sqrt la ws VR P Q m nr_ev max_restarts
        eps_sq rel_prec f st1 h0 hc
      by_cases h1 : sqrt (square_norm (prepare_restart Q f m st1).r) = 0
      · rw [x3, (x1 h1).2.2]
        show S m (backsubst (m - 1) st1).sol
        apply backsubst_krylov hS
        · rw [d1, e3]; exact hP
        · intro i hi
          exact hS.mono_le (by omega) (d2 i (by omega))
      · exact absurd (x2 h1).2.1 hexit

theorem gmres_dr_max_restarts_ret (sqrt : K → K) (la : DenseLA K) (ws : Workspace K)
    (VR : Int) (P Q : Vec K) (m nr_ev : Nat) (max_restarts : Int) (eps_sq : K)
    (rel_prec : Int) (f : matrix_mult K)
    (h : (gmres_dr sqrt la ws VR P Q m nr_ev max_restarts eps_sq rel_prec f).exit
      = ExitPath.max_restarts) :
    (gmres_dr sqrt la ws VR P Q m nr_ev max_restarts eps_sq rel_prec f).ret = -1 := by
  unfold gmres_dr at h ⊢
  simp only [] at h ⊢
  split
  · rename_i h0
    rw [if_pos h0] at h
    simp at h
  · rename_i h0
    rw [if_neg h0] at h
    split
    · rename_i j st1 hc
      rw [hc] at h
      simp at h
    · rename_i st1 hc
      rw [hc] at h
      simp only [] at h
      split
      · rename_i h1
        rw [if_pos h1] at h
        simp at h
      · rfl

theorem row_offset_eq (M : Nat) (stride : Int) (last : Bool) (i : Nat)
    (hM : 0 < M ∨ last = false) (h : i < M ∨ (i = M ∧ last = true) ∨ i = 0) :
    row_offset M stride last i = some ((i : Int) * stride) := by
  induction i with
  | zero =>
    have hn : ¬ (M = 0 ∧ last = true) := by
      rintro ⟨h1, h2⟩
      rcases hM with h | h
      · omega
      · rw [h2] at h; exact Bool.noConfusion h
    simp [row_offset, hn]
  | succ i ih =>
    have hc : i + 1 < M ∨ (i + 1 = M ∧ last = true) := by
      rcases h with h | h | h
      · exact Or.inl h
      · exact Or.inr h
      · omega
    have hi : i < M ∨ (i = M ∧ last = true) ∨ i = 0 := by
      rcases hc with h | h
      · exact Or.inl (by omega)
      · exact Or.inl (by omega)
    rw [row_offset, if_pos hc, ih hi]
    simp only [Option.map_some', Option.some.injEq]
    push_cast
    ring

theorem row_offset_none (M : Nat) (stride : Int) (i : Nat) (hM : 0 < M) (h : M ≤ i) :
    row_offset M stride false i = none := by
  cases i with
  | zero => omega
  | succ i =>
    rw [row_offset, if_neg]
    rintro (h1 | ⟨_, h2⟩)
    · omega
    · exact Bool.noConfusion h2

theorem cycle0_inr_last (sqrt : K → K) (f : matrix_mult K) (eps norm : K) (rel_prec : Int)
    (n j : Nat) (st st1 : St K)
    (hc : cycle0 sqrt f eps norm rel_prec (n + 1) j st = Sum.inr st1) :
    ∃ st2 : St K, st1 = normalise0 (j + n) st2 := by
  induction n generalizing j st with
  | zero =>
    simp only [cycle0] at hc
    split at hc
    · exact Sum.noConfusion hc
    · exact ⟨_, (Sum.inr.inj hc).symm⟩
  | succ n ih =>
    rw [cycle0] at hc
    split at hc
    · exact Sum.noConfusion hc
    · obtain ⟨st2, h2⟩ := ih (j + 1) _ hc
      exact ⟨st2, by rw [h2]; congr 1; omega⟩

/-- The Arnoldi body of cycle 0 does not write the list of explicit residuals. -/
theorem arnoldi0_obs (sqrt : K → K) (f : matrix_mult K) (j : Nat) (st : St K) :
    (arnoldi0 sqrt f j st).resid = st.resid := by
  have h1 : ∀ s : St K, ((List.range (j + 1)).foldl (project0 j) s).resid = s.resid :=
    fun s => foldl_frame (project0 j) (fun t => t.resid) (fun _ _ => rfl) _ s
  have h2 : ∀ s : St K, ((List.range j).foldl (rotate0 j) s).resid = s.resid :=
    fun s => foldl_frame (rotate0 j) (fun t => t.resid) (fun _ _ => rfl) _ s
  simp only [arnoldi0]
  rw [h2, h1]

theorem backsub_row_obs (j i : Nat) (st : St K) :
    (backsub_row j i st).resid = st.resid := by
  unfold backsub_row
  exact foldl_inv_mem (fun t : St K => t.resid = st.resid) _ _ st rfl (fun _ _ _ hb => hb)

theorem backsubst_obs (j : Nat) (st : St K) :
    (backsubst j st).resid = st.resid := by
  unfold backsubst
  refine foldl_inv_mem (fun t : St K => t.resid = st.resid) _ _ _ rfl (fun b a _ hb => ?_)
  exact (backsub_row_obs j a b).trans hb

theorem clear_alpha_im_obs (m : Nat) (st : St K) :
    (clear_alpha_im m st).resid = st.resid := by
  unfold clear_alpha_im
  exact foldl_inv_mem (fun t : St K => t.resid = st.resid) _ _ st rfl (fun _ _ _ hb => hb)

/-- The loop of cycle 0 does not write the list of explicit residuals, whichever way it is
left. -/
theorem cycle0_obs (sqrt : K → K) (f : matrix_mult K) (eps norm : K) (rel_prec : Int)
    (n j : Nat) (st : St K) :
    (∀ i st1, cycle0 sqrt f eps norm rel_prec n j st = Sum.inl (i, st1) →
      st1.resid = st.resid) ∧
    (∀ st1, cycle0 sqrt f eps norm rel_prec n j st = Sum.inr st1 →
      st1.resid = st.resid) := by
  induction n generalizing j st with
  | zero =>
    refine ⟨fun i st1 h => ?_, fun st1 h => ?_⟩
    · exact Sum.noConfusion h
    · rw [← Sum.inr.inj h]
  | succ n ih =>
    have ha := arnoldi0_obs sqrt f j st
    have hn : (normalise0 j (arnoldi0 sqrt f j st)).resid = st.resid := ha
    refine ⟨fun i st1 h => ?_, fun st1 h => ?_⟩
    · rw [cycle0] at h
      split at h
      · have h1 := Sum.inl.inj h
        rw [← (Prod.mk.inj h1).2]
        exact ha
      · rw [(ih (j + 1) _).1 i st1 h, hn]
    · rw [cycle0] at h
      split at h
      · exact Sum.noConfusion h
      · rw [(ih (j + 1) _).2 st1 h, hn]

theorem loop_entry_obs (sqrt : K → K) (ws : Workspace K) (VR : Int) (P Q : Vec K) (m : Nat)
    (f : matrix_mult K) :
    (loop_entry sqrt ws VR P Q m f).resid = [diff Q (f P)] := rfl

theorem prepare_restart_obs (Q : Vec K) (f : matrix_mult K) (m : Nat) (st : St K) :
    (prepare_restart Q f m st).resid = (prepare_restart Q f m st).r :: st.resid := by
  have h := backsubst_obs (m - 1) st
  simp only [prepare_restart]
  rw [h]

/-- The explicitly recomputed residuals of a call that does not reach the restart loop: the
one on entry alone when the call leaves on line 118 or 186, and the one of line 208 before
it when the call leaves on line 220. -/
theorem gmres_dr_resid (sqrt : K → K) (la : DenseLA K) (ws : Workspace K)
    (VR : Int) (P Q : Vec K) (m nr_ev : Nat) (max_restarts : Int) (eps_sq : K)
    (rel_prec : Int) (f : matrix_mult K) :
    (gmres_dr sqrt la ws VR P Q m nr_ev max_restarts eps_sq rel_prec f).ret = -1 ∨
    (gmres_dr sqrt la ws VR P Q m nr_ev max_restarts eps_sq rel_prec f).st.resid
      = [diff Q (f P)] ∨
    ((gmres_dr sqrt la ws VR P Q m nr_ev max_restarts eps_sq rel_prec f).st.resid
      = [(gmres_dr sqrt la ws VR P Q m nr_ev max_restarts eps_sq rel_prec f).st.r,
          diff Q (f P)] ∧
     sqrt (square_norm
      (gmres_dr sqrt la ws VR P Q m nr_ev max_restarts eps_sq rel_prec f).st.r) = 0) := by
  by_cases h0 : sqrt (square_norm (diff Q (f P))) = 0
  · right; left
    rw [(gmres_dr_entry_zero sqrt la ws VR P Q m nr_ev max_restarts eps_sq rel_prec f h0).2.2.2]
    rfl
  · have he := loop_entry_obs sqrt ws VR P Q m f
    cases hc : cycle0 sqrt f (sqrt eps_sq) (sqrt (square_norm Q)) rel_prec m 0
        (loop_entry sqrt ws VR P Q m f) with
    | inl p =>
      obtain ⟨j, st1⟩ := p
      right; left
      rw [(gmres_dr_inner sqrt la ws VR P Q m nr_ev max_restarts eps_sq rel_prec f j st1
        h0 hc).2.2.1]
      have h1 := (cycle0_obs sqrt f _ _ rel_prec m 0 _).1 j st1 hc
      have h2 := backsubst_obs j st1
      have h3 := clear_alpha_im_obs m (backsubst j st1)
      rw [h2, h1, he] at h3
      exact h3
    | inr st1 =>
      have hx := gmres_dr_exhausted sqrt la ws VR P Q m nr_ev max_restarts eps_sq rel_prec f
        st1 h0 hc
      have h1 := (cycle0_obs sqrt f _ _ rel_prec m 0 _).2 st1 hc
      rw [he] at h1
      by_cases hz : sqrt (square_norm (prepare_restart Q f m st1).r) = 0
      · right; right
        rw [(hx.1 hz).2.2]
        exact ⟨by rw [prepare_restart_obs Q f m st1, h1], hz⟩
      · left
        exact (hx.2.1 hz).1

theorem arnoldiR_r (sqrt : K → K) (f : matrix_mult K) (st : St K) (j : Nat) :
    (arnoldiR sqrt f st j).r = f (st.V j) ∧
    (arnoldiR sqrt f st j).V j = st.V j := by
  have hr : ∀ s : St K, (fun t : St K => (t.r, t.V))
      ((List.range (j + 1)).foldl (projectR j) s) = (s.r, s.V) :=
    fun s => foldl_frame (projectR j) (fun t => (t.r, t.V)) (fun _ _ => rfl) _ s
  simp only [Prod.mk.injEq] at hr
  simp only [arnoldiR]
  refine ⟨(hr _).1, ?_⟩
  rw [Function.update_noteq (by omega), (hr _).2]

theorem restart_arnoldi_r (sqrt : K → K) (la : DenseLA K) (f : matrix_mult K)
    (m nr_ev : Nat) (st : St K) (h : nr_ev < m) :
    (restart_arnoldi sqrt la f m nr_ev st).r
      = f ((restart_arnoldi sqrt la f m nr_ev st).V (m - 1)) := by
  obtain ⟨k, hk⟩ : ∃ k, m - nr_ev = k + 1 := ⟨m - nr_ev - 1, by omega⟩
  have hm : m - 1 = nr_ev + k := by omega
  unfold restart_arnoldi
  simp only
  rw [hk, List.range'_concat, List.foldl_append, List.foldl_cons, List.foldl_nil, hm]
  simp only [Nat.one_mul]
  rw [(arnoldiR_r sqrt f _ _).1, (arnoldiR_r sqrt f _ _).2]

/-- The Arnoldi body of cycle 0 is its projection part (lines 126-146) followed by its
rotation part (lines 147-163). -/
theorem arnoldi0_phases (sqrt : K → K) (f : matrix_mult K) (j : Nat) (st : St K) :
    arnoldi0 sqrt f j st = arnoldi0_rotated sqrt j (arnoldi0_projected sqrt f j st) := rfl

/-- The first `n` passes of the projection loop of cycle 0: the vector left in
`DUM_SOLVER+1` and the entries written into `H`, `G`, `work2` and `work`. -/
theorem project0_fold (j n : Nat) (st : St K) :
    ((List.range n).foldl (project0 j) st).w = arnoldi_w st.V st.w n ∧
    ((List.range n).foldl (project0 j) st).V = st.V ∧
    (∀ a b, ((List.range n).foldl (project0 j) st).H a b
      = if b = j ∧ a < n then arnoldi_h st.V st.w a else st.H a b) ∧
    (∀ a b, ((List.range n).foldl (project0 j) st).G a b
      = if a = j ∧ b < n then arnoldi_h st.V st.w b else st.G a b) ∧
    (∀ a b, ((List.range n).foldl (project0 j) st).work2 a b
      = if a = j ∧ b < n then arnoldi_h st.V st.w b else st.work2 a b) ∧
    (∀ a b, ((List.range n).foldl (project0 j) st).work a b
      = if b = j ∧ a < n then ⟨(arnoldi_h st.V st.w a).re, -(arnoldi_h st.V st.w a).im⟩
        else st.work a b) := by
  induction n with
  | zero => simp [arnoldi_w]
  | succ n ih =>
    obtain ⟨hw, hV, hH, hG, hw2, hwk⟩ := ih
    rw [List.range_succ, List.foldl_append, List.foldl_cons, List.foldl_nil]
    simp only [project0, hw, hV]
    refine ⟨rfl, trivial, fun a b => ?_, fun a b => ?_, fun a b => ?_, fun a b => ?_⟩
    · have e : (a < n + 1) ↔ (a < n ∨ a = n) := by omega
      by_cases ha : a = n <;> by_cases hb : b = j <;>
        simp [set2, Function.update_apply, hH, arnoldi_h, ha, hb, e]
    · have e : (b < n + 1) ↔ (b < n ∨ b = n) := by omega
      by_cases ha : a = j <;> by_cases hb : b = n <;>
        simp [set2, Function.update_apply, hG, arnoldi_h, ha, hb, e]
    · have e : (b < n + 1) ↔ (b < n ∨ b = n) := by omega
      by_cases ha : a = j <;> by_cases hb : b = n <;>
        simp [set2, Function.update_apply, hw2, arnoldi_h, ha, hb, e]
    · have e : (a < n + 1) ↔ (a < n ∨ a = n) := by omega
      by_cases ha : a = n <;> by_cases hb : b = j <;>
        simp [set2, Function.update_apply, hwk, arnoldi_h, ha, hb, e]

theorem set2_apply {X : Type} (A : Nat → Nat → X) (i j : Nat) (v : X) (a b : Nat) :
    set2 A i j v a b = if a = i ∧ b = j then v else A a b := by
  by_cases ha : a = i <;> by_cases hb : b = j <;> simp [set2, Function.update_apply, ha, hb]

/-- The state that lines 126-146 leave for inner index `j`: the basis is untouched, `w` is
the vector of the Arnoldi recurrence, and the coefficients are stored in `H` (rows first)
and in `G`, `work2`, `work`. -/
theorem arnoldi0_projected_fields (sqrt : K → K) (f : matrix_mult K) (j : Nat) (st : St K) :
    (arnoldi0_projected sqrt f j st).V = st.V ∧
    (arnoldi0_projected sqrt f j st).w = arnoldi_w st.V (f (st.V j)) (j + 1) ∧
    (∀ a b, (arnoldi0_projected sqrt f j st).H a b
      = if a = j + 1 ∧ b = j then
          ⟨sqrt (square_norm (arnoldi_w st.V (f (st.V j)) (j + 1))), 0⟩
        else if b = j ∧ a < j + 1 then arnoldi_h st.V (f (st.V j)) a else st.H a b) ∧
    (∀ a b, (arnoldi0_projected sqrt f j st).G a b
      = if a = j ∧ b = j + 1 then
          ⟨sqrt (square_norm (arnoldi_w st.V (f (st.V j)) (j + 1))), 0⟩
        else if a = j ∧ b < j + 1 then arnoldi_h st.V (f (st.V j)) b else st.G a b) ∧
    (∀ a b, (arnoldi0_projected sqrt f j st).work2 a b
      = if a = j ∧ b = j + 1 then
          ⟨sqrt (square_norm (arnoldi_w st.V (f (st.V j)) (j + 1))), 0⟩
        else if a = j ∧ b < j + 1 then arnoldi_h st.V (f (st.V j)) b else st.work2 a b) ∧
    (∀ a b, (arnoldi0_projected sqrt f j st).work a b
      = if a = j + 1 ∧ b = j then
          ⟨sqrt (square_norm (arnoldi_w st.V (f (st.V j)) (j + 1))), -0⟩
        else if b = j ∧ a < j + 1 then
          ⟨(arnoldi_h st.V (f (st.V j)) a).re, -(arnoldi_h st.V (f (st.V j)) a).im⟩
        else st.work a b) := by
  obtain ⟨hw, hV, hH, hG, hw2, hwk⟩ := project0_fold j (j + 1)
    ({ st with r := f (st.V j), napply := st.napply + 1, w := f (st.V j) } : St K)
  simp only at hw hV hH hG hw2 hwk
  simp only [arnoldi0_projected, Cx._complex_set]
  refine ⟨hV, hw, fun a b => ?_, fun a b => ?_, fun a b => ?_, fun a b => ?_⟩
  · by_cases ha : a = j + 1 <;> by_cases hb : b = j <;>
      simp [set2, Function.update_apply, hH, hw, ha, hb]
  · by_cases ha : a = j <;> by_cases hb : b = j + 1 <;>
      simp [set2, Function.update_apply, hG, hw, ha, hb]
  · by_cases ha : a = j <;> by_cases hb : b = j + 1 <;>
      simp [set2, Function.update_apply, hw2, hw, ha, hb]
  · by_cases ha : a = j + 1 <;> by_cases hb : b = j <;>
      simp [set2, Function.update_apply, hwk, hw, ha, hb]

/-- Lines 147-163 write column `j` of `H` in rows `0..j` only, and neither the basis nor
`G`, `work`, `work2`. -/
theorem arnoldi0_rotated_frame (sqrt : K → K) (j : Nat) (st : St K) :
    (arnoldi0_rotated sqrt j st).V = st.V ∧
    (arnoldi0_rotated sqrt j st).w = st.w ∧
    (arnoldi0_rotated sqrt j st).G = st.G ∧
    (arnoldi0_rotated sqrt j st).work2 = st.work2 ∧
    (arnoldi0_rotated sqrt j st).work = st.work ∧
    (∀ a b, (b ≠ j ∨ j < a) → (arnoldi0_rotated sqrt j st).H a b = st.H a b) := by
  have hrot : ((List.range j).foldl (rotate0 j) st).V = st.V ∧
      ((List.range j).foldl (rotate0 j) st).w = st.w ∧
      ((List.range j).foldl (rotate0 j) st).G = st.G ∧
      ((List.range j).foldl (rotate0 j) st).work2 = st.work2 ∧
      ((List.range j).foldl (rotate0 j) st).work = st.work ∧
      (∀ a b, (b ≠ j ∨ j < a) → ((List.range j).foldl (rotate0 j) st).H a b = st.H a b) := by
    apply foldl_inv_mem (fun s : St K => s.V = st.V ∧ s.w = st.w ∧ s.G = st.G ∧
      s.work2 = st.work2 ∧ s.work = st.work ∧
      (∀ a b, (b ≠ j ∨ j < a) → s.H a b = st.H a b))
    · exact ⟨rfl, rfl, rfl, rfl, rfl, fun _ _ _ => rfl⟩
    · rintro s i hi ⟨h1, h2, h3, h4, h5, h6⟩
      have hij : i < j := List.mem_range.1 hi
      refine ⟨h1, h2, h3, h4, h5, fun a b hab => ?_⟩
      rw [← h6 a b hab]
      simp only [rotate0]
      rw [set2_apply, set2_apply, if_neg, if_neg]
      · rintro ⟨e1, e2⟩
        rcases hab with hb | ha
        · exact hb e2
        · omega
      · rintro ⟨e1, e2⟩
        rcases hab with hb | ha
        · exact hb e2
        · omega
  obtain ⟨h1, h2, h3, h4, h5, h6⟩ := hrot
  simp only [arnoldi0_rotated]
  refine ⟨h1, h2, h3, h4, h5, fun a b hab => ?_⟩
  rw [← h6 a b hab, set2_apply, if_neg]
  rintro ⟨e1, e2⟩
  rcases hab with hb | ha
  · exact hb e2
  · omega

theorem assign_add_diff_cancel (b v : Vec K) (c : Cx K) (h : b.length ≤ v.length) :
    assign_add_mul (assign_diff_mul b v c) v c = b := by
  induction b generalizing v with
  | nil => simp [assign_add_mul, assign_diff_mul]
  | cons x b ih =>
    cases v with
    | nil => simp at h
    | cons y v =>
      have h' : b.length ≤ v.length := by simpa using h
      have := ih v h'
      simp only [assign_add_mul, assign_diff_mul, List.zipWith_cons_cons] at this ⊢
      rw [this]
      congr 1
      cases x
      simp

theorem assign_add_diff_comm (z v u : Vec K) (a b : Cx K) :
    assign_add_mul (assign_diff_mul z v a) u b
      = assign_diff_mul (assign_add_mul z u b) v a := by
  induction z generalizing v u with
  | nil => simp [assign_add_mul, assign_diff_mul]
  | cons x z ih =>
    cases v with
    | nil => simp [assign_add_mul, assign_diff_mul]
    | cons y v =>
      cases u with
      | nil => simp [assign_add_mul, assign_diff_mul]
      | cons t u =>
        have := ih v u
        simp only [assign_add_mul, assign_diff_mul, List.zipWith_cons_cons] at this ⊢
        rw [this]
        congr 1
        simp only [Cx.mk.injEq]
        constructor <;> ring

theorem assign_add_add_comm (z v u : Vec K) (a b : Cx K) :
    assign_add_mul (assign_add_mul z v a) u b
      = assign_add_mul (assign_add_mul z u b) v a := by
  induction z generalizing v u with
  | nil => simp [assign_add_mul]
  | cons x z ih =>
    cases v with
    | nil => simp [assign_add_mul]
    | cons y v =>
      cases u with
      | nil => simp [assign_add_mul]
      | cons t u =>
        have := ih v u
        simp only [assign_add_mul, List.zipWith_cons_cons] at this ⊢
        rw [this]
        congr 1
        simp only [Cx.mk.injEq]
        constructor <;> ring

theorem lin_comb_diff (c : Nat → Cx K) (V : Nat → Vec K) (z v : Vec K) (a : Cx K) (n : Nat) :
    lin_comb c V (assign_diff_mul z v a) n = assign_diff_mul (lin_comb c V z n) v a := by
  induction n with
  | zero => rfl
  | succ n ih => rw [lin_comb, ih, assign_add_diff_comm, lin_comb]

theorem lin_comb_add (c : Nat → Cx K) (V : Nat → Vec K) (z v : Vec K) (a : Cx K) (n : Nat) :
    lin_comb c V (assign_add_mul z v a) n = assign_add_mul (lin_comb c V z n) v a := by
  induction n with
  | zero => rfl
  | succ n ih => rw [lin_comb, ih, assign_add_add_comm, lin_comb]

theorem lin_comb_congr (c c1 : Nat → Cx K) (V V1 : Nat → Vec K) (z : Vec K) (n : Nat)
    (h : ∀ i, i < n → c i = c1 i ∧ V i = V1 i) :
    lin_comb c V z n = lin_comb c1 V1 z n := by
  induction n with
  | zero => rfl
  | succ n ih =>
    rw [lin_comb, lin_comb, ih (fun i hi => h i (by omega)), (h n (by omega)).1,
      (h n (by omega)).2]

/-- The projections taken off by the Arnoldi recurrence add up again: `w_n` plus the sum of
`h_i * V[i]` over `i < n` is the vector the recurrence started from. -/
theorem lin_comb_arnoldi (V : Nat → Vec K) (x : Vec K) (n : Nat)
    (hV : ∀ i, i < n → x.length ≤ (V i).length) :
    lin_comb (arnoldi_h V x) V (arnoldi_w V x n) n = x := by
  induction n with
  | zero => rfl
  | succ n ih =>
    rw [lin_comb, arnoldi_w, lin_comb_diff, ih (fun i hi => hV i (by omega))]
    exact assign_add_diff_cancel x (V n) _ (hV n (by omega))

theorem arnoldi_w_length_le (V : Nat → Vec K) (x : Vec K) (n : Nat) :
    (arnoldi_w V x n).length ≤ x.length := by
  induction n with
  | zero => exact le_refl _
  | succ n ih =>
    rw [arnoldi_w, assign_diff_mul, List.length_zipWith]
    exact le_trans (min_le_left _ _) ih

theorem assign_add_mul_zero_base (x v : Vec K) (r : K) (h : v.length ≤ x.length) :
    assign_add_mul (mul_r 0 x) v ⟨r, 0⟩ = mul_r r v := by
  induction v generalizing x with
  | nil => simp [assign_add_mul, mul_r]
  | cons y v ih =>
    cases x with
    | nil => simp at h
    | cons t x =>
      have h' : v.length ≤ x.length := by simpa using h
      have := ih x h'
      simp only [assign_add_mul, mul_r, List.map_cons, List.zipWith_cons_cons] at this ⊢
      rw [this]
      congr 1
      simp

theorem mul_r_inv_cancel (r : K) (w : Vec K) (hr : r ≠ 0) : mul_r r (mul_r (1 / r) w) = w := by
  induction w with
  | nil => rfl
  | cons y w ih =>
    simp only [mul_r, List.map_cons, List.map_map] at ih ⊢
    rw [ih]
    congr 1
    cases y
    simp only [Cx.mk.injEq]
    constructor <;> field_simp

theorem scalar_prod_diff_mul (u w v : Vec K) (h : Cx K) (h1 : u.length ≤ w.length)
    (h2 : u.length ≤ v.length) :
    scalar_prod u (assign_diff_mul w v h)
      = ⟨(scalar_prod u w).re - (h.re * (scalar_prod u v).re - h.im * (scalar_prod u v).im),
         (scalar_prod u w).im - (h.re * (scalar_prod u v).im + h.im * (scalar_prod u v).re)⟩ := by
  induction u generalizing w v with
  | nil => simp [scalar_prod]
  | cons x u ih =>
    cases w with
    | nil => simp at h1
    | cons y w =>
      cases v with
      | nil => simp at h2
      | cons t v =>
        have := ih w v (by simpa using h1) (by simpa using h2)
        simp only [assign_diff_mul, List.zipWith_cons_cons, scalar_prod] at this ⊢
        rw [this]
        simp only [Cx.mk.injEq]
        constructor <;> ring

theorem scalar_prod_mul_r_right (u w : Vec K) (r : K) :
    scalar_prod u (mul_r r w) = ⟨r * (scalar_prod u w).re, r * (scalar_prod u w).im⟩ := by
  induction u generalizing w with
  | nil => simp [scalar_prod]
  | cons x u ih =>
    cases w with
    | nil => simp [scalar_prod, mul_r]
    | cons y w =>
      have := ih w
      simp only [mul_r, List.map_cons, scalar_prod] at this ⊢
      rw [this]
      simp only [Cx.mk.injEq]
      constructor <;> ring

theorem scalar_prod_conj (u w : Vec K) :
    scalar_prod w u = ⟨(scalar_prod u w).re, -(scalar_prod u w).im⟩ := by
  induction u generalizing w with
  | nil => cases w <;> simp [scalar_prod]
  | cons x u ih =>
    cases w with
    | nil => simp [scalar_prod]
    | cons y w =>
      have := ih w
      simp only [scalar_prod] at this ⊢
      rw [this]
      simp only [Cx.mk.injEq]
      constructor <;> ring

theorem scalar_prod_self_gen (x : Vec K) : scalar_prod x x = ⟨square_norm x, 0⟩ := by
  induction x with
  | nil => simp [square_norm, scalar_prod]
  | cons z x ih =>
    simp only [scalar_prod, square_norm, ih]
    congr 1
    ring

theorem square_norm_mul_r_gen (c : K) (x : Vec K) :
    square_norm (mul_r c x) = c * c * square_norm x := by
  induction x with
  | nil => simp [square_norm, mul_r]
  | cons z x ih =>
    simp only [mul_r, List.map_cons, square_norm] at ih ⊢
    rw [ih]; ring

theorem arnoldi_w_length (V : Nat → Vec K) (x : Vec K) (n N : Nat)
    (hV : ∀ i, i < n → (V i).length = N) (hx : x.length = N) :
    (arnoldi_w V x n).length = N := by
  induction n with
  | zero => exact hx
  | succ n ih =>
    rw [arnoldi_w, assign_diff_mul, List.length_zipWith, ih (fun i hi => hV i (by omega)),
      hV n (by omega)]
    exact min_self N

/-- Modified Gram-Schmidt: after `n` projections against orthonormal `V[0..n-1]` the vector
`w_n` is orthogonal to each of them. -/
theorem arnoldi_w_orthogonal (V : Nat → Vec K) (x : Vec K) (n N : Nat)
    (hV : ∀ i, i < n → (V i).length = N) (hx : x.length = N)
    (hon : ∀ a b, a < n → b < n →
      scalar_prod (V a) (V b) = if a = b then ⟨1, 0⟩ else ⟨0, 0⟩) :
    ∀ i, i < n → scalar_prod (V i) (arnoldi_w V x n) = ⟨0, 0⟩ := by
  induction n with
  | zero => intro i hi; omega
  | succ n ih =>
    intro i hi
    have hw := arnoldi_w_length V x n N (fun i hi => hV i (by omega)) hx
    have ih' := ih (fun i hi => hV i (by omega)) (fun a b ha hb => hon a b (by omega) (by omega))
    rw [arnoldi_w, scalar_prod_diff_mul _ _ _ _ (by rw [hw, hV i hi])
      (by rw [hV i hi, hV n (by omega)])]
    rcases Nat.lt_or_ge i n with h | h
    · have e : i ≠ n := by omega
      rw [ih' i h, hon i n hi (by omega)]
      simp [e]
    · have e : i = n := by omega
      subst e
      rw [hon i i hi hi]
      simp

theorem square_norm_nonneg_gen (x : Vec K) : 0 ≤ square_norm x := by
  induction x with
  | nil => simp [square_norm]
  | cons z x ih =>
    simp only [square_norm]
    nlinarith [mul_self_nonneg z.re, mul_self_nonneg z.im]

/-- What an Arnoldi body of cycle 0 leaves for line 190: the basis as it was, the vector
`w_{j+1}` of the recurrence in `DUM_SOLVER+1`, and its norm in `H[j+1][j]`. -/
theorem arnoldi0_step_fields (sqrt : K → K) (f : matrix_mult K) (j : Nat) (st : St K) :
    (arnoldi0 sqrt f j st).V = st.V ∧
    (arnoldi0 sqrt f j st).w = arnoldi_w st.V (f (st.V j)) (j + 1) ∧
    (arnoldi0 sqrt f j st).H (j + 1) j
      = ⟨sqrt (square_norm (arnoldi_w st.V (f (st.V j)) (j + 1))), 0⟩ := by
  obtain ⟨pV, pw, pH, -⟩ := arnoldi0_projected_fields sqrt f j st
  obtain ⟨rV, rw', -, -, -, rH⟩ :=
    arnoldi0_rotated_frame sqrt j (arnoldi0_projected sqrt f j st)
  refine ⟨?_, ?_, ?_⟩
  · rw [arnoldi0_phases, rV, pV]
  · rw [arnoldi0_phases, rw', pw]
  · rw [arnoldi0_phases, rH _ _ (Or.inr (Nat.lt_succ_self j)), pH]
    simp

/-- Appending the normalised vector `w / hn` to an orthonormal family that `w` is orthogonal
to gives an orthonormal family. -/
theorem orthonormal_extend (V : Nat → Vec K) (w : Vec K) (hn : K) (j N : Nat)
    (hV : ∀ i, i ≤ j → (V i).length = N) (hwl : w.length = N)
    (hon : basis_orthonormal V j)
    (horth : ∀ i, i ≤ j → scalar_prod (V i) w = ⟨0, 0⟩)
    (hne : hn ≠ 0) (hs : hn * hn = square_norm w) :
    basis_orthonormal (Function.update V (j + 1) (mul_r (1 / hn) w)) (j + 1) ∧
    ∀ i, i ≤ j + 1 → (Function.update V (j + 1) (mul_r (1 / hn) w) i).length = N := by
  constructor
  · intro a b ha hb
    rcases Nat.lt_or_ge a (j + 1) with ha1 | ha1 <;> rcases Nat.lt_or_ge b (j + 1) with hb1 | hb1
    · rw [Function.update_noteq (by omega), Function.update_noteq (by omega)]
      exact hon a b (by omega) (by omega)
    · have eb : b = j + 1 := by omega
      have ne : a ≠ b := by omega
      rw [eb, Function.update_same, Function.update_noteq (by omega),
        scalar_prod_mul_r_right, horth a (by omega), ← eb]
      simp [ne]
    · have ea : a = j + 1 := by omega
      have ne : a ≠ b := by omega
      rw [ea, Function.update_same, Function.update_noteq (by omega),
        scalar_prod_conj (V b), scalar_prod_mul_r_right, horth b (by omega), ← ea]
      simp [ne]
    · have ea : a = j + 1 := by omega
      have eb : b = j + 1 := by omega
      rw [ea, eb, Function.update_same, scalar_prod_self_gen, square_norm_mul_r_gen, ← hs]
      simp only [if_true, Cx.mk.injEq, and_true]
      field_simp
  · intro i hi
    rcases Nat.lt_or_ge i (j + 1) with h | h
    · rw [Function.update_noteq (by omega)]
      exact hV i (by omega)
    · have e : i = j + 1 := by omega
      rw [e, Function.update_same]
      simpa [mul_r] using hwl

/-- One pass of the cycle-0 loop with a non-zero norm in `H[j+1][j]` extends an orthonormal
basis `V[0..j]` by `V[j+1]`. -/
theorem arnoldi0_step_orthonormal (sqrt : K → K) (hsq : ∀ y : K, 0 ≤ y → sqrt y * sqrt y = y)
    (f : matrix_mult K) (hf : ∀ x, (f x).length = x.length) (N j : Nat) (st : St K)
    (hV : ∀ i, i ≤ j → (st.V i).length = N) (hon : basis_orthonormal st.V j)
    (hne : ((arnoldi0 sqrt f j st).H (j + 1) j).re ≠ 0) :
    basis_orthonormal (normalise0 j (arnoldi0 sqrt f j st)).V (j + 1) ∧
    ∀ i, i ≤ j + 1 → ((normalise0 j (arnoldi0 sqrt f j st)).V i).length = N := by
  obtain ⟨sV, sw, sH⟩ := arnoldi0_step_fields sqrt f j st
  have hx : (f (st.V j)).length = N := by rw [hf, hV j (le_refl j)]
  have hres := orthonormal_extend st.V (arnoldi_w st.V (f (st.V j)) (j + 1))
    (sqrt (square_norm (arnoldi_w st.V (f (st.V j)) (j + 1)))) j N hV
    (arnoldi_w_length _ _ _ N (fun i hi => hV i (by omega)) hx) hon
    (fun i hi => arnoldi_w_orthogonal st.V _ (j + 1) N (fun i hi => hV i (by omega)) hx
      (fun a b ha hb => hon a b (by omega) (by omega)) i (by omega))
    (by rw [sH] at hne; exact hne) (hsq _ (square_norm_nonneg_gen _))
  simp only [normalise0]
  rw [sV, sw, sH]
  exact hres

/-- The cycle-0 loop keeps the basis orthonormal as long as the norms it divides by are not
zero. -/
theorem cycle0_state_orthonormal (sqrt : K → K)
    (hsq : ∀ y : K, 0 ≤ y → sqrt y * sqrt y = y)
    (f : matrix_mult K) (hf : ∀ x, (f x).length = x.length) (N k j : Nat) (st : St K)
    (hV : ∀ i, i ≤ j → (st.V i).length = N) (hon : basis_orthonormal st.V j)
    (hsub : ∀ l n, l ≤ k → n = j + l →
      ((cycle0_state sqrt f l j st).H (n + 1) n).re ≠ 0) :
    ∀ n, n = j + k →
      basis_orthonormal (normalise0 n (cycle0_state sqrt f k j st)).V (n + 1) ∧
      ∀ i, i ≤ n + 1 → ((normalise0 n (cycle0_state sqrt f k j st)).V i).length = N := by
  induction k generalizing j st with
  | zero =>
    intro n hn
    have e : n = j := by omega
    subst e
    exact arnoldi0_step_orthonormal sqrt hsq f hf N n st hV hon
      (hsub 0 n (le_refl 0) rfl)
  | succ k ih =>
    intro n hn
    obtain ⟨h1, h2⟩ := arnoldi0_step_orthonormal sqrt hsq f hf N j st hV hon
      (hsub 0 j (Nat.zero_le _) rfl)
    exact ih (j + 1) (normalise0 j (arnoldi0 sqrt f j st)) h2 h1
      (fun l n' hl hn' => hsub (l + 1) n' (by omega) (by omega)) n (by omega)

theorem bidiag_op_length (x : Vec K) : (bidiag_op x).length = x.length := by
  match x with
  | [] => rfl
  | [_] => rfl
  | [_, _] => rfl
  | _ :: _ :: _ :: _ => simp [bidiag_op]

/-- The basis with which the loop of cycle 0 is entered: `V[0]` has norm 1 when the
residual on entry is not zero. -/
theorem loop_entry_orthonormal (sqrt : K → K) (hsq : ∀ y : K, 0 ≤ y → sqrt y * sqrt y = y)
    (ws : Workspace K) (VR : Int) (P Q : Vec K) (m : Nat) (f : matrix_mult K)
    (h0 : sqrt (square_norm (diff Q (f P))) ≠ 0) :
    basis_orthonormal (loop_entry sqrt ws VR P Q m f).V 0 ∧
    ∀ i, i ≤ 0 → ((loop_entry sqrt ws VR P Q m f).V i).length = (diff Q (f P)).length := by
  have e1 := (loop_entry_fields sqrt ws VR P Q m f).1
  constructor
  · intro a b ha hb
    have ea : a = 0 := by omega
    have eb : b = 0 := by omega
    have hs := hsq _ (square_norm_nonneg_gen (diff Q (f P)))
    rw [ea, eb, e1, entry_v0, scalar_prod_self_gen, square_norm_mul_r_gen]
    simp only [if_true, Cx.mk.injEq, and_true]
    field_simp
    linear_combination -hs
  · intro i hi
    have ei : i = 0 := by omega
    rw [ei, e1, entry_v0]
    simp [mul_r]

/-- The first `n` rotations of lines 147-154 on column `j`: they leave `alpha`, `s`, `c`
and the rows of `H` below row `n` alone, and row 0 of the column is final after the first
of them. -/
theorem rotate0_fold_props (j n : Nat) (st : St K) :
    ((List.range n).foldl (rotate0 j) st).alpha = st.alpha ∧
    ((List.range n).foldl (rotate0 j) st).s = st.s ∧
    ((List.range n).foldl (rotate0 j) st).c = st.c ∧
    (∀ a, n < a → ((List.range n).foldl (rotate0 j) st).H a j = st.H a j) ∧
    (1 ≤ n → ((List.range n).foldl (rotate0 j) st).H 0 j
      = Cx._add_assign_complex_conj (Cx._mult_real (st.H 1 j) (st.s 0)) (st.c 0)
          (st.H 0 j)) := by
  induction n with
  | zero => exact ⟨rfl, rfl, rfl, fun _ _ => rfl, fun h => absurd h (by omega)⟩
  | succ n ih =>
    obtain ⟨h1, h2, h3, h4, h5⟩ := ih
    rw [List.range_succ, List.foldl_append, List.foldl_cons, List.foldl_nil]
    refine ⟨h1, h2, h3, fun a ha => ?_, fun _ => ?_⟩
    · simp only [rotate0]
      rw [set2_apply, set2_apply, if_neg (by omega), if_neg (by omega)]
      exact h4 a (by omega)
    · simp only [rotate0]
      rw [set2_apply, set2_apply, if_neg (by omega)]
      rcases Nat.eq_zero_or_pos n with hn | hn
      · subst hn
        simp
      · rw [if_neg (by omega)]
        exact h5 hn

theorem arnoldi0_projected_scalars (sqrt : K → K) (f : matrix_mult K) (j : Nat) (st : St K) :
    (arnoldi0_projected sqrt f j st).alpha = st.alpha ∧
    (arnoldi0_projected sqrt f j st).s = st.s ∧
    (arnoldi0_projected sqrt f j st).c = st.c := by
  have h : ∀ s0 : St K, (fun t : St K => (t.alpha, t.s, t.c))
      ((List.range (j + 1)).foldl (project0 j) s0) = (s0.alpha, s0.s, s0.c) :=
    fun s0 => foldl_frame (project0 j) (fun t => (t.alpha, t.s, t.c)) (fun _ _ => rfl) _ s0
  simp only [Prod.mk.injEq] at h
  simp only [arnoldi0_projected]
  exact ⟨(h _).1, (h _).2.1, (h _).2.2⟩

/-- The scalars an Arnoldi body of cycle 0 leaves: `s` and `c` change at index `j` only, the
new estimate `alpha[j+1]` is `alpha[j]` times `H[j+1][j] / beta`, and for `j >= 1` the
entry `H[0][j]` is the result of the first stored rotation on the coefficients
`h[0][j]`, `h[1][j]`. -/
theorem arnoldi0_scalars (sqrt : K → K) (f : matrix_mult K) (j : Nat) (st : St K) :
    (∀ i, i ≠ j → (arnoldi0 sqrt f j st).s i = st.s i ∧ (arnoldi0 sqrt f j st).c i = st.c i) ∧
    (∃ d : Cx K, (arnoldi0 sqrt f j st).alpha (j + 1)
      = Cx._mult_real (st.alpha j)
          (sqrt (square_norm (arnoldi_w st.V (f (st.V j)) (j + 1)))
            / sqrt (Cx._complex_square_norm d + Cx._complex_square_norm
                ⟨sqrt (square_norm (arnoldi_w st.V (f (st.V j)) (j + 1))), 0⟩))) ∧
    (1 ≤ j → (arnoldi0 sqrt f j st).H 0 j
      = Cx._add_assign_complex_conj
          (Cx._mult_real (arnoldi_h st.V (f (st.V j)) 1) (st.s 0)) (st.c 0)
          (arnoldi_h st.V (f (st.V j)) 0)) := by
  obtain ⟨-, -, pH, -⟩ := arnoldi0_projected_fields sqrt f j st
  obtain ⟨pa, ps, pc⟩ := arnoldi0_projected_scalars sqrt f j st
  obtain ⟨ra, rs, rc, rH, rH0⟩ := rotate0_fold_props j j (arnoldi0_projected sqrt f j st)
  have hHn : (arnoldi0_projected sqrt f j st).H (j + 1) j
      = ⟨sqrt (square_norm (arnoldi_w st.V (f (st.V j)) (j + 1))), 0⟩ := by
    rw [pH]; simp
  rw [arnoldi0_phases]
  refine ⟨fun i hi => ?_, ?_, fun hj => ?_⟩
  · simp only [arnoldi0_rotated]
    rw [Function.update_noteq hi, Function.update_noteq hi, rs, rc, ps, pc]
    exact ⟨rfl, rfl⟩
  · refine ⟨((List.range j).foldl (rotate0 j) (arnoldi0_projected sqrt f j st)).H j j, ?_⟩
    simp only [arnoldi0_rotated]
    rw [Function.update_noteq (by omega), Function.update_same, ra, pa,
      rH (j + 1) (by omega), hHn]
  · simp only [arnoldi0_rotated]
    rw [set2_apply, if_neg (by omega), rH0 hj, ps, pc, pH, pH]
    have e4 : j ≠ 0 := by omega
    have e5 : 0 < j := by omega
    simp [e4, e5]

/-- When the test of line 170 fails in each of the `n + 1` passes, the loop of cycle 0 runs
to its end, the last statement being the normalisation of line 190. -/
theorem cycle0_exhausted (sqrt : K → K) (f : matrix_mult K) (eps norm : K) (rel_prec : Int)
    (n j : Nat) (st : St K)
    (h : ∀ k, k ≤ n →
      ¬ precision_reached eps norm rel_prec (cycle0_state sqrt f k j st) (j + k)) :
    cycle0 sqrt f eps norm rel_prec (n + 1) j st
      = Sum.inr (normalise0 (j + n) (cycle0_state sqrt f n j st)) := by
  induction n generalizing j st with
  | zero =>
    have h0 : ¬ precision_reached eps norm rel_prec (arnoldi0 sqrt f j st) j :=
      h 0 (le_refl 0)
    rw [cycle0, if_neg h0, cycle0]
    rfl
  | succ n ih =>
    have h0 : ¬ precision_reached eps norm rel_prec (arnoldi0 sqrt f j st) j :=
      h 0 (Nat.zero_le _)
    rw [cycle0, if_neg h0]
    have ih' := ih (j + 1) (normalise0 j (arnoldi0 sqrt f j st)) (fun k hk => by
      have hk' := h (k + 1) (by omega)
      have e : j + (k + 1) = j + 1 + k := by omega
      rw [e] at hk'
      exact hk')
    have e : j + 1 + n = j + (n + 1) := by omega
    rw [e] at ih'
    exact ih'

theorem backsubst_H (j : Nat) (st : St K) : (backsubst j st).H = st.H := by
  have hrow : ∀ (i : Nat) (s0 : St K), (backsub_row j i s0).H = s0.H := by
    intro i s0
    unfold backsub_row
    exact foldl_inv_mem (fun s : St K => s.H = s0.H) _ _ _ rfl (fun _ _ _ hb => hb)
  unfold backsubst
  refine foldl_inv_mem (fun s : St K => s.H = st.H) _ _ _ rfl (fun b a _ hb => ?_)
  show (backsub_row j a b).H = st.H
  rw [hrow a b, hb]

theorem prepare_restart_H (Q : Vec K) (f : matrix_mult K) (m : Nat) (st : St K) :
    (prepare_restart Q f m st).H = st.H := by
  simp only [prepare_restart]
  exact backsubst_H (m - 1) st

/-- An Arnoldi step of a restart cycle writes `H[j][0..j+1]` only. -/
theorem arnoldiR_H (sqrt : K → K) (f : matrix_mult K) (st : St K) (j c r : Nat)
    (h : c ≠ j ∨ j + 2 ≤ r) : (arnoldiR sqrt f st j).H c r = st.H c r := by
  have hp : ∀ (n : Nat) (s0 : St K), n ≤ j + 1 →
      ((List.range n).foldl (projectR j) s0).H c r = s0.H c r := by
    intro n s0 hn
    induction n with
    | zero => rfl
    | succ n ih =>
      rw [List.range_succ, List.foldl_append, List.foldl_cons, List.foldl_nil]
      simp only [projectR]
      rw [set2_apply, if_neg, ih (by omega)]
      rintro ⟨e1, e2⟩
      rcases h with h | h
      · exact h e1
      · omega
  simp only [arnoldiR]
  rw [set2_apply, if_neg, hp (j + 1) _ (le_refl _)]
  rintro ⟨e1, e2⟩
  rcases h with h | h
  · exact h e1
  · omega

/-- A restart cycle, up to the call of `zgels`, leaves in `H` what it found there outside
the block written by the `zgemm` of line 274 (`H[c][0..nr_ev]` for `c < nr_ev`) and the
columns written by its Arnoldi steps (`H[j][0..j+1]` for `nr_ev <= j < m`): nothing clears
the rest of `H`. -/
theorem restart_arnoldi_H (sqrt : K → K) (la : DenseLA K) (f : matrix_mult K)
    (m nr_ev : Nat) (st : St K) (c r : Nat)
    (h : (c < nr_ev ∧ nr_ev + 1 ≤ r) ∨ (nr_ev ≤ c ∧ c + 2 ≤ r)) :
    (restart_arnoldi sqrt la f m nr_ev st).H c r = st.H c r := by
  unfold restart_arnoldi
  refine foldl_inv_mem (fun s : St K => s.H c r = st.H c r) _ _ _ ?_ (fun b a ha hb => ?_)
  · show (deflate_rebase m nr_ev (deflate_select sqrt la m nr_ev st)).H c r = st.H c r
    have hs : (deflate_select sqrt la m nr_ev st).H = st.H := rfl
    simp only [deflate_rebase, zgemm_CN]
    rw [if_neg, hs]
    rintro ⟨e1, e2⟩
    rcases h with h | h <;> omega
  · show (arnoldiR sqrt f b a).H c r = st.H c r
    have ha' : nr_ev ≤ a := (List.mem_range'_1.1 ha).1
    rw [arnoldiR_H sqrt f b a c r (by rcases h with h | h <;> omega)]
    exact hb

theorem arnoldi_w_congr (V V1 : Nat → Vec K) (x : Vec K) (n : Nat)
    (h : ∀ i, i < n → V i = V1 i) : arnoldi_w V x n = arnoldi_w V1 x n := by
  induction n with
  | zero => rfl
  | succ n ih =>
    rw [arnoldi_w, arnoldi_w, ih (fun i hi => h i (by omega)), h n (by omega)]

theorem arnoldi0_sol (sqrt : K → K) (f : matrix_mult K) (j : Nat) (st : St K) :
    (arnoldi0 sqrt f j st).sol = st.sol := by
  have h1 : ∀ s : St K, ((List.range (j + 1)).foldl (project0 j) s).sol = s.sol :=
    fun s => foldl_frame (project0 j) (fun t => t.sol) (fun _ _ => rfl) _ s
  have h2 : ∀ s : St K, ((List.range j).foldl (rotate0 j) s).sol = s.sol :=
    fun s => foldl_frame (rotate0 j) (fun t => t.sol) (fun _ _ => rfl) _ s
  simp only [arnoldi0]
  rw [h2, h1]

theorem backsubst_V (j : Nat) (st : St K) : (backsubst j st).V = st.V := by
  have hrow : ∀ (i : Nat) (s0 : St K), (backsub_row j i s0).V = s0.V := by
    intro i s0
    unfold backsub_row
    exact foldl_inv_mem (fun s : St K => s.V = s0.V) _ _ _ rfl (fun _ _ _ hb => hb)
  unfold backsubst
  refine foldl_inv_mem (fun s : St K => s.V = st.V) _ _ _ rfl (fun b a _ hb => ?_)
  show (backsub_row j a b).V = st.V
  rw [hrow a b, hb]

/-- The vectors with zero components beyond the third are closed under the vector
primitives of the solver. -/
theorem span3_chain : KrylovChain (id : matrix_mult K) (fun _ => span3) where
  mono := fun _ _ h => h
  apply := fun _ _ h => h
  sub := by
    rintro n x y h ⟨a, b, c, rfl⟩ ⟨a1, b1, c1, rfl⟩
    exact ⟨⟨a.re - (h.re * a1.re - h.im * a1.im), a.im - (h.re * a1.im + h.im * a1.re)⟩,
      ⟨b.re - (h.re * b1.re - h.im * b1.im), b.im - (h.re * b1.im + h.im * b1.re)⟩,
      ⟨c.re - (h.re * c1.re - h.im * c1.im), c.im - (h.re * c1.im + h.im * c1.re)⟩,
      by simp [spinor4, assign_diff_mul]⟩
  add := by
    rintro n x y h ⟨a, b, c, rfl⟩ ⟨a1, b1, c1, rfl⟩
    exact ⟨⟨a.re + (h.re * a1.re - h.im * a1.im), a.im + (h.re * a1.im + h.im * a1.re)⟩,
      ⟨b.re + (h.re * b1.re - h.im * b1.im), b.im + (h.re * b1.im + h.im * b1.re)⟩,
      ⟨c.re + (h.re * c1.re - h.im * c1.im), c.im + (h.re * c1.im + h.im * c1.re)⟩,
      by simp [spinor4, assign_add_mul]⟩
  scale := by
    rintro n r x ⟨a, b, c, rfl⟩
    exact ⟨⟨r * a.re, r * a.im⟩, ⟨r * b.re, r * b.im⟩, ⟨r * c.re, r * c.im⟩,
      by simp [spinor4, mul_r]⟩

/-- The four ways a call of `gmres_dr` ends, with the value returned and the state left. -/
theorem gmres_dr_cases (sqrt : K → K) (la : DenseLA K) (ws : Workspace K)
    (VR : Int) (P Q : Vec K) (m nr_ev : Nat) (max_restarts : Int) (eps_sq : K)
    (rel_prec : Int) (f : matrix_mult K) :
    (sqrt (square_norm (diff Q (f P))) = 0 ∧
      (gmres_dr sqrt la ws VR P Q m nr_ev max_restarts eps_sq rel_prec f).exit
        = ExitPath.entry_zero ∧
      (gmres_dr sqrt la ws VR P Q m nr_ev max_restarts eps_sq rel_prec f).ret = 0 ∧
      (gmres_dr sqrt la ws VR P Q m nr_ev max_restarts eps_sq rel_prec f).st
        = entry_state sqrt (init_gmres ws (m : Int) (Int.tdiv VR 2)) P Q f) ∨
    (sqrt (square_norm (diff Q (f P))) ≠ 0 ∧ ∃ j st1,
      cycle0 sqrt f (sqrt eps_sq) (sqrt (square_norm Q)) rel_prec m 0
        (loop_entry sqrt ws VR P Q m f) = Sum.inl (j, st1) ∧
      (gmres_dr sqrt la ws VR P Q m nr_ev max_restarts eps_sq rel_prec f).exit
        = ExitPath.inner j ∧
      (gmres_dr sqrt la ws VR P Q m nr_ev max_restarts eps_sq rel_prec f).ret = (j : Int) ∧
      (gmres_dr sqrt la ws VR P Q m nr_ev max_restarts eps_sq rel_prec f).st
        = clear_alpha_im m (backsubst j st1)) ∨
    (sqrt (square_norm (diff Q (f P))) ≠ 0 ∧ ∃ st1,
      cycle0 sqrt f (sqrt eps_sq) (sqrt (square_norm Q)) rel_prec m 0
        (loop_entry sqrt ws VR P Q m f) = Sum.inr st1 ∧
      sqrt (square_norm (prepare_restart Q f m st1).r) = 0 ∧
      (gmres_dr sqrt la ws VR P Q m nr_ev max_restarts eps_sq rel_prec f).exit
        = ExitPath.cycle0_zero ∧
      (gmres_dr sqrt la ws VR P Q m nr_ev max_restarts eps_sq rel_prec f).ret = 0 ∧
      (gmres_dr sqrt la ws VR P Q m nr_ev max_restarts eps_sq rel_prec f).st
        = prepare_restart Q f m st1) ∨
    (sqrt (square_norm (diff Q (f P))) ≠ 0 ∧ ∃ st1,
      cycle0 sqrt f (sqrt eps_sq) (sqrt (square_norm Q)) rel_prec m 0
        (loop_entry sqrt ws VR P Q m f) = Sum.inr st1 ∧
      sqrt (square_norm (prepare_restart Q f m st1).r) ≠ 0 ∧
      (gmres_dr sqrt la ws VR P Q m nr_ev max_restarts eps_sq rel_prec f).exit
        = ExitPath.max_restarts ∧
      (gmres_dr sqrt la ws VR P Q m nr_ev max_restarts eps_sq rel_prec f).ret = -1 ∧
      (gmres_dr sqrt la ws VR P Q m nr_ev max_restarts eps_sq rel_prec f).st
        = restart_loop sqrt la f Q m nr_ev (max_restarts - 1).toNat
            (prepare_restart Q f m st1)) := by
  by_cases h0 : sqrt (square_norm (diff Q (f P))) = 0
  · obtain ⟨a1, a2, -, a4⟩ :=
      gmres_dr_entry_zero sqrt la ws VR P Q m nr_ev max_restarts eps_sq rel_prec f h0
    exact Or.inl ⟨h0, a2, a1, a4⟩
  · cases hc : cycle0 sqrt f (sqrt eps_sq) (sqrt (square_norm Q)) rel_prec m 0
        (loop_entry sqrt ws VR P Q m f) with
    | inl p =>
      obtain ⟨j, st1⟩ := p
      obtain ⟨a1, a2, a3, -⟩ := gmres_dr_inner sqrt la ws VR P Q m nr_ev max_restarts eps_sq
        rel_prec f j st1 h0 hc
      exact Or.inr (Or.inl ⟨h0, j, st1, rfl, a2, a1, a3⟩)
    | inr st1 =>
      have hx := gmres_dr_exhausted sqrt la ws VR P Q m nr_ev max_restarts eps_sq rel_prec f
        st1 h0 hc
      by_cases hz : sqrt (square_norm (prepare_restart Q f m st1).r) = 0
      · obtain ⟨a1, a2, a3⟩ := hx.1 hz
        exact Or.inr (Or.inr (Or.inl ⟨h0, st1, rfl, hz, a2, a1, a3⟩))
      · obtain ⟨a1, a2, a3⟩ := hx.2.1 hz
        exact Or.inr (Or.inr (Or.inr ⟨h0, st1, rfl, hz, a2, a1, a3⟩))

theorem arnoldi0_napply (sqrt : K → K) (f : matrix_mult K) (j : Nat) (st : St K) :
    (arnoldi0 sqrt f j st).napply = st.napply + 1 := by
  have h1 : ∀ s : St K, ((List.range (j + 1)).foldl (project0 j) s).napply = s.napply :=
    fun s => foldl_frame (project0 j) (fun t => t.napply) (fun _ _ => rfl) _ s
  have h2 : ∀ s : St K, ((List.range j).foldl (rotate0 j) s).napply = s.napply :=
    fun s => foldl_frame (rotate0 j) (fun t => t.napply) (fun _ _ => rfl) _ s
  simp only [arnoldi0]
  rw [h2, h1]

theorem backsubst_napply (j : Nat) (st : St K) : (backsubst j st).napply = st.napply := by
  have hrow : ∀ (i : Nat) (s0 : St K), (backsub_row j i s0).napply = s0.napply := by
    intro i s0
    unfold backsub_row
    exact foldl_inv_mem (fun s : St K => s.napply = s0.napply) _ _ _ rfl (fun _ _ _ hb => hb)
  unfold backsubst
  refine foldl_inv_mem (fun s : St K => s.napply = st.napply) _ _ _ rfl (fun b a _ hb => ?_)
  show (backsub_row j a b).napply = st.napply
  rw [hrow a b, hb]

/-- Each pass of the cycle-0 loop applies the operator once. -/
theorem cycle0_napply (sqrt : K → K) (f : matrix_mult K) (eps norm : K) (rel_prec : Int)
    (n j : Nat) (st : St K) :
    (∀ i st1, cycle0 sqrt f eps norm rel_prec n j st = Sum.inl (i, st1) →
      j ≤ i ∧ st1.napply = st.napply + (i - j) + 1) ∧
    (∀ st1, cycle0 sqrt f eps norm rel_prec n j st = Sum.inr st1 →
      st1.napply = st.napply + n) := by
  induction n generalizing j st with
  | zero =>
    refine ⟨fun i st1 h => ?_, fun st1 h => ?_⟩
    · exact Sum.noConfusion h
    · rw [← Sum.inr.inj h]; rfl
  | succ n ih =>
    have ha := arnoldi0_napply sqrt f j st
    have hn : (normalise0 j (arnoldi0 sqrt f j st)).napply = st.napply + 1 := ha
    refine ⟨fun i st1 h => ?_, fun st1 h => ?_⟩
    · rw [cycle0] at h
      split at h
      · have h1 := Prod.mk.inj (Sum.inl.inj h)
        rw [← h1.1, ← h1.2, ha]
        exact ⟨le_refl j, by omega⟩
      · obtain ⟨q1, q2⟩ := (ih (j + 1) _).1 i st1 h
        rw [q2, hn]
        exact ⟨by omega, by omega⟩
    · rw [cycle0] at h
      split at h
      · exact Sum.noConfusion h
      · rw [(ih (j + 1) _).2 st1 h, hn]
        omega

theorem arnoldiR_napply (sqrt : K → K) (f : matrix_mult K) (st : St K) (j : Nat) :
    (arnoldiR sqrt f st j).napply = st.napply + 1 := by
  have hr : ∀ s : St K, ((List.range (j + 1)).foldl (projectR j) s).napply = s.napply :=
    fun s => foldl_frame (projectR j) (fun t => t.napply) (fun _ _ => rfl) _ s
  simp only [arnoldiR]
  rw [hr]

theorem foldl_count {α β : Type} (g : β → α → β) (cnt : β → Nat)
    (h : ∀ b a, cnt (g b a) = cnt b + 1) (l : List α) (b : β) :
    cnt (l.foldl g b) = cnt b + l.length := by
  induction l generalizing b with
  | nil => rfl
  | cons a l ih => rw [List.foldl_cons, ih, h, List.length_cons]; omega

/-- A restart cycle applies the operator once per Arnoldi step and once for the residual
of lines 365-366. -/
theorem restart_cycle_napply (sqrt : K → K) (la : DenseLA K) (f : matrix_mult K) (Q : Vec K)
    (m nr_ev : Nat) (st : St K) :
    (restart_cycle sqrt la f Q m nr_ev st).napply = st.napply + (m - nr_ev) + 1 := by
  have h1 : (restart_arnoldi sqrt la f m nr_ev st).napply = st.napply + (m - nr_ev) := by
    unfold restart_arnoldi
    simp only
    rw [foldl_count (arnoldiR sqrt f) (fun t => t.napply)
      (fun b a => arnoldiR_napply sqrt f b a), List.length_range']
    rfl
  have h2 : ∀ s : St K, (lsq_update la f Q m s).napply = s.napply + 1 := by
    intro s
    unfold lsq_update
    simp only
    congr 1
    exact foldl_inv_mem (fun t : St K => t.napply = s.napply) _ _ _ rfl (fun _ _ _ hb => hb)
  unfold restart_cycle
  rw [h2, h1]

theorem restart_loop_napply (sqrt : K → K) (la : DenseLA K) (f : matrix_mult K) (Q : Vec K)
    (m nr_ev n : Nat) (st : St K) :
    (restart_loop sqrt la f Q m nr_ev n st).napply = st.napply + n * (m - nr_ev + 1) := by
  induction n generalizing st with
  | zero => simp [restart_loop]
  | succ n ih =>
    rw [restart_loop, ih, restart_cycle_napply]
    ring

/-- Cycle 0 runs no deflation step and no Arnoldi pass of a restart cycle. -/
theorem arnoldi0_trace (sqrt : K → K) (f : matrix_mult K) (j : Nat) (st : St K) :
    ((arnoldi0 sqrt f j st).ndefl, (arnoldi0 sqrt f j st).rsteps) = (st.ndefl, st.rsteps) := by
  have h1 : ∀ s : St K, (fun t : St K => (t.ndefl, t.rsteps))
      ((List.range (j + 1)).foldl (project0 j) s) = (s.ndefl, s.rsteps) :=
    fun s => foldl_frame (project0 j) (fun t => (t.ndefl, t.rsteps)) (fun _ _ => rfl) _ s
  have h2 : ∀ s : St K, (fun t : St K => (t.ndefl, t.rsteps))
      ((List.range j).foldl (rotate0 j) s) = (s.ndefl, s.rsteps) :=
    fun s => foldl_frame (rotate0 j) (fun t => (t.ndefl, t.rsteps)) (fun _ _ => rfl) _ s
  simp only [Prod.mk.injEq] at h1 h2
  simp only [arnoldi0, Prod.mk.injEq]
  exact ⟨by rw [(h2 _).1, (h1 _).1], by rw [(h2 _).2, (h1 _).2]⟩

theorem backsubst_trace (j : Nat) (st : St K) :
    ((backsubst j st).ndefl, (backsubst j st).rsteps) = (st.ndefl, st.rsteps) := by
  have hrow : ∀ (i : Nat) (s0 : St K),
      ((backsub_row j i s0).ndefl, (backsub_row j i s0).rsteps) = (s0.ndefl, s0.rsteps) := by
    intro i s0
    unfold backsub_row
    exact foldl_inv_mem (fun t : St K => (t.ndefl, t.rsteps) = (s0.ndefl, s0.rsteps)) _ _ s0
      rfl (fun _ _ _ hb => hb)
  unfold backsubst
  refine foldl_inv_mem (fun t : St K => (t.ndefl, t.rsteps) = (st.ndefl, st.rsteps)) _ _ _
    rfl (fun b a _ hb => ?_)
  have h := hrow a b
  simp only [Prod.mk.injEq] at h hb ⊢
  exact ⟨h.1.trans hb.1, h.2.trans hb.2⟩

theorem clear_alpha_im_trace (m : Nat) (st : St K) :
    ((clear_alpha_im m st).ndefl, (clear_alpha_im m st).rsteps) = (st.ndefl, st.rsteps) := by
  unfold clear_alpha_im
  exact foldl_inv_mem (fun t : St K => (t.ndefl, t.rsteps) = (st.ndefl, st.rsteps)) _ _ st rfl
    (fun _ _ _ hb => hb)

theorem cycle0_trace (sqrt : K → K) (f : matrix_mult K) (eps norm : K) (rel_prec : Int)
    (n j : Nat) (st : St K) :
    (∀ i st1, cycle0 sqrt f eps norm rel_prec n j st = Sum.inl (i, st1) →
      (st1.ndefl, st1.rsteps) = (st.ndefl, st.rsteps)) ∧
    (∀ st1, cycle0 sqrt f eps norm rel_prec n j st = Sum.inr st1 →
      (st1.ndefl, st1.rsteps) = (st.ndefl, st.rsteps)) := by
  induction n generalizing j st with
  | zero =>
    refine ⟨fun i st1 h => ?_, fun st1 h => ?_⟩
    · exact Sum.noConfusion h
    · rw [← Sum.inr.inj h]
  | succ n ih =>
    have ha := arnoldi0_trace sqrt f j st
    have hn : ((normalise0 j (arnoldi0 sqrt f j st)).ndefl,
        (normalise0 j (arnoldi0 sqrt f j st)).rsteps) = (st.ndefl, st.rsteps) := ha
    refine ⟨fun i st1 h => ?_, fun st1 h => ?_⟩
    · rw [cycle0] at h
      split at h
      · have h1 := Sum.inl.inj h
        rw [← (Prod.mk.inj h1).2]
        exact ha
      · rw [(ih (j + 1) _).1 i st1 h, hn]
    · rw [cycle0] at h
      split at h
      · exact Sum.noConfusion h
      · rw [(ih (j + 1) _).2 st1 h, hn]

/-- When the loop of cycle 0 runs to its end, the test of line 170 failed in every pass. -/
theorem cycle0_inr_tests (sqrt : K → K) (f : matrix_mult K) (eps norm : K) (rel_prec : Int)
    (n j : Nat) (st st1 : St K)
    (hc : cycle0 sqrt f eps norm rel_prec n j st = Sum.inr st1) :
    ∀ k, k < n → ¬ precision_reached eps norm rel_prec (cycle0_state sqrt f k j st) (j + k) := by
  induction n generalizing j st with
  | zero => intro k hk; omega
  | succ n ih =>
    rw [cycle0] at hc
    split at hc
    · exact Sum.noConfusion hc
    · rename_i hp
      intro k hk
      cases k with
      | zero => exact hp
      | succ k =>
        have := ih (j + 1) _ hc k (by omega)
        have e : j + (k + 1) = j + 1 + k := by omega
        rw [e]
        exact this

/-- The part of a restart cycle before `zgels` runs one deflation step and then the Arnoldi
passes `j = nr_ev, ..., m-1`, in this order. -/
theorem restart_arnoldi_trace (sqrt : K → K) (la : DenseLA K) (f : matrix_mult K)
    (m nr_ev : Nat) (st : St K) :
    (restart_arnoldi sqrt la f m nr_ev st).ndefl = st.ndefl + 1 ∧
    (restart_arnoldi sqrt la f m nr_ev st).rsteps
      = (List.range' nr_ev (m - nr_ev)).reverse ++ st.rsteps := by
  have key : ∀ (l : List Nat) (s : St K),
      (l.foldl (arnoldiR sqrt f) s).ndefl = s.ndefl ∧
      (l.foldl (arnoldiR sqrt f) s).rsteps = l.reverse ++ s.rsteps := by
    intro l
    induction l with
    | nil => intro s; exact ⟨rfl, rfl⟩
    | cons a l ih =>
      intro s
      have hr : ∀ s0 : St K, (fun t : St K => (t.ndefl, t.rsteps))
          ((List.range (a + 1)).foldl (projectR a) s0) = (s0.ndefl, s0.rsteps) :=
        fun s0 => foldl_frame (projectR a) (fun t => (t.ndefl, t.rsteps)) (fun _ _ => rfl) _ s0
      simp only [Prod.mk.injEq] at hr
      have h1 : (arnoldiR sqrt f s a).ndefl = s.ndefl := by
        simp only [arnoldiR]
        exact (hr _).1
      have h2 : (arnoldiR sqrt f s a).rsteps = a :: s.rsteps := by
        simp only [arnoldiR]
        rw [(hr _).2]
      rw [List.foldl_cons, (ih _).1, (ih _).2, h1, h2]
      simp
  unfold restart_arnoldi
  simp only
  rw [(key _ _).1, (key _ _).2]
  exact ⟨rfl, rfl⟩

theorem restart_loop_ndefl (sqrt : K → K) (la : DenseLA K) (f : matrix_mult K) (Q : Vec K)
    (m nr_ev n : Nat) (st : St K) :
    (restart_loop sqrt la f Q m nr_ev n st).ndefl = st.ndefl + n := by
  have hl : ∀ s : St K, (lsq_update la f Q m s).ndefl = s.ndefl := by
    intro s
    unfold lsq_update
    exact foldl_inv_mem (fun t : St K => t.ndefl = s.ndefl) _ _ _ rfl (fun _ _ _ hb => hb)
  induction n generalizing st with
  | zero => rfl
  | succ n ih =>
    rw [restart_loop, ih, restart_cycle, hl, (restart_arnoldi_trace sqrt la f m nr_ev st).1]
    omega

theorem usum_congr (t t1 : Nat → Cx K) (lo n : Nat)
    (h : ∀ k, lo ≤ k → k < lo + n → t k = t1 k) : usum t lo n = usum t1 lo n := by
  induction n generalizing lo with
  | zero => rfl
  | succ n ih =>
    rw [usum, usum, h lo (le_refl lo) (by omega),
      ih (lo + 1) (fun k h1 h2 => h k (by omega) (by omega))]

/-- Lines 174-178: the inner loop of the back substitution subtracts from `alpha[i]` the
products `H[i][k] * alpha[k]` for `k = i+1, ..., j` and touches nothing else. -/
theorem backsub_row_spec (j i : Nat) (st : St K) :
    (backsub_row j i st).alpha i
      = Cx._diff_complex (st.alpha i)
          (usum (fun k => Cx._mult_assign_complex (st.H i k) (st.alpha k)) (i + 1) (j - i)) ∧
    (∀ k, k ≠ i → (backsub_row j i st).alpha k = st.alpha k) ∧
    (backsub_row j i st).H = st.H ∧ (backsub_row j i st).V = st.V ∧
    (backsub_row j i st).sol = st.sol := by
  have key : ∀ (n s : Nat) (s0 : St K), i < s →
      ((List.range' s n).foldl (fun (st : St K) (k : Nat) =>
        let tmp1 := Cx._mult_assign_complex (st.H i k) (st.alpha k)
        { st with alpha := Function.update st.alpha i (Cx._diff_complex (st.alpha i) tmp1) })
        s0).alpha i
        = Cx._diff_complex (s0.alpha i)
            (usum (fun k => Cx._mult_assign_complex (s0.H i k) (s0.alpha k)) s n) ∧
      (∀ k, k ≠ i → ((List.range' s n).foldl (fun (st : St K) (k : Nat) =>
        let tmp1 := Cx._mult_assign_complex (st.H i k) (st.alpha k)
        { st with alpha := Function.update st.alpha i (Cx._diff_complex (st.alpha i) tmp1) })
        s0).alpha k = s0.alpha k) ∧
      ((List.range' s n).foldl (fun (st : St K) (k : Nat) =>
        let tmp1 := Cx._mult_assign_complex (st.H i k) (st.alpha k)
        { st with alpha := Function.update st.alpha i (Cx._diff_complex (st.alpha i) tmp1) })
        s0).H = s0.H ∧
      ((List.range' s n).foldl (fun (st : St K) (k : Nat) =>
        let tmp1 := Cx._mult_assign_complex (st.H i k) (st.alpha k)
        { st with alpha := Function.update st.alpha i (Cx._diff_complex (st.alpha i) tmp1) })
        s0).V = s0.V ∧
      ((List.range' s n).foldl (fun (st : St K) (k : Nat) =>
        let tmp1 := Cx._mult_assign_complex (st.H i k) (st.alpha k)
        { st with alpha := Function.update st.alpha i (Cx._diff_complex (st.alpha i) tmp1) })
        s0).sol = s0.sol := by
    intro n
    induction n with
    | zero =>
      intro s s0 _
      simp [usum, Cx._diff_complex]
    | succ n ih =>
      intro s s0 hs
      rw [List.range'_succ, List.foldl_cons]
      obtain ⟨h1, h2, h3, h4, h5⟩ := ih (s + 1) _ (by omega : i < s + 1)
      refine ⟨?_, fun k hk => ?_, ?_, ?_, ?_⟩
      · rw [h1]
        simp only [Function.update_same]
        rw [usum, usum_congr _ (fun k => Cx._mult_assign_complex (s0.H i k) (s0.alpha k))
          (s + 1) n (fun k hk1 _ => by
            rw [Function.update_noteq (by omega)])]
        simp only [Cx._diff_complex, cadd, Cx.mk.injEq]
        constructor <;> ring
      · rw [h2 k hk]
        simp only
        rw [Function.update_noteq hk]
      · rw [h3]
      · rw [h4]
      · rw [h5]
  unfold backsub_row
  exact key (j - i) (i + 1) st (by omega)

theorem lin_comb_peel_first (c : Nat → Cx K) (V : Nat → Vec K) (z : Vec K) (n : Nat) :
    lin_comb c V z (n + 1)
      = lin_comb (fun t => c (t + 1)) (fun t => V (t + 1)) (assign_add_mul z (V 0) (c 0)) n := by
  induction n with
  | zero => rfl
  | succ n ih => rw [lin_comb, ih, lin_comb]

theorem backsub_row_self (j : Nat) (st : St K) : backsub_row j j st = st := by
  unfold backsub_row
  rw [Nat.sub_self]
  rfl

/-- One pass of the outer loop of the back substitution (lines 173-181, row `n`) solves row
`n` of the triangular system, given that the rows below it are solved. -/
theorem backsub_step_inv (st : St K) (j n : Nat) (s : St K) (hn : n ≤ j)
    (hd : (st.H n n).im = 0 ∧ (st.H n n).re ≠ 0) (hs : backsub_inv st j (n + 1) s) :
    backsub_inv st j n
      ({ backsub_row j n s with
        alpha := Function.update (backsub_row j n s).alpha n
          (Cx._mult_real ((backsub_row j n s).alpha n) (1 / ((backsub_row j n s).H n n).re))
        sol := assign_add_mul (backsub_row j n s).sol ((backsub_row j n s).V n)
          (Cx._mult_real ((backsub_row j n s).alpha n)
            (1 / ((backsub_row j n s).H n n).re)) } : St K) := by
  obtain ⟨sH, sV, sa, srow, ssol⟩ := hs
  obtain ⟨r1, r2, r3, r4, r5⟩ := backsub_row_spec j n s
  obtain ⟨d1, d2⟩ := hd
  have hnn : s.alpha n = st.alpha n := sa n (by omega)
  refine ⟨?_, ?_, fun k hk => ?_, fun i hi1 hi2 => ?_, ?_⟩
  · show (backsub_row j n s).H = st.H
    rw [r3, sH]
  · show (backsub_row j n s).V = st.V
    rw [r4, sV]
  · show Function.update (backsub_row j n s).alpha n _ k = st.alpha k
    rw [Function.update_noteq (by omega), r2 k (by omega)]
    exact sa k (by omega)
  · show tri_row st.H (Function.update (backsub_row j n s).alpha n _) i j = st.alpha i
    rcases Nat.lt_or_ge n i with h | h
    · rw [← srow i (by omega) hi2]
      unfold tri_row
      apply usum_congr
      intro k hk1 _
      rw [Function.update_noteq (by omega), r2 k (by omega)]
    · have e : i = n := by omega
      subst e
      unfold tri_row
      have e1 : j + 1 - i = (j - i) + 1 := by omega
      rw [e1, usum, usum_congr _ (fun k => Cx._mult_assign_complex (s.H i k) (s.alpha k))
        (i + 1) (j - i) (fun k hk1 _ => by
          rw [Function.update_noteq (by omega), r2 k (by omega), sH])]
      simp only [Function.update_same]
      rw [r1, r3, sH, hnn]
      generalize st.H i i = h at d1 d2 ⊢
      generalize usum (fun k => Cx._mult_assign_complex (st.H i k) (s.alpha k)) (i + 1) (j - i)
        = U
      generalize st.alpha i = a
      obtain ⟨hre, him⟩ := h
      obtain ⟨u1, u2⟩ := U
      obtain ⟨a1, a2⟩ := a
      simp only at d1 d2
      subst d1
      simp only [Cx._mult_assign_complex, Cx._mult_real, Cx._diff_complex, cadd, Cx.mk.injEq]
      constructor <;> field_simp
  · show assign_add_mul (backsub_row j n s).sol ((backsub_row j n s).V n) _ = _
    have e1 : j + 1 - n = (j + 1 - (n + 1)) + 1 := by omega
    rw [e1, lin_comb_peel_first, lin_comb_add, r5, r4, sV, ssol]
    simp only [Nat.add_zero, Function.update_same]
    congr 1
    apply lin_comb_congr
    intro t _
    constructor
    · rw [Function.update_noteq (by omega), r2 _ (by omega)]
      congr 1
      omega
    · congr 1
      omega

theorem backsub_fold_inv (st : St K) (j : Nat)
    (hd : ∀ i, i ≤ j → (st.H i i).im = 0 ∧ (st.H i i).re ≠ 0) :
    ∀ n, n ≤ j → ∀ s : St K, backsub_inv st j n s →
      backsub_inv st j 0
        ((List.range n).reverse.foldl (fun (st : St K) (i : Nat) =>
          let st : St K := backsub_row j i st
          let ai := Cx._mult_real (st.alpha i) (1 / (st.H i i).re)
          { st with
            alpha := Function.update st.alpha i ai
            sol := assign_add_mul st.sol (st.V i) ai }) s) := by
  intro n
  induction n with
  | zero => intro _ s hs; exact hs
  | succ n ih =>
    intro hn s hs
    rw [List.range_succ, List.reverse_append, List.reverse_singleton, List.singleton_append,
      List.foldl_cons]
    exact ih (by omega) _ (backsub_step_inv st j n s (by omega) (hd n (by omega)) hs)

/-- Lines 171-181: with a real non-zero diagonal the back substitution solves every row
`0..j` of the triangular system and adds the combination of the basis vectors with the
solved coefficients to the iterate; `H` and `V` are not written. -/
theorem backsubst_spec (j : Nat) (st : St K)
    (hd : ∀ i, i ≤ j → (st.H i i).im = 0 ∧ (st.H i i).re ≠ 0) :
    (backsubst j st).H = st.H ∧ (backsubst j st).V = st.V ∧
    (∀ i, i ≤ j → tri_row st.H (backsubst j st).alpha i j = st.alpha i) ∧
    (backsubst j st).sol = lin_comb (backsubst j st).alpha st.V st.sol (j + 1) := by
  have h0 : backsub_inv st j (j + 1) st := by
    refine ⟨rfl, rfl, fun _ _ => rfl, fun i h1 h2 => by omega, ?_⟩
    rw [Nat.sub_self]
    rfl
  have h1 := backsub_step_inv st j j st le_rfl (hd j le_rfl) h0
  rw [backsub_row_self] at h1
  have h2 := backsub_fold_inv st j hd j le_rfl _ h1
  obtain ⟨a1, a2, -, a4, a5⟩ := h2
  refine ⟨a1, a2, fun i hi => a4 i (Nat.zero_le _) hi, ?_⟩
  have e : (backsubst j st).sol
      = lin_comb (fun t => (backsubst j st).alpha (0 + t)) (fun t => st.V (0 + t)) st.sol
          (j + 1 - 0) := a5
  rw [e, Nat.sub_zero]
  apply lin_comb_congr
  intro t _
  simp only [Nat.zero_add]
  trivial

theorem usum_head (t : Nat → Cx K) (lo n : Nat) :
    usum t lo (n + 1) = cadd (t lo) (usum t (lo + 1) n) := rfl

/-- A triangular system with real non-zero diagonal has at most one solution on `0..j`. -/
theorem tri_row_unique (H : Nat → Nat → Cx K) (g : Nat → Cx K) (j : Nat)
    (hd : ∀ i, i ≤ j → (H i i).im = 0 ∧ (H i i).re ≠ 0) (y y1 : Nat → Cx K)
    (hy : ∀ i, i ≤ j → tri_row H y i j = g i)
    (hy1 : ∀ i, i ≤ j → tri_row H y1 i j = g i) :
    ∀ i, i ≤ j → y i = y1 i := by
  have key : ∀ n i, i ≤ j → j - i < n → y i = y1 i := by
    intro n
    induction n with
    | zero => intro i _ h; omega
    | succ n ih =>
      intro i hi hlt
      have e := (hy i hi).trans (hy1 i hi).symm
      unfold tri_row at e
      have e1 : j + 1 - i = (j - i) + 1 := by omega
      rw [e1, usum_head, usum_head,
        usum_congr (fun k => Cx._mult_assign_complex (H i k) (y k))
          (fun k => Cx._mult_assign_complex (H i k) (y1 k)) (i + 1) (j - i)
          (fun k hk1 hk2 => by
            show Cx._mult_assign_complex (H i k) (y k) = Cx._mult_assign_complex (H i k) (y1 k)
            rw [ih k (by omega) (by omega)])] at e
      obtain ⟨d1, d2⟩ := hd i hi
      generalize usum (fun k => Cx._mult_assign_complex (H i k) (y1 k)) (i + 1) (j - i)
        = U at e
      generalize H i i = h at d1 d2 e
      generalize y i = a at e ⊢
      generalize y1 i = b at e ⊢
      obtain ⟨hre, him⟩ := h
      obtain ⟨u1, u2⟩ := U
      obtain ⟨a1, a2⟩ := a
      obtain ⟨b1, b2⟩ := b
      simp only at d1 d2
      subst d1
      simp only [Cx._mult_assign_complex, cadd, Cx.mk.injEq, zero_mul, sub_zero, add_zero,
        add_left_inj] at e
      obtain ⟨e2, e3⟩ := e
      rw [Cx.mk.injEq]
      exact ⟨mul_left_cancel₀ d2 e2, mul_left_cancel₀ d2 e3⟩
  intro i hi
  exact key (j + 1) i hi (by omega)

/-- Lines 126-163: step `j` of cycle 0 writes only column `j` of `H`, and leaves
`H[j][j]` real (line 159). -/
theorem arnoldi0_H_col (sqrt : K → K) (f : matrix_mult K) (j : Nat) (st : St K) :
    (∀ a b, b ≠ j → (arnoldi0 sqrt f j st).H a b = st.H a b) ∧
    ((arnoldi0 sqrt f j st).H j j).im = 0 := by
  rw [arnoldi0_phases]
  constructor
  · intro a b hb
    rw [(arnoldi0_rotated_frame sqrt j _).2.2.2.2.2 a b (Or.inl hb),
      (arnoldi0_projected_fields sqrt f j st).2.2.1 a b, if_neg (fun h => hb h.2),
      if_neg (fun h => hb h.1)]
  · simp only [arnoldi0_rotated]
    rw [set2_apply, if_pos ⟨rfl, rfl⟩]
    rfl

/-- Lines 123-193: after the steps `j, ..., j + k` of cycle 0 the iterate is untouched, the
columns of `H` below `j` are untouched and the diagonal entries `H[i][i]` for
`i = j, ..., j + k` are real. -/
theorem cycle0_state_H (sqrt : K → K) (f : matrix_mult K) (k : Nat) :
    ∀ (j : Nat) (st : St K),
      (cycle0_state sqrt f k j st).sol = st.sol ∧
      (∀ a b, b < j → (cycle0_state sqrt f k j st).H a b = st.H a b) ∧
      (∀ i, j ≤ i → i ≤ j + k → ((cycle0_state sqrt f k j st).H i i).im = 0) := by
  induction k with
  | zero =>
    intro j st
    obtain ⟨h1, h2⟩ := arnoldi0_H_col sqrt f j st
    refine ⟨arnoldi0_sol sqrt f j st, fun a b hb => h1 a b (by omega), fun i hi1 hi2 => ?_⟩
    have e : i = j := by omega
    subst e
    exact h2
  | succ k ih =>
    intro j st
    obtain ⟨h1, h2⟩ := arnoldi0_H_col sqrt f j st
    obtain ⟨i1, i2, i3⟩ := ih (j + 1) (normalise0 j (arnoldi0 sqrt f j st))
    refine ⟨?_, fun a b hb => ?_, fun i hi1 hi2 => ?_⟩
    · show (cycle0_state sqrt f k (j + 1) (normalise0 j (arnoldi0 sqrt f j st))).sol = st.sol
      rw [i1]
      exact arnoldi0_sol sqrt f j st
    · show (cycle0_state sqrt f k (j + 1) (normalise0 j (arnoldi0 sqrt f j st))).H a b = _
      rw [i2 a b (by omega)]
      exact h1 a b (by omega)
    · show ((cycle0_state sqrt f k (j + 1) (normalise0 j (arnoldi0 sqrt f j st))).H i i).im = 0
      rcases Nat.eq_or_lt_of_le hi1 with e | e
      · subst e
        rw [i2 j j (by omega)]
        exact h2
      · exact i3 i (by omega) (by omega)

/-- Lines 123-193: a cycle 0 that runs out of steps leaves the state of its last step,
with `V[m]` normalised. -/
theorem cycle0_inr_eq (sqrt : K → K) (f : matrix_mult K) (eps norm : K) (rel_prec : Int)
    (n j : Nat) (st st1 : St K)
    (hc : cycle0 sqrt f eps norm rel_prec (n + 1) j st = Sum.inr st1) :
    st1 = normalise0 (j + n) (cycle0_state sqrt f n j st) := by
  have ht := cycle0_inr_tests sqrt f eps norm rel_prec (n + 1) j st st1 hc
  have he := cycle0_exhausted sqrt f eps norm rel_prec n j st (fun k hk => ht k (by omega))
  rw [he] at hc
  exact (Sum.inr.inj hc).symm

/-- The phases of `deflate_select`: its `G`, `evalues`, `sortarray`, `idx` and `work` are
the results of `deflate_eig`, `deflate_sorted` and of the orthonormalisation of
`deflate_copied`. -/
theorem deflate_select_phases (sqrt : K → K) (la : DenseLA K) (m nr_ev : Nat) (st : St K) :
    (deflate_select sqrt la m nr_ev st).G = (deflate_eig la m st).1 ∧
    (deflate_select sqrt la m nr_ev st).evalues = (deflate_eig la m st).2.2 ∧
    (deflate_select sqrt la m nr_ev st).sortarray = (deflate_sorted la m st).1 ∧
    (deflate_select sqrt la m nr_ev st).idx = (deflate_sorted la m st).2 ∧
    (deflate_select sqrt la m nr_ev st).work
      = deflate_orthonormalise sqrt m nr_ev (deflate_copied sqrt la m nr_ev st) :=
  ⟨rfl, rfl, rfl, rfl, rfl⟩

theorem deflate_keys_lt (la : DenseLA K) (m : Nat) (st : St K) (i : Nat) (h : i < m) :
    (deflate_keys la m st).1 i = Cx._complex_square_norm ((deflate_eig la m st).2.2 i) ∧
    (deflate_keys la m st).2 i = (i : Int) := by
  constructor
  · show (if i < m then Cx._complex_square_norm ((deflate_eig la m st).2.2 i)
      else st.sortarray i) = _
    rw [if_pos h]
  · show (if i < m then (i : Int) else _) = _
    rw [if_pos h]

theorem short_ModifiedGS_eq (sqrt : K → K) (v : Nat → Cx K) (n k : Nat)
    (A : Nat → Nat → Cx K) :
    short_ModifiedGS sqrt v n k A
      = fun i => if i < n then
          ⟨(gs_projected v n k A i).re
              / sqrt (short_scalar_prod (gs_projected v n k A) (gs_projected v n k A) n).re,
            (gs_projected v n k A i).im
              / sqrt (short_scalar_prod (gs_projected v n k A) (gs_projected v n k A) n).re⟩
        else gs_projected v n k A i := rfl

theorem gs_projected_succ (v : Nat → Cx K) (n k : Nat) (A : Nat → Nat → Cx K) :
    gs_projected v n (k + 1) A
      = zaxpy n ⟨-(short_scalar_prod (A k) (gs_projected v n k A) n).re,
          -(short_scalar_prod (A k) (gs_projected v n k A) n).im⟩ (A k)
          (gs_projected v n k A) := by
  simp only [gs_projected, List.range_succ, List.foldl_append, List.foldl_cons, List.foldl_nil]

theorem short_scalar_prod_succ (y x : Nat → Cx K) (N : Nat) :
    short_scalar_prod y x (N + 1)
      = ⟨(short_scalar_prod y x N).re + ((x N).re * (y N).re + (x N).im * (y N).im),
         (short_scalar_prod y x N).im + (-(x N).re * (y N).im + (x N).im * (y N).re)⟩ := by
  simp only [short_scalar_prod, List.range_succ, List.foldl_append, List.foldl_cons,
    List.foldl_nil]

theorem short_scalar_prod_zero (y x : Nat → Cx K) : short_scalar_prod y x 0 = ⟨0, 0⟩ := rfl

/-- The product `short_scalar_prod` is linear in its second argument: for `N <= n`,
`<y, w + a*x> = <y, w> + a*<y, x>`. -/
theorem short_scalar_prod_zaxpy (y x w : Nat → Cx K) (a : Cx K) (n N : Nat) (h : N ≤ n) :
    short_scalar_prod y (zaxpy n a x w) N
      = cadd (short_scalar_prod y w N) (cmul a (short_scalar_prod y x N)) := by
  induction N with
  | zero => simp [short_scalar_prod_zero, cadd, cmul]
  | succ N ih =>
    rw [short_scalar_prod_succ, short_scalar_prod_succ, short_scalar_prod_succ, ih (by omega)]
    have hN : N < n := by omega
    simp only [zaxpy, if_pos hN, cadd, cmul, Cx.mk.injEq]
    constructor <;> ring

/-- The product of a vector with itself has no imaginary part and a non-negative real
part. -/
theorem short_scalar_prod_self (x : Nat → Cx K) (N : Nat) :
    (short_scalar_prod x x N).im = 0 ∧ 0 ≤ (short_scalar_prod x x N).re := by
  induction N with
  | zero => simp [short_scalar_prod_zero]
  | succ N ih =>
    rw [short_scalar_prod_succ]
    refine ⟨?_, ?_⟩
    · show (short_scalar_prod x x N).im + (-(x N).re * (x N).im + (x N).im * (x N).re) = 0
      rw [ih.1]; ring
    · show 0 ≤ (short_scalar_prod x x N).re + ((x N).re * (x N).re + (x N).im * (x N).im)
      have h1 := mul_self_nonneg (x N).re
      have h2 := mul_self_nonneg (x N).im
      linarith [ih.2]

/-- A vector whose product with itself vanishes is zero on the entries summed over. -/
theorem short_scalar_prod_self_eq_zero (x : Nat → Cx K) (N : Nat)
    (h : (short_scalar_prod x x N).re = 0) : ∀ ix, ix < N → x ix = ⟨0, 0⟩ := by
  induction N with
  | zero => intro ix hix; omega
  | succ N ih =>
    rw [short_scalar_prod_succ] at h
    have h0 := (short_scalar_prod_self x N).2
    have h1 := mul_self_nonneg (x N).re
    have h2 := mul_self_nonneg (x N).im
    have h3 : (short_scalar_prod x x N).re + ((x N).re * (x N).re + (x N).im * (x N).im)
        = 0 := h
    have e0 : (short_scalar_prod x x N).re = 0 := by linarith
    have e1 : (x N).re * (x N).re = 0 := by linarith
    have e2 : (x N).im * (x N).im = 0 := by linarith
    intro ix hix
    rcases Nat.lt_or_ge ix N with hlt | hge
    · exact ih e0 ix hlt
    · have e : ix = N := by omega
      subst e
      have r1 : (x ix).re = 0 := mul_self_eq_zero.1 e1
      have r2 : (x ix).im = 0 := mul_self_eq_zero.1 e2
      cases hx : x ix with
      | mk a b =>
        rw [hx] at r1 r2
        simp only at r1 r2
        rw [r1, r2]

theorem short_scalar_prod_congr (y y1 x x1 : Nat → Cx K) (N : Nat)
    (h : ∀ ix, ix < N → y ix = y1 ix ∧ x ix = x1 ix) :
    short_scalar_prod y x N = short_scalar_prod y1 x1 N := by
  induction N with
  | zero => rfl
  | succ N ih =>
    rw [short_scalar_prod_succ, short_scalar_prod_succ,
      ih (fun ix hix => h ix (by omega)), (h N (by omega)).1, (h N (by omega)).2]

/-- Lines 399-403: after `i` passes of the projection loop the vector is orthogonal to the
rows `0..i-1`, when these are orthonormal. -/
theorem gs_projected_orthogonal (v : Nat → Cx K) (n k : Nat) (A : Nat → Nat → Cx K)
    (hA : rows_orthonormal A k n) :
    ∀ i, i ≤ k → ∀ l, l < i → short_scalar_prod (A l) (gs_projected v n i A) n = ⟨0, 0⟩ := by
  intro i
  induction i with
  | zero => intro _ l hl; omega
  | succ i ih =>
    intro hi l hl
    rw [gs_projected_succ, short_scalar_prod_zaxpy _ _ _ _ n n le_rfl,
      hA l i (by omega) (by omega)]
    rcases Nat.lt_or_ge l i with h | h
    · rw [ih (by omega) l h, if_neg (by omega)]
      simp [cadd, cmul]
    · have e : l = i := by omega
      subst e
      rw [if_pos rfl]
      simp [cadd, cmul]

/-- Lines 405-409: dividing the first `n` entries of `w` by the real number `r` divides
its product with `y` by `r`. -/
theorem short_scalar_prod_div_right (y w : Nat → Cx K) (r : K) (n N : Nat) (h : N ≤ n) :
    short_scalar_prod y
        (fun i => if i < n then (⟨(w i).re / r, (w i).im / r⟩ : Cx K) else w i) N
      = ⟨(short_scalar_prod y w N).re / r, (short_scalar_prod y w N).im / r⟩ := by
  induction N with
  | zero => simp [short_scalar_prod_zero]
  | succ N ih =>
    rw [short_scalar_prod_succ, short_scalar_prod_succ, ih (by omega)]
    have hN : N < n := by omega
    simp only [if_pos hN, Cx.mk.injEq]
    constructor <;> ring

theorem short_scalar_prod_div_left (x w : Nat → Cx K) (r : K) (n N : Nat) (h : N ≤ n) :
    short_scalar_prod
        (fun i => if i < n then (⟨(w i).re / r, (w i).im / r⟩ : Cx K) else w i) x N
      = ⟨(short_scalar_prod w x N).re / r, (short_scalar_prod w x N).im / r⟩ := by
  induction N with
  | zero => simp [short_scalar_prod_zero]
  | succ N ih =>
    rw [short_scalar_prod_succ, short_scalar_prod_succ, ih (by omega)]
    have hN : N < n := by omega
    simp only [if_pos hN, Cx.mk.injEq]
    constructor <;> ring

/-- The function `short_ModifiedGS` (lines 395-410) in exact arithmetic: with the first
`k` rows of `A` orthonormal and a non-zero vector left by the projections, the result has
unit norm and is orthogonal to every row `i < k`. -/
theorem short_ModifiedGS_spec (sqrt : K → K) (hsq : ∀ y : K, 0 ≤ y → sqrt y * sqrt y = y)
    (v : Nat → Cx K) (n k : Nat) (A : Nat → Nat → Cx K) (hA : rows_orthonormal A k n)
    (hne : (short_scalar_prod (gs_projected v n k A) (gs_projected v n k A) n).re ≠ 0) :
    short_scalar_prod (short_ModifiedGS sqrt v n k A) (short_ModifiedGS sqrt v n k A) n
      = ⟨1, 0⟩ ∧
    ∀ i, i < k → short_scalar_prod (A i) (short_ModifiedGS sqrt v n k A) n = ⟨0, 0⟩ := by
  obtain ⟨s1, s2⟩ := short_scalar_prod_self (gs_projected v n k A) n
  have hs := hsq _ s2
  have hr : sqrt (short_scalar_prod (gs_projected v n k A) (gs_projected v n k A) n).re ≠ 0 := by
    intro h0
    rw [h0, mul_zero] at hs
    exact hne hs.symm
  rw [short_ModifiedGS_eq]
  constructor
  · rw [short_scalar_prod_div_right _ _ _ n n le_rfl,
      short_scalar_prod_div_left _ _ _ n n le_rfl, s1, Cx.mk.injEq]
    constructor
    · show (short_scalar_prod (gs_projected v n k A) (gs_projected v n k A) n).re / _ / _ = 1
      rw [div_div]
      nth_rewrite 1 [← hs]
      exact div_self (mul_ne_zero hr hr)
    · show (0 : K) / _ / _ = 0
      simp
  · intro i hi
    rw [short_scalar_prod_div_right _ _ _ n n le_rfl,
      gs_projected_orthogonal v n k A hA k le_rfl i hi]
    simp

theorem cadd_zero_right (z : Cx K) : cadd z ⟨0, 0⟩ = z := by
  cases z; simp [cadd]

theorem cadd_zero_left (z : Cx K) : cadd ⟨0, 0⟩ z = z := by
  cases z; simp [cadd]

theorem cmul_zero_left (z : Cx K) : cmul ⟨0, 0⟩ z = ⟨0, 0⟩ := by
  cases z; simp [cmul]

theorem cmul_zero_right (z : Cx K) : cmul z ⟨0, 0⟩ = ⟨0, 0⟩ := by
  cases z; simp [cmul]

theorem cmul_one_left (z : Cx K) : cmul ⟨1, 0⟩ z = z := by
  cases z; simp [cmul]

theorem in_row_span_congr (A : Nat → Nat → Cx K) (n k : Nat) (v v1 : Nat → Cx K)
    (hv : in_row_span A n k v) (h : ∀ ix, ix < n → v1 ix = v ix) : in_row_span A n k v1 := by
  cases k with
  | zero => exact fun ix hix => (h ix hix).trans (hv ix hix)
  | succ k =>
    obtain ⟨c, w, hw, he⟩ := hv
    exact ⟨c, w, hw, fun ix hix => (h ix hix).trans (he ix hix)⟩

theorem in_row_span_zero (A : Nat → Nat → Cx K) (n k : Nat) (v : Nat → Cx K)
    (h : ∀ ix, ix < n → v ix = ⟨0, 0⟩) : in_row_span A n k v := by
  induction k with
  | zero => exact h
  | succ k ih =>
    exact ⟨⟨0, 0⟩, v, ih, fun ix _ => by rw [cmul_zero_left, cadd_zero_right]⟩

theorem in_row_span_add (A : Nat → Nat → Cx K) (n k : Nat) :
    ∀ v w : Nat → Cx K, in_row_span A n k v → in_row_span A n k w →
      in_row_span A n k (fun ix => cadd (v ix) (w ix)) := by
  induction k with
  | zero =>
    intro v w hv hw ix hix
    show cadd (v ix) (w ix) = ⟨0, 0⟩
    rw [hv ix hix, hw ix hix, cadd_zero_right]
  | succ k ih =>
    rintro v w ⟨c, v1, hv1, hv⟩ ⟨d, w1, hw1, hw⟩
    refine ⟨cadd c d, fun ix => cadd (v1 ix) (w1 ix), ih v1 w1 hv1 hw1, fun ix hix => ?_⟩
    show cadd (v ix) (w ix) = _
    rw [hv ix hix, hw ix hix]
    simp only [cadd, cmul, Cx.mk.injEq]
    constructor <;> ring

theorem in_row_span_smul (A : Nat → Nat → Cx K) (n k : Nat) (a : Cx K) :
    ∀ v : Nat → Cx K, in_row_span A n k v →
      in_row_span A n k (fun ix => cmul a (v ix)) := by
  induction k with
  | zero =>
    intro v hv ix hix
    show cmul a (v ix) = ⟨0, 0⟩
    rw [hv ix hix, cmul_zero_right]
  | succ k ih =>
    rintro v ⟨c, v1, hv1, hv⟩
    refine ⟨cmul a c, fun ix => cmul a (v1 ix), ih v1 hv1, fun ix hix => ?_⟩
    show cmul a (v ix) = _
    rw [hv ix hix]
    simp only [cadd, cmul, Cx.mk.injEq]
    constructor <;> ring

theorem in_row_span_succ (A : Nat → Nat → Cx K) (n k : Nat) (v : Nat → Cx K)
    (hv : in_row_span A n k v) : in_row_span A n (k + 1) v :=
  ⟨⟨0, 0⟩, v, hv, fun ix _ => by rw [cmul_zero_left, cadd_zero_right]⟩

theorem in_row_span_mono (A : Nat → Nat → Cx K) (n k k1 : Nat) (v : Nat → Cx K)
    (hv : in_row_span A n k v) (h : k ≤ k1) : in_row_span A n k1 v := by
  induction k1 with
  | zero =>
    have e : k = 0 := by omega
    subst e
    exact hv
  | succ k1 ih =>
    rcases Nat.lt_or_ge k (k1 + 1) with hlt | hge
    · exact in_row_span_succ A n k1 v (ih (by omega))
    · have e : k = k1 + 1 := by omega
      subst e
      exact hv

theorem in_row_span_row (A : Nat → Nat → Cx K) (n j k : Nat) (h : j < k) :
    in_row_span A n k (A j) := by
  have h1 : in_row_span A n (j + 1) (A j) :=
    ⟨⟨1, 0⟩, fun _ => ⟨0, 0⟩, in_row_span_zero A n j _ (fun _ _ => rfl),
      fun ix _ => by rw [cmul_one_left, cadd_zero_left]⟩
  exact in_row_span_mono A n (j + 1) k _ h1 h

/-- A combination of rows that are themselves combinations of the rows of `B` is a
combination of the rows of `B`. -/
theorem in_row_span_trans (A B : Nat → Nat → Cx K) (n k1 : Nat) :
    ∀ (k : Nat) (v : Nat → Cx K), in_row_span A n k v →
      (∀ j, j < k → in_row_span B n k1 (A j)) → in_row_span B n k1 v := by
  intro k
  induction k with
  | zero => intro v hv _; exact in_row_span_zero B n k1 v hv
  | succ k ih =>
    rintro v ⟨c, w, hw, hv⟩ hrows
    have h1 := ih w hw (fun j hj => hrows j (by omega))
    have h2 := in_row_span_smul B n k1 c _ (hrows k (by omega))
    exact in_row_span_congr B n k1 _ v (in_row_span_add B n k1 _ _ h1 h2) hv

/-- Lines 399-403: the projections subtract from `v` a combination of the rows
`0..k-1`. -/
theorem gs_projected_decomp (v : Nat → Cx K) (n : Nat) (A : Nat → Nat → Cx K) :
    ∀ k, ∃ u : Nat → Cx K, in_row_span A n k u ∧
      ∀ ix, ix < n → v ix = cadd (gs_projected v n k A ix) (u ix) := by
  intro k
  induction k with
  | zero =>
    exact ⟨fun _ => ⟨0, 0⟩, fun _ _ => rfl, fun ix _ => (cadd_zero_right _).symm⟩
  | succ k ih =>
    obtain ⟨u, hu, hv⟩ := ih
    refine ⟨fun ix => cadd (u ix) (cmul (short_scalar_prod (A k) (gs_projected v n k A) n)
      (A k ix)), ⟨_, u, hu, fun _ _ => rfl⟩, fun ix hix => ?_⟩
    rw [hv ix hix, gs_projected_succ]
    simp only [zaxpy, if_pos hix, cadd, cmul, Cx.mk.injEq]
    constructor <;> ring

theorem short_scalar_prod_symm (y x : Nat → Cx K) (N : Nat) :
    (short_scalar_prod y x N).re = (short_scalar_prod x y N).re ∧
    (short_scalar_prod y x N).im = -(short_scalar_prod x y N).im := by
  induction N with
  | zero => simp [short_scalar_prod_zero]
  | succ N ih =>
    rw [short_scalar_prod_succ, short_scalar_prod_succ]
    constructor
    · show (short_scalar_prod y x N).re + _ = (short_scalar_prod x y N).re + _
      rw [ih.1]; ring
    · show (short_scalar_prod y x N).im + _ = -((short_scalar_prod x y N).im + _)
      rw [ih.2]; ring

theorem short_scalar_prod_symm_zero (y x : Nat → Cx K) (N : Nat)
    (h : short_scalar_prod x y N = ⟨0, 0⟩) : short_scalar_prod y x N = ⟨0, 0⟩ := by
  obtain ⟨h1, h2⟩ := short_scalar_prod_symm y x N
  rw [h] at h1 h2
  cases hz : short_scalar_prod y x N with
  | mk a b =>
    rw [hz] at h1 h2
    simp only at h1 h2
    rw [h1, h2, neg_zero]

/-- A vector outside the span of the rows `0..k-1` is not annihilated by the projections
of lines 399-403. -/
theorem gs_projected_ne_zero (v : Nat → Cx K) (n k : Nat) (A : Nat → Nat → Cx K)
    (hv : ¬ in_row_span A n k v) :
    (short_scalar_prod (gs_projected v n k A) (gs_projected v n k A) n).re ≠ 0 := by
  intro h0
  obtain ⟨u, hu, hd⟩ := gs_projected_decomp v n A k
  have hz := short_scalar_prod_self_eq_zero _ n h0
  exact hv (in_row_span_congr A n k u v hu (fun ix hix => by
    rw [hd ix hix, hz ix hix, cadd_zero_left]))

/-- The result of `short_ModifiedGS` is a combination of the rows it projects out and of
its argument. -/
theorem short_ModifiedGS_span (sqrt : K → K) (v : Nat → Cx K) (n k : Nat)
    (A B : Nat → Nat → Cx K) (k1 : Nat) (hv : in_row_span B n k1 v)
    (hA : ∀ j, j < k → in_row_span B n k1 (A j)) :
    in_row_span B n k1 (short_ModifiedGS sqrt v n k A) := by
  obtain ⟨u, hu, hd⟩ := gs_projected_decomp v n A k
  have h1 := in_row_span_trans A B n k1 k u hu hA
  have h2 := in_row_span_add B n k1 _ _ hv (in_row_span_smul B n k1 ⟨-1, 0⟩ u h1)
  have h3 := in_row_span_smul B n k1
    ⟨1 / sqrt (short_scalar_prod (gs_projected v n k A) (gs_projected v n k A) n).re, 0⟩ _ h2
  refine in_row_span_congr B n k1 _ _ h3 (fun ix hix => ?_)
  rw [short_ModifiedGS_eq]
  show (if ix < n then _ else _) = cmul _ (cadd (v ix) (cmul ⟨-1, 0⟩ (u ix)))
  rw [if_pos hix, hd ix hix]
  simp only [cadd, cmul, Cx.mk.injEq]
  constructor <;> ring

/-- One call `short_ModifiedGS(work[i], n, i, work[0])` (lines 267, 270): if the rows
before `i` are orthonormal combinations of the rows of `C`, and row `i` agrees with row
`i` of `C`, which is not a combination of the rows of `C` before it, then afterwards the
rows `0..i` are orthonormal combinations of the rows of `C`. -/
theorem gs_step (sqrt : K → K) (hsq : ∀ y : K, 0 ≤ y → sqrt y * sqrt y = y) (n i : Nat)
    (W C : Nat → Nat → Cx K) (hA : rows_orthonormal W i n)
    (hvC : ∀ ix, ix < n → W i ix = C i ix)
    (hspan : ∀ j, j < i → in_row_span C n (j + 1) (W j))
    (hind : ¬ in_row_span C n i (C i)) :
    rows_orthonormal (Function.update W i (short_ModifiedGS sqrt (W i) n i W)) (i + 1) n ∧
    ∀ j, j < i + 1 →
      in_row_span C n (j + 1) (Function.update W i (short_ModifiedGS sqrt (W i) n i W) j) := by
  have hv : ¬ in_row_span W n i (W i) := by
    intro h
    have h1 := in_row_span_trans W C n i i (W i) h
      (fun j hj => in_row_span_mono C n (j + 1) i _ (hspan j hj) (by omega))
    exact hind (in_row_span_congr C n i _ _ h1 (fun ix hix => (hvC ix hix).symm))
  obtain ⟨g1, g2⟩ := short_ModifiedGS_spec sqrt hsq (W i) n i W hA
    (gs_projected_ne_zero (W i) n i W hv)
  constructor
  · intro a b ha hb
    rcases Nat.lt_or_ge a i with ha1 | ha1
    · rw [Function.update_noteq (by omega)]
      rcases Nat.lt_or_ge b i with hb1 | hb1
      · rw [Function.update_noteq (by omega)]
        exact hA a b ha1 hb1
      · have e : b = i := by omega
        subst e
        rw [Function.update_same, if_neg (by omega)]
        exact g2 a ha1
    · have e : a = i := by omega
      subst e
      rw [Function.update_same]
      rcases Nat.lt_or_ge b a with hb1 | hb1
      · rw [Function.update_noteq (by omega), if_neg (by omega)]
        exact short_scalar_prod_symm_zero _ _ n (g2 b hb1)
      · have e : b = a := by omega
        subst e
        rw [Function.update_same, if_pos rfl]
        exact g1
  · intro j hj
    rcases Nat.lt_or_ge j i with hj1 | hj1
    · rw [Function.update_noteq (by omega)]
      exact hspan j hj1
    · have e : j = i := by omega
      subst e
      rw [Function.update_same]
      refine short_ModifiedGS_span sqrt (W j) n j W C (j + 1) ?_ ?_
      · exact in_row_span_congr C n (j + 1) _ _ (in_row_span_row C n j (j + 1) (by omega)) hvC
      · exact fun l hl => in_row_span_mono C n (l + 1) (j + 1) _ (hspan l hl) (by omega)

theorem gs_rows_succ (sqrt : K → K) (m : Nat) (wk : Nat → Nat → Cx K) (i : Nat) :
    gs_rows sqrt m wk (i + 1)
      = Function.update (set2 (gs_rows sqrt m wk i) i m Cx.czero) i
          (short_ModifiedGS sqrt (set2 (gs_rows sqrt m wk i) i m Cx.czero i) (m + 1) i
            (set2 (gs_rows sqrt m wk i) i m Cx.czero)) := by
  simp only [gs_rows, List.range_succ, List.foldl_append, List.foldl_cons, List.foldl_nil]

theorem set2_row_ne {X : Type} (A : Nat → Nat → X) (i j : Nat) (v : X) (a : Nat)
    (h : a ≠ i) : set2 A i j v a = A a := by
  funext b
  rw [set2_apply, if_neg (fun hh => h hh.1)]

/-- Lines 264-268: after `i` passes of the loop the rows `0..i-1` of `work` are
orthonormal combinations of the rows of the matrix the loop reads, and the rows from `i`
on are untouched. -/
theorem gs_rows_spec (sqrt : K → K) (hsq : ∀ y : K, 0 ≤ y → sqrt y * sqrt y = y)
    (m nr_ev : Nat) (wk : Nat → Nat → Cx K)
    (hli : rows_independent (cleared_rows m nr_ev wk) (nr_ev + 1) (m + 1)) :
    ∀ i, i ≤ nr_ev →
      rows_orthonormal (gs_rows sqrt m wk i) i (m + 1) ∧
      (∀ j, i ≤ j → gs_rows sqrt m wk i j = wk j) ∧
      ∀ j, j < i →
        in_row_span (cleared_rows m nr_ev wk) (m + 1) (j + 1) (gs_rows sqrt m wk i j) := by
  intro i
  induction i with
  | zero =>
    intro _
    exact ⟨fun a b ha _ => by omega, fun j _ => rfl, fun j hj => by omega⟩
  | succ i ih =>
    intro hi
    obtain ⟨h1, h2, h3⟩ := ih (by omega)
    have hA : rows_orthonormal (set2 (gs_rows sqrt m wk i) i m Cx.czero) i (m + 1) := by
      intro a b ha hb
      rw [set2_row_ne _ _ _ _ a (by omega), set2_row_ne _ _ _ _ b (by omega)]
      exact h1 a b ha hb
    have hvC : ∀ ix, ix < m + 1 → set2 (gs_rows sqrt m wk i) i m Cx.czero i ix
        = cleared_rows m nr_ev wk i ix := by
      intro ix _
      rw [set2_apply, h2 i le_rfl]
      show _ = if i < nr_ev ∧ ix = m then Cx.czero else wk i ix
      by_cases hx : ix = m
      · rw [if_pos ⟨rfl, hx⟩, if_pos ⟨by omega, hx⟩]
      · rw [if_neg (fun hh => hx hh.2), if_neg (fun hh => hx hh.2)]
    have hspan : ∀ j, j < i → in_row_span (cleared_rows m nr_ev wk) (m + 1) (j + 1)
        (set2 (gs_rows sqrt m wk i) i m Cx.czero j) := by
      intro j hj
      rw [set2_row_ne _ _ _ _ j (by omega)]
      exact h3 j hj
    obtain ⟨g1, g2⟩ := gs_step sqrt hsq (m + 1) i _ (cleared_rows m nr_ev wk) hA hvC hspan
      (hli i (by omega))
    rw [gs_rows_succ]
    refine ⟨g1, fun j hj => ?_, g2⟩
    rw [Function.update_noteq (by omega), set2_row_ne _ _ _ _ j (by omega)]
    exact h2 j (by omega)

/-- Lines 264-270: if the vectors the orthonormalisation reads (the rows `0..nr_ev` of
`work`, the selected ones with entry `m` cleared) are linearly independent, the rows
`0..nr_ev` it leaves are orthonormal. -/
theorem deflate_orthonormalise_spec (sqrt : K → K)
    (hsq : ∀ y : K, 0 ≤ y → sqrt y * sqrt y = y) (m nr_ev : Nat) (wk : Nat → Nat → Cx K)
    (hli : rows_independent (cleared_rows m nr_ev wk) (nr_ev + 1) (m + 1)) :
    rows_orthonormal (deflate_orthonormalise sqrt m nr_ev wk) (nr_ev + 1) (m + 1) := by
  obtain ⟨h1, h2, h3⟩ := gs_rows_spec sqrt hsq m nr_ev wk hli nr_ev le_rfl
  have hvC : ∀ ix, ix < m + 1 → gs_rows sqrt m wk nr_ev nr_ev ix
      = cleared_rows m nr_ev wk nr_ev ix := by
    intro ix _
    rw [h2 nr_ev le_rfl]
    show _ = if nr_ev < nr_ev ∧ ix = m then Cx.czero else wk nr_ev ix
    rw [if_neg (fun hh => absurd hh.1 (lt_irrefl _))]
  exact (gs_step sqrt hsq (m + 1) nr_ev _ (cleared_rows m nr_ev wk) h1 hvC h3
    (hli nr_ev (by omega))).1

/-- The Arnoldi body of cycle 0 leaves in `beta2` the square of the norm it stored in
`H[j+1][j]`. -/
theorem arnoldi0_beta2 (sqrt : K → K) (f : matrix_mult K) (j : Nat) (st : St K) :
    (arnoldi0 sqrt f j st).beta2
      = sqrt (square_norm (arnoldi_w st.V (f (st.V j)) (j + 1)))
        * sqrt (square_norm (arnoldi_w st.V (f (st.V j)) (j + 1))) := by
  obtain ⟨-, pw, -⟩ := arnoldi0_projected_fields sqrt f j st
  have h2 : ∀ s : St K, ((List.range j).foldl (rotate0 j) s).beta2 = s.beta2 :=
    fun s => foldl_frame (rotate0 j) (fun t => t.beta2) (fun _ _ => rfl) _ s
  have h1 : ∀ s : St K, ((List.range (j + 1)).foldl (project0 j) s).w
      = arnoldi_w s.V s.w (j + 1) := fun s => (project0_fold j (j + 1) s).1
  rw [arnoldi0_phases]
  simp only [arnoldi0_rotated]
  rw [h2]
  simp only [arnoldi0_projected, Cx._complex_set]
  rw [h1]

/-- Back substitution writes `alpha` and the iterate only. -/
theorem backsubst_frame (j : Nat) (st : St K) :
    (backsubst j st).G = st.G ∧ (backsubst j st).work = st.work ∧
    (backsubst j st).work2 = st.work2 ∧ (backsubst j st).beta2 = st.beta2 ∧
    (backsubst j st).ndefl = st.ndefl := by
  have hrow : ∀ (i : Nat) (s0 : St K), (backsub_row j i s0).G = s0.G ∧
      (backsub_row j i s0).work = s0.work ∧ (backsub_row j i s0).work2 = s0.work2 ∧
      (backsub_row j i s0).beta2 = s0.beta2 ∧ (backsub_row j i s0).ndefl = s0.ndefl := by
    intro i s0
    unfold backsub_row
    exact foldl_inv_mem (fun s : St K => s.G = s0.G ∧ s.work = s0.work ∧ s.work2 = s0.work2 ∧
      s.beta2 = s0.beta2 ∧ s.ndefl = s0.ndefl) _ _ _ ⟨rfl, rfl, rfl, rfl, rfl⟩
      (fun _ _ _ hb => hb)
  unfold backsubst
  refine foldl_inv_mem (fun s : St K => s.G = st.G ∧ s.work = st.work ∧ s.work2 = st.work2 ∧
      s.beta2 = st.beta2 ∧ s.ndefl = st.ndefl) _ _ _ ⟨rfl, rfl, rfl, rfl, rfl⟩
      (fun b a _ hb => ?_)
  obtain ⟨r1, r2, r3, r4, r5⟩ := hrow a b
  obtain ⟨b1, b2, b3, b4, b5⟩ := hb
  exact ⟨r1.trans b1, r2.trans b2, r3.trans b3, r4.trans b4, r5.trans b5⟩

/-- The entry `alpha[1]` after back substitution over columns 0 and 1. -/
theorem backsubst_one_alpha1 (st : St K) :
    (backsubst 1 st).alpha 1 = Cx._mult_real (st.alpha 1) (1 / (st.H 1 1).re) := by
  simp [backsubst, backsub_row, List.range_succ, List.range', Function.update]

/-- The first `n` passes of the projection loop of a restart cycle (lines 326-332): the
vector left in `DUM_SOLVER+1` and the coefficients written into row `j` of `H`. -/
theorem projectR_fold (j n : Nat) (st : St K) :
    ((List.range n).foldl (projectR j) st).w = arnoldi_w st.V st.w n ∧
    ((List.range n).foldl (projectR j) st).V = st.V ∧
    (∀ b, b < n → ((List.range n).foldl (projectR j) st).H j b = arnoldi_h st.V st.w b) := by
  induction n with
  | zero => exact ⟨rfl, rfl, fun b hb => absurd hb (by omega)⟩
  | succ n ih =>
    obtain ⟨hw, hV, hH⟩ := ih
    rw [List.range_succ, List.foldl_append, List.foldl_cons, List.foldl_nil]
    simp only [projectR, hw, hV]
    refine ⟨rfl, trivial, fun b hb => ?_⟩
    rw [set2_apply]
    by_cases e : b = n
    · rw [if_pos ⟨rfl, e⟩, e]
      rfl
    · rw [if_neg (fun h => e h.2)]
      exact hH b (by omega)

/-- One Arnoldi pass of a restart cycle (lines 320-342) in terms of the Arnoldi
recurrence: the operator is applied to `V[j]`, the result stays in `DUM_SOLVER`, its
coefficients on `V[0..j]` go to `H[j][0..j]`, the norm of the remainder to `H[j][j+1]`, and
the normalised remainder becomes `V[j+1]`; iterate and `alpha` are not touched. -/
theorem arnoldiR_fields (sqrt : K → K) (f : matrix_mult K) (st : St K) (j : Nat) :
    (arnoldiR sqrt f st j).r = f (st.V j) ∧
    (arnoldiR sqrt f st j).V
      = Function.update st.V (j + 1)
          (mul_r (1 / sqrt (square_norm (arnoldi_w st.V (f (st.V j)) (j + 1))))
            (arnoldi_w st.V (f (st.V j)) (j + 1))) ∧
    (∀ b, b < j + 1 → (arnoldiR sqrt f st j).H j b = arnoldi_h st.V (f (st.V j)) b) ∧
    (arnoldiR sqrt f st j).H j (j + 1)
      = ⟨sqrt (square_norm (arnoldi_w st.V (f (st.V j)) (j + 1))), 0⟩ ∧
    (arnoldiR sqrt f st j).sol = st.sol ∧
    (arnoldiR sqrt f st j).alpha = st.alpha ∧
    (arnoldiR sqrt f st j).resid = st.resid := by
  have hr : ∀ s : St K, (fun t : St K => (t.r, t.sol, t.alpha, t.resid))
      ((List.range (j + 1)).foldl (projectR j) s) = (s.r, s.sol, s.alpha, s.resid) :=
    fun s => foldl_frame (projectR j) (fun t => (t.r, t.sol, t.alpha, t.resid))
      (fun _ _ => rfl) _ s
  simp only [Prod.mk.injEq] at hr
  have hf := fun s : St K => projectR_fold j (j + 1) s
  simp only [arnoldiR, Cx._complex_set]
  refine ⟨(hr _).1, ?_, fun b hb => ?_, ?_, (hr _).2.1, (hr _).2.2.1, (hr _).2.2.2⟩
  · rw [set2_apply, if_pos ⟨rfl, rfl⟩, (hf _).1, (hf _).2.1]
  · rw [set2_apply, if_neg (fun h => by omega), (hf _).2.2 b hb]
  · rw [set2_apply, if_pos ⟨rfl, rfl⟩, (hf _).1]

/-- Every restart cycle puts the residual it recomputes on line 366 in front of the list of
explicit residuals and leaves it in `DUM_SOLVER`. -/
theorem restart_cycle_resid (sqrt : K → K) (la : DenseLA K) (f : matrix_mult K) (Q : Vec K)
    (m nr_ev : Nat) (st : St K) :
    (restart_cycle sqrt la f Q m nr_ev st).r
      = diff Q (f (restart_cycle sqrt la f Q m nr_ev st).sol) ∧
    (restart_cycle sqrt la f Q m nr_ev st).resid
      = diff Q (f (restart_cycle sqrt la f Q m nr_ev st).sol)
        :: (restart_arnoldi sqrt la f m nr_ev st).resid := by
  refine ⟨rfl, ?_⟩
  have h : ∀ s : St K, (lsq_update la f Q m s).resid
      = diff Q (f (lsq_update la f Q m s).sol) :: s.resid := by
    intro s
    have e : (lsq_update la f Q m s).resid
        = diff Q (f (lsq_update la f Q m s).sol)
          :: ((List.range m).reverse.foldl (fun (st : St K) (i : Nat) =>
            { st with sol := assign_add_mul st.sol (st.V i) (st.alpha i) })
            ({ s with H := (la.zgels (m + 1) m s.H (lsq_rhs m s)).1,
                      alpha := (la.zgels (m + 1) m s.H (lsq_rhs m s)).2 } : St K)).resid :=
      rfl
    rw [e]
    congr 1
    exact foldl_inv_mem (fun t : St K => t.resid = s.resid) _ _ _ rfl (fun _ _ _ hb => hb)
  exact h _

/-- The eigen-decomposition of a deflation step is that of the matrix `deflate_shifted`. -/
theorem deflate_eig_shifted (la : DenseLA K) (m : Nat) (st : St K) :
    deflate_eig la m st
      = la.diagonalise_general_matrix m (deflate_shifted la m st)
          (la.zgesv m st.work (deflate_rhs m st)).2.2 := rfl

/-- Lines 224-344 of a restart cycle recompute no explicit residual. -/
theorem restart_arnoldi_resid (sqrt : K → K) (la : DenseLA K) (f : matrix_mult K)
    (m nr_ev : Nat) (st : St K) :
    (restart_arnoldi sqrt la f m nr_ev st).resid = st.resid := by
  unfold restart_arnoldi
  refine foldl_inv_mem (fun s : St K => s.resid = st.resid) _ _ _ rfl (fun b a _ hb => ?_)
  show (arnoldiR sqrt f b a).resid = st.resid
  rw [(arnoldiR_fields sqrt f b a).2.2.2.2.2.2, hb]

end Lemmas


/-! ### Numerical evaluation at the test points (exact real arithmetic) -/

section Numerics

theorem sqrt_mul_self_nn (x : ℝ) (hx : 0 ≤ x) : Real.sqrt (x * x) = x :=
  Real.sqrt_mul_self hx

theorem bidiag_entry :
    diff (spinor3 ⟨1, 0⟩ ⟨0, 0⟩ ⟨0, 0⟩ : Vec ℝ) (bidiag_op (spinor3 ⟨0, 0⟩ ⟨0, 0⟩ ⟨0, 0⟩))
      = spinor3 ⟨1, 0⟩ ⟨0, 0⟩ ⟨0, 0⟩ ∧
    square_norm (spinor3 ⟨1, 0⟩ ⟨0, 0⟩ ⟨0, 0⟩ : Vec ℝ) = 1 ∧
    entry_v0 Real.sqrt (spinor3 ⟨0, 0⟩ ⟨0, 0⟩ ⟨0, 0⟩ : Vec ℝ) (spinor3 ⟨1, 0⟩ ⟨0, 0⟩ ⟨0, 0⟩)
      bidiag_op = spinor3 ⟨1, 0⟩ ⟨0, 0⟩ ⟨0, 0⟩ := by
  have h1 : diff (spinor3 ⟨1, 0⟩ ⟨0, 0⟩ ⟨0, 0⟩ : Vec ℝ)
      (bidiag_op (spinor3 ⟨0, 0⟩ ⟨0, 0⟩ ⟨0, 0⟩)) = spinor3 ⟨1, 0⟩ ⟨0, 0⟩ ⟨0, 0⟩ := by
    simp [spinor3, bidiag_op, diff, cmul, cadd]
  have h2 : square_norm (spinor3 ⟨1, 0⟩ ⟨0, 0⟩ ⟨0, 0⟩ : Vec ℝ) = 1 := by
    simp [spinor3, square_norm]
  refine ⟨h1, h2, ?_⟩
  rw [entry_v0, h1, h2, Real.sqrt_one]
  simp [spinor3, mul_r]

theorem bidiag_step0 :
    step0_h (bidiag_op : matrix_mult ℝ) (spinor3 ⟨1, 0⟩ ⟨0, 0⟩ ⟨0, 0⟩) = ⟨0, 3⟩ ∧
    step0_w (bidiag_op : matrix_mult ℝ) (spinor3 ⟨1, 0⟩ ⟨0, 0⟩ ⟨0, 0⟩)
      = spinor3 ⟨0, 0⟩ ⟨4, 0⟩ ⟨0, 0⟩ ∧
    step0_hn Real.sqrt (bidiag_op : matrix_mult ℝ) (spinor3 ⟨1, 0⟩ ⟨0, 0⟩ ⟨0, 0⟩) = 4 ∧
    step0_beta Real.sqrt (bidiag_op : matrix_mult ℝ) (spinor3 ⟨1, 0⟩ ⟨0, 0⟩ ⟨0, 0⟩) = 5 := by
  have h1 : step0_h (bidiag_op : matrix_mult ℝ) (spinor3 ⟨1, 0⟩ ⟨0, 0⟩ ⟨0, 0⟩) = ⟨0, 3⟩ := by
    simp [step0_h, spinor3, bidiag_op, scalar_prod, cmul, cadd]
  have h2 : step0_w (bidiag_op : matrix_mult ℝ) (spinor3 ⟨1, 0⟩ ⟨0, 0⟩ ⟨0, 0⟩)
      = spinor3 ⟨0, 0⟩ ⟨4, 0⟩ ⟨0, 0⟩ := by
    rw [step0_w, h1]
    simp [spinor3, bidiag_op, assign_diff_mul, cmul, cadd]
  have h3 : step0_hn Real.sqrt (bidiag_op : matrix_mult ℝ) (spinor3 ⟨1, 0⟩ ⟨0, 0⟩ ⟨0, 0⟩)
      = 4 := by
    rw [step0_hn, h2]
    have : square_norm (spinor3 ⟨0, 0⟩ ⟨4, 0⟩ ⟨0, 0⟩ : Vec ℝ) = 4 * 4 := by
      simp [spinor3, square_norm]
    rw [this, sqrt_mul_self_nn 4 (by norm_num)]
  refine ⟨h1, h2, h3, ?_⟩
  rw [step0_beta, h1, h3]
  have : Cx._complex_square_norm (⟨0, 3⟩ : Cx ℝ) + Cx._complex_square_norm (⟨4, 0⟩ : Cx ℝ)
      = 5 * 5 := by
    simp [Cx._complex_square_norm]; norm_num
  rw [this, sqrt_mul_self_nn 5 (by norm_num)]

theorem bidiag_step0_derived :
    step0_s Real.sqrt (bidiag_op : matrix_mult ℝ) (spinor3 ⟨1, 0⟩ ⟨0, 0⟩ ⟨0, 0⟩) = 4 / 5 ∧
    step0_c Real.sqrt (bidiag_op : matrix_mult ℝ) (spinor3 ⟨1, 0⟩ ⟨0, 0⟩ ⟨0, 0⟩)
      = ⟨0, 3 / 5⟩ ∧
    step0_v1 Real.sqrt (bidiag_op : matrix_mult ℝ) (spinor3 ⟨1, 0⟩ ⟨0, 0⟩ ⟨0, 0⟩)
      = spinor3 ⟨0, 0⟩ ⟨1, 0⟩ ⟨0, 0⟩ := by
  obtain ⟨h1, h2, h3, h4⟩ := bidiag_step0
  refine ⟨?_, ?_, ?_⟩
  · rw [step0_s, h3, h4]
  · rw [step0_c, h1, h4]; simp [Cx._mult_real]; norm_num
  · rw [step0_v1, h2, h3]; simp [spinor3, mul_r]

theorem bidiag_step1 :
    step1_hn Real.sqrt (bidiag_op : matrix_mult ℝ) (spinor3 ⟨1, 0⟩ ⟨0, 0⟩ ⟨0, 0⟩)
      (spinor3 ⟨0, 0⟩ ⟨1, 0⟩ ⟨0, 0⟩) = 4 ∧
    step1_r0 (bidiag_op : matrix_mult ℝ) (spinor3 ⟨1, 0⟩ ⟨0, 0⟩ ⟨0, 0⟩)
      (spinor3 ⟨0, 0⟩ ⟨1, 0⟩ ⟨0, 0⟩) (4 / 5) ⟨0, 3 / 5⟩ = ⟨0, 4⟩ ∧
    step1_r1 (bidiag_op : matrix_mult ℝ) (spinor3 ⟨1, 0⟩ ⟨0, 0⟩ ⟨0, 0⟩)
      (spinor3 ⟨0, 0⟩ ⟨1, 0⟩ ⟨0, 0⟩) (4 / 5) ⟨0, 3 / 5⟩ = ⟨3, 0⟩ ∧
    step1_beta Real.sqrt (bidiag_op : matrix_mult ℝ) (spinor3 ⟨1, 0⟩ ⟨0, 0⟩ ⟨0, 0⟩)
      (spinor3 ⟨0, 0⟩ ⟨1, 0⟩ ⟨0, 0⟩) (4 / 5) ⟨0, 3 / 5⟩ = 5 := by
  have h0 : step1_h0 (bidiag_op : matrix_mult ℝ) (spinor3 ⟨1, 0⟩ ⟨0, 0⟩ ⟨0, 0⟩)
      (spinor3 ⟨0, 0⟩ ⟨1, 0⟩ ⟨0, 0⟩) = ⟨0, 0⟩ := by
    simp [step1_h0, spinor3, bidiag_op, scalar_prod, cmul, cadd]
  have h1 : step1_h1 (bidiag_op : matrix_mult ℝ) (spinor3 ⟨1, 0⟩ ⟨0, 0⟩ ⟨0, 0⟩)
      (spinor3 ⟨0, 0⟩ ⟨1, 0⟩ ⟨0, 0⟩) = ⟨0, 5⟩ := by
    rw [step1_h1, h0]
    simp [spinor3, bidiag_op, scalar_prod, assign_diff_mul, cmul, cadd]
  have hw : step1_w (bidiag_op : matrix_mult ℝ) (spinor3 ⟨1, 0⟩ ⟨0, 0⟩ ⟨0, 0⟩)
      (spinor3 ⟨0, 0⟩ ⟨1, 0⟩ ⟨0, 0⟩) = spinor3 ⟨0, 0⟩ ⟨0, 0⟩ ⟨4, 0⟩ := by
    rw [step1_w, h1, h0]
    simp [spinor3, bidiag_op, assign_diff_mul, cmul, cadd]
  have hn : step1_hn Real.sqrt (bidiag_op : matrix_mult ℝ) (spinor3 ⟨1, 0⟩ ⟨0, 0⟩ ⟨0, 0⟩)
      (spinor3 ⟨0, 0⟩ ⟨1, 0⟩ ⟨0, 0⟩) = 4 := by
    rw [step1_hn, hw]
    have : square_norm (spinor3 ⟨0, 0⟩ ⟨0, 0⟩ ⟨4, 0⟩ : Vec ℝ) = 4 * 4 := by
      simp [spinor3, square_norm]
    rw [this, sqrt_mul_self_nn 4 (by norm_num)]
  have hr1 : step1_r1 (bidiag_op : matrix_mult ℝ) (spinor3 ⟨1, 0⟩ ⟨0, 0⟩ ⟨0, 0⟩)
      (spinor3 ⟨0, 0⟩ ⟨1, 0⟩ ⟨0, 0⟩) (4 / 5) ⟨0, 3 / 5⟩ = ⟨3, 0⟩ := by
    rw [step1_r1, h0, h1]
    simp [Cx._diff_assign_complex, Cx._mult_real]
  refine ⟨hn, ?_, hr1, ?_⟩
  · rw [step1_r0, h0, h1]
    simp [Cx._add_assign_complex_conj, Cx._mult_real]
  · rw [step1_beta, hr1, hn]
    have : Cx._complex_square_norm (⟨3, 0⟩ : Cx ℝ) + Cx._complex_square_norm (⟨4, 0⟩ : Cx ℝ)
        = 5 * 5 := by
      simp [Cx._complex_square_norm]; norm_num
    rw [this, sqrt_mul_self_nn 5 (by norm_num)]

theorem bidiag_estimates :
    estimate1 Real.sqrt (bidiag_op : matrix_mult ℝ) (spinor3 ⟨1, 0⟩ ⟨0, 0⟩ ⟨0, 0⟩) 1 = 4 / 5 ∧
    estimate2 Real.sqrt (bidiag_op : matrix_mult ℝ) (spinor3 ⟨1, 0⟩ ⟨0, 0⟩ ⟨0, 0⟩) 1
      = 16 / 25 ∧
    two_step_y1 Real.sqrt (bidiag_op : matrix_mult ℝ) (spinor3 ⟨1, 0⟩ ⟨0, 0⟩ ⟨0, 0⟩) ⟨1, 0⟩
      = ⟨12 / 125, 0⟩ ∧
    two_step_y0 Real.sqrt (bidiag_op : matrix_mult ℝ) (spinor3 ⟨1, 0⟩ ⟨0, 0⟩ ⟨0, 0⟩) ⟨1, 0⟩
      = ⟨0, -123 / 625⟩ := by
  obtain ⟨-, -, -, h4⟩ := bidiag_step0
  obtain ⟨d1, d2, d3⟩ := bidiag_step0_derived
  obtain ⟨k1, k2, k3, k4⟩ := bidiag_step1
  have y1 : two_step_y1 Real.sqrt (bidiag_op : matrix_mult ℝ)
      (spinor3 ⟨1, 0⟩ ⟨0, 0⟩ ⟨0, 0⟩) ⟨1, 0⟩ = ⟨12 / 125, 0⟩ := by
    rw [two_step_y1, d1, d2, d3, k3, k4]
    simp [Cx._mult_real, Cx._mult_assign_complex_conj]; norm_num
  refine ⟨?_, ?_, y1, ?_⟩
  · rw [estimate1, d1]; norm_num
  · rw [estimate2, d1, d2, d3, k1, k4]; norm_num
  · rw [two_step_y0, y1, d1, d2, d3, k2, h4]
    simp [Cx._mult_real, Cx._mult_assign_complex_conj, Cx._diff_complex,
      Cx._mult_assign_complex]
    norm_num

theorem bidiag_residual :
    two_step_sol Real.sqrt (bidiag_op : matrix_mult ℝ) (spinor3 ⟨0, 0⟩ ⟨0, 0⟩ ⟨0, 0⟩)
      (spinor3 ⟨1, 0⟩ ⟨0, 0⟩ ⟨0, 0⟩) ⟨1, 0⟩
      = spinor3 ⟨0, -123 / 625⟩ ⟨12 / 125, 0⟩ ⟨0, 0⟩ ∧
    Real.sqrt (square_norm (diff (spinor3 ⟨1, 0⟩ ⟨0, 0⟩ ⟨0, 0⟩ : Vec ℝ)
      (bidiag_op (spinor3 ⟨0, -123 / 625⟩ ⟨12 / 125, 0⟩ ⟨0, 0⟩)))) = 16 / 25 := by
  obtain ⟨-, -, y1, y0⟩ := bidiag_estimates
  obtain ⟨-, -, d3⟩ := bidiag_step0_derived
  constructor
  · rw [two_step_sol, y1, y0, d3]
    simp [spinor3, assign_add_mul]
  · have : square_norm (diff (spinor3 ⟨1, 0⟩ ⟨0, 0⟩ ⟨0, 0⟩ : Vec ℝ)
        (bidiag_op (spinor3 ⟨0, -123 / 625⟩ ⟨12 / 125, 0⟩ ⟨0, 0⟩)))
        = (16 / 25) * (16 / 25) := by
      simp [spinor3, bidiag_op, diff, square_norm, cmul, cadd]
      norm_num
    rw [this, sqrt_mul_self_nn _ (by norm_num)]

theorem static_entry_alpha0 (VR : Int) (P Q : Vec ℝ) (m : Nat) (f : matrix_mult ℝ) :
    entry_alpha0 Real.sqrt staticWorkspace VR P Q m f
      = ⟨Real.sqrt (square_norm (diff Q (f P))), 0⟩ := by
  simp [entry_alpha0, init_gmres, staticWorkspace, callocWorkspace, Cx.czero]

theorem first_call_result (la : DenseLA ℝ) :
    (first_call Real.sqrt la).ret = -1 ∧
    (first_call Real.sqrt la).exit = ExitPath.max_restarts ∧
    (first_call Real.sqrt la).st.alpha 0 = ⟨0, -123 / 625⟩ ∧
    (first_call Real.sqrt la).st.M = 2 ∧
    (first_call Real.sqrt la).st.init ≠ 0 ∧
    (first_call Real.sqrt la).st.Vo = 1 := by
  obtain ⟨n1, n2, n3⟩ := bidiag_entry
  obtain ⟨q1, q2, q3, q4⟩ := bidiag_estimates
  obtain ⟨z1, z2⟩ := bidiag_residual
  have ha := static_entry_alpha0 2 (spinor3 ⟨0, 0⟩ ⟨0, 0⟩ ⟨0, 0⟩)
    (spinor3 ⟨1, 0⟩ ⟨0, 0⟩ ⟨0, 0⟩) 2 (bidiag_op : matrix_mult ℝ)
  rw [n1, n2, Real.sqrt_one] at ha
  have h0 : Real.sqrt (square_norm (diff (spinor3 ⟨1, 0⟩ ⟨0, 0⟩ ⟨0, 0⟩ : Vec ℝ)
      (bidiag_op (spinor3 ⟨0, 0⟩ ⟨0, 0⟩ ⟨0, 0⟩)))) ≠ 0 := by
    rw [n1, n2, Real.sqrt_one]; norm_num
  have ht0 : ¬ test_value (Real.sqrt 0)
      (Real.sqrt (square_norm (spinor3 ⟨1, 0⟩ ⟨0, 0⟩ ⟨0, 0⟩ : Vec ℝ))) 0
      (estimate1 Real.sqrt bidiag_op
        (entry_v0 Real.sqrt (spinor3 ⟨0, 0⟩ ⟨0, 0⟩ ⟨0, 0⟩) (spinor3 ⟨1, 0⟩ ⟨0, 0⟩ ⟨0, 0⟩)
          bidiag_op)
        (Real.sqrt (square_norm (diff (spinor3 ⟨1, 0⟩ ⟨0, 0⟩ ⟨0, 0⟩ : Vec ℝ)
          (bidiag_op (spinor3 ⟨0, 0⟩ ⟨0, 0⟩ ⟨0, 0⟩)))))) := by
    rw [n3, n1, n2, Real.sqrt_one, q1, Real.sqrt_zero]
    simp [test_value]
  have ht1 : ¬ test_value (Real.sqrt 0)
      (Real.sqrt (square_norm (spinor3 ⟨1, 0⟩ ⟨0, 0⟩ ⟨0, 0⟩ : Vec ℝ))) 0
      (estimate2 Real.sqrt bidiag_op
        (entry_v0 Real.sqrt (spinor3 ⟨0, 0⟩ ⟨0, 0⟩ ⟨0, 0⟩) (spinor3 ⟨1, 0⟩ ⟨0, 0⟩ ⟨0, 0⟩)
          bidiag_op)
        (Real.sqrt (square_norm (diff (spinor3 ⟨1, 0⟩ ⟨0, 0⟩ ⟨0, 0⟩ : Vec ℝ)
          (bidiag_op (spinor3 ⟨0, 0⟩ ⟨0, 0⟩ ⟨0, 0⟩)))))) := by
    rw [n3, n1, n2, Real.sqrt_one, q2, Real.sqrt_zero]
    simp [test_value]
  obtain ⟨hx, x6⟩ := gmres_dr_two_steps_exhausted Real.sqrt la
    staticWorkspace 2 (spinor3 ⟨0, 0⟩ ⟨0, 0⟩ ⟨0, 0⟩) (spinor3 ⟨1, 0⟩ ⟨0, 0⟩ ⟨0, 0⟩) 1 1 0 0
    bidiag_op h0 ht0 ht1
  obtain ⟨x1, x2, x3, x4, x5⟩ := hx (le_refl 1)
  rw [n3, ha] at x1 x5 x6
  rw [z1] at x6
  have hres : Real.sqrt (square_norm (diff (spinor3 ⟨1, 0⟩ ⟨0, 0⟩ ⟨0, 0⟩ : Vec ℝ)
      (bidiag_op (spinor3 ⟨0, -123 / 625⟩ ⟨12 / 125, 0⟩ ⟨0, 0⟩)))) ≠ 0 := by
    rw [z2]; norm_num
  obtain ⟨y1, y2⟩ := x6 hres
  refine ⟨y1, y2, ?_, x2, x3, ?_⟩
  · rw [first_call, x1, q4]
  · rw [first_call, x4]; rfl

theorem identity_step0 :
    diff (spinor3 ⟨1, 0⟩ ⟨0, 0⟩ ⟨0, 0⟩ : Vec ℝ) (id (spinor3 ⟨0, 0⟩ ⟨0, 0⟩ ⟨0, 0⟩))
      = spinor3 ⟨1, 0⟩ ⟨0, 0⟩ ⟨0, 0⟩ ∧
    entry_v0 Real.sqrt (spinor3 ⟨0, 0⟩ ⟨0, 0⟩ ⟨0, 0⟩ : Vec ℝ) (spinor3 ⟨1, 0⟩ ⟨0, 0⟩ ⟨0, 0⟩) id
      = spinor3 ⟨1, 0⟩ ⟨0, 0⟩ ⟨0, 0⟩ ∧
    step0_hn Real.sqrt (id : matrix_mult ℝ) (spinor3 ⟨1, 0⟩ ⟨0, 0⟩ ⟨0, 0⟩) = 0 ∧
    step0_beta Real.sqrt (id : matrix_mult ℝ) (spinor3 ⟨1, 0⟩ ⟨0, 0⟩ ⟨0, 0⟩) = 1 ∧
    ∀ a0 : Cx ℝ,
      step0_coeff Real.sqrt (id : matrix_mult ℝ) (spinor3 ⟨1, 0⟩ ⟨0, 0⟩ ⟨0, 0⟩) a0 = a0 := by
  obtain ⟨-, n2, -⟩ := bidiag_entry
  have h1 : diff (spinor3 ⟨1, 0⟩ ⟨0, 0⟩ ⟨0, 0⟩ : Vec ℝ) (id (spinor3 ⟨0, 0⟩ ⟨0, 0⟩ ⟨0, 0⟩))
      = spinor3 ⟨1, 0⟩ ⟨0, 0⟩ ⟨0, 0⟩ := by
    simp [spinor3, diff]
  have hh : step0_h (id : matrix_mult ℝ) (spinor3 ⟨1, 0⟩ ⟨0, 0⟩ ⟨0, 0⟩) = ⟨1, 0⟩ := by
    simp [step0_h, spinor3, scalar_prod]
  have hw : step0_w (id : matrix_mult ℝ) (spinor3 ⟨1, 0⟩ ⟨0, 0⟩ ⟨0, 0⟩)
      = spinor3 ⟨0, 0⟩ ⟨0, 0⟩ ⟨0, 0⟩ := by
    rw [step0_w, hh]
    simp [spinor3, assign_diff_mul]
  have hn : step0_hn Real.sqrt (id : matrix_mult ℝ) (spinor3 ⟨1, 0⟩ ⟨0, 0⟩ ⟨0, 0⟩) = 0 := by
    rw [step0_hn, hw]
    have : square_norm (spinor3 ⟨0, 0⟩ ⟨0, 0⟩ ⟨0, 0⟩ : Vec ℝ) = 0 := by
      simp [spinor3, square_norm]
    rw [this, Real.sqrt_zero]
  have hb : step0_beta Real.sqrt (id : matrix_mult ℝ) (spinor3 ⟨1, 0⟩ ⟨0, 0⟩ ⟨0, 0⟩) = 1 := by
    rw [step0_beta, hh, hn]
    simp [Cx._complex_square_norm]
  refine ⟨h1, ?_, hn, hb, ?_⟩
  · rw [entry_v0, h1, n2, Real.sqrt_one]
    simp [spinor3, mul_r]
  · intro a0
    rw [step0_coeff, hh, hb]
    simp [Cx._mult_real, Cx._mult_assign_complex_conj]

theorem second_call_result (la : DenseLA ℝ) (max_restarts : Int) (eps_sq : ℝ)
    (rel_prec : Int) (hrel : rel_prec = 0 ∨ rel_prec = 1) :
    (second_call Real.sqrt la max_restarts eps_sq rel_prec).ret = 0 ∧
    (second_call Real.sqrt la max_restarts eps_sq rel_prec).exit = ExitPath.inner 0 ∧
    (second_call Real.sqrt la max_restarts eps_sq rel_prec).P
      = spinor3 ⟨1, -123 / 625⟩ ⟨0, 0⟩ ⟨0, 0⟩ ∧
    ((second_call Real.sqrt la max_restarts eps_sq rel_prec).st.alpha 1).re = 0 := by
  obtain ⟨-, -, f3, f4, f5, f6⟩ := first_call_result la
  obtain ⟨-, n2, -⟩ := bidiag_entry
  obtain ⟨i1, i2, i3, i4, i5⟩ := identity_step0
  have hws : init_gmres (first_call Real.sqrt la).st.toWorkspace ((2 : Nat) : Int)
      (Int.tdiv 2 2) = (first_call Real.sqrt la).st.toWorkspace :=
    init_gmres_reuse _ _ _ f4 f5 f6
  have ha : entry_alpha0 Real.sqrt (first_call Real.sqrt la).st.toWorkspace 2
      (spinor3 ⟨0, 0⟩ ⟨0, 0⟩ ⟨0, 0⟩) (spinor3 ⟨1, 0⟩ ⟨0, 0⟩ ⟨0, 0⟩) 2 id
      = ⟨1, -123 / 625⟩ := by
    rw [entry_alpha0, hws, i1, n2, Real.sqrt_one, f3]
  have h0 : Real.sqrt (square_norm (diff (spinor3 ⟨1, 0⟩ ⟨0, 0⟩ ⟨0, 0⟩ : Vec ℝ)
      (id (spinor3 ⟨0, 0⟩ ⟨0, 0⟩ ⟨0, 0⟩)))) ≠ 0 := by
    rw [i1, n2, Real.sqrt_one]; norm_num
  have ht : ((step0_hn Real.sqrt id (entry_v0 Real.sqrt (spinor3 ⟨0, 0⟩ ⟨0, 0⟩ ⟨0, 0⟩)
          (spinor3 ⟨1, 0⟩ ⟨0, 0⟩ ⟨0, 0⟩) id)
        / step0_beta Real.sqrt id (entry_v0 Real.sqrt (spinor3 ⟨0, 0⟩ ⟨0, 0⟩ ⟨0, 0⟩)
          (spinor3 ⟨1, 0⟩ ⟨0, 0⟩ ⟨0, 0⟩) id))
        * Real.sqrt (square_norm (diff (spinor3 ⟨1, 0⟩ ⟨0, 0⟩ ⟨0, 0⟩ : Vec ℝ)
            (id (spinor3 ⟨0, 0⟩ ⟨0, 0⟩ ⟨0, 0⟩)))) ≤ Real.sqrt eps_sq ∧ rel_prec = 0) ∨
      ((step0_hn Real.sqrt id (entry_v0 Real.sqrt (spinor3 ⟨0, 0⟩ ⟨0, 0⟩ ⟨0, 0⟩)
          (spinor3 ⟨1, 0⟩ ⟨0, 0⟩ ⟨0, 0⟩) id)
        / step0_beta Real.sqrt id (entry_v0 Real.sqrt (spinor3 ⟨0, 0⟩ ⟨0, 0⟩ ⟨0, 0⟩)
          (spinor3 ⟨1, 0⟩ ⟨0, 0⟩ ⟨0, 0⟩) id))
        * Real.sqrt (square_norm (diff (spinor3 ⟨1, 0⟩ ⟨0, 0⟩ ⟨0, 0⟩ : Vec ℝ)
            (id (spinor3 ⟨0, 0⟩ ⟨0, 0⟩ ⟨0, 0⟩))))
          ≤ Real.sqrt eps_sq * Real.sqrt (square_norm (spinor3 ⟨1, 0⟩ ⟨0, 0⟩ ⟨0, 0⟩ : Vec ℝ))
        ∧ rel_prec = 1) := by
    rw [i2, i3, i4, i1, n2, Real.sqrt_one]
    rcases hrel with h | h
    · left; exact ⟨by simp, h⟩
    · right; exact ⟨by simp, h⟩
  obtain ⟨r1, r2, r3, -, -⟩ := gmres_dr_first_step Real.sqrt la
    (first_call Real.sqrt la).st.toWorkspace 2 (spinor3 ⟨0, 0⟩ ⟨0, 0⟩ ⟨0, 0⟩)
    (spinor3 ⟨1, 0⟩ ⟨0, 0⟩ ⟨0, 0⟩) 2 1 max_restarts eps_sq rel_prec id (by norm_num) h0 ht
  refine ⟨r1, r2, ?_, ?_⟩
  · rw [second_call, r3, i2, ha, i5]
    simp [spinor3, assign_add_mul]
  · have key := gmres_dr_exit_inner_iff Real.sqrt la (first_call Real.sqrt la).st.toWorkspace
      2 (spinor3 ⟨0, 0⟩ ⟨0, 0⟩ ⟨0, 0⟩) (spinor3 ⟨1, 0⟩ ⟨0, 0⟩ ⟨0, 0⟩) 2 1 max_restarts eps_sq
      rel_prec id 0
    obtain ⟨-, st1, hc⟩ := key.1 r2
    have hc' := hc
    rw [cycle0_inl_iff] at hc'
    obtain ⟨k, -, hk, hst, -, -⟩ := hc'
    have hk0 : k = 0 := by omega
    subst hk0
    obtain ⟨-, -, g3, -⟩ := gmres_dr_inner Real.sqrt la (first_call Real.sqrt la).st.toWorkspace
      2 (spinor3 ⟨0, 0⟩ ⟨0, 0⟩ ⟨0, 0⟩) (spinor3 ⟨1, 0⟩ ⟨0, 0⟩ ⟨0, 0⟩) 2 1 max_restarts eps_sq
      rel_prec id 0 st1 h0 hc
    rw [second_call, g3, clear_alpha_im_re, hst]
    have e0 := first_step_estimate Real.sqrt (first_call Real.sqrt la).st.toWorkspace 2
      (spinor3 ⟨0, 0⟩ ⟨0, 0⟩ ⟨0, 0⟩) (spinor3 ⟨1, 0⟩ ⟨0, 0⟩ ⟨0, 0⟩) 2 id
    have hb : ((backsubst 0 (cycle0_state Real.sqrt id 0 0
        (loop_entry Real.sqrt (first_call Real.sqrt la).st.toWorkspace 2
          (spinor3 ⟨0, 0⟩ ⟨0, 0⟩ ⟨0, 0⟩) (spinor3 ⟨1, 0⟩ ⟨0, 0⟩ ⟨0, 0⟩) 2 id))).alpha 1)
        = ((state_at Real.sqrt (first_call Real.sqrt la).st.toWorkspace 2
          (spinor3 ⟨0, 0⟩ ⟨0, 0⟩ ⟨0, 0⟩) (spinor3 ⟨1, 0⟩ ⟨0, 0⟩ ⟨0, 0⟩) 2 id 0).alpha 1) := by
      simp [backsubst, state_at, Function.update]
    rw [hb, e0, i2, estimate1, step0_s, i3]
    simp

theorem reused_residual :
    Real.sqrt (square_norm (diff (spinor3 ⟨1, 0⟩ ⟨0, 0⟩ ⟨0, 0⟩ : Vec ℝ)
      (id (spinor3 ⟨1, -123 / 625⟩ ⟨0, 0⟩ ⟨0, 0⟩)))) = 123 / 625 := by
  have : square_norm (diff (spinor3 ⟨1, 0⟩ ⟨0, 0⟩ ⟨0, 0⟩ : Vec ℝ)
      (id (spinor3 ⟨1, -123 / 625⟩ ⟨0, 0⟩ ⟨0, 0⟩))) = (123 / 625) * (123 / 625) := by
    simp [spinor3, diff, square_norm]
    norm_num
  rw [this, sqrt_mul_self_nn _ (by norm_num)]

theorem bidiag_zero_rhs_entry :
    diff (spinor3 ⟨0, 0⟩ ⟨0, 0⟩ ⟨0, 0⟩ : Vec ℝ)
        (bidiag_op (spinor3 ⟨0, 1 / 3⟩ ⟨-4 / 15, 0⟩ ⟨16 / 15, 0⟩))
      = spinor3 ⟨1, 0⟩ ⟨0, 0⟩ ⟨0, 0⟩ ∧
    entry_v0 Real.sqrt (spinor3 ⟨0, 1 / 3⟩ ⟨-4 / 15, 0⟩ ⟨16 / 15, 0⟩ : Vec ℝ)
        (spinor3 ⟨0, 0⟩ ⟨0, 0⟩ ⟨0, 0⟩) bidiag_op
      = spinor3 ⟨1, 0⟩ ⟨0, 0⟩ ⟨0, 0⟩ := by
  obtain ⟨-, n2, -⟩ := bidiag_entry
  have h1 : diff (spinor3 ⟨0, 0⟩ ⟨0, 0⟩ ⟨0, 0⟩ : Vec ℝ)
      (bidiag_op (spinor3 ⟨0, 1 / 3⟩ ⟨-4 / 15, 0⟩ ⟨16 / 15, 0⟩))
      = spinor3 ⟨1, 0⟩ ⟨0, 0⟩ ⟨0, 0⟩ := by
    simp [spinor3, bidiag_op, diff, cmul, cadd]
    norm_num
  refine ⟨h1, ?_⟩
  rw [entry_v0, h1, n2, Real.sqrt_one]
  simp [spinor3, mul_r]

theorem bidiag_step0_coeff :
    step0_coeff Real.sqrt (bidiag_op : matrix_mult ℝ) (spinor3 ⟨1, 0⟩ ⟨0, 0⟩ ⟨0, 0⟩) ⟨1, 0⟩
      = ⟨0, -3 / 25⟩ := by
  obtain ⟨h1, -, -, h4⟩ := bidiag_step0
  rw [step0_coeff, h1, h4]
  simp [Cx._mult_real, Cx._mult_assign_complex_conj]
  norm_num

theorem square_norm_diff_zero (a b : Vec ℝ) (ha : ∀ z ∈ a, z = (⟨0, 0⟩ : Cx ℝ))
    (hb : ∀ z ∈ b, z = (⟨0, 0⟩ : Cx ℝ)) : square_norm (diff a b) = 0 := by
  induction a generalizing b with
  | nil => simp [diff, square_norm]
  | cons x xs ih =>
    cases b with
    | nil => simp [diff, square_norm]
    | cons y ys =>
      have hx : x = ⟨0, 0⟩ := ha x (List.mem_cons_self _ _)
      have hy : y = ⟨0, 0⟩ := hb y (List.mem_cons_self _ _)
      have := ih ys (fun z hz => ha z (List.mem_cons_of_mem _ hz))
        (fun z hz => hb z (List.mem_cons_of_mem _ hz))
      simp only [diff] at this
      simp [diff, square_norm, hx, hy, this]

/-- The call with `P = 0`, `Q = (1, 0, ...)`, `m = 2`, `eps_sq = 1`, `rel_prec = 0` on
`bidiag_op` leaves through line 186 at `j = 0`, whatever `nr_ev` is. -/
theorem bidiag_loose_call (la : DenseLA ℝ) (nr_ev : Nat) (max_restarts : Int) :
    (gmres_dr Real.sqrt la staticWorkspace 2 (spinor3 ⟨0, 0⟩ ⟨0, 0⟩ ⟨0, 0⟩)
      (spinor3 ⟨1, 0⟩ ⟨0, 0⟩ ⟨0, 0⟩) 2 nr_ev max_restarts 1 0 bidiag_op).ret = 0 ∧
    (gmres_dr Real.sqrt la staticWorkspace 2 (spinor3 ⟨0, 0⟩ ⟨0, 0⟩ ⟨0, 0⟩)
      (spinor3 ⟨1, 0⟩ ⟨0, 0⟩ ⟨0, 0⟩) 2 nr_ev max_restarts 1 0 bidiag_op).exit
      = ExitPath.inner 0 ∧
    (gmres_dr Real.sqrt la staticWorkspace 2 (spinor3 ⟨0, 0⟩ ⟨0, 0⟩ ⟨0, 0⟩)
      (spinor3 ⟨1, 0⟩ ⟨0, 0⟩ ⟨0, 0⟩) 2 nr_ev max_restarts 1 0 bidiag_op).st.napply = 2 ∧
    (gmres_dr Real.sqrt la staticWorkspace 2 (spinor3 ⟨0, 0⟩ ⟨0, 0⟩ ⟨0, 0⟩)
      (spinor3 ⟨1, 0⟩ ⟨0, 0⟩ ⟨0, 0⟩) 2 nr_ev max_restarts 1 0 bidiag_op).st.recips
      = [1] := by
  obtain ⟨n1, n2, n3⟩ := bidiag_entry
  obtain ⟨-, -, h3, h4⟩ := bidiag_step0
  have h0 : Real.sqrt (square_norm (diff (spinor3 ⟨1, 0⟩ ⟨0, 0⟩ ⟨0, 0⟩ : Vec ℝ)
      (bidiag_op (spinor3 ⟨0, 0⟩ ⟨0, 0⟩ ⟨0, 0⟩)))) ≠ 0 := by
    rw [n1, n2, Real.sqrt_one]; norm_num
  obtain ⟨r1, r2, -, r4, r5⟩ := gmres_dr_first_step Real.sqrt la staticWorkspace 2
    (spinor3 ⟨0, 0⟩ ⟨0, 0⟩ ⟨0, 0⟩) (spinor3 ⟨1, 0⟩ ⟨0, 0⟩ ⟨0, 0⟩) 2 nr_ev max_restarts 1 0
    bidiag_op (by norm_num) h0
    (Or.inl ⟨by rw [n3, n1, n2, h3, h4, Real.sqrt_one]; norm_num, rfl⟩)
  rw [n1, n2, Real.sqrt_one] at r5
  exact ⟨r1, r2, r4, r5⟩

/-- The call with `P = 0`, `Q = (1, 0, ...)`, `m = 2`, `nr_ev = 1`, `rel_prec = 0` on
`bidiag_op` with a tolerance `sqrt(eps_sq)` below `16/25`: cycle 0 runs out and the
residual recomputed on lines 207-211 has norm `16/25`, so the restart loop is entered and
the call ends on line 378. -/
theorem bidiag_tight_call (la : DenseLA ℝ) (max_restarts : Int) (eps_sq : ℝ)
    (heps : Real.sqrt eps_sq < 16 / 25) :
    (gmres_dr Real.sqrt la staticWorkspace 2 (spinor3 ⟨0, 0⟩ ⟨0, 0⟩ ⟨0, 0⟩)
      (spinor3 ⟨1, 0⟩ ⟨0, 0⟩ ⟨0, 0⟩) 2 1 max_restarts eps_sq 0 bidiag_op).ret = -1 ∧
    (gmres_dr Real.sqrt la staticWorkspace 2 (spinor3 ⟨0, 0⟩ ⟨0, 0⟩ ⟨0, 0⟩)
      (spinor3 ⟨1, 0⟩ ⟨0, 0⟩ ⟨0, 0⟩) 2 1 max_restarts eps_sq 0 bidiag_op).exit
      = ExitPath.max_restarts := by
  obtain ⟨n1, n2, n3⟩ := bidiag_entry
  obtain ⟨q1, q2, q3, q4⟩ := bidiag_estimates
  obtain ⟨z1, z2⟩ := bidiag_residual
  have ha := static_entry_alpha0 2 (spinor3 ⟨0, 0⟩ ⟨0, 0⟩ ⟨0, 0⟩)
    (spinor3 ⟨1, 0⟩ ⟨0, 0⟩ ⟨0, 0⟩) 2 (bidiag_op : matrix_mult ℝ)
  rw [n1, n2, Real.sqrt_one] at ha
  have h0 : Real.sqrt (square_norm (diff (spinor3 ⟨1, 0⟩ ⟨0, 0⟩ ⟨0, 0⟩ : Vec ℝ)
      (bidiag_op (spinor3 ⟨0, 0⟩ ⟨0, 0⟩ ⟨0, 0⟩)))) ≠ 0 := by
    rw [n1, n2, Real.sqrt_one]; norm_num
  have ht0 : ¬ test_value (Real.sqrt eps_sq)
      (Real.sqrt (square_norm (spinor3 ⟨1, 0⟩ ⟨0, 0⟩ ⟨0, 0⟩ : Vec ℝ))) 0
      (estimate1 Real.sqrt bidiag_op
        (entry_v0 Real.sqrt (spinor3 ⟨0, 0⟩ ⟨0, 0⟩ ⟨0, 0⟩) (spinor3 ⟨1, 0⟩ ⟨0, 0⟩ ⟨0, 0⟩)
          bidiag_op)
        (Real.sqrt (square_norm (diff (spinor3 ⟨1, 0⟩ ⟨0, 0⟩ ⟨0, 0⟩ : Vec ℝ)
          (bidiag_op (spinor3 ⟨0, 0⟩ ⟨0, 0⟩ ⟨0, 0⟩)))))) := by
    rw [n3, n1, n2, Real.sqrt_one, q1]
    simp only [test_value, zero_ne_one, and_false, or_false, and_true, not_le]
    linarith
  have ht1 : ¬ test_value (Real.sqrt eps_sq)
      (Real.sqrt (square_norm (spinor3 ⟨1, 0⟩ ⟨0, 0⟩ ⟨0, 0⟩ : Vec ℝ))) 0
      (estimate2 Real.sqrt bidiag_op
        (entry_v0 Real.sqrt (spinor3 ⟨0, 0⟩ ⟨0, 0⟩ ⟨0, 0⟩) (spinor3 ⟨1, 0⟩ ⟨0, 0⟩ ⟨0, 0⟩)
          bidiag_op)
        (Real.sqrt (square_norm (diff (spinor3 ⟨1, 0⟩ ⟨0, 0⟩ ⟨0, 0⟩ : Vec ℝ)
          (bidiag_op (spinor3 ⟨0, 0⟩ ⟨0, 0⟩ ⟨0, 0⟩)))))) := by
    rw [n3, n1, n2, Real.sqrt_one, q2]
    simp only [test_value, zero_ne_one, and_false, or_false, and_true, not_le]
    linarith
  obtain ⟨-, x6⟩ := gmres_dr_two_steps_exhausted Real.sqrt la
    staticWorkspace 2 (spinor3 ⟨0, 0⟩ ⟨0, 0⟩ ⟨0, 0⟩) (spinor3 ⟨1, 0⟩ ⟨0, 0⟩ ⟨0, 0⟩) 1
    max_restarts eps_sq 0 bidiag_op h0 ht0 ht1
  rw [n3, ha, z1] at x6
  exact x6 (by rw [z2]; norm_num)

theorem c9_entry :
    diff ([⟨10, 0⟩, ⟨10, 0⟩] : Vec ℝ) (diag_op [⟨1, 0⟩, ⟨2, 0⟩] [⟨0, 0⟩, ⟨0, 0⟩])
      = [⟨10, 0⟩, ⟨10, 0⟩] ∧
    square_norm ([⟨10, 0⟩, ⟨10, 0⟩] : Vec ℝ) = 200 ∧
    entry_v0 Real.sqrt ([⟨0, 0⟩, ⟨0, 0⟩] : Vec ℝ) [⟨10, 0⟩, ⟨10, 0⟩]
        (diag_op [⟨1, 0⟩, ⟨2, 0⟩])
      = [⟨10 / Real.sqrt 200, 0⟩, ⟨10 / Real.sqrt 200, 0⟩] ∧
    (10 / Real.sqrt 200) * (10 / Real.sqrt 200) = 1 / 2 := by
  have hpos : (0 : ℝ) < Real.sqrt 200 := Real.sqrt_pos.2 (by norm_num)
  have hne : Real.sqrt 200 ≠ 0 := ne_of_gt hpos
  have h1 : diff ([⟨10, 0⟩, ⟨10, 0⟩] : Vec ℝ) (diag_op [⟨1, 0⟩, ⟨2, 0⟩] [⟨0, 0⟩, ⟨0, 0⟩])
      = [⟨10, 0⟩, ⟨10, 0⟩] := by
    simp [diag_op, diff, cmul]
  have h2 : square_norm ([⟨10, 0⟩, ⟨10, 0⟩] : Vec ℝ) = 200 := by
    simp [square_norm]; norm_num
  refine ⟨h1, h2, ?_, ?_⟩
  · rw [entry_v0, h1, h2]
    simp [mul_r]
    ring
  · field_simp
    norm_num

/-- The two Arnoldi steps for `diag(1, 2)` started from `V[0] = (t, t)` with `t*t = 1/2`. -/
theorem c9_steps (t : ℝ) (ht : t * t = 1 / 2) :
    step0_hn Real.sqrt (diag_op [⟨1, 0⟩, ⟨2, 0⟩] : matrix_mult ℝ) [⟨t, 0⟩, ⟨t, 0⟩] = 1 / 2 ∧
    step0_beta Real.sqrt (diag_op [⟨1, 0⟩, ⟨2, 0⟩] : matrix_mult ℝ) [⟨t, 0⟩, ⟨t, 0⟩]
      = Real.sqrt (5 / 2) ∧
    step1_hn Real.sqrt (diag_op [⟨1, 0⟩, ⟨2, 0⟩] : matrix_mult ℝ) [⟨t, 0⟩, ⟨t, 0⟩]
      (step0_v1 Real.sqrt (diag_op [⟨1, 0⟩, ⟨2, 0⟩]) [⟨t, 0⟩, ⟨t, 0⟩]) = 0 := by
  have h1 : step0_h (diag_op [⟨1, 0⟩, ⟨2, 0⟩] : matrix_mult ℝ) [⟨t, 0⟩, ⟨t, 0⟩]
      = ⟨3 / 2, 0⟩ := by
    simp [step0_h, diag_op, scalar_prod, cmul]
    linear_combination (3 : ℝ) * ht
  have h2 : step0_w (diag_op [⟨1, 0⟩, ⟨2, 0⟩] : matrix_mult ℝ) [⟨t, 0⟩, ⟨t, 0⟩]
      = [⟨-(t / 2), 0⟩, ⟨t / 2, 0⟩] := by
    rw [step0_w, h1]
    simp [diag_op, assign_diff_mul, cmul]
    constructor <;> ring
  have h3 : step0_hn Real.sqrt (diag_op [⟨1, 0⟩, ⟨2, 0⟩] : matrix_mult ℝ)
      [⟨t, 0⟩, ⟨t, 0⟩] = 1 / 2 := by
    rw [step0_hn, h2]
    have : square_norm ([⟨-(t / 2), 0⟩, ⟨t / 2, 0⟩] : Vec ℝ) = (1 / 2) * (1 / 2) := by
      simp [square_norm]
      linear_combination (1 / 2 : ℝ) * ht
    rw [this, sqrt_mul_self_nn _ (by norm_num)]
  have hv : step0_v1 Real.sqrt (diag_op [⟨1, 0⟩, ⟨2, 0⟩] : matrix_mult ℝ) [⟨t, 0⟩, ⟨t, 0⟩]
      = [⟨-t, 0⟩, ⟨t, 0⟩] := by
    rw [step0_v1, h2, h3]
    simp [mul_r]
    ring
  have k0 : step1_h0 (diag_op [⟨1, 0⟩, ⟨2, 0⟩] : matrix_mult ℝ) [⟨t, 0⟩, ⟨t, 0⟩]
      [⟨-t, 0⟩, ⟨t, 0⟩] = ⟨1 / 2, 0⟩ := by
    simp [step1_h0, diag_op, scalar_prod, cmul]
    linear_combination (1 : ℝ) * ht
  have k1 : step1_h1 (diag_op [⟨1, 0⟩, ⟨2, 0⟩] : matrix_mult ℝ) [⟨t, 0⟩, ⟨t, 0⟩]
      [⟨-t, 0⟩, ⟨t, 0⟩] = ⟨3 / 2, 0⟩ := by
    rw [step1_h1, k0]
    simp [diag_op, scalar_prod, assign_diff_mul, cmul]
    linear_combination (3 : ℝ) * ht
  have kw : step1_w (diag_op [⟨1, 0⟩, ⟨2, 0⟩] : matrix_mult ℝ) [⟨t, 0⟩, ⟨t, 0⟩]
      [⟨-t, 0⟩, ⟨t, 0⟩] = [⟨0, 0⟩, ⟨0, 0⟩] := by
    rw [step1_w, k1, k0]
    simp [diag_op, assign_diff_mul, cmul]
    constructor <;> ring
  refine ⟨h3, ?_, ?_⟩
  · rw [step0_beta, h1, h3]
    congr 1
    simp [Cx._complex_square_norm]; norm_num
  · rw [hv, step1_hn, kw]
    simp [square_norm]

theorem quad_chain :
    KrylovChain (diag_op [⟨1, 0⟩, ⟨2, 0⟩, ⟨3, 0⟩, ⟨1000, 0⟩] : matrix_mult ℝ) quad_level where
  mono := by
    intro n x hx
    match n, hx with
    | 0, hx => exact ⟨0, 0, hx⟩
    | 1, ⟨ar, ai, hx⟩ => exact ⟨ar, ai, 0, 0, hx⟩
    | 2, ⟨ar, ai, br, bi, hx⟩ => exact ⟨ar, ai, br, bi, 0, 0, hx⟩
    | 3, ⟨ar, ai, br, bi, cr, ci, hx⟩ => subst hx; simp [quad_level, quad_vec]
    | n + 4, hx => exact hx
  apply := by
    intro n x hx
    match n, hx with
    | 0, hx =>
      subst hx
      refine ⟨0, 0, ?_⟩
      simp [quad_vec, diag_op, cmul]
    | 1, ⟨ar, ai, hx⟩ =>
      subst hx
      refine ⟨0, 0, ar, ai, ?_⟩
      simp [quad_vec, diag_op, cmul]
      ring_nf
      simp
    | 2, ⟨ar, ai, br, bi, hx⟩ =>
      subst hx
      refine ⟨0, 0, ar, ai, br, bi, ?_⟩
      simp [quad_vec, diag_op, cmul]
      ring_nf
      simp
    | 3, ⟨ar, ai, br, bi, cr, ci, hx⟩ =>
      subst hx; simp [quad_level, quad_vec, diag_op]
    | n + 4, hx =>
      have hx' : x.length = 4 := hx
      show (List.zipWith cmul _ x).length = 4
      simp [hx']
  sub := by
    intro n x y h hx hy
    match n, hx, hy with
    | 0, hx, hy =>
      subst hx hy
      show assign_diff_mul _ _ h = quad_vec 0 0 0 0 0 0
      simp [quad_vec, assign_diff_mul]
    | 1, ⟨ar, ai, hx⟩, ⟨ar2, ai2, hy⟩ =>
      subst hx hy
      refine ⟨ar - (h.re * ar2 - h.im * ai2), ai - (h.re * ai2 + h.im * ar2), ?_⟩
      simp [quad_vec, assign_diff_mul]
    | 2, ⟨ar, ai, br, bi, hx⟩, ⟨ar2, ai2, br2, bi2, hy⟩ =>
      subst hx hy
      refine ⟨ar - (h.re * ar2 - h.im * ai2), ai - (h.re * ai2 + h.im * ar2),
        br - (h.re * br2 - h.im * bi2), bi - (h.re * bi2 + h.im * br2), ?_⟩
      simp [quad_vec, assign_diff_mul]
      refine ⟨⟨?_, ?_⟩, ⟨?_, ?_⟩, ⟨?_, ?_⟩, ⟨?_, ?_⟩⟩ <;> ring
    | 3, ⟨ar, ai, br, bi, cr, ci, hx⟩, ⟨ar2, ai2, br2, bi2, cr2, ci2, hy⟩ =>
      subst hx hy
      refine ⟨ar - (h.re * ar2 - h.im * ai2), ai - (h.re * ai2 + h.im * ar2),
        br - (h.re * br2 - h.im * bi2), bi - (h.re * bi2 + h.im * br2),
        cr - (h.re * cr2 - h.im * ci2), ci - (h.re * ci2 + h.im * cr2), ?_⟩
      simp [quad_vec, assign_diff_mul]
      refine ⟨⟨?_, ?_⟩, ⟨?_, ?_⟩, ⟨?_, ?_⟩, ⟨?_, ?_⟩⟩ <;> ring
    | n + 4, hx, hy =>
      have hx' : x.length = 4 := hx
      have hy' : y.length = 4 := hy
      show (assign_diff_mul x y h).length = 4
      simp [assign_diff_mul, hx', hy']
  add := by
    intro n x y h hx hy
    match n, hx, hy with
    | 0, hx, hy =>
      subst hx hy
      show assign_add_mul _ _ h = quad_vec 0 0 0 0 0 0
      simp [quad_vec, assign_add_mul]
    | 1, ⟨ar, ai, hx⟩, ⟨ar2, ai2, hy⟩ =>
      subst hx hy
      refine ⟨ar + (h.re * ar2 - h.im * ai2), ai + (h.re * ai2 + h.im * ar2), ?_⟩
      simp [quad_vec, assign_add_mul]
    | 2, ⟨ar, ai, br, bi, hx⟩, ⟨ar2, ai2, br2, bi2, hy⟩ =>
      subst hx hy
      refine ⟨ar + (h.re * ar2 - h.im * ai2), ai + (h.re * ai2 + h.im * ar2),
        br + (h.re * br2 - h.im * bi2), bi + (h.re * bi2 + h.im * br2), ?_⟩
      simp [quad_vec, assign_add_mul]
      refine ⟨⟨?_, ?_⟩, ⟨?_, ?_⟩, ⟨?_, ?_⟩, ⟨?_, ?_⟩⟩ <;> ring
    | 3, ⟨ar, ai, br, bi, cr, ci, hx⟩, ⟨ar2, ai2, br2, bi2, cr2, ci2, hy⟩ =>
      subst hx hy
      refine ⟨ar + (h.re * ar2 - h.im * ai2), ai + (h.re * ai2 + h.im * ar2),
        br + (h.re * br2 - h.im * bi2), bi + (h.re * bi2 + h.im * br2),
        cr + (h.re * cr2 - h.im * ci2), ci + (h.re * ci2 + h.im * cr2), ?_⟩
      simp [quad_vec, assign_add_mul]
      refine ⟨⟨?_, ?_⟩, ⟨?_, ?_⟩, ⟨?_, ?_⟩, ⟨?_, ?_⟩⟩ <;> ring
    | n + 4, hx, hy =>
      have hx' : x.length = 4 := hx
      have hy' : y.length = 4 := hy
      show (assign_add_mul x y h).length = 4
      simp [assign_add_mul, hx', hy']
  scale := by
    intro n r x hx
    match n, hx with
    | 0, hx =>
      subst hx
      show mul_r r _ = quad_vec 0 0 0 0 0 0
      simp [quad_vec, mul_r]
    | 1, ⟨ar, ai, hx⟩ =>
      subst hx
      refine ⟨r * ar, r * ai, ?_⟩
      simp [quad_vec, mul_r]
    | 2, ⟨ar, ai, br, bi, hx⟩ =>
      subst hx
      refine ⟨r * ar, r * ai, r * br, r * bi, ?_⟩
      simp [quad_vec, mul_r]
      refine ⟨⟨?_, ?_⟩, ⟨?_, ?_⟩, ⟨?_, ?_⟩, ⟨?_, ?_⟩⟩ <;> ring
    | 3, ⟨ar, ai, br, bi, cr, ci, hx⟩ =>
      subst hx
      refine ⟨r * ar, r * ai, r * br, r * bi, r * cr, r * ci, ?_⟩
      simp [quad_vec, mul_r]
      refine ⟨⟨?_, ?_⟩, ⟨?_, ?_⟩, ⟨?_, ?_⟩, ⟨?_, ?_⟩⟩ <;> ring
    | n + 4, hx =>
      have hx' : x.length = 4 := hx
      show (mul_r r x).length = 4
      simp [mul_r, hx']

theorem quad_vec_inaccurate (ar ai br bi cr ci : ℝ) :
    ¬ ∀ z ∈ diff (diag_op [⟨1, 0⟩, ⟨2, 0⟩, ⟨3, 0⟩, ⟨1000, 0⟩]
          (quad_vec ar ai br bi cr ci))
        ([⟨1, 0⟩, ⟨1, 0⟩, ⟨1, 0⟩, ⟨1, 0⟩] : Vec ℝ),
      z.re * z.re + z.im * z.im ≤ (1 / 1000000) ^ 2 := by
  intro h
  have key : ∀ d e : ℝ, d * d + e * e ≤ (1 / 1000000) ^ 2 →
      -(1 / 1000000) ≤ d ∧ d ≤ 1 / 1000000 := by
    intro d e hde
    have hd : d ^ 2 ≤ (1 / 1000000 : ℝ) ^ 2 := by nlinarith [mul_self_nonneg e]
    exact abs_le.1 (abs_le_of_sq_le_sq hd (by norm_num))
  simp only [quad_vec, diag_op, diff, cmul, List.map, List.zipWith, List.mem_cons,
    List.mem_singleton, forall_eq_or_imp, forall_eq, List.not_mem_nil, false_implies,
    implies_true, and_true] at h
  obtain ⟨h1, h2, h3, h4⟩ := h
  obtain ⟨a1, b1⟩ := key _ _ h1
  obtain ⟨a2, b2⟩ := key _ _ h2
  obtain ⟨a3, b3⟩ := key _ _ h3
  obtain ⟨a4, b4⟩ := key _ _ h4
  linarith

theorem square_norm_nonneg (x : Vec ℝ) : 0 ≤ square_norm x := by
  induction x with
  | nil => simp [square_norm]
  | cons z x ih =>
    simp only [square_norm]
    nlinarith [mul_self_nonneg z.re, mul_self_nonneg z.im]

theorem square_norm_mul_r (c : ℝ) (x : Vec ℝ) :
    square_norm (mul_r c x) = c * c * square_norm x := by
  induction x with
  | nil => simp [square_norm, mul_r]
  | cons z x ih =>
    simp only [mul_r, List.map_cons, square_norm] at ih ⊢
    rw [ih]; ring

theorem scalar_prod_self (x : Vec ℝ) : scalar_prod x x = ⟨square_norm x, 0⟩ := by
  induction x with
  | nil => simp [square_norm, scalar_prod]
  | cons z x ih =>
    simp only [scalar_prod, square_norm, ih]
    congr 1
    ring

theorem square_norm_sub_self (x : Vec ℝ) :
    square_norm (assign_diff_mul x x ⟨1, 0⟩) = 0 := by
  induction x with
  | nil => simp [square_norm, assign_diff_mul]
  | cons z x ih =>
    simp only [assign_diff_mul, List.zipWith_cons_cons, square_norm] at ih ⊢
    rw [ih]; ring

theorem eq_of_square_norm_diff_zero (a b : Vec ℝ) (hl : b.length = a.length)
    (h : square_norm (diff a b) = 0) : b = a := by
  induction a generalizing b with
  | nil => simpa using hl
  | cons x xs ih =>
    cases b with
    | nil => simp at hl
    | cons y ys =>
      simp only [diff, List.zipWith_cons_cons, square_norm] at h
      have hn := square_norm_nonneg (diff xs ys)
      simp only [diff] at hn
      have h1 : (x.re - y.re) * (x.re - y.re) = 0 := by
        nlinarith [mul_self_nonneg (x.re - y.re), mul_self_nonneg (x.im - y.im)]
      have h2 : (x.im - y.im) * (x.im - y.im) = 0 := by
        nlinarith [mul_self_nonneg (x.re - y.re), mul_self_nonneg (x.im - y.im)]
      have h3 : square_norm (diff xs ys) = 0 := by
        simp only [diff]
        nlinarith [mul_self_nonneg (x.re - y.re), mul_self_nonneg (x.im - y.im)]
      have e1 : y.re = x.re := by
        have := mul_self_eq_zero.1 h1; linarith
      have e2 : y.im = x.im := by
        have := mul_self_eq_zero.1 h2; linarith
      have e3 := ih ys (by simpa using hl) h3
      cases x; cases y
      simp only [Cx.mk.injEq, List.cons.injEq] at *
      exact ⟨⟨e1, e2⟩, e3⟩

theorem add_scaled_diff (rho : ℝ) (hrho : rho ≠ 0) (P Q : Vec ℝ)
    (hl : P.length = Q.length) :
    assign_add_mul P (mul_r (1 / rho) (diff Q P)) ⟨rho, 0⟩ = Q := by
  induction P generalizing Q with
  | nil =>
    cases Q with
    | nil => simp [assign_add_mul]
    | cons y ys => simp at hl
  | cons x xs ih =>
    cases Q with
    | nil => simp at hl
    | cons y ys =>
      have e3 := ih ys (by simpa using hl)
      simp only [assign_add_mul, mul_r, diff, List.zipWith_cons_cons, List.map_cons] at e3 ⊢
      rw [e3]
      cases x; cases y
      simp only [List.cons.injEq, Cx.mk.injEq, and_true]
      constructor <;> field_simp

/-- The identity operator on a workspace whose `alpha[0].im` is zero when line 109 is
reached (a freshly allocated workspace, or one left by a call that ended on line 186):
for every `Q`, every `P` of the same length, every `eps_sq`, `rel_prec` 0 or 1 and
`m >= 1` the call returns 0 and leaves `P = Q`. -/
theorem identity_call_exact (la : DenseLA ℝ) (ws : Workspace ℝ) (VR : Int) (P Q : Vec ℝ)
    (m nr_ev : Nat) (max_restarts : Int) (eps_sq : ℝ) (rel_prec : Int) (hm : 1 ≤ m)
    (hrel : rel_prec = 0 ∨ rel_prec = 1) (hl : P.length = Q.length)
    (him : ((init_gmres ws (m : Int) (Int.tdiv VR 2)).alpha 0).im = 0) :
    (gmres_dr Real.sqrt la ws VR P Q m nr_ev max_restarts eps_sq rel_prec id).ret = 0 ∧
    (gmres_dr Real.sqrt la ws VR P Q m nr_ev max_restarts eps_sq rel_prec id).P = Q := by
  have hnn := square_norm_nonneg (diff Q (id P))
  by_cases h0 : Real.sqrt (square_norm (diff Q (id P))) = 0
  · obtain ⟨r1, -, r3, -⟩ := gmres_dr_entry_zero Real.sqrt la ws VR P Q m nr_ev
      max_restarts eps_sq rel_prec id h0
    refine ⟨r1, ?_⟩
    rw [r3]
    have hz : square_norm (diff Q (id P)) = 0 :=
      le_antisymm (Real.sqrt_eq_zero'.1 h0) hnn
    exact eq_of_square_norm_diff_zero Q P hl hz
  · have hsq : Real.sqrt (square_norm (diff Q (id P)))
        * Real.sqrt (square_norm (diff Q (id P))) = square_norm (diff Q (id P)) :=
      Real.mul_self_sqrt hnn
    have hv : square_norm (entry_v0 Real.sqrt P Q id) = 1 := by
      have hsq' : Real.sqrt (square_norm (diff Q P)) * Real.sqrt (square_norm (diff Q P))
          = square_norm (diff Q P) := hsq
      have h0' : Real.sqrt (square_norm (diff Q P)) ≠ 0 := h0
      rw [entry_v0, square_norm_mul_r]
      show 1 / Real.sqrt (square_norm (diff Q P)) * (1 / Real.sqrt (square_norm (diff Q P)))
        * square_norm (diff Q P) = 1
      rw [← hsq']
      field_simp
    have hh : step0_h (id : matrix_mult ℝ) (entry_v0 Real.sqrt P Q id) = ⟨1, 0⟩ := by
      rw [step0_h]
      show scalar_prod (entry_v0 Real.sqrt P Q id) (entry_v0 Real.sqrt P Q id) = _
      rw [scalar_prod_self, hv]
    have hn : step0_hn Real.sqrt (id : matrix_mult ℝ) (entry_v0 Real.sqrt P Q id) = 0 := by
      rw [step0_hn, step0_w, hh]
      show Real.sqrt (square_norm (assign_diff_mul (entry_v0 Real.sqrt P Q id)
        (entry_v0 Real.sqrt P Q id) ⟨1, 0⟩)) = 0
      rw [square_norm_sub_self, Real.sqrt_zero]
    have hb : step0_beta Real.sqrt (id : matrix_mult ℝ) (entry_v0 Real.sqrt P Q id) = 1 := by
      rw [step0_beta, hh, hn]
      simp [Cx._complex_square_norm]
    have ht : ((step0_hn Real.sqrt id (entry_v0 Real.sqrt P Q id)
          / step0_beta Real.sqrt id (entry_v0 Real.sqrt P Q id))
          * Real.sqrt (square_norm (diff Q (id P))) ≤ Real.sqrt eps_sq ∧ rel_prec = 0) ∨
        ((step0_hn Real.sqrt id (entry_v0 Real.sqrt P Q id)
          / step0_beta Real.sqrt id (entry_v0 Real.sqrt P Q id))
          * Real.sqrt (square_norm (diff Q (id P)))
            ≤ Real.sqrt eps_sq * Real.sqrt (square_norm Q) ∧ rel_prec = 1) := by
      rw [hn, hb]
      rcases hrel with h | h
      · left; exact ⟨by simp, h⟩
      · right
        have hpos := mul_nonneg (Real.sqrt_nonneg eps_sq) (Real.sqrt_nonneg (square_norm Q))
        exact ⟨by simpa using hpos, h⟩
    obtain ⟨r1, -, r3, -, -⟩ := gmres_dr_first_step Real.sqrt la ws VR P Q m nr_ev
      max_restarts eps_sq rel_prec id (by omega) h0 ht
    refine ⟨r1, ?_⟩
    have hc : step0_coeff Real.sqrt (id : matrix_mult ℝ) (entry_v0 Real.sqrt P Q id)
        (entry_alpha0 Real.sqrt ws VR P Q m id)
        = ⟨Real.sqrt (square_norm (diff Q (id P))), 0⟩ := by
      rw [step0_coeff, hh, hb, entry_alpha0, him]
      simp [Cx._mult_real, Cx._mult_assign_complex_conj]
    rw [r3, hc, entry_v0]
    exact add_scaled_diff _ h0 P Q hl

theorem hess_arnoldi_w (j : Nat) (hj : j ≤ 2) :
    arnoldi_w (unit4 : Nat → Vec ℝ) (hess_op (unit4 j)) (j + 1) = mul_r 4 (unit4 (j + 1)) := by
  interval_cases j <;>
    simp [arnoldi_w, unit4, hess_op, spinor4, scalar_prod, assign_diff_mul, cmul, cadd, mul_r]

theorem hess_arnoldi_h :
    arnoldi_h (unit4 : Nat → Vec ℝ) (hess_op (unit4 2)) 0 = ⟨0, 0⟩ ∧
    arnoldi_h (unit4 : Nat → Vec ℝ) (hess_op (unit4 2)) 1 = ⟨0, 5⟩ := by
  constructor <;>
    simp [arnoldi_h, arnoldi_w, unit4, hess_op, spinor4, scalar_prod, assign_diff_mul, cmul,
      cadd]

theorem unit4_square_norm (k : Nat) : square_norm (unit4 k : Vec ℝ) = 1 := by
  match k with
  | 0 => simp [unit4, spinor4, square_norm]
  | 1 => simp [unit4, spinor4, square_norm]
  | 2 => simp [unit4, spinor4, square_norm]
  | _ + 3 => simp [unit4, spinor4, square_norm]

/-- One pass of the cycle-0 loop of the call on `hess_op`: from the unit vectors
`V[0..j]` it produces the next unit vector (the norm found is 4), and the estimate
`alpha[j+1]` stays positive. -/
theorem hess_step (j : Nat) (hj : j ≤ 2) (st : St ℝ) (hV : ∀ i, i ≤ j → st.V i = unit4 i)
    (ha : 0 < (st.alpha j).re) :
    (∀ i, i ≤ j + 1 → (normalise0 j (arnoldi0 Real.sqrt hess_op j st)).V i = unit4 i) ∧
    0 < ((arnoldi0 Real.sqrt hess_op j st).alpha (j + 1)).re := by
  obtain ⟨sV, sw, sH⟩ := arnoldi0_step_fields Real.sqrt hess_op j st
  obtain ⟨-, ⟨d, hd⟩, -⟩ := arnoldi0_scalars Real.sqrt hess_op j st
  have hw : arnoldi_w st.V (hess_op (st.V j)) (j + 1) = mul_r 4 (unit4 (j + 1)) := by
    rw [hV j (le_refl j), arnoldi_w_congr st.V unit4 _ _ (fun i hi => hV i (by omega)),
      hess_arnoldi_w j hj]
  have hn : Real.sqrt (square_norm (arnoldi_w st.V (hess_op (st.V j)) (j + 1))) = 4 := by
    rw [hw, square_norm_mul_r, unit4_square_norm, mul_one, sqrt_mul_self_nn 4 (by norm_num)]
  constructor
  · intro i hi
    rcases Nat.lt_or_ge i (j + 1) with h | h
    · simp only [normalise0]
      rw [Function.update_noteq (by omega), sV]
      exact hV i (by omega)
    · have e : i = j + 1 := by omega
      simp only [normalise0]
      rw [e, Function.update_same, sH, sw, hn, hw]
      interval_cases j <;> simp [mul_r, unit4, spinor4]
  · rw [hd, hn]
    have hb : 0 < Real.sqrt (Cx._complex_square_norm d
        + Cx._complex_square_norm (⟨4, 0⟩ : Cx ℝ)) := by
      apply Real.sqrt_pos.2
      have : 0 ≤ Cx._complex_square_norm d := by
        simp only [Cx._complex_square_norm]
        nlinarith [mul_self_nonneg d.re, mul_self_nonneg d.im]
      have h16 : Cx._complex_square_norm (⟨4, 0⟩ : Cx ℝ) = 16 := by
        simp [Cx._complex_square_norm]; norm_num
      linarith
    simp only [Cx._mult_real]
    exact mul_pos (div_pos (by norm_num) hb) ha

theorem hess_entry :
    diff (spinor4 ⟨1, 0⟩ ⟨0, 0⟩ ⟨0, 0⟩ ⟨0, 0⟩ : Vec ℝ)
        (hess_op (spinor4 ⟨0, 0⟩ ⟨0, 0⟩ ⟨0, 0⟩ ⟨0, 0⟩)) = unit4 0 ∧
    Real.sqrt (square_norm (diff (spinor4 ⟨1, 0⟩ ⟨0, 0⟩ ⟨0, 0⟩ ⟨0, 0⟩ : Vec ℝ)
        (hess_op (spinor4 ⟨0, 0⟩ ⟨0, 0⟩ ⟨0, 0⟩ ⟨0, 0⟩)))) = 1 := by
  have h1 : diff (spinor4 ⟨1, 0⟩ ⟨0, 0⟩ ⟨0, 0⟩ ⟨0, 0⟩ : Vec ℝ)
      (hess_op (spinor4 ⟨0, 0⟩ ⟨0, 0⟩ ⟨0, 0⟩ ⟨0, 0⟩)) = unit4 0 := by
    simp [spinor4, unit4, hess_op, diff, cmul, cadd]
  refine ⟨h1, ?_⟩
  rw [h1, unit4_square_norm, Real.sqrt_one]

theorem hess_step0 :
    step0_s Real.sqrt (hess_op : matrix_mult ℝ) (unit4 0) = 4 / 5 ∧
    step0_c Real.sqrt (hess_op : matrix_mult ℝ) (unit4 0) = ⟨0, 3 / 5⟩ := by
  have h1 : step0_h (hess_op : matrix_mult ℝ) (unit4 0) = ⟨0, 3⟩ := by
    simp [step0_h, unit4, spinor4, hess_op, scalar_prod, cmul, cadd]
  have h2 : step0_w (hess_op : matrix_mult ℝ) (unit4 0) = mul_r 4 (unit4 1) := by
    rw [step0_w, h1]
    simp [unit4, spinor4, hess_op, assign_diff_mul, cmul, cadd, mul_r]
  have h3 : step0_hn Real.sqrt (hess_op : matrix_mult ℝ) (unit4 0) = 4 := by
    rw [step0_hn, h2, square_norm_mul_r, unit4_square_norm, mul_one,
      sqrt_mul_self_nn 4 (by norm_num)]
  have h4 : step0_beta Real.sqrt (hess_op : matrix_mult ℝ) (unit4 0) = 5 := by
    rw [step0_beta, h1, h3]
    have : Cx._complex_square_norm (⟨0, 3⟩ : Cx ℝ) + Cx._complex_square_norm (⟨4, 0⟩ : Cx ℝ)
        = 5 * 5 := by
      simp [Cx._complex_square_norm]; norm_num
    rw [this, sqrt_mul_self_nn 5 (by norm_num)]
  refine ⟨?_, ?_⟩
  · rw [step0_s, h3, h4]
  · rw [step0_c, h1, h4]; simp [Cx._mult_real]; norm_num

/-- The basis and the estimate at the top of pass `j <= 3` of the cycle-0 loop of the call
on `hess_op`: unit vectors, positive estimate. -/
theorem hess_levels (j : Nat) (hj : j ≤ 3) :
    (∀ i, i ≤ j → (hess_top Real.sqrt j).V i = unit4 i) ∧
    0 < ((hess_top Real.sqrt j).alpha j).re := by
  induction j with
  | zero =>
    obtain ⟨e1, e2, -⟩ := loop_entry_fields Real.sqrt staticWorkspace 2
      (spinor4 ⟨0, 0⟩ ⟨0, 0⟩ ⟨0, 0⟩ ⟨0, 0⟩) (spinor4 ⟨1, 0⟩ ⟨0, 0⟩ ⟨0, 0⟩ ⟨0, 0⟩ : Vec ℝ) 3
      hess_op
    constructor
    · intro i hi
      have ei : i = 0 := by omega
      rw [ei]
      show (loop_entry Real.sqrt staticWorkspace 2 _ _ 3 hess_op).V 0 = unit4 0
      rw [e1, entry_v0, hess_entry.2, hess_entry.1]
      simp [mul_r, unit4, spinor4]
    · show 0 < ((loop_entry Real.sqrt staticWorkspace 2 _ _ 3 hess_op).alpha 0).re
      rw [e2, static_entry_alpha0, hess_entry.2]
      norm_num
  | succ j ih =>
    obtain ⟨h1, h2⟩ := ih (by omega)
    exact hess_step j (by omega) (hess_top Real.sqrt j) h1 h2

/-- After cycle 0 of the call on `hess_op` the entry `H[0][2]` holds `4i`, the rotated
coefficient of row 0 in column 2 of the triangular factor. -/
theorem hess_H02 : (hess_top Real.sqrt 3).H 0 2 = ⟨0, 4⟩ := by
  obtain ⟨v2, -⟩ := hess_levels 2 (by norm_num)
  obtain ⟨v0, -⟩ := hess_levels 0 (by norm_num)
  obtain ⟨-, -, hH⟩ := arnoldi0_scalars Real.sqrt hess_op 2 (hess_top Real.sqrt 2)
  obtain ⟨f1, -, -⟩ := arnoldi0_scalars Real.sqrt hess_op 1 (hess_top Real.sqrt 1)
  obtain ⟨z1, z2⟩ := arnoldi0_zero_sc Real.sqrt hess_op (hess_top Real.sqrt 0)
  have hs : (hess_top Real.sqrt 2).s 0 = 4 / 5 := by
    show (arnoldi0 Real.sqrt hess_op 1 (hess_top Real.sqrt 1)).s 0 = 4 / 5
    rw [(f1 0 (by norm_num)).1]
    show (arnoldi0 Real.sqrt hess_op 0 (hess_top Real.sqrt 0)).s 0 = 4 / 5
    rw [z1, v0 0 (le_refl 0), hess_step0.1]
  have hc : (hess_top Real.sqrt 2).c 0 = ⟨0, 3 / 5⟩ := by
    show (arnoldi0 Real.sqrt hess_op 1 (hess_top Real.sqrt 1)).c 0 = _
    rw [(f1 0 (by norm_num)).2]
    show (arnoldi0 Real.sqrt hess_op 0 (hess_top Real.sqrt 0)).c 0 = _
    rw [z2, v0 0 (le_refl 0), hess_step0.2]
  have h0 : arnoldi_h (hess_top Real.sqrt 2).V (hess_op ((hess_top Real.sqrt 2).V 2)) 0
      = ⟨0, 0⟩ := by
    rw [arnoldi_h, v2 2 (le_refl 2), v2 0 (by norm_num),
      arnoldi_w_congr _ unit4 _ 0 (fun i hi => absurd hi (by omega))]
    exact hess_arnoldi_h.1
  have h1 : arnoldi_h (hess_top Real.sqrt 2).V (hess_op ((hess_top Real.sqrt 2).V 2)) 1
      = ⟨0, 5⟩ := by
    rw [arnoldi_h, v2 2 (le_refl 2), v2 1 (by norm_num),
      arnoldi_w_congr _ unit4 _ 1 (fun i hi => v2 i (by omega))]
    exact hess_arnoldi_h.2
  show (arnoldi0 Real.sqrt hess_op 2 (hess_top Real.sqrt 2)).H 0 2 = _
  rw [hH (by norm_num), hs, hc, h0, h1]
  simp [Cx._add_assign_complex_conj, Cx._mult_real]

/-- With `eps_sq = 0` and `rel_prec = 0` the test of line 170 fails in all three passes of
the cycle-0 loop of the call on `hess_op`, which so runs to its end. -/
theorem hess_cycle0 (norm : ℝ) :
    cycle0 Real.sqrt hess_op (Real.sqrt 0) norm 0 3 0 (hess_top Real.sqrt 0)
      = Sum.inr (hess_top Real.sqrt 3) := by
  have key := cycle0_exhausted Real.sqrt hess_op (Real.sqrt 0) norm 0 2 0
    (hess_top Real.sqrt 0) (fun k hk => by
      have hk3 : k ≤ 3 := by omega
      have e : cycle0_state Real.sqrt hess_op k 0 (hess_top Real.sqrt 0)
          = arnoldi0 Real.sqrt hess_op k (hess_top Real.sqrt k) := by
        interval_cases k <;> rfl
      have hp := (hess_levels (k + 1) (by omega)).2
      have hp' : 0 < ((arnoldi0 Real.sqrt hess_op k (hess_top Real.sqrt k)).alpha (k + 1)).re :=
        hp
      rw [e, precision_reached_iff]
      simp only [test_value, Real.sqrt_zero, Nat.zero_add]
      rintro (⟨h1, -⟩ | ⟨-, h2⟩)
      · linarith
      · exact absurd h2 (by norm_num))
  exact key

/-- No vector with zero components beyond the third solves `hess_op x = (1, 0, ...)`: the
residual has a non-zero norm. -/
theorem hess_residual_ne (x : Vec ℝ) (hx : span3 x) :
    Real.sqrt (square_norm (diff (spinor4 ⟨1, 0⟩ ⟨0, 0⟩ ⟨0, 0⟩ ⟨0, 0⟩ : Vec ℝ) (hess_op x)))
      ≠ 0 := by
  obtain ⟨a, b, c, rfl⟩ := hx
  obtain ⟨ar, ai⟩ := a
  obtain ⟨br, bi⟩ := b
  obtain ⟨cr, ci⟩ := c
  have hpos : 0 < square_norm (diff (spinor4 ⟨1, 0⟩ ⟨0, 0⟩ ⟨0, 0⟩ ⟨0, 0⟩ : Vec ℝ)
      (hess_op (spinor4 ⟨ar, ai⟩ ⟨br, bi⟩ ⟨cr, ci⟩ ⟨0, 0⟩))) := by
    simp only [spinor4, hess_op, diff, cmul, cadd, List.zipWith_cons_cons,
      List.zipWith_nil_right, square_norm]
    by_contra hcon
    push_neg at hcon
    have n1 := sq_nonneg (1 + 3 * ai)
    have n2 := sq_nonneg (3 * ar)
    have n3 := sq_nonneg (4 * ar - 5 * bi - 5 * ci)
    have n4 := sq_nonneg (4 * ai + 5 * br + 5 * cr)
    have n5 := sq_nonneg (4 * br - cr)
    have n6 := sq_nonneg (4 * bi - ci)
    have n7 := sq_nonneg (4 * cr)
    have n8 := sq_nonneg (4 * ci)
    have z1 : (1 + 3 * ai) ^ 2 = 0 := le_antisymm (by linarith) n1
    have z2 : (3 * ar) ^ 2 = 0 := le_antisymm (by linarith) n2
    have z4 : (4 * ai + 5 * br + 5 * cr) ^ 2 = 0 := le_antisymm (by linarith) n4
    have z5 : (4 * br - cr) ^ 2 = 0 := le_antisymm (by linarith) n5
    have z7 : (4 * cr) ^ 2 = 0 := le_antisymm (by linarith) n7
    have e1 := pow_eq_zero_iff (two_ne_zero) |>.1 z1
    have e4 := pow_eq_zero_iff (two_ne_zero) |>.1 z4
    have e5 := pow_eq_zero_iff (two_ne_zero) |>.1 z5
    have e7 := pow_eq_zero_iff (two_ne_zero) |>.1 z7
    linarith
  exact (Real.sqrt_pos.2 hpos).ne'

theorem hess_top_sol (j : Nat) :
    (hess_top Real.sqrt j).sol = spinor4 ⟨0, 0⟩ ⟨0, 0⟩ ⟨0, 0⟩ ⟨0, 0⟩ := by
  induction j with
  | zero =>
    exact (loop_entry_fields Real.sqrt staticWorkspace 2
      (spinor4 ⟨0, 0⟩ ⟨0, 0⟩ ⟨0, 0⟩ ⟨0, 0⟩) (spinor4 ⟨1, 0⟩ ⟨0, 0⟩ ⟨0, 0⟩ ⟨0, 0⟩ : Vec ℝ) 3
      hess_op).2.2.1
  | succ j ih =>
    show (arnoldi0 Real.sqrt hess_op j (hess_top Real.sqrt j)).sol = _
    rw [arnoldi0_sol, ih]

/-- The call on `hess_op` with `max_restarts = 2` runs cycle 0 to its end, finds a non-zero
residual and makes one restart cycle, whatever the dense routines return; the matrix `H`
handed to `zgels` in that cycle still has the `4i` of cycle 0 in `H[0][2]`. -/
theorem hess_call_restart (la : DenseLA ℝ) :
    (hess_call Real.sqrt la 2).ret = -1 ∧
    (hess_call Real.sqrt la 2).exit = ExitPath.max_restarts ∧
    (hess_call Real.sqrt la 2).st
      = lsq_update la hess_op (spinor4 ⟨1, 0⟩ ⟨0, 0⟩ ⟨0, 0⟩ ⟨0, 0⟩) 3
          (restart_arnoldi Real.sqrt la hess_op 3 1
            (prepare_restart (spinor4 ⟨1, 0⟩ ⟨0, 0⟩ ⟨0, 0⟩ ⟨0, 0⟩) hess_op 3
              (hess_top Real.sqrt 3))) ∧
    (restart_arnoldi Real.sqrt la hess_op 3 1
        (prepare_restart (spinor4 ⟨1, 0⟩ ⟨0, 0⟩ ⟨0, 0⟩ ⟨0, 0⟩) hess_op 3
          (hess_top Real.sqrt 3))).H 0 2 = ⟨0, 4⟩ := by
  have h0 : Real.sqrt (square_norm (diff (spinor4 ⟨1, 0⟩ ⟨0, 0⟩ ⟨0, 0⟩ ⟨0, 0⟩ : Vec ℝ)
      (hess_op (spinor4 ⟨0, 0⟩ ⟨0, 0⟩ ⟨0, 0⟩ ⟨0, 0⟩)))) ≠ 0 := by
    rw [hess_entry.2]; norm_num
  have hc : cycle0 Real.sqrt hess_op (Real.sqrt 0)
      (Real.sqrt (square_norm (spinor4 ⟨1, 0⟩ ⟨0, 0⟩ ⟨0, 0⟩ ⟨0, 0⟩ : Vec ℝ))) 0 3 0
      (loop_entry Real.sqrt staticWorkspace 2 (spinor4 ⟨0, 0⟩ ⟨0, 0⟩ ⟨0, 0⟩ ⟨0, 0⟩)
        (spinor4 ⟨1, 0⟩ ⟨0, 0⟩ ⟨0, 0⟩ ⟨0, 0⟩) 3 hess_op)
      = Sum.inr (hess_top Real.sqrt 3) := hess_cycle0 _
  have hspan : span3 (backsubst 2 (hess_top Real.sqrt 3)).sol := by
    apply backsubst_krylov (span3_chain : KrylovChain (id : matrix_mult ℝ) _) 0 2
    · rw [hess_top_sol]
      exact ⟨_, _, _, rfl⟩
    · intro i hi
      rw [(hess_levels 3 (le_refl 3)).1 i (by omega)]
      interval_cases i <;> exact ⟨_, _, _, rfl⟩
  have hr : Real.sqrt (square_norm (prepare_restart (spinor4 ⟨1, 0⟩ ⟨0, 0⟩ ⟨0, 0⟩ ⟨0, 0⟩)
      hess_op 3 (hess_top Real.sqrt 3)).r) ≠ 0 := by
    simp only [prepare_restart]
    exact hess_residual_ne _ hspan
  obtain ⟨x1, x2, x3⟩ := (gmres_dr_exhausted Real.sqrt la staticWorkspace 2
    (spinor4 ⟨0, 0⟩ ⟨0, 0⟩ ⟨0, 0⟩ ⟨0, 0⟩) (spinor4 ⟨1, 0⟩ ⟨0, 0⟩ ⟨0, 0⟩ ⟨0, 0⟩) 3 1 2 0 0
    hess_op (hess_top Real.sqrt 3) h0 hc).2.1 hr
  refine ⟨x1, x2, ?_, ?_⟩
  · show (gmres_dr Real.sqrt la staticWorkspace 2 _ _ 3 1 2 0 0 hess_op).st = _
    rw [x3]
    rfl
  · rw [restart_arnoldi_H Real.sqrt la hess_op 3 1 _ 0 2 (Or.inl ⟨by norm_num, by norm_num⟩),
      prepare_restart_H]
    exact hess_H02

/-- The diagonal of the rotated `H` after the two steps of cycle 0 on `bidiag_op`. -/
theorem bidiag_state1_diag (ws : Workspace ℝ) (m : Nat) :
    (state_at Real.sqrt ws 2 (spinor3 ⟨0, 0⟩ ⟨0, 0⟩ ⟨0, 0⟩) (spinor3 ⟨1, 0⟩ ⟨0, 0⟩ ⟨0, 0⟩) m
      bidiag_op 1).H 0 0 = ⟨5, 0⟩ ∧
    (state_at Real.sqrt ws 2 (spinor3 ⟨0, 0⟩ ⟨0, 0⟩ ⟨0, 0⟩) (spinor3 ⟨1, 0⟩ ⟨0, 0⟩ ⟨0, 0⟩) m
      bidiag_op 1).H 1 1 = ⟨5, 0⟩ := by
  obtain ⟨-, -, n3⟩ := bidiag_entry
  obtain ⟨-, -, h3, h4⟩ := bidiag_step0
  obtain ⟨d1, d2, d3⟩ := bidiag_step0_derived
  obtain ⟨-, -, -, k4⟩ := bidiag_step1
  have e : state_at Real.sqrt ws 2 (spinor3 ⟨0, 0⟩ ⟨0, 0⟩ ⟨0, 0⟩)
      (spinor3 ⟨1, 0⟩ ⟨0, 0⟩ ⟨0, 0⟩) m bidiag_op 1
      = arnoldi0 Real.sqrt bidiag_op 1 (normalise0 0 (arnoldi0 Real.sqrt bidiag_op 0
          (loop_entry Real.sqrt ws 2 (spinor3 ⟨0, 0⟩ ⟨0, 0⟩ ⟨0, 0⟩)
            (spinor3 ⟨1, 0⟩ ⟨0, 0⟩ ⟨0, 0⟩) m bidiag_op))) := rfl
  obtain ⟨-, -, a3, a4, a5, a6, -⟩ := arnoldi0_zero Real.sqrt bidiag_op
    (loop_entry Real.sqrt ws 2 (spinor3 ⟨0, 0⟩ ⟨0, 0⟩ ⟨0, 0⟩)
      (spinor3 ⟨1, 0⟩ ⟨0, 0⟩ ⟨0, 0⟩) m bidiag_op)
  obtain ⟨b1, b2⟩ := arnoldi0_zero_sc Real.sqrt bidiag_op
    (loop_entry Real.sqrt ws 2 (spinor3 ⟨0, 0⟩ ⟨0, 0⟩ ⟨0, 0⟩)
      (spinor3 ⟨1, 0⟩ ⟨0, 0⟩ ⟨0, 0⟩) m bidiag_op)
  have v0 := (loop_entry_fields Real.sqrt ws 2 (spinor3 ⟨0, 0⟩ ⟨0, 0⟩ ⟨0, 0⟩)
      (spinor3 ⟨1, 0⟩ ⟨0, 0⟩ ⟨0, 0⟩) m bidiag_op).1
  rw [n3] at v0
  rw [v0] at a3 a4 a5 b1 b2
  obtain ⟨-, -, -, -, o5, o6, -⟩ := arnoldi0_one Real.sqrt bidiag_op
    (normalise0 0 (arnoldi0 Real.sqrt bidiag_op 0
      (loop_entry Real.sqrt ws 2 (spinor3 ⟨0, 0⟩ ⟨0, 0⟩ ⟨0, 0⟩)
        (spinor3 ⟨1, 0⟩ ⟨0, 0⟩ ⟨0, 0⟩) m bidiag_op)))
  have w0 : (normalise0 0 (arnoldi0 Real.sqrt bidiag_op 0
      (loop_entry Real.sqrt ws 2 (spinor3 ⟨0, 0⟩ ⟨0, 0⟩ ⟨0, 0⟩)
        (spinor3 ⟨1, 0⟩ ⟨0, 0⟩ ⟨0, 0⟩) m bidiag_op))).V 0
      = spinor3 ⟨1, 0⟩ ⟨0, 0⟩ ⟨0, 0⟩ := by
    simp [normalise0, a6, v0]
  have w1 : (normalise0 0 (arnoldi0 Real.sqrt bidiag_op 0
      (loop_entry Real.sqrt ws 2 (spinor3 ⟨0, 0⟩ ⟨0, 0⟩ ⟨0, 0⟩)
        (spinor3 ⟨1, 0⟩ ⟨0, 0⟩ ⟨0, 0⟩) m bidiag_op))).V 1
      = spinor3 ⟨0, 0⟩ ⟨1, 0⟩ ⟨0, 0⟩ := by
    rw [← d3]
    simp [normalise0, a4, a5, step0_v1]
  rw [e]
  constructor
  · rw [o6]
    show (arnoldi0 Real.sqrt bidiag_op 0 _).H 0 0 = _
    rw [a3, h4]
  · rw [o5, w0, w1]
    show (⟨step1_beta Real.sqrt bidiag_op _ _
      ((arnoldi0 Real.sqrt bidiag_op 0 _).s 0) ((arnoldi0 Real.sqrt bidiag_op 0 _).c 0), 0⟩
        : Cx ℝ) = _
    rw [b1, b2, d1, d2, k4]

theorem defl_op_unit (b0 b1 b2 : ℝ) :
    defl_op b0 b1 b2 (unit3 0) = spinor3 ⟨8, 0⟩ ⟨6, 0⟩ ⟨0, 0⟩ ∧
    defl_op b0 b1 b2 (unit3 1) = spinor3 ⟨0, 0⟩ ⟨5, 0⟩ ⟨5 / 3, 0⟩ ∧
    defl_op b0 b1 b2 (unit3 2) = spinor3 ⟨b0, 0⟩ ⟨b1, 0⟩ ⟨b2, 0⟩ := by
  refine ⟨?_, ?_, ?_⟩ <;> simp [defl_op, unit3, spinor3, cmul, cadd]

theorem unit3_square_norm (k : Nat) : square_norm (unit3 k : Vec ℝ) = 1 := by
  match k with
  | 0 => simp [unit3, spinor3, square_norm]
  | 1 => simp [unit3, spinor3, square_norm]
  | _ + 2 => simp [unit3, spinor3, square_norm]

theorem defl_arnoldi (b0 b1 b2 : ℝ) :
    arnoldi_h (unit3 : Nat → Vec ℝ) (defl_op b0 b1 b2 (unit3 0)) 0 = ⟨8, 0⟩ ∧
    arnoldi_w (unit3 : Nat → Vec ℝ) (defl_op b0 b1 b2 (unit3 0)) 1 = mul_r 6 (unit3 1) ∧
    arnoldi_h (unit3 : Nat → Vec ℝ) (defl_op b0 b1 b2 (unit3 1)) 0 = ⟨0, 0⟩ ∧
    arnoldi_h (unit3 : Nat → Vec ℝ) (defl_op b0 b1 b2 (unit3 1)) 1 = ⟨5, 0⟩ ∧
    arnoldi_w (unit3 : Nat → Vec ℝ) (defl_op b0 b1 b2 (unit3 1)) 2
      = mul_r (5 / 3) (unit3 2) := by
  refine ⟨?_, ?_, ?_, ?_, ?_⟩ <;>
    simp [arnoldi_h, arnoldi_w, unit3, defl_op, spinor3, scalar_prod, assign_diff_mul, cmul,
      cadd, mul_r]

theorem defl_entry (b0 b1 b2 : ℝ) :
    diff (spinor3 ⟨169 / 96, 0⟩ ⟨0, 0⟩ ⟨0, 0⟩ : Vec ℝ)
        (defl_op b0 b1 b2 (spinor3 ⟨0, 0⟩ ⟨0, 0⟩ ⟨0, 0⟩)) = mul_r (169 / 96) (unit3 0) ∧
    Real.sqrt (square_norm (diff (spinor3 ⟨169 / 96, 0⟩ ⟨0, 0⟩ ⟨0, 0⟩ : Vec ℝ)
        (defl_op b0 b1 b2 (spinor3 ⟨0, 0⟩ ⟨0, 0⟩ ⟨0, 0⟩)))) = 169 / 96 := by
  have h1 : diff (spinor3 ⟨169 / 96, 0⟩ ⟨0, 0⟩ ⟨0, 0⟩ : Vec ℝ)
      (defl_op b0 b1 b2 (spinor3 ⟨0, 0⟩ ⟨0, 0⟩ ⟨0, 0⟩)) = mul_r (169 / 96) (unit3 0) := by
    simp [spinor3, unit3, defl_op, diff, cmul, cadd, mul_r]
  refine ⟨h1, ?_⟩
  rw [h1, square_norm_mul_r, unit3_square_norm, mul_one, sqrt_mul_self_nn _ (by norm_num)]

/-- The state in which the call on `defl_op` enters the loop of cycle 0. -/
theorem defl_level0 (b0 b1 b2 : ℝ) :
    (defl_top Real.sqrt b0 b1 b2 0).V 0 = unit3 0 ∧
    (defl_top Real.sqrt b0 b1 b2 0).alpha 0 = ⟨169 / 96, 0⟩ ∧
    (defl_top Real.sqrt b0 b1 b2 0).sol = spinor3 ⟨0, 0⟩ ⟨0, 0⟩ ⟨0, 0⟩ ∧
    (∀ a b, (defl_top Real.sqrt b0 b1 b2 0).G a b = ⟨0, 0⟩) ∧
    (∀ a b, (defl_top Real.sqrt b0 b1 b2 0).work2 a b = ⟨0, 0⟩) ∧
    (∀ a b, (defl_top Real.sqrt b0 b1 b2 0).work a b = ⟨0, 0⟩) ∧
    (∀ a b, (defl_top Real.sqrt b0 b1 b2 0).H a b = ⟨0, 0⟩) ∧
    (defl_top Real.sqrt b0 b1 b2 0).resid = [mul_r (169 / 96) (unit3 0)] ∧
    (defl_top Real.sqrt b0 b1 b2 0).ndefl = 0 := by
  obtain ⟨e1, e2, e3, -⟩ := loop_entry_fields Real.sqrt staticWorkspace 2
    (spinor3 ⟨0, 0⟩ ⟨0, 0⟩ ⟨0, 0⟩) (spinor3 ⟨169 / 96, 0⟩ ⟨0, 0⟩ ⟨0, 0⟩ : Vec ℝ) 2
    (defl_op b0 b1 b2)
  refine ⟨?_, ?_, e3, ?_, ?_, ?_, ?_, ?_, rfl⟩
  · show (loop_entry Real.sqrt staticWorkspace 2 _ _ 2 (defl_op b0 b1 b2)).V 0 = unit3 0
    rw [e1, entry_v0, (defl_entry b0 b1 b2).2, (defl_entry b0 b1 b2).1]
    simp [mul_r, unit3, spinor3]
  · show (loop_entry Real.sqrt staticWorkspace 2 _ _ 2 (defl_op b0 b1 b2)).alpha 0 = _
    rw [e2, static_entry_alpha0, (defl_entry b0 b1 b2).2]
  · intro a b
    simp [defl_top, loop_entry, start_basis, entry_state, init_gmres, staticWorkspace,
      callocWorkspace, Cx.czero]
  · intro a b
    simp [defl_top, loop_entry, start_basis, entry_state, init_gmres, staticWorkspace,
      callocWorkspace, Cx.czero]
  · intro a b
    simp [defl_top, loop_entry, start_basis, entry_state, init_gmres, staticWorkspace,
      callocWorkspace, Cx.czero]
  · intro a b
    simp [defl_top, loop_entry, start_basis, entry_state, init_gmres, staticWorkspace,
      callocWorkspace, Cx.czero]
  · show (loop_entry Real.sqrt staticWorkspace 2 _ _ 2 (defl_op b0 b1 b2)).resid = _
    rw [← (defl_entry b0 b1 b2).1]
    rfl

theorem defl_step0 (b0 b1 b2 : ℝ) :
    step0_h (defl_op b0 b1 b2 : matrix_mult ℝ) (unit3 0) = ⟨8, 0⟩ ∧
    step0_w (defl_op b0 b1 b2 : matrix_mult ℝ) (unit3 0) = mul_r 6 (unit3 1) ∧
    step0_hn Real.sqrt (defl_op b0 b1 b2 : matrix_mult ℝ) (unit3 0) = 6 ∧
    step0_beta Real.sqrt (defl_op b0 b1 b2 : matrix_mult ℝ) (unit3 0) = 10 ∧
    step0_s Real.sqrt (defl_op b0 b1 b2 : matrix_mult ℝ) (unit3 0) = 3 / 5 ∧
    step0_c Real.sqrt (defl_op b0 b1 b2 : matrix_mult ℝ) (unit3 0) = ⟨4 / 5, 0⟩ ∧
    step0_v1 Real.sqrt (defl_op b0 b1 b2 : matrix_mult ℝ) (unit3 0) = unit3 1 := by
  have h1 : step0_h (defl_op b0 b1 b2 : matrix_mult ℝ) (unit3 0) = ⟨8, 0⟩ :=
    (defl_arnoldi b0 b1 b2).1
  have h2 : step0_w (defl_op b0 b1 b2 : matrix_mult ℝ) (unit3 0) = mul_r 6 (unit3 1) :=
    (defl_arnoldi b0 b1 b2).2.1
  have h3 : step0_hn Real.sqrt (defl_op b0 b1 b2 : matrix_mult ℝ) (unit3 0) = 6 := by
    rw [step0_hn, h2, square_norm_mul_r, unit3_square_norm, mul_one,
      sqrt_mul_self_nn 6 (by norm_num)]
  have h4 : step0_beta Real.sqrt (defl_op b0 b1 b2 : matrix_mult ℝ) (unit3 0) = 10 := by
    rw [step0_beta, h1, h3]
    have : Cx._complex_square_norm (⟨8, 0⟩ : Cx ℝ) + Cx._complex_square_norm (⟨6, 0⟩ : Cx ℝ)
        = 10 * 10 := by
      simp [Cx._complex_square_norm]; norm_num
    rw [this, sqrt_mul_self_nn 10 (by norm_num)]
  refine ⟨h1, h2, h3, h4, ?_, ?_, ?_⟩
  · rw [step0_s, h3, h4]; norm_num
  · rw [step0_c, h1, h4]; simp [Cx._mult_real]; norm_num
  · rw [step0_v1, h2, h3]; simp [mul_r, unit3, spinor3]

/-- The state at the top of pass 1 of the cycle-0 loop of the call on `defl_op`. -/
theorem defl_level1 (b0 b1 b2 : ℝ) :
    (defl_top Real.sqrt b0 b1 b2 1).V 0 = unit3 0 ∧
    (defl_top Real.sqrt b0 b1 b2 1).V 1 = unit3 1 ∧
    (defl_top Real.sqrt b0 b1 b2 1).alpha 0 = ⟨169 / 120, 0⟩ ∧
    (defl_top Real.sqrt b0 b1 b2 1).alpha 1 = ⟨169 / 160, 0⟩ ∧
    (defl_top Real.sqrt b0 b1 b2 1).H 0 0 = ⟨10, 0⟩ ∧
    (defl_top Real.sqrt b0 b1 b2 1).s 0 = 3 / 5 ∧
    (defl_top Real.sqrt b0 b1 b2 1).c 0 = ⟨4 / 5, 0⟩ ∧
    (defl_top Real.sqrt b0 b1 b2 1).sol = spinor3 ⟨0, 0⟩ ⟨0, 0⟩ ⟨0, 0⟩ ∧
    (∀ a b, (defl_top Real.sqrt b0 b1 b2 1).G a b
      = if a = 0 ∧ b = 1 then ⟨6, 0⟩ else if a = 0 ∧ b = 0 then ⟨8, 0⟩ else ⟨0, 0⟩) ∧
    (∀ a b, (defl_top Real.sqrt b0 b1 b2 1).work2 a b
      = if a = 0 ∧ b = 1 then ⟨6, 0⟩ else if a = 0 ∧ b = 0 then ⟨8, 0⟩ else ⟨0, 0⟩) ∧
    (∀ a b, (defl_top Real.sqrt b0 b1 b2 1).work a b
      = if a = 1 ∧ b = 0 then ⟨6, 0⟩ else if a = 0 ∧ b = 0 then ⟨8, 0⟩ else ⟨0, 0⟩) ∧
    (defl_top Real.sqrt b0 b1 b2 1).resid = [mul_r (169 / 96) (unit3 0)] ∧
    (defl_top Real.sqrt b0 b1 b2 1).ndefl = 0 := by
  obtain ⟨v0, a0, s0, g0, w20, w0, -, r0, n0⟩ := defl_level0 b0 b1 b2
  obtain ⟨z1, z2, z3, z4, z5, z6, z7, -⟩ :=
    arnoldi0_zero Real.sqrt (defl_op b0 b1 b2) (defl_top Real.sqrt b0 b1 b2 0)
  obtain ⟨c1, c2⟩ :=
    arnoldi0_zero_sc Real.sqrt (defl_op b0 b1 b2) (defl_top Real.sqrt b0 b1 b2 0)
  obtain ⟨-, -, -, pG, pw2, pw⟩ :=
    arnoldi0_projected_fields Real.sqrt (defl_op b0 b1 b2) 0 (defl_top Real.sqrt b0 b1 b2 0)
  obtain ⟨-, -, rG, rw2, rw, -⟩ := arnoldi0_rotated_frame Real.sqrt 0
    (arnoldi0_projected Real.sqrt (defl_op b0 b1 b2) 0 (defl_top Real.sqrt b0 b1 b2 0))
  obtain ⟨d1, d2, d3, d4, d5, d6, d7⟩ := defl_step0 b0 b1 b2
  rw [v0] at z1 z2 z3 z4 z5 c1 c2
  rw [d3, d4, a0] at z1
  rw [d1, d4, a0] at z2
  rw [d4] at z3
  rw [d5] at c1
  rw [d6] at c2
  have hh : arnoldi_h (defl_top Real.sqrt b0 b1 b2 0).V
      (defl_op b0 b1 b2 ((defl_top Real.sqrt b0 b1 b2 0).V 0)) 0 = ⟨8, 0⟩ := by
    rw [arnoldi_h, v0, arnoldi_w_congr _ unit3 _ 0 (fun i hi => absurd hi (by omega))]
    exact (defl_arnoldi b0 b1 b2).1
  have hn : Real.sqrt (square_norm (arnoldi_w (defl_top Real.sqrt b0 b1 b2 0).V
      (defl_op b0 b1 b2 ((defl_top Real.sqrt b0 b1 b2 0).V 0)) (0 + 1))) = 6 := by
    rw [v0, arnoldi_w_congr _ unit3 _ 1 (fun i hi => by
      have e : i = 0 := by omega
      rw [e, v0])]
    exact d3
  have hG : ∀ a b, (arnoldi0 Real.sqrt (defl_op b0 b1 b2) 0
      (defl_top Real.sqrt b0 b1 b2 0)).G a b
      = if a = 0 ∧ b = 1 then ⟨6, 0⟩ else if a = 0 ∧ b = 0 then ⟨8, 0⟩ else ⟨0, 0⟩ := by
    intro a b
    rw [arnoldi0_phases, rG, pG, hn, g0]
    by_cases ha : a = 0
    · subst ha
      by_cases hb : b = 0
      · subst hb; simp [hh]
      · simp [hb]
    · simp [ha]
  have hW2 : ∀ a b, (arnoldi0 Real.sqrt (defl_op b0 b1 b2) 0
      (defl_top Real.sqrt b0 b1 b2 0)).work2 a b
      = if a = 0 ∧ b = 1 then ⟨6, 0⟩ else if a = 0 ∧ b = 0 then ⟨8, 0⟩ else ⟨0, 0⟩ := by
    intro a b
    rw [arnoldi0_phases, rw2, pw2, hn, w20]
    by_cases ha : a = 0
    · subst ha
      by_cases hb : b = 0
      · subst hb; simp [hh]
      · simp [hb]
    · simp [ha]
  have hW : ∀ a b, (arnoldi0 Real.sqrt (defl_op b0 b1 b2) 0
      (defl_top Real.sqrt b0 b1 b2 0)).work a b
      = if a = 1 ∧ b = 0 then ⟨6, 0⟩ else if a = 0 ∧ b = 0 then ⟨8, 0⟩ else ⟨0, 0⟩ := by
    intro a b
    rw [arnoldi0_phases, rw, pw, hn, w0]
    by_cases hb : b = 0
    · subst hb
      by_cases ha : a = 0
      · subst ha; simp [hh]
      · simp [ha]
    · simp [hb]
  have hR := arnoldi0_obs Real.sqrt (defl_op b0 b1 b2) 0 (defl_top Real.sqrt b0 b1 b2 0)
  have hN := arnoldi0_trace Real.sqrt (defl_op b0 b1 b2) 0 (defl_top Real.sqrt b0 b1 b2 0)
  simp only [Prod.mk.injEq] at hN
  have hT : defl_top Real.sqrt b0 b1 b2 1 = normalise0 0 (arnoldi0 Real.sqrt
      (defl_op b0 b1 b2) 0 (defl_top Real.sqrt b0 b1 b2 0)) := rfl
  rw [hT]
  clear pG pw2 pw rG rw2 rw
  generalize arnoldi0 Real.sqrt (defl_op b0 b1 b2) 0 (defl_top Real.sqrt b0 b1 b2 0) = A at *
  refine ⟨?_, ?_, ?_, ?_, z3, c1, c2, ?_, hG, hW2, hW, ?_, ?_⟩
  · show (Function.update A.V 1 (mul_r (1 / (A.H 1 0).re) A.w)) 0 = _
    rw [Function.update_noteq (by norm_num), z6, v0]
  · show (Function.update A.V 1 (mul_r (1 / (A.H 1 0).re) A.w)) 1 = _
    rw [Function.update_same, z4, z5]
    exact d7
  · show A.alpha 0 = _
    rw [z2]; simp [Cx._mult_assign_complex_conj, Cx._mult_real]; norm_num
  · show A.alpha 1 = _
    rw [z1]; simp [Cx._mult_real]; norm_num
  · show A.sol = _
    rw [z7, s0]
  · show A.resid = _
    rw [hR, r0]
  · show A.ndefl = _
    rw [hN.1, n0]

theorem defl_step1 (b0 b1 b2 : ℝ) :
    step1_h0 (defl_op b0 b1 b2 : matrix_mult ℝ) (unit3 0) (unit3 1) = ⟨0, 0⟩ ∧
    step1_h1 (defl_op b0 b1 b2 : matrix_mult ℝ) (unit3 0) (unit3 1) = ⟨5, 0⟩ ∧
    step1_w (defl_op b0 b1 b2 : matrix_mult ℝ) (unit3 0) (unit3 1)
      = mul_r (5 / 3) (unit3 2) ∧
    step1_hn Real.sqrt (defl_op b0 b1 b2 : matrix_mult ℝ) (unit3 0) (unit3 1) = 5 / 3 ∧
    step1_r0 (defl_op b0 b1 b2 : matrix_mult ℝ) (unit3 0) (unit3 1) (3 / 5) ⟨4 / 5, 0⟩
      = ⟨3, 0⟩ ∧
    step1_r1 (defl_op b0 b1 b2 : matrix_mult ℝ) (unit3 0) (unit3 1) (3 / 5) ⟨4 / 5, 0⟩
      = ⟨-4, 0⟩ ∧
    step1_beta Real.sqrt (defl_op b0 b1 b2 : matrix_mult ℝ) (unit3 0) (unit3 1) (3 / 5)
      ⟨4 / 5, 0⟩ = 13 / 3 := by
  have h0 : step1_h0 (defl_op b0 b1 b2 : matrix_mult ℝ) (unit3 0) (unit3 1) = ⟨0, 0⟩ :=
    (defl_arnoldi b0 b1 b2).2.2.1
  have h1 : step1_h1 (defl_op b0 b1 b2 : matrix_mult ℝ) (unit3 0) (unit3 1) = ⟨5, 0⟩ :=
    (defl_arnoldi b0 b1 b2).2.2.2.1
  have hw : step1_w (defl_op b0 b1 b2 : matrix_mult ℝ) (unit3 0) (unit3 1)
      = mul_r (5 / 3) (unit3 2) := (defl_arnoldi b0 b1 b2).2.2.2.2
  have hn : step1_hn Real.sqrt (defl_op b0 b1 b2 : matrix_mult ℝ) (unit3 0) (unit3 1)
      = 5 / 3 := by
    rw [step1_hn, hw, square_norm_mul_r, unit3_square_norm, mul_one,
      sqrt_mul_self_nn _ (by norm_num)]
  have hr1 : step1_r1 (defl_op b0 b1 b2 : matrix_mult ℝ) (unit3 0) (unit3 1) (3 / 5)
      ⟨4 / 5, 0⟩ = ⟨-4, 0⟩ := by
    rw [step1_r1, h0, h1]
    simp [Cx._diff_assign_complex, Cx._mult_real]
  refine ⟨h0, h1, hw, hn, ?_, hr1, ?_⟩
  · rw [step1_r0, h0, h1]
    simp [Cx._add_assign_complex_conj, Cx._mult_real]
  · rw [step1_beta, hr1, hn]
    have : Cx._complex_square_norm (⟨-4, 0⟩ : Cx ℝ)
        + Cx._complex_square_norm (⟨5 / 3, 0⟩ : Cx ℝ) = (13 / 3) * (13 / 3) := by
      simp [Cx._complex_square_norm]; norm_num
    rw [this, sqrt_mul_self_nn _ (by norm_num)]

/-- The state in which the cycle-0 loop of the call on `defl_op` ends (after line 190 of
pass 1). -/
theorem defl_level2 (b0 b1 b2 : ℝ) :
    (∀ i, i ≤ 2 → (defl_top Real.sqrt b0 b1 b2 2).V i = unit3 i) ∧
    (defl_top Real.sqrt b0 b1 b2 2).alpha 0 = ⟨169 / 120, 0⟩ ∧
    (defl_top Real.sqrt b0 b1 b2 2).alpha 1 = ⟨-39 / 40, 0⟩ ∧
    (defl_top Real.sqrt b0 b1 b2 2).alpha 2 = ⟨13 / 32, 0⟩ ∧
    (defl_top Real.sqrt b0 b1 b2 2).H 0 0 = ⟨10, 0⟩ ∧
    (defl_top Real.sqrt b0 b1 b2 2).H 0 1 = ⟨3, 0⟩ ∧
    (defl_top Real.sqrt b0 b1 b2 2).H 1 1 = ⟨13 / 3, 0⟩ ∧
    (defl_top Real.sqrt b0 b1 b2 2).sol = spinor3 ⟨0, 0⟩ ⟨0, 0⟩ ⟨0, 0⟩ ∧
    (defl_top Real.sqrt b0 b1 b2 2).G = defl_G ∧
    (defl_top Real.sqrt b0 b1 b2 2).work2 = defl_G ∧
    (defl_top Real.sqrt b0 b1 b2 2).work = (fun a b => defl_G b a) ∧
    (defl_top Real.sqrt b0 b1 b2 2).beta2 = 25 / 9 ∧
    (defl_top Real.sqrt b0 b1 b2 2).resid = [mul_r (169 / 96) (unit3 0)] ∧
    (defl_top Real.sqrt b0 b1 b2 2).ndefl = 0 := by
  obtain ⟨v0, v1, a0, a1, h00, s0, c0, so, g1, w21, w1, r1, n1⟩ := defl_level1 b0 b1 b2
  obtain ⟨z1, z2, z3, z4, z5, z6, z7, z8, z9, z10, -⟩ :=
    arnoldi0_one Real.sqrt (defl_op b0 b1 b2) (defl_top Real.sqrt b0 b1 b2 1)
  obtain ⟨-, -, -, pG, pw2, pw⟩ :=
    arnoldi0_projected_fields Real.sqrt (defl_op b0 b1 b2) 1 (defl_top Real.sqrt b0 b1 b2 1)
  obtain ⟨-, -, rG, rw2, rw, -⟩ := arnoldi0_rotated_frame Real.sqrt 1
    (arnoldi0_projected Real.sqrt (defl_op b0 b1 b2) 1 (defl_top Real.sqrt b0 b1 b2 1))
  have hb := arnoldi0_beta2 Real.sqrt (defl_op b0 b1 b2) 1 (defl_top Real.sqrt b0 b1 b2 1)
  obtain ⟨d0, d1, dw, dn, dr0, dr1, db⟩ := defl_step1 b0 b1 b2
  rw [v0, v1, s0, c0] at z1 z2 z4 z5
  rw [v0, v1] at z7 z8
  rw [dn, db, a1] at z1
  rw [dr1, db, a1] at z2
  rw [a0] at z3
  rw [dr0] at z4
  rw [db] at z5
  rw [h00] at z6
  rw [dn] at z7
  rw [dw] at z8
  have hV : ∀ i, i < 2 → (defl_top Real.sqrt b0 b1 b2 1).V i = unit3 i := by
    intro i hi
    have e : i = 0 ∨ i = 1 := by omega
    rcases e with rfl | rfl
    · exact v0
    · exact v1
  have hh0 : arnoldi_h (defl_top Real.sqrt b0 b1 b2 1).V
      (defl_op b0 b1 b2 ((defl_top Real.sqrt b0 b1 b2 1).V 1)) 0 = ⟨0, 0⟩ := by
    rw [arnoldi_h, v1, v0, arnoldi_w_congr _ unit3 _ 0 (fun i hi => absurd hi (by omega))]
    exact d0
  have hh1 : arnoldi_h (defl_top Real.sqrt b0 b1 b2 1).V
      (defl_op b0 b1 b2 ((defl_top Real.sqrt b0 b1 b2 1).V 1)) 1 = ⟨5, 0⟩ := by
    rw [arnoldi_h, v1, arnoldi_w_congr _ unit3 _ 1 (fun i hi => hV i (by omega))]
    exact d1
  have hn : Real.sqrt (square_norm (arnoldi_w (defl_top Real.sqrt b0 b1 b2 1).V
      (defl_op b0 b1 b2 ((defl_top Real.sqrt b0 b1 b2 1).V 1)) (1 + 1))) = 5 / 3 := by
    rw [v1, arnoldi_w_congr _ unit3 _ 2 hV]
    exact dn
  rw [hn] at hb
  have hG : (arnoldi0 Real.sqrt (defl_op b0 b1 b2) 1
      (defl_top Real.sqrt b0 b1 b2 1)).G = defl_G := by
    funext a b
    rw [arnoldi0_phases, rG, pG, hn, g1]
    by_cases ha : a = 1
    · subst ha
      by_cases hb0 : b = 0
      · subst hb0; simp [hh0, defl_G]
      · by_cases hb1 : b = 1
        · subst hb1; simp [hh1, defl_G]
        · by_cases hb2 : b = 2
          · subst hb2; simp [defl_G]
          · have hlt : ¬ b < 1 + 1 := by omega
            have hne : ¬ b = 1 + 1 := by omega
            simp [hb0, hb1, hb2, hlt, hne, defl_G]
    · by_cases ha0 : a = 0 <;> by_cases hb0 : b = 0 <;> by_cases hb1 : b = 1 <;>
        simp [ha, ha0, hb0, hb1, defl_G]
  have hW2 : (arnoldi0 Real.sqrt (defl_op b0 b1 b2) 1
      (defl_top Real.sqrt b0 b1 b2 1)).work2 = defl_G := by
    funext a b
    rw [arnoldi0_phases, rw2, pw2, hn, w21]
    by_cases ha : a = 1
    · subst ha
      by_cases hb0 : b = 0
      · subst hb0; simp [hh0, defl_G]
      · by_cases hb1 : b = 1
        · subst hb1; simp [hh1, defl_G]
        · by_cases hb2 : b = 2
          · subst hb2; simp [defl_G]
          · have hlt : ¬ b < 1 + 1 := by omega
            have hne : ¬ b = 1 + 1 := by omega
            simp [hb0, hb1, hb2, hlt, hne, defl_G]
    · by_cases ha0 : a = 0 <;> by_cases hb0 : b = 0 <;> by_cases hb1 : b = 1 <;>
        simp [ha, ha0, hb0, hb1, defl_G]
  have hW : (arnoldi0 Real.sqrt (defl_op b0 b1 b2) 1
      (defl_top Real.sqrt b0 b1 b2 1)).work = (fun a b => defl_G b a) := by
    funext a b
    rw [arnoldi0_phases, rw, pw, hn, w1]
    by_cases hb : b = 1
    · subst hb
      by_cases ha0 : a = 0
      · subst ha0; simp [hh0, defl_G]
      · by_cases ha1 : a = 1
        · subst ha1; simp [hh1, defl_G]
        · by_cases ha2 : a = 2
          · subst ha2; simp [defl_G]
          · have hlt : ¬ a < 1 + 1 := by omega
            have hne : ¬ a = 1 + 1 := by omega
            simp [ha0, ha1, ha2, hlt, hne, defl_G]
    · by_cases ha0 : a = 0 <;> by_cases hb0 : b = 0 <;> by_cases ha1 : a = 1 <;>
        simp [hb, ha0, hb0, ha1, defl_G]
  have hR := arnoldi0_obs Real.sqrt (defl_op b0 b1 b2) 1 (defl_top Real.sqrt b0 b1 b2 1)
  have hN := arnoldi0_trace Real.sqrt (defl_op b0 b1 b2) 1 (defl_top Real.sqrt b0 b1 b2 1)
  simp only [Prod.mk.injEq] at hN
  have hT : defl_top Real.sqrt b0 b1 b2 2 = normalise0 1 (arnoldi0 Real.sqrt
      (defl_op b0 b1 b2) 1 (defl_top Real.sqrt b0 b1 b2 1)) := rfl
  rw [hT]
  clear pG pw2 pw rG rw2 rw
  generalize arnoldi0 Real.sqrt (defl_op b0 b1 b2) 1 (defl_top Real.sqrt b0 b1 b2 1) = A at *
  refine ⟨?_, z3, ?_, ?_, z6, z4, z5, ?_, hG, hW2, hW, ?_, ?_, ?_⟩
  · intro i hi
    show (Function.update A.V 2 (mul_r (1 / (A.H 2 1).re) A.w)) i = _
    rcases Nat.lt_or_ge i 2 with h | h
    · rw [Function.update_noteq (by omega), z9]
      exact hV i h
    · have e : i = 2 := by omega
      rw [e, Function.update_same, z7, z8]
      simp [mul_r, unit3, spinor3]
  · show A.alpha 1 = _
    rw [z2]; simp [Cx._mult_assign_complex_conj, Cx._mult_real]; norm_num
  · show A.alpha 2 = _
    rw [z1]; simp [Cx._mult_real]; norm_num
  · show A.sol = _
    rw [z10, so]
  · show A.beta2 = _
    rw [hb]; norm_num
  · show A.resid = _
    rw [hR, r1]
  · show A.ndefl = _
    rw [hN.1, n1]

/-- The state after cycle 0 of the call on `defl_op`: the basis is `e0, e1, e2`, the
iterate is `(5/24, -9/40, 0)` and its residual `(3/32, -1/8, 3/8)` has norm `13/32`. -/
theorem defl_restart_entry_fields (b0 b1 b2 : ℝ) :
    (∀ i, i ≤ 2 → (defl_restart_entry Real.sqrt b0 b1 b2).V i = unit3 i) ∧
    (defl_restart_entry Real.sqrt b0 b1 b2).alpha 0 = ⟨5 / 24, 0⟩ ∧
    (defl_restart_entry Real.sqrt b0 b1 b2).alpha 1 = ⟨-9 / 40, 0⟩ ∧
    (defl_restart_entry Real.sqrt b0 b1 b2).G = defl_G ∧
    (defl_restart_entry Real.sqrt b0 b1 b2).work2 = defl_G ∧
    (defl_restart_entry Real.sqrt b0 b1 b2).work = (fun a b => defl_G b a) ∧
    (defl_restart_entry Real.sqrt b0 b1 b2).beta2 = 25 / 9 ∧
    (defl_restart_entry Real.sqrt b0 b1 b2).sol = spinor3 ⟨5 / 24, 0⟩ ⟨-9 / 40, 0⟩ ⟨0, 0⟩ ∧
    (defl_restart_entry Real.sqrt b0 b1 b2).r = spinor3 ⟨3 / 32, 0⟩ ⟨-1 / 8, 0⟩ ⟨3 / 8, 0⟩ ∧
    (defl_restart_entry Real.sqrt b0 b1 b2).resid
      = [spinor3 ⟨3 / 32, 0⟩ ⟨-1 / 8, 0⟩ ⟨3 / 8, 0⟩, mul_r (169 / 96) (unit3 0)] ∧
    (defl_restart_entry Real.sqrt b0 b1 b2).ndefl = 0 := by
  obtain ⟨v, a0, a1, -, h00, h01, h11, so, g, w2, w, be, re, nd⟩ := defl_level2 b0 b1 b2
  obtain ⟨k0, -, -, -, ks, -⟩ := backsubst_one (defl_top Real.sqrt b0 b1 b2 2)
  have k1 := backsubst_one_alpha1 (defl_top Real.sqrt b0 b1 b2 2)
  obtain ⟨fG, fw, fw2, fb, fn⟩ := backsubst_frame 1 (defl_top Real.sqrt b0 b1 b2 2)
  have fV := backsubst_V 1 (defl_top Real.sqrt b0 b1 b2 2)
  have fR := backsubst_obs 1 (defl_top Real.sqrt b0 b1 b2 2)
  rw [a0, a1, h00, h01, h11] at k0
  rw [a1, h11] at k1
  rw [a0, a1, h00, h01, h11, so, v 0 (by norm_num), v 1 (by norm_num)] at ks
  have hsol : (backsubst 1 (defl_top Real.sqrt b0 b1 b2 2)).sol
      = spinor3 ⟨5 / 24, 0⟩ ⟨-9 / 40, 0⟩ ⟨0, 0⟩ := by
    rw [ks]
    simp [spinor3, unit3, assign_add_mul, Cx._mult_real, Cx._diff_complex,
      Cx._mult_assign_complex]
    norm_num
  have hr : diff (spinor3 ⟨169 / 96, 0⟩ ⟨0, 0⟩ ⟨0, 0⟩ : Vec ℝ)
      (defl_op b0 b1 b2 (spinor3 ⟨5 / 24, 0⟩ ⟨-9 / 40, 0⟩ ⟨0, 0⟩))
      = spinor3 ⟨3 / 32, 0⟩ ⟨-1 / 8, 0⟩ ⟨3 / 8, 0⟩ := by
    simp [spinor3, defl_op, diff, cmul, cadd]
    norm_num
  have hT : defl_restart_entry Real.sqrt b0 b1 b2
      = prepare_restart (spinor3 ⟨169 / 96, 0⟩ ⟨0, 0⟩ ⟨0, 0⟩) (defl_op b0 b1 b2) 2
          (defl_top Real.sqrt b0 b1 b2 2) := rfl
  rw [hT]
  simp only [prepare_restart]
  refine ⟨?_, ?_, ?_, ?_, ?_, ?_, ?_, hsol, ?_, ?_, ?_⟩
  · intro i hi
    rw [fV]
    exact v i hi
  · rw [k0]
    simp [Cx._mult_real, Cx._diff_complex, Cx._mult_assign_complex]
    norm_num
  · rw [k1]
    simp [Cx._mult_real]
    norm_num
  · rw [fG, g]
  · rw [fw2, w2]
  · rw [fw, w]
  · rw [fb, be]
  · rw [hsol, hr]
  · rw [hsol, hr, fR, re]
  · rw [fn, nd]

theorem sqrt_25_9 : Real.sqrt (25 / 9) = 5 / 3 := by
  have : (25 / 9 : ℝ) = (5 / 3) * (5 / 3) := by norm_num
  rw [this, sqrt_mul_self_nn _ (by norm_num)]

/-- The rows of `work` after the copy loop of lines 258-262 in the first deflation step of
the call on `defl_op`: the eigenvector `(0, 1)` of the smaller Ritz value in row 0, the
vector `(0, 0, 3/8)` of line 243 in row 1. -/
theorem defl_copied_rows (st : St ℝ) (hG : st.G = defl_G) (ha0 : st.alpha 0 = ⟨5 / 24, 0⟩)
    (ha1 : st.alpha 1 = ⟨-9 / 40, 0⟩) (hb : st.beta2 = 25 / 9) :
    deflate_copied Real.sqrt (defl_la Real.sqrt) 2 1 st 0 0 = ⟨0, 0⟩ ∧
    deflate_copied Real.sqrt (defl_la Real.sqrt) 2 1 st 0 1 = ⟨1, 0⟩ ∧
    deflate_copied Real.sqrt (defl_la Real.sqrt) 2 1 st 1 0 = ⟨0, 0⟩ ∧
    deflate_copied Real.sqrt (defl_la Real.sqrt) 2 1 st 1 1 = ⟨0, 0⟩ ∧
    deflate_copied Real.sqrt (defl_la Real.sqrt) 2 1 st 1 2 = ⟨3 / 8, 0⟩ := by
  have hk : (deflate_sorted (defl_la Real.sqrt) 2 st).2 0 = 1 := by
    simp [deflate_sorted, deflate_keys, deflate_eig, defl_la, Cx._complex_square_norm]
    norm_num
  have hq : Real.sqrt 25 / Real.sqrt 9 = 5 / 3 := by
    rw [← Real.sqrt_div (by norm_num : (0 : ℝ) ≤ 25), sqrt_25_9]
  refine ⟨?_, ?_, ?_, ?_, ?_⟩
  · unfold deflate_copied
    simp only [hk]
    simp [deflate_eig, defl_la]
  · unfold deflate_copied
    simp only [hk]
    simp [deflate_eig, defl_la]
  · simp [deflate_copied, defl_la, zgemv_sub, csum, List.range_succ, hG, ha0, ha1, hb,
      defl_G, set2, Function.update, cmul, cadd, Cx.czero]
    rw [hq]
    norm_num
  · simp [deflate_copied, defl_la, zgemv_sub, csum, List.range_succ, hG, ha0, ha1, hb,
      defl_G, set2, Function.update, cmul, cadd, Cx.czero]
    norm_num
  · simp [deflate_copied, defl_la, zgemv_sub, csum, List.range_succ, hG, ha0, ha1, hb,
      defl_G, set2, Function.update, cmul, cadd, Cx.czero]
    norm_num

/-- Orthonormalising `(0, 0, 3/8)` against the row `(0, 1, 0)` gives `(0, 0, 1)`. -/
theorem defl_last_row (W : Nat → Nat → Cx ℝ) (w00 : W 0 0 = ⟨0, 0⟩) (w01 : W 0 1 = ⟨1, 0⟩)
    (w02 : W 0 2 = ⟨0, 0⟩) (w10 : W 1 0 = ⟨0, 0⟩) (w11 : W 1 1 = ⟨0, 0⟩)
    (w12 : W 1 2 = ⟨3 / 8, 0⟩) :
    short_ModifiedGS Real.sqrt (W 1) 3 1 W 0 = ⟨0, 0⟩ ∧
    short_ModifiedGS Real.sqrt (W 1) 3 1 W 1 = ⟨0, 0⟩ ∧
    short_ModifiedGS Real.sqrt (W 1) 3 1 W 2 = ⟨1, 0⟩ := by
  have hs : short_scalar_prod (W 0) (W 1) 3 = ⟨0, 0⟩ := by
    simp [short_scalar_prod, List.range_succ, w00, w01, w02, w10, w11, w12]
  have hp : ∀ k, k < 3 → gs_projected (W 1) 3 1 W k = W 1 k := by
    intro k hk
    have h0 : gs_projected (W 1) 3 0 W = W 1 := rfl
    rw [gs_projected_succ, h0, hs]
    simp [zaxpy, hk]
  have hn : short_scalar_prod (gs_projected (W 1) 3 1 W) (gs_projected (W 1) 3 1 W) 3
      = ⟨3 / 8 * (3 / 8), 0⟩ := by
    simp [short_scalar_prod, List.range_succ, hp, w10, w11, w12]
  have hq : Real.sqrt (3 / 8 * (3 / 8)) = 3 / 8 := sqrt_mul_self_nn _ (by norm_num)
  rw [short_ModifiedGS_eq]
  simp only [hn, hq]
  refine ⟨?_, ?_, ?_⟩
  · simp [hp, w10]
  · simp [hp, w11]
  · simp [hp, w12]

/-- The orthonormalisation of lines 264-270 on the rows `(0, 1, *)` and `(0, 0, 3/8)`
leaves `(0, 1, 0)` and `(0, 0, 1)`. -/
theorem defl_orthonormalised_rows (C : Nat → Nat → Cx ℝ) (h00 : C 0 0 = ⟨0, 0⟩)
    (h01 : C 0 1 = ⟨1, 0⟩) (h10 : C 1 0 = ⟨0, 0⟩) (h11 : C 1 1 = ⟨0, 0⟩)
    (h12 : C 1 2 = ⟨3 / 8, 0⟩) :
    deflate_orthonormalise Real.sqrt 2 1 C 0 0 = ⟨0, 0⟩ ∧
    deflate_orthonormalise Real.sqrt 2 1 C 0 1 = ⟨1, 0⟩ ∧
    deflate_orthonormalise Real.sqrt 2 1 C 0 2 = ⟨0, 0⟩ ∧
    deflate_orthonormalise Real.sqrt 2 1 C 1 0 = ⟨0, 0⟩ ∧
    deflate_orthonormalise Real.sqrt 2 1 C 1 1 = ⟨0, 0⟩ ∧
    deflate_orthonormalise Real.sqrt 2 1 C 1 2 = ⟨1, 0⟩ := by
  have g00 : gs_rows Real.sqrt 2 C 1 0 0 = ⟨0, 0⟩ := by
    simp [gs_rows, short_ModifiedGS, short_scalar_prod, zaxpy,
      List.range_succ, set2, Function.update, h00, h01, Cx.czero]
  have g01 : gs_rows Real.sqrt 2 C 1 0 1 = ⟨1, 0⟩ := by
    simp [gs_rows, short_ModifiedGS, short_scalar_prod, zaxpy,
      List.range_succ, set2, Function.update, h00, h01, Cx.czero]
  have g02 : gs_rows Real.sqrt 2 C 1 0 2 = ⟨0, 0⟩ := by
    simp [gs_rows, short_ModifiedGS, short_scalar_prod, zaxpy,
      List.range_succ, set2, Function.update, h00, h01, Cx.czero]
  have g1 : gs_rows Real.sqrt 2 C 1 1 = C 1 := by
    simp [gs_rows, List.range_succ, set2, Function.update]
  have hl := defl_last_row (gs_rows Real.sqrt 2 C 1) g00 g01 g02 (by rw [g1, h10])
    (by rw [g1, h11]) (by rw [g1, h12])
  unfold deflate_orthonormalise
  refine ⟨?_, ?_, ?_, ?_, ?_, ?_⟩
  · rw [Function.update_noteq (by norm_num), g00]
  · rw [Function.update_noteq (by norm_num), g01]
  · rw [Function.update_noteq (by norm_num), g02]
  · rw [Function.update_same]; exact hl.1
  · rw [Function.update_same]; exact hl.2.1
  · rw [Function.update_same]; exact hl.2.2

theorem defl_restart_recurrence (b0 b1 b2 : ℝ) :
    arnoldi_h (fun i => (unit3 (i + 1) : Vec ℝ)) (spinor3 ⟨b0, 0⟩ ⟨b1, 0⟩ ⟨b2, 0⟩) 0
      = ⟨b1, 0⟩ ∧
    arnoldi_h (fun i => (unit3 (i + 1) : Vec ℝ)) (spinor3 ⟨b0, 0⟩ ⟨b1, 0⟩ ⟨b2, 0⟩) 1
      = ⟨b2, 0⟩ ∧
    arnoldi_w (fun i => (unit3 (i + 1) : Vec ℝ)) (spinor3 ⟨b0, 0⟩ ⟨b1, 0⟩ ⟨b2, 0⟩) 2
      = mul_r b0 (unit3 0) := by
  refine ⟨?_, ?_, ?_⟩ <;>
    simp [arnoldi_h, arnoldi_w, unit3, spinor3, scalar_prod, assign_diff_mul, mul_r]

/-- The deflation step of the first restart cycle of the call on `defl_op`: the rows
`(0, 1, 0)` and `(0, 0, 1)` left in `work` turn the basis `e0, e1, e2` into `e1, e2`. -/
theorem defl_rebase_fields (b0 b1 b2 : ℝ) :
    (deflate_rebase 2 1 (deflate_select Real.sqrt (defl_la Real.sqrt) 2 1
      (defl_restart_entry Real.sqrt b0 b1 b2))).V 0 = unit3 1 ∧
    (deflate_rebase 2 1 (deflate_select Real.sqrt (defl_la Real.sqrt) 2 1
      (defl_restart_entry Real.sqrt b0 b1 b2))).V 1 = unit3 2 ∧
    (deflate_rebase 2 1 (deflate_select Real.sqrt (defl_la Real.sqrt) 2 1
      (defl_restart_entry Real.sqrt b0 b1 b2))).sol
      = spinor3 ⟨5 / 24, 0⟩ ⟨-9 / 40, 0⟩ ⟨0, 0⟩ ∧
    (deflate_rebase 2 1 (deflate_select Real.sqrt (defl_la Real.sqrt) 2 1
      (defl_restart_entry Real.sqrt b0 b1 b2))).resid
      = [spinor3 ⟨3 / 32, 0⟩ ⟨-1 / 8, 0⟩ ⟨3 / 8, 0⟩, mul_r (169 / 96) (unit3 0)] := by
  obtain ⟨v, a0, a1, g, -, -, be, so, -, re, -⟩ := defl_restart_entry_fields b0 b1 b2
  obtain ⟨c00, c01, c10, c11, c12⟩ :=
    defl_copied_rows (defl_restart_entry Real.sqrt b0 b1 b2) g a0 a1 be
  obtain ⟨w00, w01, w02, w10, w11, w12⟩ := defl_orthonormalised_rows _ c00 c01 c10 c11 c12
  have hw := (deflate_select_phases Real.sqrt (defl_la Real.sqrt) 2 1
    (defl_restart_entry Real.sqrt b0 b1 b2)).2.2.2.2
  rw [← hw] at w00 w01 w02 w10 w11 w12
  have hV : (deflate_select Real.sqrt (defl_la Real.sqrt) 2 1
      (defl_restart_entry Real.sqrt b0 b1 b2)).V
      = (defl_restart_entry Real.sqrt b0 b1 b2).V := rfl
  have hs : (deflate_select Real.sqrt (defl_la Real.sqrt) 2 1
      (defl_restart_entry Real.sqrt b0 b1 b2)).sol
      = (defl_restart_entry Real.sqrt b0 b1 b2).sol := rfl
  have hr : (deflate_select Real.sqrt (defl_la Real.sqrt) 2 1
      (defl_restart_entry Real.sqrt b0 b1 b2)).resid
      = (defl_restart_entry Real.sqrt b0 b1 b2).resid := rfl
  have v0 := v 0 (by norm_num)
  have v1 := v 1 (by norm_num)
  have v2 := v 2 (by norm_num)
  rw [← hV] at v0 v1 v2
  rw [← hs] at so
  rw [← hr] at re
  clear hw hV hs hr c00 c01 c10 c11 c12 v a0 a1 g be
  generalize deflate_select Real.sqrt (defl_la Real.sqrt) 2 1
    (defl_restart_entry Real.sqrt b0 b1 b2) = D at *
  refine ⟨?_, ?_, so, re⟩
  · simp [deflate_rebase, zlacpy, zgemm_basis, List.range_succ, v0, v1, v2, w00, w01, w02,
      assign_add_mul, unit3, spinor3, Cx.czero]
  · simp [deflate_rebase, zlacpy, zgemm_basis, List.range_succ, v0, v1, v2, w10, w11, w12,
      assign_add_mul, unit3, spinor3, Cx.czero]

/-- The state in which the first restart cycle of the call on `defl_op b0 b1 b2`
(`b0 > 0`) reaches line 345: the basis is `e1, e2, e0`, `DUM_SOLVER` holds
`A*e2 = (b0, b1, b2)`, the iterate and the list of residuals are those of cycle 0. -/
theorem defl_restart_arnoldi_fields (b0 b1 b2 : ℝ) (hb0 : 0 < b0) :
    (restart_arnoldi Real.sqrt (defl_la Real.sqrt) (defl_op b0 b1 b2) 2 1
      (defl_restart_entry Real.sqrt b0 b1 b2)).V 0 = unit3 1 ∧
    (restart_arnoldi Real.sqrt (defl_la Real.sqrt) (defl_op b0 b1 b2) 2 1
      (defl_restart_entry Real.sqrt b0 b1 b2)).V 1 = unit3 2 ∧
    (restart_arnoldi Real.sqrt (defl_la Real.sqrt) (defl_op b0 b1 b2) 2 1
      (defl_restart_entry Real.sqrt b0 b1 b2)).V 2 = unit3 0 ∧
    (restart_arnoldi Real.sqrt (defl_la Real.sqrt) (defl_op b0 b1 b2) 2 1
      (defl_restart_entry Real.sqrt b0 b1 b2)).r = spinor3 ⟨b0, 0⟩ ⟨b1, 0⟩ ⟨b2, 0⟩ ∧
    (restart_arnoldi Real.sqrt (defl_la Real.sqrt) (defl_op b0 b1 b2) 2 1
      (defl_restart_entry Real.sqrt b0 b1 b2)).H 1 0 = ⟨b1, 0⟩ ∧
    (restart_arnoldi Real.sqrt (defl_la Real.sqrt) (defl_op b0 b1 b2) 2 1
      (defl_restart_entry Real.sqrt b0 b1 b2)).H 1 1 = ⟨b2, 0⟩ ∧
    (restart_arnoldi Real.sqrt (defl_la Real.sqrt) (defl_op b0 b1 b2) 2 1
      (defl_restart_entry Real.sqrt b0 b1 b2)).H 1 2 = ⟨b0, 0⟩ ∧
    (restart_arnoldi Real.sqrt (defl_la Real.sqrt) (defl_op b0 b1 b2) 2 1
      (defl_restart_entry Real.sqrt b0 b1 b2)).sol
      = spinor3 ⟨5 / 24, 0⟩ ⟨-9 / 40, 0⟩ ⟨0, 0⟩ ∧
    (restart_arnoldi Real.sqrt (defl_la Real.sqrt) (defl_op b0 b1 b2) 2 1
      (defl_restart_entry Real.sqrt b0 b1 b2)).resid
      = [spinor3 ⟨3 / 32, 0⟩ ⟨-1 / 8, 0⟩ ⟨3 / 8, 0⟩, mul_r (169 / 96) (unit3 0)] := by
  obtain ⟨v0, v1, so, re⟩ := defl_rebase_fields b0 b1 b2
  have hT : restart_arnoldi Real.sqrt (defl_la Real.sqrt) (defl_op b0 b1 b2) 2 1
      (defl_restart_entry Real.sqrt b0 b1 b2)
      = arnoldiR Real.sqrt (defl_op b0 b1 b2) (deflate_rebase 2 1 (deflate_select Real.sqrt
          (defl_la Real.sqrt) 2 1 (defl_restart_entry Real.sqrt b0 b1 b2))) 1 := rfl
  rw [hT]
  generalize deflate_rebase 2 1 (deflate_select Real.sqrt (defl_la Real.sqrt) 2 1
    (defl_restart_entry Real.sqrt b0 b1 b2)) = R at *
  obtain ⟨fr, fV, fH, fHn, fs, -, fre⟩ := arnoldiR_fields Real.sqrt (defl_op b0 b1 b2) R 1
  obtain ⟨d0, d1, dw⟩ := defl_restart_recurrence b0 b1 b2
  have hV : ∀ i, i < 2 → R.V i = (fun i => (unit3 (i + 1) : Vec ℝ)) i := by
    intro i hi
    have e : i = 0 ∨ i = 1 := by omega
    rcases e with rfl | rfl
    · exact v0
    · exact v1
  have hx : defl_op b0 b1 b2 (R.V 1) = spinor3 ⟨b0, 0⟩ ⟨b1, 0⟩ ⟨b2, 0⟩ := by
    rw [v1]
    exact (defl_op_unit b0 b1 b2).2.2
  have hw : arnoldi_w R.V (defl_op b0 b1 b2 (R.V 1)) (1 + 1) = mul_r b0 (unit3 0) := by
    rw [hx, arnoldi_w_congr _ _ _ 2 hV]
    exact dw
  have hn : Real.sqrt (square_norm (arnoldi_w R.V (defl_op b0 b1 b2 (R.V 1)) (1 + 1)))
      = b0 := by
    rw [hw, square_norm_mul_r, unit3_square_norm, mul_one, sqrt_mul_self_nn _ hb0.le]
  have h0 : arnoldi_h R.V (defl_op b0 b1 b2 (R.V 1)) 0 = ⟨b1, 0⟩ := by
    rw [arnoldi_h, hx, v0, arnoldi_w_congr _ _ _ 0 (fun i hi => absurd hi (by omega))]
    exact d0
  have h1 : arnoldi_h R.V (defl_op b0 b1 b2 (R.V 1)) 1 = ⟨b2, 0⟩ := by
    rw [arnoldi_h, hx, v1, arnoldi_w_congr _ _ _ 1 (fun i hi => hV i (by omega))]
    exact d1
  refine ⟨?_, ?_, ?_, ?_, ?_, ?_, ?_, ?_, ?_⟩
  · rw [fV, Function.update_noteq (by norm_num), v0]
  · rw [fV, Function.update_noteq (by norm_num), v1]
  · rw [fV, Function.update_same, hn, hw]
    have hne : b0 ≠ 0 := hb0.ne'
    simp [mul_r, unit3, spinor3, hne]
  · rw [fr, hx]
  · rw [fH 0 (by norm_num), h0]
  · rw [fH 1 (by norm_num), h1]
  · rw [fHn, hn]
  · rw [fs, so]
  · rw [fre, re]

/-- The first restart cycle of the call on `defl_op b0 b1 b2` (`b0 > 0`): the right-hand
side handed to `zgels` is `(b1, b2, b0)`, the coordinates of `A*e2` in the basis
`e1, e2, e0`, and the update adds `e2` to the iterate `(5/24, -9/40, 0)` of cycle 0. -/
theorem defl_restart_cycle_fields (b0 b1 b2 : ℝ) (hb0 : 0 < b0) :
    lsq_rhs 2 (restart_arnoldi Real.sqrt (defl_la Real.sqrt) (defl_op b0 b1 b2) 2 1
      (defl_restart_entry Real.sqrt b0 b1 b2)) 0 = ⟨b1, 0⟩ ∧
    lsq_rhs 2 (restart_arnoldi Real.sqrt (defl_la Real.sqrt) (defl_op b0 b1 b2) 2 1
      (defl_restart_entry Real.sqrt b0 b1 b2)) 1 = ⟨b2, 0⟩ ∧
    lsq_rhs 2 (restart_arnoldi Real.sqrt (defl_la Real.sqrt) (defl_op b0 b1 b2) 2 1
      (defl_restart_entry Real.sqrt b0 b1 b2)) 2 = ⟨b0, 0⟩ ∧
    (restart_cycle Real.sqrt (defl_la Real.sqrt) (defl_op b0 b1 b2)
      (spinor3 ⟨169 / 96, 0⟩ ⟨0, 0⟩ ⟨0, 0⟩) 2 1 (defl_restart_entry Real.sqrt b0 b1 b2)).sol
      = spinor3 ⟨5 / 24, 0⟩ ⟨-9 / 40, 0⟩ ⟨1, 0⟩ := by
  obtain ⟨v0, v1, v2, hr, -, -, -, so, -⟩ := defl_restart_arnoldi_fields b0 b1 b2 hb0
  simp only [restart_cycle]
  generalize restart_arnoldi Real.sqrt (defl_la Real.sqrt) (defl_op b0 b1 b2) 2 1
    (defl_restart_entry Real.sqrt b0 b1 b2) = RA at *
  refine ⟨?_, ?_, ?_, ?_⟩
  · simp [lsq_rhs, v0, hr, unit3, spinor3, scalar_prod]
  · simp [lsq_rhs, v1, hr, unit3, spinor3, scalar_prod]
  · simp [lsq_rhs, v2, hr, unit3, spinor3, scalar_prod]
  · simp [lsq_update, defl_la, List.range_succ, v0, v1, so, unit3, spinor3, assign_add_mul]

theorem defl_residual_norm :
    Real.sqrt (square_norm (spinor3 ⟨3 / 32, 0⟩ ⟨-1 / 8, 0⟩ ⟨3 / 8, 0⟩ : Vec ℝ)) = 13 / 32 := by
  have : square_norm (spinor3 ⟨3 / 32, 0⟩ ⟨-1 / 8, 0⟩ ⟨3 / 8, 0⟩ : Vec ℝ)
      = (13 / 32) * (13 / 32) := by
    simp [spinor3, square_norm]
    norm_num
  rw [this, sqrt_mul_self_nn _ (by norm_num)]

/-- With `rel_prec = 0` and a tolerance below `13/32` the test of line 170 fails in both
passes of the cycle-0 loop of the call on `defl_op` (the estimates are `169/160` and
`13/32`), which so runs to its end. -/
theorem defl_cycle0 (b0 b1 b2 eps norm : ℝ) (he : eps < 13 / 32) :
    cycle0 Real.sqrt (defl_op b0 b1 b2) eps norm 0 2 0 (defl_top Real.sqrt b0 b1 b2 0)
      = Sum.inr (defl_top Real.sqrt b0 b1 b2 2) := by
  have key := cycle0_exhausted Real.sqrt (defl_op b0 b1 b2) eps norm 0 1 0
    (defl_top Real.sqrt b0 b1 b2 0) (fun k hk => by
      have e : cycle0_state Real.sqrt (defl_op b0 b1 b2) k 0 (defl_top Real.sqrt b0 b1 b2 0)
          = arnoldi0 Real.sqrt (defl_op b0 b1 b2) k (defl_top Real.sqrt b0 b1 b2 k) := by
        interval_cases k <;> rfl
      have hp : 13 / 32 ≤ ((arnoldi0 Real.sqrt (defl_op b0 b1 b2) k
          (defl_top Real.sqrt b0 b1 b2 k)).alpha (k + 1)).re := by
        have e1 : k = 0 ∨ k = 1 := by omega
        rcases e1 with rfl | rfl
        · have h := (defl_level1 b0 b1 b2).2.2.2.1
          have h' : (arnoldi0 Real.sqrt (defl_op b0 b1 b2) 0
              (defl_top Real.sqrt b0 b1 b2 0)).alpha 1 = ⟨169 / 160, 0⟩ := h
          rw [h']
          norm_num
        · have h := (defl_level2 b0 b1 b2).2.2.2.1
          have h' : (arnoldi0 Real.sqrt (defl_op b0 b1 b2) 1
              (defl_top Real.sqrt b0 b1 b2 1)).alpha 2 = ⟨13 / 32, 0⟩ := h
          rw [h']
      rw [e, precision_reached_iff]
      simp only [test_value, Nat.zero_add]
      rintro (⟨h1, -⟩ | ⟨-, h2⟩)
      · linarith
      · exact absurd h2 (by norm_num))
  exact key

/-- The call on `defl_op` with a tolerance below `13/32`: cycle 0 does not meet it, the
residual of its iterate is not zero, and the call ends on line 378 after
`max_restarts - 1` restart cycles started from `defl_restart_entry`. -/
theorem defl_call_restart (b0 b1 b2 : ℝ) (max_restarts : Int) (eps_sq : ℝ)
    (he : Real.sqrt eps_sq < 13 / 32) :
    (defl_call Real.sqrt b0 b1 b2 max_restarts eps_sq).ret = -1 ∧
    (defl_call Real.sqrt b0 b1 b2 max_restarts eps_sq).exit = ExitPath.max_restarts ∧
    (defl_call Real.sqrt b0 b1 b2 max_restarts eps_sq).st
      = restart_loop Real.sqrt (defl_la Real.sqrt) (defl_op b0 b1 b2)
          (spinor3 ⟨169 / 96, 0⟩ ⟨0, 0⟩ ⟨0, 0⟩) 2 1 (max_restarts - 1).toNat
          (defl_restart_entry Real.sqrt b0 b1 b2) ∧
    (defl_call Real.sqrt b0 b1 b2 max_restarts eps_sq).P
      = (defl_call Real.sqrt b0 b1 b2 max_restarts eps_sq).st.sol := by
  have h0 : Real.sqrt (square_norm (diff (spinor3 ⟨169 / 96, 0⟩ ⟨0, 0⟩ ⟨0, 0⟩ : Vec ℝ)
      (defl_op b0 b1 b2 (spinor3 ⟨0, 0⟩ ⟨0, 0⟩ ⟨0, 0⟩)))) ≠ 0 := by
    rw [(defl_entry b0 b1 b2).2]; norm_num
  have hc : cycle0 Real.sqrt (defl_op b0 b1 b2) (Real.sqrt eps_sq)
      (Real.sqrt (square_norm (spinor3 ⟨169 / 96, 0⟩ ⟨0, 0⟩ ⟨0, 0⟩ : Vec ℝ))) 0 2 0
      (loop_entry Real.sqrt staticWorkspace 2 (spinor3 ⟨0, 0⟩ ⟨0, 0⟩ ⟨0, 0⟩)
        (spinor3 ⟨169 / 96, 0⟩ ⟨0, 0⟩ ⟨0, 0⟩) 2 (defl_op b0 b1 b2))
      = Sum.inr (defl_top Real.sqrt b0 b1 b2 2) := defl_cycle0 b0 b1 b2 _ _ he
  have hr : Real.sqrt (square_norm (prepare_restart (spinor3 ⟨169 / 96, 0⟩ ⟨0, 0⟩ ⟨0, 0⟩)
      (defl_op b0 b1 b2) 2 (defl_top Real.sqrt b0 b1 b2 2)).r) ≠ 0 := by
    have h := (defl_restart_entry_fields b0 b1 b2).2.2.2.2.2.2.2.2.1
    have h' : (prepare_restart (spinor3 ⟨169 / 96, 0⟩ ⟨0, 0⟩ ⟨0, 0⟩)
      (defl_op b0 b1 b2) 2 (defl_top Real.sqrt b0 b1 b2 2)).r
        = spinor3 ⟨3 / 32, 0⟩ ⟨-1 / 8, 0⟩ ⟨3 / 8, 0⟩ := h
    rw [h', defl_residual_norm]
    norm_num
  have key := gmres_dr_exhausted Real.sqrt (defl_la Real.sqrt) staticWorkspace 2
    (spinor3 ⟨0, 0⟩ ⟨0, 0⟩ ⟨0, 0⟩) (spinor3 ⟨169 / 96, 0⟩ ⟨0, 0⟩ ⟨0, 0⟩) 2 1 max_restarts
    eps_sq 0 (defl_op b0 b1 b2) (defl_top Real.sqrt b0 b1 b2 2) h0 hc
  obtain ⟨x1, x2, x3⟩ := key.2.1 hr
  exact ⟨x1, x2, x3, key.2.2⟩

/-- The first restart cycle of the call on `defl_op (3/32) (-1/8) (3/8)`: the iterate it
leaves is `(5/24, -9/40, 1)`, which solves `A*x = Q`, so the residual recomputed on line
366 is the zero vector. -/
theorem defl_exact_cycle :
    (restart_cycle Real.sqrt (defl_la Real.sqrt) (defl_op (3 / 32) (-1 / 8) (3 / 8))
      (spinor3 ⟨169 / 96, 0⟩ ⟨0, 0⟩ ⟨0, 0⟩) 2 1
      (defl_restart_entry Real.sqrt (3 / 32) (-1 / 8) (3 / 8))).sol
      = spinor3 ⟨5 / 24, 0⟩ ⟨-9 / 40, 0⟩ ⟨1, 0⟩ ∧
    (restart_cycle Real.sqrt (defl_la Real.sqrt) (defl_op (3 / 32) (-1 / 8) (3 / 8))
      (spinor3 ⟨169 / 96, 0⟩ ⟨0, 0⟩ ⟨0, 0⟩) 2 1
      (defl_restart_entry Real.sqrt (3 / 32) (-1 / 8) (3 / 8))).r
      = spinor3 ⟨0, 0⟩ ⟨0, 0⟩ ⟨0, 0⟩ ∧
    (restart_cycle Real.sqrt (defl_la Real.sqrt) (defl_op (3 / 32) (-1 / 8) (3 / 8))
      (spinor3 ⟨169 / 96, 0⟩ ⟨0, 0⟩ ⟨0, 0⟩) 2 1
      (defl_restart_entry Real.sqrt (3 / 32) (-1 / 8) (3 / 8))).resid
      = [spinor3 ⟨0, 0⟩ ⟨0, 0⟩ ⟨0, 0⟩, spinor3 ⟨3 / 32, 0⟩ ⟨-1 / 8, 0⟩ ⟨3 / 8, 0⟩,
          mul_r (169 / 96) (unit3 0)] ∧
    diff (spinor3 ⟨169 / 96, 0⟩ ⟨0, 0⟩ ⟨0, 0⟩ : Vec ℝ)
      (defl_op (3 / 32) (-1 / 8) (3 / 8) (spinor3 ⟨5 / 24, 0⟩ ⟨-9 / 40, 0⟩ ⟨1, 0⟩))
      = spinor3 ⟨0, 0⟩ ⟨0, 0⟩ ⟨0, 0⟩ ∧
    Real.sqrt (square_norm (spinor3 ⟨0, 0⟩ ⟨0, 0⟩ ⟨0, 0⟩ : Vec ℝ)) = 0 := by
  have hs := (defl_restart_cycle_fields (3 / 32) (-1 / 8) (3 / 8) (by norm_num)).2.2.2
  obtain ⟨r1, r2⟩ := restart_cycle_resid Real.sqrt (defl_la Real.sqrt)
    (defl_op (3 / 32) (-1 / 8) (3 / 8)) (spinor3 ⟨169 / 96, 0⟩ ⟨0, 0⟩ ⟨0, 0⟩) 2 1
    (defl_restart_entry Real.sqrt (3 / 32) (-1 / 8) (3 / 8))
  have hd : diff (spinor3 ⟨169 / 96, 0⟩ ⟨0, 0⟩ ⟨0, 0⟩ : Vec ℝ)
      (defl_op (3 / 32) (-1 / 8) (3 / 8) (spinor3 ⟨5 / 24, 0⟩ ⟨-9 / 40, 0⟩ ⟨1, 0⟩))
      = spinor3 ⟨0, 0⟩ ⟨0, 0⟩ ⟨0, 0⟩ := by
    simp [spinor3, defl_op, diff, cmul, cadd]
    norm_num
  have hn : Real.sqrt (square_norm (spinor3 ⟨0, 0⟩ ⟨0, 0⟩ ⟨0, 0⟩ : Vec ℝ)) = 0 := by
    have : square_norm (spinor3 ⟨0, 0⟩ ⟨0, 0⟩ ⟨0, 0⟩ : Vec ℝ) = 0 := by
      simp [spinor3, square_norm]
    rw [this, Real.sqrt_zero]
  rw [hs, hd] at r1
  rw [hs, hd, restart_arnoldi_resid,
    (defl_restart_entry_fields (3 / 32) (-1 / 8) (3 / 8)).2.2.2.2.2.2.2.2.2.1] at r2
  exact ⟨hs, r1, r2, hd, hn⟩

/-- The results that `defl_la` hands to the first restart cycle of the call on `defl_op`
are the exact ones.  The matrix given to `zgesv` (column `i` is `work[i]`) is upper
triangular, so it is its own LU factor with pivots `1, 2`, and the returned `c` solves the
system for the right-hand side `(0, 1)`; the rows returned by
`diagonalise_general_matrix` are unit eigenvectors of the matrix `G` of line 231 (column
`i` is `G[i]`) for the returned eigenvalues `8` and `50/9`; `quicksort` returns its two keys
in ascending order with `idx` permuted alike; the vector returned by `zgels` solves the
system `sum_c H[c][r] * y[c] = alpha[r]`, `r = 0, 1, 2`, with residual zero. -/
theorem defl_la_exact (b0 b1 b2 : ℝ) (hb0 : 0 < b0) :
    (deflate_rhs 2 (defl_restart_entry Real.sqrt b0 b1 b2) 0 = ⟨0, 0⟩ ∧
      deflate_rhs 2 (defl_restart_entry Real.sqrt b0 b1 b2) 1 = ⟨1, 0⟩ ∧
      (defl_restart_entry Real.sqrt b0 b1 b2).work 0 1 = ⟨0, 0⟩ ∧
      ((defl_la Real.sqrt).zgesv 2 (defl_restart_entry Real.sqrt b0 b1 b2).work
          (deflate_rhs 2 (defl_restart_entry Real.sqrt b0 b1 b2))).1
        = (defl_restart_entry Real.sqrt b0 b1 b2).work ∧
      ((defl_la Real.sqrt).zgesv 2 (defl_restart_entry Real.sqrt b0 b1 b2).work
          (deflate_rhs 2 (defl_restart_entry Real.sqrt b0 b1 b2))).2.1 0 = 1 ∧
      ((defl_la Real.sqrt).zgesv 2 (defl_restart_entry Real.sqrt b0 b1 b2).work
          (deflate_rhs 2 (defl_restart_entry Real.sqrt b0 b1 b2))).2.1 1 = 2 ∧
      ∀ r, r < 2 →
        cadd
          (cmul ((defl_restart_entry Real.sqrt b0 b1 b2).work 0 r)
            (((defl_la Real.sqrt).zgesv 2 (defl_restart_entry Real.sqrt b0 b1 b2).work
              (deflate_rhs 2 (defl_restart_entry Real.sqrt b0 b1 b2))).2.2 0))
          (cmul ((defl_restart_entry Real.sqrt b0 b1 b2).work 1 r)
            (((defl_la Real.sqrt).zgesv 2 (defl_restart_entry Real.sqrt b0 b1 b2).work
              (deflate_rhs 2 (defl_restart_entry Real.sqrt b0 b1 b2))).2.2 1))
          = deflate_rhs 2 (defl_restart_entry Real.sqrt b0 b1 b2) r) ∧
    (∀ k r, k < 2 → r < 2 →
      cadd
        (cmul (deflate_shifted (defl_la Real.sqrt) 2 (defl_restart_entry Real.sqrt b0 b1 b2)
            0 r)
          ((deflate_eig (defl_la Real.sqrt) 2 (defl_restart_entry Real.sqrt b0 b1 b2)).1 k 0))
        (cmul (deflate_shifted (defl_la Real.sqrt) 2 (defl_restart_entry Real.sqrt b0 b1 b2)
            1 r)
          ((deflate_eig (defl_la Real.sqrt) 2 (defl_restart_entry Real.sqrt b0 b1 b2)).1 k 1))
        = cmul
            ((deflate_eig (defl_la Real.sqrt) 2
              (defl_restart_entry Real.sqrt b0 b1 b2)).2.2 k)
            ((deflate_eig (defl_la Real.sqrt) 2
              (defl_restart_entry Real.sqrt b0 b1 b2)).1 k r) ∧
      Cx._complex_square_norm
          ((deflate_eig (defl_la Real.sqrt) 2 (defl_restart_entry Real.sqrt b0 b1 b2)).1 k 0)
        + Cx._complex_square_norm
          ((deflate_eig (defl_la Real.sqrt) 2 (defl_restart_entry Real.sqrt b0 b1 b2)).1 k 1)
        = 1) ∧
    (∀ (a : Nat → ℝ) (idx : Nat → Int),
      ((defl_la Real.sqrt).quicksort 2 a idx).1 0 ≤ ((defl_la Real.sqrt).quicksort 2 a idx).1 1 ∧
      ((((defl_la Real.sqrt).quicksort 2 a idx).1 0 = a 0 ∧
        ((defl_la Real.sqrt).quicksort 2 a idx).1 1 = a 1 ∧
        ((defl_la Real.sqrt).quicksort 2 a idx).2 0 = idx 0 ∧
        ((defl_la Real.sqrt).quicksort 2 a idx).2 1 = idx 1) ∨
       (((defl_la Real.sqrt).quicksort 2 a idx).1 0 = a 1 ∧
        ((defl_la Real.sqrt).quicksort 2 a idx).1 1 = a 0 ∧
        ((defl_la Real.sqrt).quicksort 2 a idx).2 0 = idx 1 ∧
        ((defl_la Real.sqrt).quicksort 2 a idx).2 1 = idx 0))) ∧
    (∀ r, r < 3 →
      cadd
        (cmul ((restart_arnoldi Real.sqrt (defl_la Real.sqrt) (defl_op b0 b1 b2) 2 1
            (defl_restart_entry Real.sqrt b0 b1 b2)).H 0 r)
          (((defl_la Real.sqrt).zgels 3 2
            (restart_arnoldi Real.sqrt (defl_la Real.sqrt) (defl_op b0 b1 b2) 2 1
              (defl_restart_entry Real.sqrt b0 b1 b2)).H
            (lsq_rhs 2 (restart_arnoldi Real.sqrt (defl_la Real.sqrt) (defl_op b0 b1 b2) 2 1
              (defl_restart_entry Real.sqrt b0 b1 b2)))).2 0))
        (cmul ((restart_arnoldi Real.sqrt (defl_la Real.sqrt) (defl_op b0 b1 b2) 2 1
            (defl_restart_entry Real.sqrt b0 b1 b2)).H 1 r)
          (((defl_la Real.sqrt).zgels 3 2
            (restart_arnoldi Real.sqrt (defl_la Real.sqrt) (defl_op b0 b1 b2) 2 1
              (defl_restart_entry Real.sqrt b0 b1 b2)).H
            (lsq_rhs 2 (restart_arnoldi Real.sqrt (defl_la Real.sqrt) (defl_op b0 b1 b2) 2 1
              (defl_restart_entry Real.sqrt b0 b1 b2)))).2 1))
        = lsq_rhs 2 (restart_arnoldi Real.sqrt (defl_la Real.sqrt) (defl_op b0 b1 b2) 2 1
            (defl_restart_entry Real.sqrt b0 b1 b2)) r) := by
  obtain ⟨-, -, -, g, -, w, be, -⟩ := defl_restart_entry_fields b0 b1 b2
  obtain ⟨-, -, -, -, h10, h11, h12, -⟩ := defl_restart_arnoldi_fields b0 b1 b2 hb0
  obtain ⟨q0, q1, q2, -⟩ := defl_restart_cycle_fields b0 b1 b2 hb0
  have h850 : Real.sqrt 850 * Real.sqrt 850 = 850 := Real.mul_self_sqrt (by norm_num)
  have hne : Real.sqrt 850 ≠ 0 := by
    intro h
    rw [h] at h850
    norm_num at h850
  have c0 : deflate_rhs 2 (defl_restart_entry Real.sqrt b0 b1 b2) 0 = ⟨0, 0⟩ := by
    simp [deflate_rhs, Function.update, Cx.czero]
  have c1 : deflate_rhs 2 (defl_restart_entry Real.sqrt b0 b1 b2) 1 = ⟨1, 0⟩ := by
    simp [deflate_rhs, Function.update, Cx.czero]
  have hsh : deflate_shifted (defl_la Real.sqrt) 2 (defl_restart_entry Real.sqrt b0 b1 b2)
      = set2 defl_G 1 1 ⟨50 / 9, 0⟩ := by
    have e : (⟨(defl_G 1 1 : Cx ℝ).re + 25 / 9 * (1 / 5 : ℝ),
        (defl_G 1 1 : Cx ℝ).im + 25 / 9 * 0⟩ : Cx ℝ) = ⟨50 / 9, 0⟩ := by
      simp [defl_G]
      norm_num
    rw [← e]
    simp [deflate_shifted, defl_la, g, be]
  refine ⟨⟨c0, c1, ?_, rfl, ?_, ?_, ?_⟩, ?_, ?_, ?_⟩
  · rw [w]; simp [defl_G]
  · simp [defl_la]
  · simp [defl_la]
  · intro r hr
    have er : r = 0 ∨ r = 1 := by omega
    rw [w]
    rcases er with rfl | rfl
    · rw [c0]; simp [defl_la, defl_G, cmul, cadd]; norm_num
    · rw [c1]; simp [defl_la, defl_G, cmul, cadd]
  · intro k r hk hr
    rw [hsh, deflate_eig_shifted]
    have ek : k = 0 ∨ k = 1 := by omega
    have er : r = 0 ∨ r = 1 := by omega
    rcases ek with rfl | rfl <;> rcases er with rfl | rfl
    · constructor
      · simp [defl_la, defl_G, set2, Function.update, cmul, cadd]
      · simp [defl_la, Cx._complex_square_norm]
        field_simp
        nlinarith [h850]
    · constructor
      · simp [defl_la, defl_G, set2, Function.update, cmul, cadd]
        field_simp
        ring
      · simp [defl_la, Cx._complex_square_norm]
        field_simp
        nlinarith [h850]
    · constructor
      · simp [defl_la, defl_G, set2, Function.update, cmul, cadd]
      · simp [defl_la, Cx._complex_square_norm]
    · constructor
      · simp [defl_la, defl_G, set2, Function.update, cmul, cadd]
      · simp [defl_la, Cx._complex_square_norm]
  · intro a idx
    by_cases h : a 1 < a 0
    · simp [defl_la, h, h.le]
    · have h' : a 0 ≤ a 1 := not_lt.1 h
      simp [defl_la, h, h']
  · intro r hr
    have er : r = 0 ∨ r = 1 ∨ r = 2 := by omega
    rcases er with rfl | rfl | rfl
    · rw [q0, h10]; simp [defl_la, cmul, cadd]
    · rw [q1, h11]; simp [defl_la, cmul, cadd]
    · rw [q2, h12]; simp [defl_la, cmul, cadd]

end Numerics

section Claims

variable {K : Type} [LinearOrderedField K]

/-- C1 (evaluation at the failing input): on the workspace left by `first_call`, the call
for the identity operator with `rel_prec = 1`, `eps_sq = 0` leaves through the test of line
170 at `j = 0` with the rotation norm `beta = 1` and `alpha[1].re = 0`, yet the vector `P`
it returns has `||Q - A*P|| = 123/625`, which is neither `alpha[1]` nor within
`sqrt(eps_sq) * ||Q||`. -/
theorem C1_reused_workspace_residual_off (la : DenseLA ℝ) :
    (first_call Real.sqrt la).ret = -1 ∧
    (second_call Real.sqrt la 5 0 1).exit = ExitPath.inner 0 ∧
    step0_beta Real.sqrt (id : matrix_mult ℝ)
      (entry_v0 Real.sqrt (spinor3 ⟨0, 0⟩ ⟨0, 0⟩ ⟨0, 0⟩) (spinor3 ⟨1, 0⟩ ⟨0, 0⟩ ⟨0, 0⟩) id) = 1 ∧
    ((second_call Real.sqrt la 5 0 1).st.alpha 1).re = 0 ∧
    Real.sqrt (square_norm (diff (spinor3 ⟨1, 0⟩ ⟨0, 0⟩ ⟨0, 0⟩)
      (id (second_call Real.sqrt la 5 0 1).P))) = 123 / 625 ∧
    ¬ (Real.sqrt (square_norm (diff (spinor3 ⟨1, 0⟩ ⟨0, 0⟩ ⟨0, 0⟩)
        (id (second_call Real.sqrt la 5 0 1).P)))
      ≤ Real.sqrt 0 * Real.sqrt (square_norm (spinor3 ⟨1, 0⟩ ⟨0, 0⟩ ⟨0, 0⟩ : Vec ℝ))) := by
  obtain ⟨f1, -⟩ := first_call_result la
  obtain ⟨-, r2, r3, r4⟩ := second_call_result la 5 0 1 (Or.inr rfl)
  obtain ⟨-, i2, -, i4, -⟩ := identity_step0
  refine ⟨f1, r2, by rw [i2, i4], r4, by rw [r3, reused_residual], ?_⟩
  rw [r3, reused_residual, Real.sqrt_zero]
  norm_num

/-- C3 (evaluation at the failing input): for `A = diag(1, 2, 3, 1000)`, `Q = (1, 1, 1, 1)`,
`P = 0`, `m = 3`, `nr_ev = 1`, `eps_sq = 1e-12`, `rel_prec = 0`, no restart budget, no
workspace content and no result of the dense routines makes the call return a non-negative
count together with a `P` that satisfies `|(A*P)_k - Q_k| <= 1e-6` in every component: a
call that ends in cycle 0 returns a `P` in the span of `Q, A*Q, A^2*Q`, which cannot be
that accurate, and a call that enters the restart loop returns `-1`. -/
theorem C3_concrete_scenario_not_met (la : DenseLA ℝ) (ws : Workspace ℝ) (VR : Int)
    (max_restarts : Int) :
    ¬ (0 ≤ (gmres_dr Real.sqrt la ws VR [⟨0, 0⟩, ⟨0, 0⟩, ⟨0, 0⟩, ⟨0, 0⟩]
          [⟨1, 0⟩, ⟨1, 0⟩, ⟨1, 0⟩, ⟨1, 0⟩] 3 1 max_restarts (1 / 1000000000000) 0
          (diag_op [⟨1, 0⟩, ⟨2, 0⟩, ⟨3, 0⟩, ⟨1000, 0⟩])).ret ∧
      ∀ z ∈ diff (diag_op [⟨1, 0⟩, ⟨2, 0⟩, ⟨3, 0⟩, ⟨1000, 0⟩]
          (gmres_dr Real.sqrt la ws VR [⟨0, 0⟩, ⟨0, 0⟩, ⟨0, 0⟩, ⟨0, 0⟩]
            [⟨1, 0⟩, ⟨1, 0⟩, ⟨1, 0⟩, ⟨1, 0⟩] 3 1 max_restarts (1 / 1000000000000) 0
            (diag_op [⟨1, 0⟩, ⟨2, 0⟩, ⟨3, 0⟩, ⟨1000, 0⟩])).P)
          ([⟨1, 0⟩, ⟨1, 0⟩, ⟨1, 0⟩, ⟨1, 0⟩] : Vec ℝ),
        z.re * z.re + z.im * z.im ≤ (1 / 1000000) ^ 2) := by
  rintro ⟨hret, hacc⟩
  by_cases hexit : (gmres_dr Real.sqrt la ws VR [⟨0, 0⟩, ⟨0, 0⟩, ⟨0, 0⟩, ⟨0, 0⟩]
      [⟨1, 0⟩, ⟨1, 0⟩, ⟨1, 0⟩, ⟨1, 0⟩] 3 1 max_restarts (1 / 1000000000000) 0
      (diag_op [⟨1, 0⟩, ⟨2, 0⟩, ⟨3, 0⟩, ⟨1000, 0⟩])).exit = ExitPath.max_restarts
  · rw [gmres_dr_max_restarts_ret _ _ _ _ _ _ _ _ _ _ _ _ hexit] at hret
    norm_num at hret
  · have hP : quad_level 3 ([⟨0, 0⟩, ⟨0, 0⟩, ⟨0, 0⟩, ⟨0, 0⟩] : Vec ℝ) :=
      ⟨0, 0, 0, 0, 0, 0, by simp [quad_vec]⟩
    have hr : quad_level 1 (diff ([⟨1, 0⟩, ⟨1, 0⟩, ⟨1, 0⟩, ⟨1, 0⟩] : Vec ℝ)
        (diag_op [⟨1, 0⟩, ⟨2, 0⟩, ⟨3, 0⟩, ⟨1000, 0⟩] [⟨0, 0⟩, ⟨0, 0⟩, ⟨0, 0⟩, ⟨0, 0⟩])) :=
      ⟨1, 0, by simp [quad_vec, diff, diag_op, cmul]⟩
    obtain ⟨ar, ai, br, bi, cr, ci, hx⟩ := gmres_dr_krylov Real.sqrt la ws VR
      [⟨0, 0⟩, ⟨0, 0⟩, ⟨0, 0⟩, ⟨0, 0⟩] [⟨1, 0⟩, ⟨1, 0⟩, ⟨1, 0⟩, ⟨1, 0⟩] 3 1 max_restarts
      (1 / 1000000000000) 0 (diag_op [⟨1, 0⟩, ⟨2, 0⟩, ⟨3, 0⟩, ⟨1000, 0⟩]) quad_level
      quad_chain (by norm_num) hP hr hexit
    rw [hx] at hacc
    exact quad_vec_inaccurate ar ai br bi cr ci hacc

/-- C4 (evaluation at the failing input): on the workspace left by `first_call`, the call
for the identity operator (`m = 2`, `eps_sq = 0`, `rel_prec = 0`) returns 0 after one
Arnoldi step, but the vector `P` it returns is `Q - (123/625) i e_0`, not `Q`. -/
theorem C4_identity_on_reused_workspace (la : DenseLA ℝ) :
    (first_call Real.sqrt la).ret = -1 ∧
    (second_call Real.sqrt la 5 0 0).ret = 0 ∧
    (second_call Real.sqrt la 5 0 0).P = spinor3 ⟨1, -123 / 625⟩ ⟨0, 0⟩ ⟨0, 0⟩ ∧
    (second_call Real.sqrt la 5 0 0).P ≠ spinor3 ⟨1, 0⟩ ⟨0, 0⟩ ⟨0, 0⟩ := by
  obtain ⟨f1, -⟩ := first_call_result la
  obtain ⟨r1, -, r3, -⟩ := second_call_result la 5 0 0 (Or.inl rfl)
  refine ⟨f1, r1, r3, ?_⟩
  rw [r3]
  simp [spinor3]

/-- C5 (counterexample): with `Q = 0` but an initial guess `P = (i/3, -4/15, 16/15, 0, ...)`
that does not solve `A*P = 0`, the call does not return at once: it applies the operator a
second time (one Arnoldi step, leaving through line 186) and returns a `P` that is neither
the `P` passed in nor zero. -/
theorem C5_zero_rhs_runs_arnoldi :
    (gmres_dr Real.sqrt idle_la staticWorkspace 2
        (spinor3 ⟨0, 1 / 3⟩ ⟨-4 / 15, 0⟩ ⟨16 / 15, 0⟩) (spinor3 ⟨0, 0⟩ ⟨0, 0⟩ ⟨0, 0⟩)
        2 1 5 1 0 bidiag_op).exit = ExitPath.inner 0 ∧
    (gmres_dr Real.sqrt idle_la staticWorkspace 2
        (spinor3 ⟨0, 1 / 3⟩ ⟨-4 / 15, 0⟩ ⟨16 / 15, 0⟩) (spinor3 ⟨0, 0⟩ ⟨0, 0⟩ ⟨0, 0⟩)
        2 1 5 1 0 bidiag_op).st.napply = 2 ∧
    (gmres_dr Real.sqrt idle_la staticWorkspace 2
        (spinor3 ⟨0, 1 / 3⟩ ⟨-4 / 15, 0⟩ ⟨16 / 15, 0⟩) (spinor3 ⟨0, 0⟩ ⟨0, 0⟩ ⟨0, 0⟩)
        2 1 5 1 0 bidiag_op).P ≠ spinor3 ⟨0, 1 / 3⟩ ⟨-4 / 15, 0⟩ ⟨16 / 15, 0⟩ ∧
    (gmres_dr Real.sqrt idle_la staticWorkspace 2
        (spinor3 ⟨0, 1 / 3⟩ ⟨-4 / 15, 0⟩ ⟨16 / 15, 0⟩) (spinor3 ⟨0, 0⟩ ⟨0, 0⟩ ⟨0, 0⟩)
        2 1 5 1 0 bidiag_op).P ≠ spinor3 ⟨0, 0⟩ ⟨0, 0⟩ ⟨0, 0⟩ := by
  obtain ⟨z1, z2⟩ := bidiag_zero_rhs_entry
  obtain ⟨-, n2, -⟩ := bidiag_entry
  obtain ⟨-, -, h3, h4⟩ := bidiag_step0
  have ha := static_entry_alpha0 2 (spinor3 ⟨0, 1 / 3⟩ ⟨-4 / 15, 0⟩ ⟨16 / 15, 0⟩)
    (spinor3 ⟨0, 0⟩ ⟨0, 0⟩ ⟨0, 0⟩) 2 (bidiag_op : matrix_mult ℝ)
  rw [z1, n2, Real.sqrt_one] at ha
  have h0 : Real.sqrt (square_norm (diff (spinor3 ⟨0, 0⟩ ⟨0, 0⟩ ⟨0, 0⟩ : Vec ℝ)
      (bidiag_op (spinor3 ⟨0, 1 / 3⟩ ⟨-4 / 15, 0⟩ ⟨16 / 15, 0⟩)))) ≠ 0 := by
    rw [z1, n2, Real.sqrt_one]; norm_num
  obtain ⟨-, r2, r3, r4, -⟩ := gmres_dr_first_step Real.sqrt idle_la staticWorkspace 2
    (spinor3 ⟨0, 1 / 3⟩ ⟨-4 / 15, 0⟩ ⟨16 / 15, 0⟩) (spinor3 ⟨0, 0⟩ ⟨0, 0⟩ ⟨0, 0⟩) 2 1 5 1 0
    bidiag_op (by norm_num) h0
    (Or.inl ⟨by rw [z2, z1, n2, h3, h4, Real.sqrt_one]; norm_num, rfl⟩)
  rw [z2, ha, bidiag_step0_coeff] at r3
  refine ⟨r2, r4, ?_, ?_⟩
  · rw [r3]; simp [spinor3, assign_add_mul]
  · rw [r3]; simp [spinor3, assign_add_mul]

/-- C5 (amended): when `Q` is the zero vector and the initial guess satisfies `A*P = 0`
(for a linear operator in particular when `P = 0`), `gmres_dr` returns at line 118 with
value 0, having applied the operator once for the residual and run no Arnoldi step, and
leaves `P` unchanged. -/
theorem C5_zero_rhs_zero_residual_returns (la : DenseLA ℝ) (ws : Workspace ℝ) (VR : Int)
    (P Q : Vec ℝ) (m nr_ev : Nat) (max_restarts : Int) (eps_sq : ℝ) (rel_prec : Int)
    (f : matrix_mult ℝ) (hQ : ∀ z ∈ Q, z = (⟨0, 0⟩ : Cx ℝ))
    (hAP : ∀ z ∈ f P, z = (⟨0, 0⟩ : Cx ℝ)) :
    (gmres_dr Real.sqrt la ws VR P Q m nr_ev max_restarts eps_sq rel_prec f).ret = 0 ∧
    (gmres_dr Real.sqrt la ws VR P Q m nr_ev max_restarts eps_sq rel_prec f).exit
      = ExitPath.entry_zero ∧
    (gmres_dr Real.sqrt la ws VR P Q m nr_ev max_restarts eps_sq rel_prec f).P = P ∧
    (gmres_dr Real.sqrt la ws VR P Q m nr_ev max_restarts eps_sq rel_prec f).st.napply = 1 ∧
    (gmres_dr Real.sqrt la ws VR P Q m nr_ev max_restarts eps_sq rel_prec f).st.recips
      = [] := by
  have h0 : Real.sqrt (square_norm (diff Q (f P))) = 0 := by
    rw [square_norm_diff_zero Q (f P) hQ hAP, Real.sqrt_zero]
  obtain ⟨r1, r2, r3, r4⟩ := gmres_dr_entry_zero Real.sqrt la ws VR P Q m nr_ev
    max_restarts eps_sq rel_prec f h0
  refine ⟨r1, r2, r3, ?_, ?_⟩
  · rw [r4]; rfl
  · rw [r4]; rfl

/-- C5 (witness): the amended statement at `P = 0`, `Q = 0` and the operator
`bidiag_op`. -/
theorem C5_zero_rhs_witness :
    (∀ z ∈ (spinor3 ⟨0, 0⟩ ⟨0, 0⟩ ⟨0, 0⟩ : Vec ℝ), z = (⟨0, 0⟩ : Cx ℝ)) ∧
    (∀ z ∈ (bidiag_op (spinor3 ⟨0, 0⟩ ⟨0, 0⟩ ⟨0, 0⟩) : Vec ℝ), z = (⟨0, 0⟩ : Cx ℝ)) ∧
    (gmres_dr Real.sqrt idle_la staticWorkspace 2 (spinor3 ⟨0, 0⟩ ⟨0, 0⟩ ⟨0, 0⟩)
      (spinor3 ⟨0, 0⟩ ⟨0, 0⟩ ⟨0, 0⟩) 2 1 5 0 0 bidiag_op).ret = 0 ∧
    (gmres_dr Real.sqrt idle_la staticWorkspace 2 (spinor3 ⟨0, 0⟩ ⟨0, 0⟩ ⟨0, 0⟩)
      (spinor3 ⟨0, 0⟩ ⟨0, 0⟩ ⟨0, 0⟩) 2 1 5 0 0 bidiag_op).st.napply = 1 :=
  have hQ : ∀ z ∈ (spinor3 ⟨0, 0⟩ ⟨0, 0⟩ ⟨0, 0⟩ : Vec ℝ), z = (⟨0, 0⟩ : Cx ℝ) := by
    simp [spinor3]
  have hAP : ∀ z ∈ (bidiag_op (spinor3 ⟨0, 0⟩ ⟨0, 0⟩ ⟨0, 0⟩) : Vec ℝ),
      z = (⟨0, 0⟩ : Cx ℝ) := by
    simp [spinor3, bidiag_op, cmul, cadd]
  have h := C5_zero_rhs_zero_residual_returns idle_la staticWorkspace 2
    (spinor3 ⟨0, 0⟩ ⟨0, 0⟩ ⟨0, 0⟩) (spinor3 ⟨0, 0⟩ ⟨0, 0⟩ ⟨0, 0⟩) 2 1 5 0 0 bidiag_op hQ hAP
  ⟨hQ, hAP, h.1, h.2.2.2.1⟩

/-- C10 (counterexample): the call with `m = 2` and `nr_ev = 2` (so `nr_ev >= m`) is not
rejected: it applies the operator twice, runs the Arnoldi step of index 0, normalises with
`1/1` and returns the ordinary iteration count 0 through line 186. -/
theorem C10_nr_ev_not_checked :
    (gmres_dr Real.sqrt idle_la staticWorkspace 2 (spinor3 ⟨0, 0⟩ ⟨0, 0⟩ ⟨0, 0⟩)
      (spinor3 ⟨1, 0⟩ ⟨0, 0⟩ ⟨0, 0⟩) 2 2 5 1 0 bidiag_op).ret = 0 ∧
    (gmres_dr Real.sqrt idle_la staticWorkspace 2 (spinor3 ⟨0, 0⟩ ⟨0, 0⟩ ⟨0, 0⟩)
      (spinor3 ⟨1, 0⟩ ⟨0, 0⟩ ⟨0, 0⟩) 2 2 5 1 0 bidiag_op).exit = ExitPath.inner 0 ∧
    (gmres_dr Real.sqrt idle_la staticWorkspace 2 (spinor3 ⟨0, 0⟩ ⟨0, 0⟩ ⟨0, 0⟩)
      (spinor3 ⟨1, 0⟩ ⟨0, 0⟩ ⟨0, 0⟩) 2 2 5 1 0 bidiag_op).st.napply = 2 ∧
    (gmres_dr Real.sqrt idle_la staticWorkspace 2 (spinor3 ⟨0, 0⟩ ⟨0, 0⟩ ⟨0, 0⟩)
      (spinor3 ⟨1, 0⟩ ⟨0, 0⟩ ⟨0, 0⟩) 2 2 5 1 0 bidiag_op).st.recips = [1] :=
  bidiag_loose_call idle_la 2 5

/-- C10 (amended): `gmres_dr` has no check of `nr_ev` against `m`; a call with
`nr_ev >= m` is not rejected, and whenever the call with some `nr_ev` ends before the
restart loop (lines 118, 186 or 220), the call with any other value `nr_ev2`, in
particular one with `nr_ev2 >= m`, performs the same steps and gives the same return
value, the same `P` and the same final state. -/
theorem C10_nr_ev_unused_before_restart (sqrt : K → K) (la : DenseLA K) (ws : Workspace K)
    (VR : Int) (P Q : Vec K) (m nr_ev nr_ev2 : Nat) (max_restarts : Int) (eps_sq : K)
    (rel_prec : Int) (f : matrix_mult K)
    (h : (gmres_dr sqrt la ws VR P Q m nr_ev max_restarts eps_sq rel_prec f).exit
      ≠ ExitPath.max_restarts) :
    (gmres_dr sqrt la ws VR P Q m nr_ev2 max_restarts eps_sq rel_prec f).ret
      = (gmres_dr sqrt la ws VR P Q m nr_ev max_restarts eps_sq rel_prec f).ret ∧
    (gmres_dr sqrt la ws VR P Q m nr_ev2 max_restarts eps_sq rel_prec f).P
      = (gmres_dr sqrt la ws VR P Q m nr_ev max_restarts eps_sq rel_prec f).P ∧
    (gmres_dr sqrt la ws VR P Q m nr_ev2 max_restarts eps_sq rel_prec f).exit
      = (gmres_dr sqrt la ws VR P Q m nr_ev max_restarts eps_sq rel_prec f).exit ∧
    (gmres_dr sqrt la ws VR P Q m nr_ev2 max_restarts eps_sq rel_prec f).st.napply
      = (gmres_dr sqrt la ws VR P Q m nr_ev max_restarts eps_sq rel_prec f).st.napply := by
  rw [gmres_dr_nr_ev_irrelevant sqrt la ws VR P Q m nr_ev nr_ev2 max_restarts eps_sq
    rel_prec f h]
  exact ⟨rfl, rfl, rfl, rfl⟩

/-- C10 (witness): the amended statement for `nr_ev = 1` against `nr_ev2 = 7` at
`m = 2`. -/
theorem C10_nr_ev_witness :
    (gmres_dr Real.sqrt idle_la staticWorkspace 2 (spinor3 ⟨0, 0⟩ ⟨0, 0⟩ ⟨0, 0⟩)
      (spinor3 ⟨1, 0⟩ ⟨0, 0⟩ ⟨0, 0⟩) 2 1 5 1 0 bidiag_op).exit ≠ ExitPath.max_restarts ∧
    (gmres_dr Real.sqrt idle_la staticWorkspace 2 (spinor3 ⟨0, 0⟩ ⟨0, 0⟩ ⟨0, 0⟩)
      (spinor3 ⟨1, 0⟩ ⟨0, 0⟩ ⟨0, 0⟩) 2 7 5 1 0 bidiag_op).ret
      = (gmres_dr Real.sqrt idle_la staticWorkspace 2 (spinor3 ⟨0, 0⟩ ⟨0, 0⟩ ⟨0, 0⟩)
      (spinor3 ⟨1, 0⟩ ⟨0, 0⟩ ⟨0, 0⟩) 2 1 5 1 0 bidiag_op).ret :=
  have h : (gmres_dr Real.sqrt idle_la staticWorkspace 2 (spinor3 ⟨0, 0⟩ ⟨0, 0⟩ ⟨0, 0⟩)
      (spinor3 ⟨1, 0⟩ ⟨0, 0⟩ ⟨0, 0⟩) 2 1 5 1 0 bidiag_op).exit ≠ ExitPath.max_restarts := by
    rw [(bidiag_loose_call idle_la 1 5).2.1]; simp
  ⟨h, (C10_nr_ev_unused_before_restart Real.sqrt idle_la staticWorkspace 2
    (spinor3 ⟨0, 0⟩ ⟨0, 0⟩ ⟨0, 0⟩) (spinor3 ⟨1, 0⟩ ⟨0, 0⟩ ⟨0, 0⟩) 2 1 7 5 1 0 bidiag_op h).1⟩

/-- C2 (evaluation at the failing input): the call `P = 0`, `Q = (169/96, 0, ...)`, `m = 2`,
`nr_ev = 1`, `max_restarts = 2`, `eps_sq = 1/100`, `rel_prec = 0` on the operator
`defl_op (3/32) (-1/8) (3/8)`, with the dense routines delivering their exact results
(`defl_la`, `defl_la_exact`).  Cycle 0 ends without meeting the tolerance, one restart
cycle runs, and the residual `Q - A*P` that it recomputes on line 366 is the zero vector
(`P = (5/24, -9/40, 1)` solves the system), so its norm is below `sqrt(eps_sq) = 1/10`;
the call nevertheless returns `-1` through line 378. -/
theorem C2_restart_cycle_within_tolerance_returns_failure :
    (defl_call Real.sqrt (3 / 32) (-1 / 8) (3 / 8) 2 (1 / 100)).ret = -1 ∧
    (defl_call Real.sqrt (3 / 32) (-1 / 8) (3 / 8) 2 (1 / 100)).exit
      = ExitPath.max_restarts ∧
    (defl_call Real.sqrt (3 / 32) (-1 / 8) (3 / 8) 2 (1 / 100)).st.ndefl = 1 ∧
    (defl_call Real.sqrt (3 / 32) (-1 / 8) (3 / 8) 2 (1 / 100)).P
      = spinor3 ⟨5 / 24, 0⟩ ⟨-9 / 40, 0⟩ ⟨1, 0⟩ ∧
    (defl_call Real.sqrt (3 / 32) (-1 / 8) (3 / 8) 2 (1 / 100)).st.r
      = diff (spinor3 ⟨169 / 96, 0⟩ ⟨0, 0⟩ ⟨0, 0⟩)
          (defl_op (3 / 32) (-1 / 8) (3 / 8)
            (defl_call Real.sqrt (3 / 32) (-1 / 8) (3 / 8) 2 (1 / 100)).P) ∧
    (defl_call Real.sqrt (3 / 32) (-1 / 8) (3 / 8) 2 (1 / 100)).st.resid.head?
      = some (diff (spinor3 ⟨169 / 96, 0⟩ ⟨0, 0⟩ ⟨0, 0⟩)
          (defl_op (3 / 32) (-1 / 8) (3 / 8)
            (defl_call Real.sqrt (3 / 32) (-1 / 8) (3 / 8) 2 (1 / 100)).P)) ∧
    Real.sqrt (square_norm (diff (spinor3 ⟨169 / 96, 0⟩ ⟨0, 0⟩ ⟨0, 0⟩)
      (defl_op (3 / 32) (-1 / 8) (3 / 8)
        (defl_call Real.sqrt (3 / 32) (-1 / 8) (3 / 8) 2 (1 / 100)).P))) = 0 ∧
    Real.sqrt (square_norm (diff (spinor3 ⟨169 / 96, 0⟩ ⟨0, 0⟩ ⟨0, 0⟩)
      (defl_op (3 / 32) (-1 / 8) (3 / 8)
        (defl_call Real.sqrt (3 / 32) (-1 / 8) (3 / 8) 2 (1 / 100)).P)))
      ≤ Real.sqrt (1 / 100) := by
  have he : Real.sqrt (1 / 100) < 13 / 32 := by
    rw [show (1 / 100 : ℝ) = (1 / 10) * (1 / 10) by norm_num,
      sqrt_mul_self_nn _ (by norm_num)]
    norm_num
  obtain ⟨x1, x2, x3, x4⟩ := defl_call_restart (3 / 32) (-1 / 8) (3 / 8) 2 (1 / 100) he
  obtain ⟨s1, s2, s3, s4, s5⟩ := defl_exact_cycle
  have hst : (defl_call Real.sqrt (3 / 32) (-1 / 8) (3 / 8) 2 (1 / 100)).st
      = restart_cycle Real.sqrt (defl_la Real.sqrt) (defl_op (3 / 32) (-1 / 8) (3 / 8))
          (spinor3 ⟨169 / 96, 0⟩ ⟨0, 0⟩ ⟨0, 0⟩) 2 1
          (defl_restart_entry Real.sqrt (3 / 32) (-1 / 8) (3 / 8)) := by
    rw [x3]
    rfl
  have hP : (defl_call Real.sqrt (3 / 32) (-1 / 8) (3 / 8) 2 (1 / 100)).P
      = spinor3 ⟨5 / 24, 0⟩ ⟨-9 / 40, 0⟩ ⟨1, 0⟩ := by
    rw [x4, hst, s1]
  have hn : (defl_call Real.sqrt (3 / 32) (-1 / 8) (3 / 8) 2 (1 / 100)).st.ndefl = 1 := by
    rw [x3, restart_loop_ndefl,
      (defl_restart_entry_fields (3 / 32) (-1 / 8) (3 / 8)).2.2.2.2.2.2.2.2.2.2]
    rfl
  refine ⟨x1, x2, hn, hP, ?_, ?_, ?_, ?_⟩
  · rw [hP, s4, hst, s2]
  · rw [hP, s4, hst, s3]
    rfl
  · rw [hP, s4, s5]
  · rw [hP, s4, s5]
    exact Real.sqrt_nonneg _

/-- C6 (evaluation at the failing input): the call `P = 0`, `Q = (169/96, 0, ...)`, `m = 2`,
`nr_ev = 1`, `eps_sq = 0`, `rel_prec = 0` on the operator `defl_op (3/32) (-1/8) (3/8)`,
with the dense routines delivering their exact results (`defl_la`, `defl_la_exact`).  The
explicit residuals are, latest first: the zero vector at the end of restart cycle 1, then
`(3/32, -1/8, 3/8)` after cycle 0 and `Q` on entry.  With `max_restarts = 2` the call
returns `-1` although the residual recomputed last has norm exactly zero; with
`max_restarts = 3` the zero residual of restart cycle 1 is followed by a second deflation
step and a further recomputed residual, and the call returns `-1` again (the count of
deflation steps and the returned value do not depend on what the dense routines deliver
in that second cycle). -/
theorem C6_zero_residual_in_restart_cycle_not_returned :
    (defl_call Real.sqrt (3 / 32) (-1 / 8) (3 / 8) 2 0).ret = -1 ∧
    (defl_call Real.sqrt (3 / 32) (-1 / 8) (3 / 8) 2 0).st.ndefl = 1 ∧
    (defl_call Real.sqrt (3 / 32) (-1 / 8) (3 / 8) 2 0).st.resid
      = [spinor3 ⟨0, 0⟩ ⟨0, 0⟩ ⟨0, 0⟩, spinor3 ⟨3 / 32, 0⟩ ⟨-1 / 8, 0⟩ ⟨3 / 8, 0⟩,
          mul_r (169 / 96) (unit3 0)] ∧
    Real.sqrt (square_norm (spinor3 ⟨0, 0⟩ ⟨0, 0⟩ ⟨0, 0⟩ : Vec ℝ)) = 0 ∧
    (defl_call Real.sqrt (3 / 32) (-1 / 8) (3 / 8) 3 0).ret = -1 ∧
    (defl_call Real.sqrt (3 / 32) (-1 / 8) (3 / 8) 3 0).st.ndefl = 2 ∧
    (defl_call Real.sqrt (3 / 32) (-1 / 8) (3 / 8) 3 0).st.resid.tail
      = [spinor3 ⟨0, 0⟩ ⟨0, 0⟩ ⟨0, 0⟩, spinor3 ⟨3 / 32, 0⟩ ⟨-1 / 8, 0⟩ ⟨3 / 8, 0⟩,
          mul_r (169 / 96) (unit3 0)] := by
  have he : Real.sqrt 0 < 13 / 32 := by
    rw [Real.sqrt_zero]
    norm_num
  obtain ⟨x1, -, x3, -⟩ := defl_call_restart (3 / 32) (-1 / 8) (3 / 8) 2 0 he
  obtain ⟨y1, -, y3, -⟩ := defl_call_restart (3 / 32) (-1 / 8) (3 / 8) 3 0 he
  obtain ⟨-, -, s3, -, s5⟩ := defl_exact_cycle
  have hnd := (defl_restart_entry_fields (3 / 32) (-1 / 8) (3 / 8)).2.2.2.2.2.2.2.2.2.2
  have hst : (defl_call Real.sqrt (3 / 32) (-1 / 8) (3 / 8) 2 0).st
      = restart_cycle Real.sqrt (defl_la Real.sqrt) (defl_op (3 / 32) (-1 / 8) (3 / 8))
          (spinor3 ⟨169 / 96, 0⟩ ⟨0, 0⟩ ⟨0, 0⟩) 2 1
          (defl_restart_entry Real.sqrt (3 / 32) (-1 / 8) (3 / 8)) := by
    rw [x3]
    rfl
  have hst3 : (defl_call Real.sqrt (3 / 32) (-1 / 8) (3 / 8) 3 0).st
      = restart_cycle Real.sqrt (defl_la Real.sqrt) (defl_op (3 / 32) (-1 / 8) (3 / 8))
          (spinor3 ⟨169 / 96, 0⟩ ⟨0, 0⟩ ⟨0, 0⟩) 2 1
          (restart_cycle Real.sqrt (defl_la Real.sqrt) (defl_op (3 / 32) (-1 / 8) (3 / 8))
            (spinor3 ⟨169 / 96, 0⟩ ⟨0, 0⟩ ⟨0, 0⟩) 2 1
            (defl_restart_entry Real.sqrt (3 / 32) (-1 / 8) (3 / 8))) := by
    rw [y3]
    rfl
  refine ⟨x1, ?_, ?_, s5, y1, ?_, ?_⟩
  · rw [x3, restart_loop_ndefl, hnd]
    rfl
  · rw [hst, s3]
  · rw [y3, restart_loop_ndefl, hnd]
    rfl
  · rw [hst3, (restart_cycle_resid _ _ _ _ _ _ _).2, restart_arnoldi_resid, s3]
    rfl

/-- C7 (evaluation at the failing input): every Arnoldi step of a restart cycle hands
`1/norm` of the vector left after the projections to `mul_r`, zero or not (line 342 has no
guard); and in cycle 0 the call `P = 0`, `Q = (1, 0, ...)`, `m = 2`, `rel_prec = 2` for the
identity finds the norm 0 at `j = 0`, does not leave the loop and evaluates `1/0` on line
190. -/
theorem C7_zero_norm_still_normalised :
    (∀ (f : matrix_mult ℝ) (st : St ℝ) (j : Nat),
      (arnoldiR Real.sqrt f st j).recips
        = Real.sqrt (square_norm (arnoldiR Real.sqrt f st j).w) :: st.recips) ∧
    cycle0 Real.sqrt id (Real.sqrt 0)
        (Real.sqrt (square_norm (spinor3 ⟨1, 0⟩ ⟨0, 0⟩ ⟨0, 0⟩ : Vec ℝ))) 2 2 0
        (loop_entry Real.sqrt staticWorkspace 2 (spinor3 ⟨0, 0⟩ ⟨0, 0⟩ ⟨0, 0⟩)
          (spinor3 ⟨1, 0⟩ ⟨0, 0⟩ ⟨0, 0⟩) 2 id)
      = cycle0 Real.sqrt id (Real.sqrt 0)
        (Real.sqrt (square_norm (spinor3 ⟨1, 0⟩ ⟨0, 0⟩ ⟨0, 0⟩ : Vec ℝ))) 2 1 1
        (normalise0 0 (arnoldi0 Real.sqrt id 0
          (loop_entry Real.sqrt staticWorkspace 2 (spinor3 ⟨0, 0⟩ ⟨0, 0⟩ ⟨0, 0⟩)
            (spinor3 ⟨1, 0⟩ ⟨0, 0⟩ ⟨0, 0⟩) 2 id))) ∧
    (normalise0 0 (arnoldi0 Real.sqrt id 0
        (loop_entry Real.sqrt staticWorkspace 2 (spinor3 ⟨0, 0⟩ ⟨0, 0⟩ ⟨0, 0⟩)
          (spinor3 ⟨1, 0⟩ ⟨0, 0⟩ ⟨0, 0⟩) 2 id))).recips = [0, 1] := by
  obtain ⟨i1, i2, i3, i4, -⟩ := identity_step0
  obtain ⟨-, n2, -⟩ := bidiag_entry
  obtain ⟨e1, -, -, -, e5⟩ := loop_entry_fields Real.sqrt staticWorkspace 2
    (spinor3 ⟨0, 0⟩ ⟨0, 0⟩ ⟨0, 0⟩) (spinor3 ⟨1, 0⟩ ⟨0, 0⟩ ⟨0, 0⟩) 2 id
  obtain ⟨-, -, -, a4, -, -, -, -, a9⟩ := arnoldi0_zero Real.sqrt id
    (loop_entry Real.sqrt staticWorkspace 2 (spinor3 ⟨0, 0⟩ ⟨0, 0⟩ ⟨0, 0⟩)
      (spinor3 ⟨1, 0⟩ ⟨0, 0⟩ ⟨0, 0⟩) 2 id)
  refine ⟨fun f st j => arnoldiR_recips Real.sqrt f st j, ?_, ?_⟩
  · have hp : ¬ precision_reached (Real.sqrt 0)
        (Real.sqrt (square_norm (spinor3 ⟨1, 0⟩ ⟨0, 0⟩ ⟨0, 0⟩ : Vec ℝ))) 2
        (arnoldi0 Real.sqrt id 0
          (loop_entry Real.sqrt staticWorkspace 2 (spinor3 ⟨0, 0⟩ ⟨0, 0⟩ ⟨0, 0⟩)
            (spinor3 ⟨1, 0⟩ ⟨0, 0⟩ ⟨0, 0⟩) 2 id)) 0 := by
      simp [precision_reached]
    rw [cycle0, if_neg hp]
  · simp only [normalise0]
    rw [a4, a9, e5, e1, i2, i3, i1, n2, Real.sqrt_one]

/-- C9: for `A = diag(1, 2)`, `Q = (10, 10)` (so `||Q|| = sqrt(200)`, not 1), `P = 0`,
`m = 2` and `eps_sq = 1`, both modes succeed with different counts: `rel_prec = 0` returns
1 and `rel_prec = 1` returns 0. -/
theorem C9_modes_return_different_counts :
    Real.sqrt (square_norm ([⟨10, 0⟩, ⟨10, 0⟩] : Vec ℝ)) ≠ 1 ∧
    (gmres_dr Real.sqrt idle_la staticWorkspace 2 [⟨0, 0⟩, ⟨0, 0⟩] [⟨10, 0⟩, ⟨10, 0⟩]
      2 1 5 1 0 (diag_op [⟨1, 0⟩, ⟨2, 0⟩])).ret = 1 ∧
    (gmres_dr Real.sqrt idle_la staticWorkspace 2 [⟨0, 0⟩, ⟨0, 0⟩] [⟨10, 0⟩, ⟨10, 0⟩]
      2 1 5 1 1 (diag_op [⟨1, 0⟩, ⟨2, 0⟩])).ret = 0 := by
  obtain ⟨n1, n2, n3, nt⟩ := c9_entry
  obtain ⟨h3, h4, k3⟩ := c9_steps (10 / Real.sqrt 200) nt
  have hrho : (14 : ℝ) < Real.sqrt 200 := by
    rw [Real.lt_sqrt (by norm_num)]; norm_num
  have hb1 : (1 : ℝ) < Real.sqrt (5 / 2) := by
    rw [Real.lt_sqrt (by norm_num)]; norm_num
  have hb2 : Real.sqrt (5 / 2) < 2 := by
    rw [Real.sqrt_lt' (by norm_num)]; norm_num
  have hbpos : (0 : ℝ) < Real.sqrt (5 / 2) := by linarith
  have h0 : Real.sqrt (square_norm (diff ([⟨10, 0⟩, ⟨10, 0⟩] : Vec ℝ)
      (diag_op [⟨1, 0⟩, ⟨2, 0⟩] [⟨0, 0⟩, ⟨0, 0⟩]))) ≠ 0 := by
    rw [n1, n2]; linarith
  have hest : (1 : ℝ) < 1 / 2 / Real.sqrt (5 / 2) * Real.sqrt 200 := by
    rw [div_mul_eq_mul_div, lt_div_iff₀ hbpos]
    linarith
  have hest2 : 1 / 2 / Real.sqrt (5 / 2) * Real.sqrt 200 ≤ Real.sqrt 200 := by
    rw [div_mul_eq_mul_div, div_le_iff₀ hbpos]
    nlinarith
  refine ⟨by rw [n2]; linarith, ?_, ?_⟩
  · refine (gmres_dr_second_step Real.sqrt idle_la staticWorkspace 2 [⟨0, 0⟩, ⟨0, 0⟩]
      [⟨10, 0⟩, ⟨10, 0⟩] 2 1 5 1 0 (diag_op [⟨1, 0⟩, ⟨2, 0⟩]) (by norm_num) h0 ?_ ?_).1
    · rw [n3, n1, n2, estimate1, step0_s, h3, h4, Real.sqrt_one]
      simp only [test_value, zero_ne_one, and_false, or_false, and_true, not_le]
      exact hest
    · rw [n3, n1, n2, estimate2, k3, Real.sqrt_one]
      simp [test_value]
  · refine (gmres_dr_first_step Real.sqrt idle_la staticWorkspace 2 [⟨0, 0⟩, ⟨0, 0⟩]
      [⟨10, 0⟩, ⟨10, 0⟩] 2 1 5 1 1 (diag_op [⟨1, 0⟩, ⟨2, 0⟩]) (by norm_num) h0 ?_).1
    right
    rw [n3, n1, n2, h3, h4, Real.sqrt_one, one_mul]
    exact ⟨hest2, rfl⟩

/-- C8: in cycle 0 `gmres_dr` leaves through the test of line 170 at inner index `j`
exactly when the residual on entry is not zero, `j < m`, the estimate `alpha[j+1].re`
computed at index `j` is at most `sqrt(eps_sq)` (with `rel_prec = 0`) or at most
`sqrt(eps_sq) * sqrt(square_norm(Q))` (with `rel_prec = 1`), and the same test failed at
every earlier index; the value returned is then that 0-based index `j` itself. -/
theorem C8_returns_first_index_meeting_test (sqrt : K → K) (la : DenseLA K)
    (ws : Workspace K) (VR : Int) (P Q : Vec K) (m nr_ev : Nat) (max_restarts : Int)
    (eps_sq : K) (rel_prec : Int) (f : matrix_mult K) (j : Nat) :
    ((gmres_dr sqrt la ws VR P Q m nr_ev max_restarts eps_sq rel_prec f).exit
        = ExitPath.inner j ↔
      sqrt (square_norm (diff Q (f P))) ≠ 0 ∧ j < m ∧
      ((((state_at sqrt ws VR P Q m f j).alpha (j + 1)).re ≤ sqrt eps_sq ∧ rel_prec = 0) ∨
       (((state_at sqrt ws VR P Q m f j).alpha (j + 1)).re
          ≤ sqrt eps_sq * sqrt (square_norm Q) ∧ rel_prec = 1)) ∧
      ∀ i, i < j →
        ¬ ((((state_at sqrt ws VR P Q m f i).alpha (i + 1)).re ≤ sqrt eps_sq ∧ rel_prec = 0) ∨
           (((state_at sqrt ws VR P Q m f i).alpha (i + 1)).re
              ≤ sqrt eps_sq * sqrt (square_norm Q) ∧ rel_prec = 1))) ∧
    ((gmres_dr sqrt la ws VR P Q m nr_ev max_restarts eps_sq rel_prec f).exit
        = ExitPath.inner j →
      (gmres_dr sqrt la ws VR P Q m nr_ev max_restarts eps_sq rel_prec f).ret = (j : Int)) := by
  have key := gmres_dr_exit_inner_iff sqrt la ws VR P Q m nr_ev max_restarts eps_sq
    rel_prec f j
  constructor
  · rw [key]
    constructor
    · rintro ⟨h0, st1, hc⟩
      rw [cycle0_inl_iff] at hc
      obtain ⟨k, hk, hi, -, hp, hall⟩ := hc
      have hjk : k = j := by omega
      subst hjk
      refine ⟨h0, hk, ?_, ?_⟩
      · simpa [precision_reached, state_at] using hp
      · intro i hi
        simpa [precision_reached, state_at] using hall i hi
    · rintro ⟨h0, hj, hp, hall⟩
      refine ⟨h0, _, (cycle0_inl_iff _ _ _ _ _ _ _ _ _ _).2 ⟨j, hj, by omega, rfl, ?_, ?_⟩⟩
      · simpa [precision_reached, state_at] using hp
      · intro i hi
        simpa [precision_reached, state_at] using hall i hi
  · intro h
    obtain ⟨h0, st1, hc⟩ := key.1 h
    exact (gmres_dr_inner sqrt la ws VR P Q m nr_ev max_restarts eps_sq rel_prec f j st1
      h0 hc).1

/-- The routine `init_gmres(M, V)` is idempotent.  It calls the allocator exactly when
nothing is configured yet or the stored `M` or `Vo` differs; in that case it frees the
blocks of lines 420-435 when a configuration exists (`init == 1`), obtains every block anew
and leaves zero-filled buffers; otherwise it frees nothing, allocates nothing and leaves
the workspace as it is.  Afterwards the stored configuration is `(M, V)`, and a second call
with the same arguments is a no-op. -/
theorem init_gmres_idempotent (sse : Bool) (ws : Workspace K) (M V : Int) :
    (init_gmres_events sse ws M V = [] ↔ (ws.M = M ∧ ws.init ≠ 0 ∧ ws.Vo = V)) ∧
    ((ws.M = M ∧ ws.init ≠ 0 ∧ ws.Vo = V) → init_gmres ws M V = ws) ∧
    (¬ (ws.M = M ∧ ws.init ≠ 0 ∧ ws.Vo = V) →
      init_gmres ws M V = callocWorkspace M V ∧
      init_gmres_events sse ws M V
        = (if ws.init = 1 then freed_blocks.map MemEvent.free else []) ++
            calloc_blocks.map (fun b => MemEvent.calloc b (calloc_nmemb sse M V b))) ∧
    ((init_gmres ws M V).M = M ∧ (init_gmres ws M V).Vo = V ∧ (init_gmres ws M V).init ≠ 0) ∧
    init_gmres (init_gmres ws M V) M V = init_gmres ws M V ∧
    init_gmres_events sse (init_gmres ws M V) M V = [] := by
  have hcfg := init_gmres_config ws M V
  by_cases h : ws.M = M ∧ ws.init ≠ 0 ∧ ws.Vo = V
  · obtain ⟨h1, h2, h3⟩ := h
    have hn : ¬ (ws.M ≠ M ∨ ws.init = 0 ∨ ws.Vo ≠ V) := by
      rintro (h | h | h)
      · exact h h1
      · exact h2 h
      · exact h h3
    have hw : init_gmres ws M V = ws := by simp [init_gmres, hn]
    refine ⟨?_, fun _ => hw, fun hneg => absurd ⟨h1, h2, h3⟩ hneg, ?_, ?_, ?_⟩
    · simp [init_gmres_events, hn, h1, h2, h3]
    · rw [hw]; exact ⟨h1, h3, h2⟩
    · rw [hw, hw]
    · rw [hw]; simp [init_gmres_events, hn]
  · have hc : ws.M ≠ M ∨ ws.init = 0 ∨ ws.Vo ≠ V := by
      by_contra hcon
      push_neg at hcon
      exact h ⟨hcon.1, hcon.2.1, hcon.2.2⟩
    have hw : init_gmres ws M V = callocWorkspace M V := by simp [init_gmres, hc]
    have hn : ¬ ((callocWorkspace M V : Workspace K).M ≠ M ∨
        (callocWorkspace M V : Workspace K).init = 0 ∨
        (callocWorkspace M V : Workspace K).Vo ≠ V) := by
      simp [callocWorkspace]
    refine ⟨?_, fun hpos => absurd hpos h, fun _ => ⟨hw, ?_⟩, ?_, ?_, ?_⟩
    · constructor
      · intro he
        simp [init_gmres_events, hc, calloc_blocks] at he
      · intro hpos
        exact absurd hpos h
    · simp [init_gmres_events, hc]
    · rw [hw]; simp [callocWorkspace]
    · rw [hw]; simp [init_gmres, hn]
    · rw [hw]; simp [init_gmres_events, hn]

/-- C12 fails in its release part: a call `init_gmres(M, V)` on a configured workspace
(`init == 1`) whose stored `M` or `Vo` differs obtains all eighteen blocks anew with
`calloc`, but hands only sixteen of the previous blocks to `free`: `sortarray` and `idx`
are never freed, their pointers are overwritten on lines 476-477. -/
theorem C12_reconfiguration_leaks_sortarray_idx {F : Type} (sse : Bool) (ws : Workspace F)
    (M V : Int)
    (hi : ws.init = 1) (hc : ws.M ≠ M ∨ ws.Vo ≠ V) :
    (∀ b : Block, MemEvent.calloc b (calloc_nmemb sse M V b) ∈ init_gmres_events sse ws M V) ∧
    (∀ b : Block, MemEvent.free b ∈ init_gmres_events sse ws M V
      ↔ (b ≠ Block.sortarray ∧ b ≠ Block.idx)) ∧
    MemEvent.free Block.sortarray ∉ init_gmres_events sse ws M V ∧
    MemEvent.free Block.idx ∉ init_gmres_events sse ws M V := by
  have hcond : ws.M ≠ M ∨ ws.init = 0 ∨ ws.Vo ≠ V := by
    rcases hc with h | h
    · exact Or.inl h
    · exact Or.inr (Or.inr h)
  have he : init_gmres_events sse ws M V
      = freed_blocks.map MemEvent.free ++
          calloc_blocks.map (fun b => MemEvent.calloc b (calloc_nmemb sse M V b)) := by
    unfold init_gmres_events
    rw [if_pos hcond, if_pos hi]
  have hfree : ∀ b : Block, MemEvent.free b ∈ init_gmres_events sse ws M V
      ↔ (b ≠ Block.sortarray ∧ b ≠ Block.idx) := by
    intro b
    rw [he]
    cases b <;> simp [freed_blocks, calloc_blocks]
  refine ⟨fun b => ?_, hfree, ?_, ?_⟩
  · rw [he]
    cases b <;> simp [freed_blocks, calloc_blocks]
  · exact fun h => ((hfree Block.sortarray).1 h).1 rfl
  · exact fun h => ((hfree Block.idx).1 h).2 rfl

/-- C12 at the workspace that `init_gmres(2, 1)` configured, reconfigured by
`init_gmres(3, 1)` in the default build. -/
theorem C12_reconfiguration_leaks_witness :
    MemEvent.calloc Block.sortarray 4
        ∈ init_gmres_events false (init_gmres (staticWorkspace : Workspace ℝ) 2 1) 3 1 ∧
    MemEvent.free Block.sortarray
        ∉ init_gmres_events false (init_gmres (staticWorkspace : Workspace ℝ) 2 1) 3 1 ∧
    MemEvent.free Block.alpha
        ∈ init_gmres_events false (init_gmres (staticWorkspace : Workspace ℝ) 2 1) 3 1 := by
  have h := C12_reconfiguration_leaks_sortarray_idx false
    (init_gmres (staticWorkspace : Workspace ℝ) 2 1) 3 1
    (by simp [init_gmres, staticWorkspace, callocWorkspace])
    (Or.inl (by simp [init_gmres, staticWorkspace, callocWorkspace]))
  exact ⟨h.1 Block.sortarray, h.2.2.1, (h.2.1 Block.alpha).2 ⟨by decide, by decide⟩⟩

/-- C13: in the default build `init_gmres(M, Vo)` (here with `M + 1` and `Vo + 1` for the
positive arguments) obtains `M*Vo` spinors for the basis, which hold `V[0]`, ..., `V[M-1]`
only: the pointer `V[M]` is set to offset `M*Vo`, the first element past the block, although
the last pass of an exhausted cycle-0 loop writes `V[m]` (line 190).  The branch for SSE
builds obtains `(M+1)*Vo+1` spinors. -/
theorem C13_basis_block_one_vector_short (M Vo : Nat) :
    calloc_nmemb false ((M : Int) + 1) ((Vo : Int) + 1) Block._v
      = ((M : Int) + 1) * ((Vo : Int) + 1) ∧
    row_offset (M + 1) ((Vo : Int) + 1) true (M + 1)
      = some (((M : Int) + 1) * ((Vo : Int) + 1)) ∧
    (∀ i, i ≤ M → ∃ off : Int, row_offset (M + 1) ((Vo : Int) + 1) true i = some off ∧
      0 ≤ off ∧
      off + ((Vo : Int) + 1) ≤ calloc_nmemb false ((M : Int) + 1) ((Vo : Int) + 1) Block._v) ∧
    calloc_nmemb true ((M : Int) + 1) ((Vo : Int) + 1) Block._v
      = (((M : Int) + 1) + 1) * ((Vo : Int) + 1) + 1 ∧
    (∀ (sqrt : K → K) (f : matrix_mult K) (eps norm : K) (rel_prec : Int) (st st1 : St K),
      cycle0 sqrt f eps norm rel_prec (M + 1) 0 st = Sum.inr st1 →
      ∃ st2 : St K, st1.V (M + 1) = mul_r (1 / (st2.H (M + 1) M).re) st2.w) := by
  refine ⟨by simp [calloc_nmemb], ?_, ?_, by simp [calloc_nmemb], ?_⟩
  · rw [row_offset_eq _ _ _ _ (Or.inl (by omega)) (Or.inr (Or.inl ⟨rfl, rfl⟩))]
    push_cast
    rfl
  · intro i hi
    refine ⟨(i : Int) * ((Vo : Int) + 1),
      row_offset_eq _ _ _ _ (Or.inl (by omega)) (Or.inl (by omega)), ?_, ?_⟩
    · positivity
    · simp only [calloc_nmemb, Bool.false_eq_true, if_false]
      have h1 : (i : Int) ≤ (M : Int) := by exact_mod_cast hi
      nlinarith [Int.natCast_nonneg Vo]
  · intro sqrt f eps norm rel_prec st st1 hc
    obtain ⟨st2, h2⟩ := cycle0_inr_last sqrt f eps norm rel_prec M 0 st st1 hc
    refine ⟨st2, ?_⟩
    rw [h2]
    simp [normalise0]

/-- C14, the claim as stated fails for `s`: with `M = 1` the array `s` has one entry, not
two. -/
theorem C14_s_shorter_than_claimed : calloc_nmemb false 1 1 Block.s ≠ 1 + 1 := by
  decide

/-- C14, amended: after `init_gmres(M, Vo)` with `M >= 1` (default build) each of the data
blocks behind `H`, `G`, `work`, `work2` has `(M+1)*(M+1)` entries and row `i` starts at
offset `i*(M+1)` for every `0 <= i <= M`; the arrays `alpha`, `c`, `evalues`, `sortarray`
and `idx` have length `M+1`, and the array `s` has length `M`. -/
theorem C14_workspace_dimensions (M : Nat) (Vo : Int) (hM : 1 ≤ M) :
    (∀ b, b ∈ [Block._h, Block._g, Block._work, Block._work2] →
      calloc_nmemb false (M : Int) Vo b = ((M : Int) + 1) * ((M : Int) + 1)) ∧
    (∀ i, i ≤ M → row_offset M ((M : Int) + 1) true i = some ((i : Int) * ((M : Int) + 1))) ∧
    (∀ b, b ∈ [Block.alpha, Block.c, Block.evalues, Block.sortarray, Block.idx] →
      calloc_nmemb false (M : Int) Vo b = (M : Int) + 1) ∧
    calloc_nmemb false (M : Int) Vo Block.s = (M : Int) := by
  refine ⟨?_, ?_, ?_, rfl⟩
  · intro b hb
    simp only [List.mem_cons, List.mem_singleton, List.not_mem_nil, or_false] at hb
    rcases hb with h | h | h | h <;> simp [h, calloc_nmemb]
  · intro i hi
    apply row_offset_eq _ _ _ _ (Or.inl (by omega))
    rcases Nat.lt_or_ge i M with h | h
    · exact Or.inl h
    · exact Or.inr (Or.inl ⟨by omega, rfl⟩)
  · intro b hb
    simp only [List.mem_cons, List.mem_singleton, List.not_mem_nil, or_false] at hb
    rcases hb with h | h | h | h | h <;> simp [h, calloc_nmemb]

/-- Witness for C14 (amended) at `M = 2`, `Vo = 1`. -/
theorem C14_workspace_dimensions_witness :
    (1 ≤ 2) ∧
    ((∀ b, b ∈ [Block._h, Block._g, Block._work, Block._work2] →
      calloc_nmemb false ((2 : Nat) : Int) 1 b = (((2 : Nat) : Int) + 1) * (((2 : Nat) : Int) + 1)) ∧
    (∀ i, i ≤ 2 →
      row_offset 2 (((2 : Nat) : Int) + 1) true i = some ((i : Int) * (((2 : Nat) : Int) + 1))) ∧
    (∀ b, b ∈ [Block.alpha, Block.c, Block.evalues, Block.sortarray, Block.idx] →
      calloc_nmemb false ((2 : Nat) : Int) 1 b = ((2 : Nat) : Int) + 1) ∧
    calloc_nmemb false ((2 : Nat) : Int) 1 Block.s = ((2 : Nat) : Int)) :=
  ⟨by decide, C14_workspace_dimensions 2 1 (by decide)⟩

/-- C16: for every call, either `gmres_dr` returns `-1`, or the explicitly recomputed
residual norms (line 109 on entry, line 211 after cycle 0, line 368 in each restart cycle),
in the order they were computed, start with the norm on entry and never increase. -/
theorem C16_explicit_residuals_monotone_or_failure (la : DenseLA ℝ) (ws : Workspace ℝ)
    (VR : Int) (P Q : Vec ℝ) (m nr_ev : Nat) (max_restarts : Int) (eps_sq : ℝ)
    (rel_prec : Int) (f : matrix_mult ℝ) :
    (gmres_dr Real.sqrt la ws VR P Q m nr_ev max_restarts eps_sq rel_prec f).ret = -1 ∨
    (((gmres_dr Real.sqrt la ws VR P Q m nr_ev max_restarts eps_sq rel_prec f).st.resid.reverse.map
        (fun r => Real.sqrt (square_norm r))).head?
        = some (Real.sqrt (square_norm (diff Q (f P)))) ∧
     List.Chain' (fun a b => b ≤ a)
      ((gmres_dr Real.sqrt la ws VR P Q m nr_ev max_restarts eps_sq rel_prec f).st.resid.reverse.map
        (fun r => Real.sqrt (square_norm r)))) := by
  rcases gmres_dr_resid Real.sqrt la ws VR P Q m nr_ev max_restarts eps_sq rel_prec f
    with h | h | ⟨h, hz⟩
  · exact Or.inl h
  · right
    rw [h]
    simp
  · right
    rw [h]
    simp [hz, Real.sqrt_nonneg]

/-- In a restart cycle with `nr_ev < m` the scratch field `DUM_SOLVER` read on line 346
holds `A*V[m-1]`, written by line 320 in the last pass of the Arnoldi loop: the right-hand
side handed to `zgels` is `alpha[i] = <V[i], A*V[m-1]>` for every `i` in `0..m`, whatever
the dense routines returned. -/
theorem lsq_rhs_is_image_of_last_basis_vector (sqrt : K → K) (la : DenseLA K)
    (f : matrix_mult K) (m nr_ev : Nat) (st : St K) (h : nr_ev < m) :
    (restart_arnoldi sqrt la f m nr_ev st).r
      = f ((restart_arnoldi sqrt la f m nr_ev st).V (m - 1)) ∧
    ∀ i, i < m + 1 →
      lsq_rhs m (restart_arnoldi sqrt la f m nr_ev st) i
        = scalar_prod ((restart_arnoldi sqrt la f m nr_ev st).V i)
            (f ((restart_arnoldi sqrt la f m nr_ev st).V (m - 1))) := by
  have hr := restart_arnoldi_r sqrt la f m nr_ev st h
  refine ⟨hr, fun i hi => ?_⟩
  simp only [lsq_rhs, if_pos hi]
  rw [← hr]

/-- C17 (evaluation at the failing input): the call `P = 0`, `Q = (169/96, 0, ...)`,
`m = 2`, `nr_ev = 1`, `max_restarts = 2`, `eps_sq = 0`, `rel_prec = 0` on the operator
`defl_op 1 0 0`, with the dense routines delivering their exact results (`defl_la`,
`defl_la_exact`).  When its restart cycle reaches line 345 the iterate is still
`x = (5/24, -9/40, 0)`, the one of cycle 0, with residual `Q - A*x = (3/32, -1/8, 3/8)`,
but `DUM_SOLVER` holds `A*V[1]`, and the right-hand side `alpha` handed to `zgels` is
`(0, 0, 1)` where `<V[i], Q - A*x>` is `(-1/8, 3/8, 3/32)`: the two differ in every
entry. -/
theorem C17_rhs_differs_from_residual_coordinates :
    (defl_call Real.sqrt 1 0 0 2 0).st
      = lsq_update (defl_la Real.sqrt) (defl_op 1 0 0) (spinor3 ⟨169 / 96, 0⟩ ⟨0, 0⟩ ⟨0, 0⟩) 2
          (restart_arnoldi Real.sqrt (defl_la Real.sqrt) (defl_op 1 0 0) 2 1
            (defl_restart_entry Real.sqrt 1 0 0)) ∧
    (restart_arnoldi Real.sqrt (defl_la Real.sqrt) (defl_op 1 0 0) 2 1
      (defl_restart_entry Real.sqrt 1 0 0)).sol = (defl_restart_entry Real.sqrt 1 0 0).sol ∧
    (restart_arnoldi Real.sqrt (defl_la Real.sqrt) (defl_op 1 0 0) 2 1
      (defl_restart_entry Real.sqrt 1 0 0)).r
      = defl_op 1 0 0 ((restart_arnoldi Real.sqrt (defl_la Real.sqrt) (defl_op 1 0 0) 2 1
          (defl_restart_entry Real.sqrt 1 0 0)).V 1) ∧
    diff (spinor3 ⟨169 / 96, 0⟩ ⟨0, 0⟩ ⟨0, 0⟩)
        (defl_op 1 0 0 (defl_restart_entry Real.sqrt 1 0 0).sol)
      = spinor3 ⟨3 / 32, 0⟩ ⟨-1 / 8, 0⟩ ⟨3 / 8, 0⟩ ∧
    lsq_rhs 2 (restart_arnoldi Real.sqrt (defl_la Real.sqrt) (defl_op 1 0 0) 2 1
      (defl_restart_entry Real.sqrt 1 0 0)) 0 = ⟨0, 0⟩ ∧
    scalar_prod ((restart_arnoldi Real.sqrt (defl_la Real.sqrt) (defl_op 1 0 0) 2 1
        (defl_restart_entry Real.sqrt 1 0 0)).V 0)
      (diff (spinor3 ⟨169 / 96, 0⟩ ⟨0, 0⟩ ⟨0, 0⟩)
        (defl_op 1 0 0 (defl_restart_entry Real.sqrt 1 0 0).sol)) = ⟨-1 / 8, 0⟩ ∧
    lsq_rhs 2 (restart_arnoldi Real.sqrt (defl_la Real.sqrt) (defl_op 1 0 0) 2 1
      (defl_restart_entry Real.sqrt 1 0 0)) 1 = ⟨0, 0⟩ ∧
    scalar_prod ((restart_arnoldi Real.sqrt (defl_la Real.sqrt) (defl_op 1 0 0) 2 1
        (defl_restart_entry Real.sqrt 1 0 0)).V 1)
      (diff (spinor3 ⟨169 / 96, 0⟩ ⟨0, 0⟩ ⟨0, 0⟩)
        (defl_op 1 0 0 (defl_restart_entry Real.sqrt 1 0 0).sol)) = ⟨3 / 8, 0⟩ ∧
    lsq_rhs 2 (restart_arnoldi Real.sqrt (defl_la Real.sqrt) (defl_op 1 0 0) 2 1
      (defl_restart_entry Real.sqrt 1 0 0)) 2 = ⟨1, 0⟩ ∧
    scalar_prod ((restart_arnoldi Real.sqrt (defl_la Real.sqrt) (defl_op 1 0 0) 2 1
        (defl_restart_entry Real.sqrt 1 0 0)).V 2)
      (diff (spinor3 ⟨169 / 96, 0⟩ ⟨0, 0⟩ ⟨0, 0⟩)
        (defl_op 1 0 0 (defl_restart_entry Real.sqrt 1 0 0).sol)) = ⟨3 / 32, 0⟩ := by
  have he : Real.sqrt 0 < 13 / 32 := by
    rw [Real.sqrt_zero]
    norm_num
  obtain ⟨-, -, x3, -⟩ := defl_call_restart 1 0 0 2 0 he
  obtain ⟨v0, v1, v2, hr, -, -, -, so, -⟩ := defl_restart_arnoldi_fields 1 0 0 (by norm_num)
  obtain ⟨q0, q1, q2, -⟩ := defl_restart_cycle_fields 1 0 0 (by norm_num)
  have hs := (defl_restart_entry_fields 1 0 0).2.2.2.2.2.2.2.1
  have hd : diff (spinor3 ⟨169 / 96, 0⟩ ⟨0, 0⟩ ⟨0, 0⟩ : Vec ℝ)
      (defl_op 1 0 0 (spinor3 ⟨5 / 24, 0⟩ ⟨-9 / 40, 0⟩ ⟨0, 0⟩))
      = spinor3 ⟨3 / 32, 0⟩ ⟨-1 / 8, 0⟩ ⟨3 / 8, 0⟩ := by
    simp [spinor3, defl_op, diff, cmul, cadd]
    norm_num
  refine ⟨?_, ?_, ?_, ?_, q0, ?_, q1, ?_, q2, ?_⟩
  · rw [x3]
    rfl
  · rw [so, hs]
  · rw [hr, v1]
    exact ((defl_op_unit 1 0 0).2.2).symm
  · rw [hs, hd]
  · rw [hs, hd, v0]
    simp [unit3, spinor3, scalar_prod]
  · rw [hs, hd, v1]
    simp [unit3, spinor3, scalar_prod]
  · rw [hs, hd, v2]
    simp [unit3, spinor3, scalar_prod]

/-- C19, the claim as stated fails: in the call `P = 0`, `Q = (1, 0, ...)`, `m = 2` on
`bidiag_op`, after Arnoldi step 0 has finished, `H[0][0]` holds the value `beta = 5` of line
160 while the copy `G[0][0]` holds the coefficient `3i` recorded on line 133. -/
theorem C19_rotated_entry_differs_from_copy :
    (state_at Real.sqrt staticWorkspace 2 (spinor3 ⟨0, 0⟩ ⟨0, 0⟩ ⟨0, 0⟩)
      (spinor3 ⟨1, 0⟩ ⟨0, 0⟩ ⟨0, 0⟩) 2 bidiag_op 0).H 0 0 = ⟨5, 0⟩ ∧
    (state_at Real.sqrt staticWorkspace 2 (spinor3 ⟨0, 0⟩ ⟨0, 0⟩ ⟨0, 0⟩)
      (spinor3 ⟨1, 0⟩ ⟨0, 0⟩ ⟨0, 0⟩) 2 bidiag_op 0).G 0 0 = ⟨0, 3⟩ ∧
    (state_at Real.sqrt staticWorkspace 2 (spinor3 ⟨0, 0⟩ ⟨0, 0⟩ ⟨0, 0⟩)
      (spinor3 ⟨1, 0⟩ ⟨0, 0⟩ ⟨0, 0⟩) 2 bidiag_op 0).G 0 0
      ≠ (state_at Real.sqrt staticWorkspace 2 (spinor3 ⟨0, 0⟩ ⟨0, 0⟩ ⟨0, 0⟩)
      (spinor3 ⟨1, 0⟩ ⟨0, 0⟩ ⟨0, 0⟩) 2 bidiag_op 0).H 0 0 := by
  obtain ⟨b1, -, -, b4⟩ := bidiag_step0
  obtain ⟨-, -, v0⟩ := bidiag_entry
  obtain ⟨e1, -⟩ := loop_entry_fields Real.sqrt staticWorkspace 2
    (spinor3 ⟨0, 0⟩ ⟨0, 0⟩ ⟨0, 0⟩) (spinor3 ⟨1, 0⟩ ⟨0, 0⟩ ⟨0, 0⟩) 2 bidiag_op
  obtain ⟨-, -, a3, -⟩ := arnoldi0_zero Real.sqrt bidiag_op
    (loop_entry Real.sqrt staticWorkspace 2 (spinor3 ⟨0, 0⟩ ⟨0, 0⟩ ⟨0, 0⟩)
      (spinor3 ⟨1, 0⟩ ⟨0, 0⟩ ⟨0, 0⟩) 2 bidiag_op)
  have hH : (state_at Real.sqrt staticWorkspace 2 (spinor3 ⟨0, 0⟩ ⟨0, 0⟩ ⟨0, 0⟩)
      (spinor3 ⟨1, 0⟩ ⟨0, 0⟩ ⟨0, 0⟩) 2 bidiag_op 0).H 0 0 = ⟨5, 0⟩ := by
    show (arnoldi0 Real.sqrt bidiag_op 0 _).H 0 0 = _
    rw [a3, e1, v0, b4]
  have hG : (state_at Real.sqrt staticWorkspace 2 (spinor3 ⟨0, 0⟩ ⟨0, 0⟩ ⟨0, 0⟩)
      (spinor3 ⟨1, 0⟩ ⟨0, 0⟩ ⟨0, 0⟩) 2 bidiag_op 0).G 0 0 = ⟨0, 3⟩ := by
    show (arnoldi0 Real.sqrt bidiag_op 0 _).G 0 0 = _
    rw [arnoldi0_phases, (arnoldi0_rotated_frame Real.sqrt 0 _).2.2.1,
      (arnoldi0_projected_fields Real.sqrt bidiag_op 0 _).2.2.2.1]
    simp only [arnoldi_h, arnoldi_w, e1, v0]
    simpa [step0_h] using b1
  refine ⟨hH, hG, ?_⟩
  rw [hH, hG]
  intro h
  have := congrArg Cx.re h
  norm_num at this

/-- C19, amended: in each Arnoldi step `j` of cycle 0, at the end of line 146 (projections
and norm done, Givens rotations not yet applied) `G[j][i] = work2[j][i] = H[i][j]` and
`work[i][j] = conj(H[i][j])` for every `0 <= i <= j+1`; lines 147-163 then write `H[0..j][j]`
only, so that after the step `G`, `work2` and `work` still hold these unrotated
coefficients and `H[j+1][j]` still equals `G[j][j+1]`. -/
theorem C19_copies_hold_unrotated_column (sqrt : K → K) (f : matrix_mult K) (j : Nat)
    (st : St K) :
    (∀ i, i ≤ j + 1 →
      (arnoldi0_projected sqrt f j st).G j i = (arnoldi0_projected sqrt f j st).H i j ∧
      (arnoldi0_projected sqrt f j st).work2 j i = (arnoldi0_projected sqrt f j st).H i j ∧
      (arnoldi0_projected sqrt f j st).work i j
        = ⟨((arnoldi0_projected sqrt f j st).H i j).re,
           -((arnoldi0_projected sqrt f j st).H i j).im⟩) ∧
    (arnoldi0 sqrt f j st).G = (arnoldi0_projected sqrt f j st).G ∧
    (arnoldi0 sqrt f j st).work2 = (arnoldi0_projected sqrt f j st).work2 ∧
    (arnoldi0 sqrt f j st).work = (arnoldi0_projected sqrt f j st).work ∧
    (arnoldi0 sqrt f j st).H (j + 1) j = (arnoldi0 sqrt f j st).G j (j + 1) := by
  obtain ⟨-, -, hH, hG, hw2, hwk⟩ := arnoldi0_projected_fields sqrt f j st
  obtain ⟨-, -, r3, r4, r5, r6⟩ :=
    arnoldi0_rotated_frame sqrt j (arnoldi0_projected sqrt f j st)
  refine ⟨fun i hi => ?_, ?_, ?_, ?_, ?_⟩
  · rw [hG, hw2, hwk, hH]
    rcases Nat.lt_or_ge i (j + 1) with h | h
    · have e : i ≠ j + 1 := by omega
      simp [e, h]
    · have e : i = j + 1 := by omega
      simp [e]
  · rw [arnoldi0_phases, r3]
  · rw [arnoldi0_phases, r4]
  · rw [arnoldi0_phases, r5]
  · rw [arnoldi0_phases, r3, r6 _ _ (Or.inr (Nat.lt_succ_self j)), hH, hG]
    simp

/-- C20: each Arnoldi step `j` of cycle 0 records in `G[j][i]` the coefficients
`h[i][j] = <V[i], w_i>` of the recurrence `w_0 = A*V[j]`, `w_{i+1} = w_i - h[i][j]*V[i]`
for `i <= j` and `h[j+1][j] = ||w_{j+1}||`, and line 190 sets `V[j+1] = w_{j+1}/h[j+1][j]`;
when that norm is not zero (all vectors having the same length `N`) this gives the Arnoldi
relation `A*V[j] = sum over i = 0..j+1 of h[i][j]*V[i]`. -/
theorem C20_arnoldi_relation (sqrt : K → K) (f : matrix_mult K) (j N : Nat) (st : St K)
    (hV : ∀ i, i ≤ j → (st.V i).length = N) (hf : (f (st.V j)).length = N)
    (hn : ((arnoldi0 sqrt f j st).H (j + 1) j).re ≠ 0) :
    (∀ i, i ≤ j → (arnoldi0 sqrt f j st).G j i = arnoldi_h st.V (f (st.V j)) i) ∧
    (arnoldi0 sqrt f j st).G j (j + 1)
      = ⟨sqrt (square_norm (arnoldi_w st.V (f (st.V j)) (j + 1))), 0⟩ ∧
    (normalise0 j (arnoldi0 sqrt f j st)).V (j + 1)
      = mul_r (1 / ((arnoldi0 sqrt f j st).G j (j + 1)).re)
          (arnoldi_w st.V (f (st.V j)) (j + 1)) ∧
    (∀ i, i ≤ j → (normalise0 j (arnoldi0 sqrt f j st)).V i = st.V i) ∧
    f ((normalise0 j (arnoldi0 sqrt f j st)).V j)
      = lin_comb ((arnoldi0 sqrt f j st).G j) (normalise0 j (arnoldi0 sqrt f j st)).V
          (mul_r 0 (f ((normalise0 j (arnoldi0 sqrt f j st)).V j))) (j + 2) := by
  obtain ⟨pV, pw, pH, pG, -, -⟩ := arnoldi0_projected_fields sqrt f j st
  obtain ⟨rV, rw', rG, -, -, rH⟩ :=
    arnoldi0_rotated_frame sqrt j (arnoldi0_projected sqrt f j st)
  have hG : ∀ b, (arnoldi0 sqrt f j st).G j b
      = if b = j + 1 then ⟨sqrt (square_norm (arnoldi_w st.V (f (st.V j)) (j + 1))), 0⟩
        else if b < j + 1 then arnoldi_h st.V (f (st.V j)) b else st.G j b := by
    intro b
    rw [arnoldi0_phases, rG, pG]
    simp
  have hH : (arnoldi0 sqrt f j st).H (j + 1) j
      = ⟨sqrt (square_norm (arnoldi_w st.V (f (st.V j)) (j + 1))), 0⟩ := by
    rw [arnoldi0_phases, rH _ _ (Or.inr (Nat.lt_succ_self j)), pH]
    simp
  have hw : (arnoldi0 sqrt f j st).w = arnoldi_w st.V (f (st.V j)) (j + 1) := by
    rw [arnoldi0_phases, rw', pw]
  have hVV : (arnoldi0 sqrt f j st).V = st.V := by
    rw [arnoldi0_phases, rV, pV]
  have hG1 : (arnoldi0 sqrt f j st).G j (j + 1)
      = ⟨sqrt (square_norm (arnoldi_w st.V (f (st.V j)) (j + 1))), 0⟩ := by
    rw [hG]; simp
  have hGi : ∀ i, i ≤ j → (arnoldi0 sqrt f j st).G j i = arnoldi_h st.V (f (st.V j)) i := by
    intro i hi
    have e1 : i ≠ j + 1 := by omega
    have e2 : i < j + 1 := by omega
    rw [hG]; simp [e1, e2]
  have hV1 : (normalise0 j (arnoldi0 sqrt f j st)).V (j + 1)
      = mul_r (1 / ((arnoldi0 sqrt f j st).G j (j + 1)).re)
          (arnoldi_w st.V (f (st.V j)) (j + 1)) := by
    simp only [normalise0, Function.update_same]
    rw [hw, hH, hG1]
  have hVi : ∀ i, i ≤ j → (normalise0 j (arnoldi0 sqrt f j st)).V i = st.V i := by
    intro i hi
    simp only [normalise0]
    rw [Function.update_noteq (by omega), hVV]
  refine ⟨hGi, hG1, hV1, hVi, ?_⟩
  have hn' : sqrt (square_norm (arnoldi_w st.V (f (st.V j)) (j + 1))) ≠ 0 := by
    rw [hH] at hn; exact hn
  rw [hVi j (le_refl j)]
  have hlen : (arnoldi_w st.V (f (st.V j)) (j + 1)).length ≤ (f (st.V j)).length :=
    arnoldi_w_length_le _ _ _
  rw [lin_comb, hV1, hG1,
    lin_comb_congr _ (arnoldi_h st.V (f (st.V j))) _ st.V _ (j + 1)
      (fun i hi => ⟨hGi i (by omega), hVi i (by omega)⟩),
    ← lin_comb_add, assign_add_mul_zero_base _ _ _ (by simpa [mul_r] using hlen),
    mul_r_inv_cancel _ _ hn',
    lin_comb_arnoldi _ _ _ (fun i hi => by rw [hf, hV i (by omega)])]

/-- Witness for C20: step 0 of the call `P = 0`, `Q = (1, 0, ...)`, `m = 2` on `bidiag_op`,
where all vectors have 12 components and `H[1][0] = 4`. -/
theorem C20_arnoldi_relation_witness :
    bidiag_op ((normalise0 0 (arnoldi0 Real.sqrt bidiag_op 0
        (bidiag_loop_entry Real.sqrt))).V 0)
      = lin_comb ((arnoldi0 Real.sqrt bidiag_op 0 (bidiag_loop_entry Real.sqrt)).G 0)
          (normalise0 0 (arnoldi0 Real.sqrt bidiag_op 0 (bidiag_loop_entry Real.sqrt))).V
          (mul_r 0 (bidiag_op ((normalise0 0 (arnoldi0 Real.sqrt bidiag_op 0
            (bidiag_loop_entry Real.sqrt))).V 0))) (0 + 2) :=
  have e1 : (bidiag_loop_entry Real.sqrt).V 0 = spinor3 ⟨1, 0⟩ ⟨0, 0⟩ ⟨0, 0⟩ :=
    (loop_entry_fields Real.sqrt staticWorkspace 2 (spinor3 ⟨0, 0⟩ ⟨0, 0⟩ ⟨0, 0⟩)
      (spinor3 ⟨1, 0⟩ ⟨0, 0⟩ ⟨0, 0⟩) 2 bidiag_op).1.trans bidiag_entry.2.2
  (C20_arnoldi_relation Real.sqrt bidiag_op 0 12 (bidiag_loop_entry Real.sqrt)
    (fun i hi => by
      have hi0 : i = 0 := by omega
      rw [hi0, e1]; rfl)
    (by rw [e1]; rfl)
    (by
      rw [(arnoldi0_zero Real.sqrt bidiag_op (bidiag_loop_entry Real.sqrt)).2.2.2.1, e1,
        bidiag_step0.2.2.1]
      norm_num)).2.2.2.2

/-- C15: in exact arithmetic the Arnoldi process of cycle 0 keeps the basis orthonormal: if
the residual on entry is not zero and the norms `H[i+1][i]` found in steps `i = 0..j` are
not zero (the operator returning vectors of the length it is given), then after line 190
of step `j` the vectors `V[0], ..., V[j+1]` satisfy `<V[a], V[b]> = 1` for `a = b` and `0`
otherwise. -/
theorem C15_cycle0_basis_orthonormal (ws : Workspace ℝ) (VR : Int) (P Q : Vec ℝ) (m : Nat)
    (f : matrix_mult ℝ) (j : Nat) (hf : ∀ x, (f x).length = x.length)
    (h0 : Real.sqrt (square_norm (diff Q (f P))) ≠ 0)
    (hsub : ∀ i, i ≤ j → ((state_at Real.sqrt ws VR P Q m f i).H (i + 1) i).re ≠ 0) :
    ∀ a b, a ≤ j + 1 → b ≤ j + 1 →
      scalar_prod ((normalise0 j (state_at Real.sqrt ws VR P Q m f j)).V a)
          ((normalise0 j (state_at Real.sqrt ws VR P Q m f j)).V b)
        = if a = b then ⟨1, 0⟩ else ⟨0, 0⟩ := by
  have hsq : ∀ y : ℝ, 0 ≤ y → Real.sqrt y * Real.sqrt y = y := fun y hy =>
    Real.mul_self_sqrt hy
  obtain ⟨b1, b2⟩ := loop_entry_orthonormal Real.sqrt hsq ws VR P Q m f h0
  have key := cycle0_state_orthonormal Real.sqrt hsq f hf (diff Q (f P)).length j 0
    (loop_entry Real.sqrt ws VR P Q m f) b2 b1
    (fun l n hl hn => by
      have e : n = l := by omega
      rw [e]
      exact hsub l hl) j (by omega)
  exact key.1

/-- Witness for C15: step 0 of the call `P = 0`, `Q = (1, 0, ...)`, `m = 2` on `bidiag_op`,
where the residual on entry has norm 1 and `H[1][0] = 4`: `<V[0], V[1]> = 0` and
`<V[1], V[1]> = 1`. -/
theorem C15_cycle0_basis_orthonormal_witness :
    scalar_prod ((normalise0 0 (state_at Real.sqrt staticWorkspace 2
          (spinor3 ⟨0, 0⟩ ⟨0, 0⟩ ⟨0, 0⟩) (spinor3 ⟨1, 0⟩ ⟨0, 0⟩ ⟨0, 0⟩) 2 bidiag_op 0)).V 0)
        ((normalise0 0 (state_at Real.sqrt staticWorkspace 2
          (spinor3 ⟨0, 0⟩ ⟨0, 0⟩ ⟨0, 0⟩) (spinor3 ⟨1, 0⟩ ⟨0, 0⟩ ⟨0, 0⟩) 2 bidiag_op 0)).V 1)
      = (⟨0, 0⟩ : Cx ℝ) ∧
    scalar_prod ((normalise0 0 (state_at Real.sqrt staticWorkspace 2
          (spinor3 ⟨0, 0⟩ ⟨0, 0⟩ ⟨0, 0⟩) (spinor3 ⟨1, 0⟩ ⟨0, 0⟩ ⟨0, 0⟩) 2 bidiag_op 0)).V 1)
        ((normalise0 0 (state_at Real.sqrt staticWorkspace 2
          (spinor3 ⟨0, 0⟩ ⟨0, 0⟩ ⟨0, 0⟩) (spinor3 ⟨1, 0⟩ ⟨0, 0⟩ ⟨0, 0⟩) 2 bidiag_op 0)).V 1)
      = (⟨1, 0⟩ : Cx ℝ) :=
  have key := C15_cycle0_basis_orthonormal staticWorkspace 2 (spinor3 ⟨0, 0⟩ ⟨0, 0⟩ ⟨0, 0⟩)
    (spinor3 ⟨1, 0⟩ ⟨0, 0⟩ ⟨0, 0⟩) 2 bidiag_op 0 bidiag_op_length
    (by rw [bidiag_entry.1, bidiag_entry.2.1, Real.sqrt_one]; norm_num)
    (fun i hi => by
      have e : i = 0 := by omega
      rw [e]
      have e1 : (bidiag_loop_entry Real.sqrt).V 0 = spinor3 ⟨1, 0⟩ ⟨0, 0⟩ ⟨0, 0⟩ :=
        (loop_entry_fields Real.sqrt staticWorkspace 2 (spinor3 ⟨0, 0⟩ ⟨0, 0⟩ ⟨0, 0⟩)
          (spinor3 ⟨1, 0⟩ ⟨0, 0⟩ ⟨0, 0⟩) 2 bidiag_op).1.trans bidiag_entry.2.2
      show ((arnoldi0 Real.sqrt bidiag_op 0 (bidiag_loop_entry Real.sqrt)).H (0 + 1) 0).re ≠ 0
      rw [(arnoldi0_zero Real.sqrt bidiag_op (bidiag_loop_entry Real.sqrt)).2.2.2.1, e1,
        bidiag_step0.2.2.1]
      norm_num)
  ⟨by simpa using key 0 1 (by norm_num) (by norm_num),
   by simpa using key 1 1 (by norm_num) (by norm_num)⟩

/-- C18 (evaluation at the failing input): the call `P = 0`, `Q = (1, 0, ...)`, `m = 3`,
`nr_ev = 1`, `max_restarts = 2`, `eps_sq = 0`, `rel_prec = 0` on `hess_op` makes one restart
cycle, and the matrix handed to `zgels` in it has `H[0][2] = 4i`: row 2 of column 0, below
row `nr_ev = 1` of a column `j < nr_ev`, still holds the entry that cycle 0 stored there
rows first, because lines 300-307 clear `G`, `work`, `work2` but not `H`.  This holds for
every result of the dense routines. -/
theorem C18_stale_entry_reaches_least_squares (la : DenseLA ℝ) :
    (hess_call Real.sqrt la 2).exit = ExitPath.max_restarts ∧
    (hess_call Real.sqrt la 2).st
      = lsq_update la hess_op (spinor4 ⟨1, 0⟩ ⟨0, 0⟩ ⟨0, 0⟩ ⟨0, 0⟩) 3
          (restart_arnoldi Real.sqrt la hess_op 3 1
            (prepare_restart (spinor4 ⟨1, 0⟩ ⟨0, 0⟩ ⟨0, 0⟩ ⟨0, 0⟩) hess_op 3
              (hess_top Real.sqrt 3))) ∧
    (restart_arnoldi Real.sqrt la hess_op 3 1
        (prepare_restart (spinor4 ⟨1, 0⟩ ⟨0, 0⟩ ⟨0, 0⟩ ⟨0, 0⟩) hess_op 3
          (hess_top Real.sqrt 3))).H 0 2 = ⟨0, 4⟩ ∧
    (restart_arnoldi Real.sqrt la hess_op 3 1
        (prepare_restart (spinor4 ⟨1, 0⟩ ⟨0, 0⟩ ⟨0, 0⟩ ⟨0, 0⟩) hess_op 3
          (hess_top Real.sqrt 3))).H 0 2 ≠ ⟨0, 0⟩ := by
  obtain ⟨-, h2, h3, h4⟩ := hess_call_restart la
  refine ⟨h2, h3, h4, ?_⟩
  rw [h4]
  intro h
  have := congrArg Cx.im h
  norm_num at this

/-- C27: for a value of `rel_prec` other than 0 and 1 the test of line 170 is false in
every state, so the call never leaves through line 186: it ends on line 118 or 220 with 0
or on line 378 with `-1`. -/
theorem C27_other_rel_prec_never_passes_test (sqrt : K → K) (la : DenseLA K)
    (ws : Workspace K) (VR : Int) (P Q : Vec K) (m nr_ev : Nat) (max_restarts : Int)
    (eps_sq : K) (rel_prec : Int) (f : matrix_mult K) (h0 : rel_prec ≠ 0) (h1 : rel_prec ≠ 1) :
    (∀ (st : St K) (j : Nat),
      ¬ precision_reached (sqrt eps_sq) (sqrt (square_norm Q)) rel_prec st j) ∧
    (∀ j, (gmres_dr sqrt la ws VR P Q m nr_ev max_restarts eps_sq rel_prec f).exit
      ≠ ExitPath.inner j) ∧
    (((gmres_dr sqrt la ws VR P Q m nr_ev max_restarts eps_sq rel_prec f).exit
        = ExitPath.entry_zero ∧
      (gmres_dr sqrt la ws VR P Q m nr_ev max_restarts eps_sq rel_prec f).ret = 0) ∨
     ((gmres_dr sqrt la ws VR P Q m nr_ev max_restarts eps_sq rel_prec f).exit
        = ExitPath.cycle0_zero ∧
      (gmres_dr sqrt la ws VR P Q m nr_ev max_restarts eps_sq rel_prec f).ret = 0) ∨
     ((gmres_dr sqrt la ws VR P Q m nr_ev max_restarts eps_sq rel_prec f).exit
        = ExitPath.max_restarts ∧
      (gmres_dr sqrt la ws VR P Q m nr_ev max_restarts eps_sq rel_prec f).ret = -1)) := by
  have ht : ∀ (st : St K) (j : Nat),
      ¬ precision_reached (sqrt eps_sq) (sqrt (square_norm Q)) rel_prec st j := by
    rintro st j (⟨-, h⟩ | ⟨-, h⟩)
    · exact h0 h
    · exact h1 h
  have hin : ∀ j, (gmres_dr sqrt la ws VR P Q m nr_ev max_restarts eps_sq rel_prec f).exit
      ≠ ExitPath.inner j := by
    intro j hj
    rw [gmres_dr_exit_inner_iff] at hj
    obtain ⟨-, st1, hc⟩ := hj
    rw [cycle0_inl_iff] at hc
    obtain ⟨k, -, -, -, hp, -⟩ := hc
    exact ht _ _ hp
  refine ⟨ht, hin, ?_⟩
  rcases gmres_dr_cases sqrt la ws VR P Q m nr_ev max_restarts eps_sq rel_prec f with
    ⟨-, a, b, -⟩ | ⟨-, j, st1, -, a, -⟩ | ⟨-, st1, -, -, a, b, -⟩ | ⟨-, st1, -, -, a, b, -⟩
  · exact Or.inl ⟨a, b⟩
  · exact absurd a (hin j)
  · exact Or.inr (Or.inl ⟨a, b⟩)
  · exact Or.inr (Or.inr ⟨a, b⟩)

/-- Witness for C27: `rel_prec = 2` in the call `P = 0`, `Q = (1, 0, ...)`, `m = 2`,
`eps_sq = 1` on `bidiag_op`, which with `rel_prec = 0` leaves through line 186 at `j = 0`. -/
theorem C27_other_rel_prec_witness :
    (gmres_dr Real.sqrt idle_la staticWorkspace 2 (spinor3 ⟨0, 0⟩ ⟨0, 0⟩ ⟨0, 0⟩)
      (spinor3 ⟨1, 0⟩ ⟨0, 0⟩ ⟨0, 0⟩) 2 1 2 1 2 bidiag_op).exit ≠ ExitPath.inner 0 :=
  (C27_other_rel_prec_never_passes_test Real.sqrt idle_la staticWorkspace 2
    (spinor3 ⟨0, 0⟩ ⟨0, 0⟩ ⟨0, 0⟩) (spinor3 ⟨1, 0⟩ ⟨0, 0⟩ ⟨0, 0⟩) 2 1 2 1 2 bidiag_op
    (by decide) (by decide)).2.1 0

/-- C30, the claim as stated fails: for the odd size `VOLUME + RAND = 1` the leading
dimension is `12*1/2 = 6` while the stride is `12*(1/2) = 0`, and for the even size
`178956972` the product `12*178956972 = 2147483664` exceeds `2^31 - 1`, so that in 32-bit
arithmetic `V2 = -1073741816` while the stride is `1073741832`. -/
theorem C30_leading_dimension_mismatch :
    V2 1 = 6 ∧ basis_stride 1 = 0 ∧
    V2 178956972 = -1073741816 ∧ basis_stride 178956972 = 1073741832 := by
  refine ⟨?_, ?_, ?_, ?_⟩ <;> decide

/-- C30, amended: for every even value `2*k` of `VOLUME + RAND` whose product with 12
fits the type `int` (`12*(2*k) <= 2^31 - 1`) the leading dimension `V2 = 12*X/2` equals
the stride `12*Vo` with `Vo = X/2`. -/
theorem C30_leading_dimension_even_volume (k : Nat)
    (hk : 12 * (2 * (k : Int)) ≤ 2147483647) :
    V2 (2 * (k : Int)) = basis_stride (2 * (k : Int)) := by
  simp only [V2, basis_stride, wrap32]
  have h1 : (0 : Int) ≤ 12 * (2 * (k : Int)) := by positivity
  have h2 : (0 : Int) ≤ 2 * (k : Int) := by positivity
  have e : (12 * (2 * (k : Int)) + 2147483648) % 4294967296 - 2147483648
      = 12 * (2 * (k : Int)) := by omega
  rw [e, Int.tdiv_eq_ediv h1 (by norm_num), Int.tdiv_eq_ediv h2 (by norm_num)]
  omega

/-- C30 at `VOLUME + RAND = 2`, the size of the calls traced in this file. -/
theorem C30_leading_dimension_even_volume_witness :
    12 * (2 * ((1 : Nat) : Int)) ≤ 2147483647 ∧ V2 (2 * ((1 : Nat) : Int)) = 12 :=
  ⟨by decide, (C30_leading_dimension_even_volume 1 (by decide)).trans (by decide)⟩

/-- C28: relative mode is never stricter than absolute mode when `||Q|| >= 1`: if the call
with `rel_prec = 0` leaves through the test of line 170 at inner index `j` (returning `j`),
then the same call with `rel_prec = 1` leaves through that test at some index `j' <= j`
and returns `j'`. -/
theorem C28_relative_mode_not_stricter (la : DenseLA ℝ) (ws : Workspace ℝ) (VR : Int)
    (P Q : Vec ℝ) (m nr_ev : Nat) (max_restarts : Int) (eps_sq : ℝ) (f : matrix_mult ℝ)
    (j : Nat) (hQ : 1 ≤ Real.sqrt (square_norm Q)) (heps : 0 ≤ eps_sq)
    (hexit : (gmres_dr Real.sqrt la ws VR P Q m nr_ev max_restarts eps_sq 0 f).exit
      = ExitPath.inner j) :
    (gmres_dr Real.sqrt la ws VR P Q m nr_ev max_restarts eps_sq 0 f).ret = (j : Int) ∧
    ∃ j1, j1 ≤ j ∧
      (gmres_dr Real.sqrt la ws VR P Q m nr_ev max_restarts eps_sq 1 f).exit
        = ExitPath.inner j1 ∧
      (gmres_dr Real.sqrt la ws VR P Q m nr_ev max_restarts eps_sq 1 f).ret = (j1 : Int) := by
  classical
  have heps' : 0 ≤ Real.sqrt eps_sq := Real.sqrt_nonneg eps_sq
  have hε : 0 ≤ eps_sq := heps
  obtain ⟨hρ, st1, hc⟩ := (gmres_dr_exit_inner_iff Real.sqrt la ws VR P Q m nr_ev
    max_restarts eps_sq 0 f j).1 hexit
  have hret := (gmres_dr_inner Real.sqrt la ws VR P Q m nr_ev max_restarts eps_sq 0 f j st1
    hρ hc).1
  obtain ⟨k, hk, hj, -, hp, -⟩ := (cycle0_inl_iff _ _ _ _ _ _ _ _ _ _).1 hc
  have hrel : ∃ l, precision_reached (Real.sqrt eps_sq) (Real.sqrt (square_norm Q)) 1
      (cycle0_state Real.sqrt f l 0 (loop_entry Real.sqrt ws VR P Q m f)) (0 + l) := by
    refine ⟨k, Or.inr ⟨?_, rfl⟩⟩
    rcases hp with ⟨h1, -⟩ | ⟨-, h2⟩
    · calc _ ≤ Real.sqrt eps_sq := h1
        _ = Real.sqrt eps_sq * 1 := (mul_one _).symm
        _ ≤ Real.sqrt eps_sq * Real.sqrt (square_norm Q) :=
          mul_le_mul_of_nonneg_left hQ heps'
    · exact absurd h2 (by norm_num)
  have hmin := fun l (hl : l < Nat.find hrel) => Nat.find_min hrel hl
  have hle : Nat.find hrel ≤ k := Nat.find_min' hrel (by
    rcases hp with ⟨h1, -⟩ | ⟨-, h2⟩
    · exact Or.inr ⟨calc _ ≤ Real.sqrt eps_sq := h1
        _ = Real.sqrt eps_sq * 1 := (mul_one _).symm
        _ ≤ Real.sqrt eps_sq * Real.sqrt (square_norm Q) :=
          mul_le_mul_of_nonneg_left hQ heps', rfl⟩
    · exact absurd h2 (by norm_num))
  have hc1 : cycle0 Real.sqrt f (Real.sqrt eps_sq) (Real.sqrt (square_norm Q)) 1 m 0
      (loop_entry Real.sqrt ws VR P Q m f)
      = Sum.inl (0 + Nat.find hrel,
          cycle0_state Real.sqrt f (Nat.find hrel) 0 (loop_entry Real.sqrt ws VR P Q m f)) :=
    (cycle0_inl_iff _ _ _ _ _ _ _ _ _ _).2
      ⟨Nat.find hrel, by omega, rfl, rfl, Nat.find_spec hrel, hmin⟩
  obtain ⟨r1, r2, -⟩ := gmres_dr_inner Real.sqrt la ws VR P Q m nr_ev max_restarts eps_sq 1 f
    _ _ hρ hc1
  exact ⟨hret, 0 + Nat.find hrel, by omega, r2, r1⟩

/-- Witness for C28: the call `P = 0`, `Q = (1, 0, ...)`, `m = 2`, `eps_sq = 1` on
`bidiag_op`, where `||Q|| = 1` and absolute mode leaves through the test at `j = 0`. -/
theorem C28_relative_mode_witness :
    ∃ j1, j1 ≤ 0 ∧
      (gmres_dr Real.sqrt idle_la staticWorkspace 2 (spinor3 ⟨0, 0⟩ ⟨0, 0⟩ ⟨0, 0⟩)
        (spinor3 ⟨1, 0⟩ ⟨0, 0⟩ ⟨0, 0⟩) 2 1 2 1 1 bidiag_op).exit = ExitPath.inner j1 ∧
      (gmres_dr Real.sqrt idle_la staticWorkspace 2 (spinor3 ⟨0, 0⟩ ⟨0, 0⟩ ⟨0, 0⟩)
        (spinor3 ⟨1, 0⟩ ⟨0, 0⟩ ⟨0, 0⟩) 2 1 2 1 1 bidiag_op).ret = (j1 : Int) :=
  (C28_relative_mode_not_stricter idle_la staticWorkspace 2 (spinor3 ⟨0, 0⟩ ⟨0, 0⟩ ⟨0, 0⟩)
    (spinor3 ⟨1, 0⟩ ⟨0, 0⟩ ⟨0, 0⟩) 2 1 2 1 bidiag_op 0
    (by rw [bidiag_entry.2.1, Real.sqrt_one])
    (by norm_num)
    (bidiag_loose_call idle_la 1 2).2.1).2

/-- C29: the number of operator applications is fixed by the control path: a call that
leaves through the test of line 170 at inner index `j` (returning `j`) has applied the
operator `j + 2` times, and a call with `nr_ev < m` that returns `-1` has applied it
`(m + 2) + max(0, max_restarts - 1) * (m - nr_ev + 1)` times. -/
theorem C29_operator_applications (sqrt : K → K) (la : DenseLA K) (ws : Workspace K)
    (VR : Int) (P Q : Vec K) (m nr_ev : Nat) (max_restarts : Int) (eps_sq : K)
    (rel_prec : Int) (f : matrix_mult K) (hn : nr_ev < m) :
    (∀ j, (gmres_dr sqrt la ws VR P Q m nr_ev max_restarts eps_sq rel_prec f).exit
        = ExitPath.inner j →
      (gmres_dr sqrt la ws VR P Q m nr_ev max_restarts eps_sq rel_prec f).ret = (j : Int) ∧
      (gmres_dr sqrt la ws VR P Q m nr_ev max_restarts eps_sq rel_prec f).st.napply = j + 2) ∧
    ((gmres_dr sqrt la ws VR P Q m nr_ev max_restarts eps_sq rel_prec f).ret = -1 →
      ((gmres_dr sqrt la ws VR P Q m nr_ev max_restarts eps_sq rel_prec f).st.napply : Int)
        = ((m : Int) + 2) + max 0 (max_restarts - 1) * ((m : Int) - (nr_ev : Int) + 1)) := by
  have he : (loop_entry sqrt ws VR P Q m f).napply = 1 :=
    (loop_entry_fields sqrt ws VR P Q m f).2.2.2.1
  constructor
  · intro j hj
    obtain ⟨hρ, st1, hc⟩ := (gmres_dr_exit_inner_iff sqrt la ws VR P Q m nr_ev
      max_restarts eps_sq rel_prec f j).1 hj
    obtain ⟨r1, -, r3, -⟩ := gmres_dr_inner sqrt la ws VR P Q m nr_ev max_restarts eps_sq
      rel_prec f j st1 hρ hc
    refine ⟨r1, ?_⟩
    rw [r3, (clear_alpha_im_frame m _).2.1, backsubst_napply,
      ((cycle0_napply sqrt f _ _ rel_prec m 0 _).1 j st1 hc).2, he]
    omega
  · intro hret
    rcases gmres_dr_cases sqrt la ws VR P Q m nr_ev max_restarts eps_sq rel_prec f with
      ⟨-, -, b, -⟩ | ⟨-, j, st1, -, -, b, -⟩ | ⟨-, st1, -, -, -, b, -⟩ | ⟨-, st1, hc, -, -, -, b⟩
    · rw [b] at hret; exact absurd hret (by norm_num)
    · rw [b] at hret; omega
    · rw [b] at hret; exact absurd hret (by norm_num)
    · have hp : (prepare_restart Q f m st1).napply = m + 2 := by
        simp only [prepare_restart]
        rw [backsubst_napply, (cycle0_napply sqrt f _ _ rel_prec m 0 _).2 st1 hc, he]
        omega
      rw [b, restart_loop_napply, hp]
      have hmax : (((max_restarts - 1).toNat : Nat) : Int) = max 0 (max_restarts - 1) := by
        rw [Int.toNat_eq_max, max_comm]
      push_cast
      rw [hmax, Nat.cast_sub (le_of_lt hn)]

/-- Witness for C29: the call `P = 0`, `Q = (1, 0, ...)`, `m = 2`, `nr_ev = 1`,
`max_restarts = 3`, `eps_sq = 1/100` on `bidiag_op` returns `-1` after
`(2 + 2) + 2 * (2 - 1 + 1) = 8` operator applications. -/
theorem C29_operator_applications_witness :
    ((gmres_dr Real.sqrt idle_la staticWorkspace 2 (spinor3 ⟨0, 0⟩ ⟨0, 0⟩ ⟨0, 0⟩)
        (spinor3 ⟨1, 0⟩ ⟨0, 0⟩ ⟨0, 0⟩) 2 1 3 (1 / 100) 0 bidiag_op).st.napply : Int)
      = (((2 : Nat) : Int) + 2) + max 0 (3 - 1) * (((2 : Nat) : Int) - ((1 : Nat) : Int) + 1) :=
  (C29_operator_applications Real.sqrt idle_la staticWorkspace 2
    (spinor3 ⟨0, 0⟩ ⟨0, 0⟩ ⟨0, 0⟩) (spinor3 ⟨1, 0⟩ ⟨0, 0⟩ ⟨0, 0⟩) 2 1 3 (1 / 100) 0 bidiag_op
    (by decide)).2
    (bidiag_tight_call idle_la 3 (1 / 100) (by
      rw [show (1 / 100 : ℝ) = (1 / 10) * (1 / 10) by norm_num,
        sqrt_mul_self_nn _ (by norm_num)]
      norm_num)).1

/-- C24: a deflation step runs only after cycle 0 ran all `m` passes without passing the
test of line 170: a call ends either with no deflation step and no restart Arnoldi pass
run, or on line 378 after the residual on entry was non-zero and the test failed at every
inner index `k < m` (then `max(0, max_restarts - 1)` deflation steps ran); in particular
nothing of a restart cycle runs when the call leaves on line 118 or 186.  Each deflation
step is followed by the Arnoldi passes `j = nr_ev, ..., m-1`, in this order. -/
theorem C24_deflation_only_after_exhausted_cycle0 (sqrt : K → K) (la : DenseLA K)
    (ws : Workspace K) (VR : Int) (P Q : Vec K) (m nr_ev : Nat) (max_restarts : Int)
    (eps_sq : K) (rel_prec : Int) (f : matrix_mult K) :
    (((gmres_dr sqrt la ws VR P Q m nr_ev max_restarts eps_sq rel_prec f).st.ndefl = 0 ∧
      (gmres_dr sqrt la ws VR P Q m nr_ev max_restarts eps_sq rel_prec f).st.rsteps = [] ∧
      (gmres_dr sqrt la ws VR P Q m nr_ev max_restarts eps_sq rel_prec f).exit
        ≠ ExitPath.max_restarts) ∨
     ((gmres_dr sqrt la ws VR P Q m nr_ev max_restarts eps_sq rel_prec f).exit
        = ExitPath.max_restarts ∧
      (gmres_dr sqrt la ws VR P Q m nr_ev max_restarts eps_sq rel_prec f).st.ndefl
        = (max_restarts - 1).toNat ∧
      sqrt (square_norm (diff Q (f P))) ≠ 0 ∧
      ∀ k, k < m → ¬ precision_reached (sqrt eps_sq) (sqrt (square_norm Q)) rel_prec
        (state_at sqrt ws VR P Q m f k) k)) ∧
    (∀ st0 : St K,
      (restart_arnoldi sqrt la f m nr_ev st0).ndefl = st0.ndefl + 1 ∧
      (restart_arnoldi sqrt la f m nr_ev st0).rsteps
        = (List.range' nr_ev (m - nr_ev)).reverse ++ st0.rsteps) := by
  refine ⟨?_, fun st0 => restart_arnoldi_trace sqrt la f m nr_ev st0⟩
  have he : ((loop_entry sqrt ws VR P Q m f).ndefl, (loop_entry sqrt ws VR P Q m f).rsteps)
      = (0, []) := rfl
  rcases gmres_dr_cases sqrt la ws VR P Q m nr_ev max_restarts eps_sq rel_prec f with
    ⟨-, a, -, c⟩ | ⟨-, j, st1, hc, a, -, c⟩ | ⟨-, st1, hc, -, a, -, c⟩ |
    ⟨hρ, st1, hc, -, a, -, c⟩
  · left
    rw [c, a]
    exact ⟨rfl, rfl, by simp⟩
  · left
    have h1 := (cycle0_trace sqrt f _ _ rel_prec m 0 _).1 j st1 hc
    have h2 := backsubst_trace j st1
    have h3 := clear_alpha_im_trace m (backsubst j st1)
    rw [h2, h1, he] at h3
    rw [c, a]
    exact ⟨(Prod.mk.inj h3).1, (Prod.mk.inj h3).2, by simp⟩
  · left
    have h1 := (cycle0_trace sqrt f _ _ rel_prec m 0 _).2 st1 hc
    have h2 := backsubst_trace (m - 1) st1
    rw [h1, he] at h2
    rw [c, a]
    exact ⟨(Prod.mk.inj h2).1, (Prod.mk.inj h2).2, by simp⟩
  · right
    have h1 := (cycle0_trace sqrt f _ _ rel_prec m 0 _).2 st1 hc
    have h2 := backsubst_trace (m - 1) st1
    rw [h1, he] at h2
    have hp : (prepare_restart Q f m st1).ndefl = 0 := (Prod.mk.inj h2).1
    refine ⟨a, ?_, hρ, fun k hk => ?_⟩
    · rw [c, restart_loop_ndefl, hp, Nat.zero_add]
    · have := cycle0_inr_tests sqrt f _ _ rel_prec m 0 _ st1 hc k hk
      rw [Nat.zero_add] at this
      exact this

/-- C21: when the call leaves cycle 0 through the test of line 170 at step `j`, with `R`
the rotated `H` and `g` the rotated `alpha` that step `j` left (`state_at`), and the
diagonal `R[i][i]`, `i <= j`, non-zero: the diagonal is real, the coefficients `y` that
lines 171-181 compute satisfy `sum over k = i..j of R[i][k]*y[k] = g[i]` for every
`i <= j`, every other solution agrees with `y` on `0..j`, and the returned `P` is
`P_in + sum over i = 0..j of y[i]*V[i]`. -/
theorem C21_update_is_exact_back_substitution (sqrt : K → K) (la : DenseLA K)
    (ws : Workspace K) (VR : Int) (P Q : Vec K) (m nr_ev : Nat) (max_restarts : Int)
    (eps_sq : K) (rel_prec : Int) (f : matrix_mult K) (j : Nat)
    (hexit : (gmres_dr sqrt la ws VR P Q m nr_ev max_restarts eps_sq rel_prec f).exit
      = ExitPath.inner j)
    (hR : ∀ i, i ≤ j → ((state_at sqrt ws VR P Q m f j).H i i).re ≠ 0) :
    (∀ i, i ≤ j → ((state_at sqrt ws VR P Q m f j).H i i).im = 0) ∧
    (∀ i, i ≤ j →
      tri_row (state_at sqrt ws VR P Q m f j).H
        (backsubst j (state_at sqrt ws VR P Q m f j)).alpha i j
        = (state_at sqrt ws VR P Q m f j).alpha i) ∧
    (∀ y : Nat → Cx K,
      (∀ i, i ≤ j → tri_row (state_at sqrt ws VR P Q m f j).H y i j
        = (state_at sqrt ws VR P Q m f j).alpha i) →
      ∀ i, i ≤ j → y i = (backsubst j (state_at sqrt ws VR P Q m f j)).alpha i) ∧
    (gmres_dr sqrt la ws VR P Q m nr_ev max_restarts eps_sq rel_prec f).P
      = lin_comb (backsubst j (state_at sqrt ws VR P Q m f j)).alpha
          (state_at sqrt ws VR P Q m f j).V P (j + 1) := by
  obtain ⟨h0, st1, hc⟩ := (gmres_dr_exit_inner_iff sqrt la ws VR P Q m nr_ev max_restarts
    eps_sq rel_prec f j).1 hexit
  obtain ⟨k, -, hk, hst, -, -⟩ := (cycle0_inl_iff sqrt f _ _ rel_prec m 0 _ j st1).1 hc
  rw [Nat.zero_add] at hk
  subst hk
  have hst1 : st1 = state_at sqrt ws VR P Q m f j := hst
  obtain ⟨-, -, -, hP⟩ := gmres_dr_inner sqrt la ws VR P Q m nr_ev max_restarts eps_sq
    rel_prec f j st1 h0 hc
  rw [(clear_alpha_im_frame m (backsubst j st1)).1, hst1] at hP
  obtain ⟨c1, -, c3⟩ := cycle0_state_H sqrt f j 0 (loop_entry sqrt ws VR P Q m f)
  have him : ∀ i, i ≤ j → ((state_at sqrt ws VR P Q m f j).H i i).im = 0 :=
    fun i hi => c3 i (Nat.zero_le _) (by omega)
  have hd : ∀ i, i ≤ j → ((state_at sqrt ws VR P Q m f j).H i i).im = 0 ∧
      ((state_at sqrt ws VR P Q m f j).H i i).re ≠ 0 := fun i hi => ⟨him i hi, hR i hi⟩
  obtain ⟨-, -, b3, b4⟩ := backsubst_spec j (state_at sqrt ws VR P Q m f j) hd
  have hsol : (state_at sqrt ws VR P Q m f j).sol = P :=
    c1.trans (loop_entry_fields sqrt ws VR P Q m f).2.2.1
  refine ⟨him, b3, fun y hy => ?_, ?_⟩
  · exact tri_row_unique _ _ j hd y _ hy b3
  · rw [hP, b4, hsol]

/-- C21 at the call on `bidiag_op` with `eps_sq = 1`, which passes the test at step 0. -/
theorem C21_update_is_exact_back_substitution_witness :
    (gmres_dr Real.sqrt idle_la staticWorkspace 2 (spinor3 ⟨0, 0⟩ ⟨0, 0⟩ ⟨0, 0⟩)
      (spinor3 ⟨1, 0⟩ ⟨0, 0⟩ ⟨0, 0⟩) 2 1 1 1 0 bidiag_op).exit = ExitPath.inner 0 ∧
    ((state_at Real.sqrt staticWorkspace 2 (spinor3 ⟨0, 0⟩ ⟨0, 0⟩ ⟨0, 0⟩)
      (spinor3 ⟨1, 0⟩ ⟨0, 0⟩ ⟨0, 0⟩) 2 bidiag_op 0).H 0 0).re ≠ 0 ∧
    (gmres_dr Real.sqrt idle_la staticWorkspace 2 (spinor3 ⟨0, 0⟩ ⟨0, 0⟩ ⟨0, 0⟩)
      (spinor3 ⟨1, 0⟩ ⟨0, 0⟩ ⟨0, 0⟩) 2 1 1 1 0 bidiag_op).P
      = lin_comb (backsubst 0 (state_at Real.sqrt staticWorkspace 2
            (spinor3 ⟨0, 0⟩ ⟨0, 0⟩ ⟨0, 0⟩) (spinor3 ⟨1, 0⟩ ⟨0, 0⟩ ⟨0, 0⟩) 2 bidiag_op 0)).alpha
          (state_at Real.sqrt staticWorkspace 2 (spinor3 ⟨0, 0⟩ ⟨0, 0⟩ ⟨0, 0⟩)
            (spinor3 ⟨1, 0⟩ ⟨0, 0⟩ ⟨0, 0⟩) 2 bidiag_op 0).V
          (spinor3 ⟨0, 0⟩ ⟨0, 0⟩ ⟨0, 0⟩) 1 := by
  have hne : ((state_at Real.sqrt staticWorkspace 2 (spinor3 ⟨0, 0⟩ ⟨0, 0⟩ ⟨0, 0⟩)
      (spinor3 ⟨1, 0⟩ ⟨0, 0⟩ ⟨0, 0⟩) 2 bidiag_op 0).H 0 0).re ≠ 0 := by
    show ((arnoldi0 Real.sqrt bidiag_op 0 (loop_entry Real.sqrt staticWorkspace 2
      (spinor3 ⟨0, 0⟩ ⟨0, 0⟩ ⟨0, 0⟩) (spinor3 ⟨1, 0⟩ ⟨0, 0⟩ ⟨0, 0⟩) 2 bidiag_op)).H 0 0).re ≠ 0
    rw [(arnoldi0_zero Real.sqrt bidiag_op _).2.2.1, (loop_entry_fields Real.sqrt _ _ _ _ _ _).1,
      bidiag_entry.2.2, bidiag_step0.2.2.2]
    norm_num
  have hex := (bidiag_loose_call idle_la 1 1).2.1
  exact ⟨hex, hne, (C21_update_is_exact_back_substitution Real.sqrt idle_la staticWorkspace 2
    (spinor3 ⟨0, 0⟩ ⟨0, 0⟩ ⟨0, 0⟩) (spinor3 ⟨1, 0⟩ ⟨0, 0⟩ ⟨0, 0⟩) 2 1 1 1 0 bidiag_op 0 hex
    (fun i hi => by
      have e : i = 0 := by omega
      subst e
      exact hne)).2.2.2⟩

/-- C26: a call that returns -1 hands back in `P` the iterate `sol` of its final state
(line 377), which is the iterate after the restart cycles that followed the update of
cycle 0.  With `max_restarts <= 1`, `m >= 1` and a non-zero diagonal of the rotated `H`,
the final state is the one lines 194-208 left (no restart cycle has run), the
coefficients `y` computed on lines 196-205 solve the `m x m` triangular system, and
`P = P_in + sum over i < m of y[i]*V[i]`. -/
theorem C26_failure_returns_last_iterate (sqrt : K → K) (la : DenseLA K)
    (ws : Workspace K) (VR : Int) (P Q : Vec K) (m nr_ev : Nat) (max_restarts : Int)
    (eps_sq : K) (rel_prec : Int) (f : matrix_mult K)
    (hret : (gmres_dr sqrt la ws VR P Q m nr_ev max_restarts eps_sq rel_prec f).ret = -1) :
    (∃ st1, cycle0 sqrt f (sqrt eps_sq) (sqrt (square_norm Q)) rel_prec m 0
        (loop_entry sqrt ws VR P Q m f) = Sum.inr st1 ∧
      (gmres_dr sqrt la ws VR P Q m nr_ev max_restarts eps_sq rel_prec f).P
        = (restart_loop sqrt la f Q m nr_ev (max_restarts - 1).toNat
            (prepare_restart Q f m st1)).sol) ∧
    (max_restarts ≤ 1 → 1 ≤ m →
      (∀ i, i < m → ((state_at sqrt ws VR P Q m f (m - 1)).H i i).re ≠ 0) →
      (gmres_dr sqrt la ws VR P Q m nr_ev max_restarts eps_sq rel_prec f).st
        = prepare_restart Q f m (normalise0 (m - 1) (state_at sqrt ws VR P Q m f (m - 1))) ∧
      (∀ i, i < m →
        tri_row (state_at sqrt ws VR P Q m f (m - 1)).H
          (backsubst (m - 1)
            (normalise0 (m - 1) (state_at sqrt ws VR P Q m f (m - 1)))).alpha i (m - 1)
          = (state_at sqrt ws VR P Q m f (m - 1)).alpha i) ∧
      (gmres_dr sqrt la ws VR P Q m nr_ev max_restarts eps_sq rel_prec f).P
        = lin_comb
            (backsubst (m - 1)
              (normalise0 (m - 1) (state_at sqrt ws VR P Q m f (m - 1)))).alpha
            (normalise0 (m - 1) (state_at sqrt ws VR P Q m f (m - 1))).V P m) := by
  rcases gmres_dr_cases sqrt la ws VR P Q m nr_ev max_restarts eps_sq rel_prec f with
    ⟨-, -, a, -⟩ | ⟨-, j, st1, -, -, a, -⟩ | ⟨-, st1, -, -, -, a, -⟩ | ⟨h0, st1, hc, -, -, -, a⟩
  · rw [a] at hret; exact absurd hret (by norm_num)
  · rw [a] at hret; omega
  · rw [a] at hret; exact absurd hret (by norm_num)
  · have hP := (gmres_dr_exhausted sqrt la ws VR P Q m nr_ev max_restarts eps_sq rel_prec f
      st1 h0 hc).2.2
    refine ⟨⟨st1, hc, by rw [hP, a]⟩, fun hmr hm hR => ?_⟩
    obtain ⟨n, rfl⟩ : ∃ n, m = n + 1 := ⟨m - 1, by omega⟩
    have hst1 := cycle0_inr_eq sqrt f _ _ rel_prec n 0 _ st1 hc
    rw [Nat.zero_add] at hst1
    have hn : (max_restarts - 1).toNat = 0 := by omega
    rw [hn] at a
    have a1 : (gmres_dr sqrt la ws VR P Q (n + 1) nr_ev max_restarts eps_sq rel_prec f).st
        = prepare_restart Q f (n + 1) st1 := a
    simp only [Nat.add_sub_cancel] at hR ⊢
    have hs : st1 = normalise0 n (state_at sqrt ws VR P Q (n + 1) f n) := hst1
    obtain ⟨c1, -, c3⟩ := cycle0_state_H sqrt f n 0 (loop_entry sqrt ws VR P Q (n + 1) f)
    have hd : ∀ i, i ≤ n →
        ((normalise0 n (state_at sqrt ws VR P Q (n + 1) f n)).H i i).im = 0 ∧
        ((normalise0 n (state_at sqrt ws VR P Q (n + 1) f n)).H i i).re ≠ 0 :=
      fun i hi => ⟨c3 i (Nat.zero_le _) (by omega), hR i (by omega)⟩
    obtain ⟨-, -, b3, b4⟩ :=
      backsubst_spec n (normalise0 n (state_at sqrt ws VR P Q (n + 1) f n)) hd
    have hsol : (normalise0 n (state_at sqrt ws VR P Q (n + 1) f n)).sol = P :=
      c1.trans (loop_entry_fields sqrt ws VR P Q (n + 1) f).2.2.1
    rw [hs] at a1
    refine ⟨a1, fun i hi => b3 i (by omega), ?_⟩
    rw [hP, a1]
    show (backsubst n (normalise0 n (state_at sqrt ws VR P Q (n + 1) f n))).sol = _
    rw [b4, hsol]

/-- C26 at the call on `bidiag_op` with `m = 2`, `max_restarts = 1` and `eps_sq = 0`. -/
theorem C26_failure_returns_last_iterate_witness :
    (gmres_dr Real.sqrt idle_la staticWorkspace 2 (spinor3 ⟨0, 0⟩ ⟨0, 0⟩ ⟨0, 0⟩)
      (spinor3 ⟨1, 0⟩ ⟨0, 0⟩ ⟨0, 0⟩) 2 1 1 0 0 bidiag_op).ret = -1 ∧
    (gmres_dr Real.sqrt idle_la staticWorkspace 2 (spinor3 ⟨0, 0⟩ ⟨0, 0⟩ ⟨0, 0⟩)
      (spinor3 ⟨1, 0⟩ ⟨0, 0⟩ ⟨0, 0⟩) 2 1 1 0 0 bidiag_op).P
      = lin_comb
          (backsubst 1 (normalise0 1 (state_at Real.sqrt staticWorkspace 2
            (spinor3 ⟨0, 0⟩ ⟨0, 0⟩ ⟨0, 0⟩) (spinor3 ⟨1, 0⟩ ⟨0, 0⟩ ⟨0, 0⟩) 2 bidiag_op 1))).alpha
          (normalise0 1 (state_at Real.sqrt staticWorkspace 2
            (spinor3 ⟨0, 0⟩ ⟨0, 0⟩ ⟨0, 0⟩) (spinor3 ⟨1, 0⟩ ⟨0, 0⟩ ⟨0, 0⟩) 2 bidiag_op 1)).V
          (spinor3 ⟨0, 0⟩ ⟨0, 0⟩ ⟨0, 0⟩) 2 := by
  have hret := (bidiag_tight_call idle_la 1 0 (by rw [Real.sqrt_zero]; norm_num)).1
  obtain ⟨g1, g2⟩ := bidiag_state1_diag staticWorkspace 2
  refine ⟨hret, ((C26_failure_returns_last_iterate Real.sqrt idle_la staticWorkspace 2
    (spinor3 ⟨0, 0⟩ ⟨0, 0⟩ ⟨0, 0⟩) (spinor3 ⟨1, 0⟩ ⟨0, 0⟩ ⟨0, 0⟩) 2 1 1 0 0 bidiag_op
    hret).2 le_rfl (by norm_num) (fun i hi => ?_)).2.2⟩
  have hi2 : i = 0 ∨ i = 1 := by omega
  rcases hi2 with e | e
  · subst e
    show ((state_at Real.sqrt staticWorkspace 2 (spinor3 ⟨0, 0⟩ ⟨0, 0⟩ ⟨0, 0⟩)
      (spinor3 ⟨1, 0⟩ ⟨0, 0⟩ ⟨0, 0⟩) 2 bidiag_op 1).H 0 0).re ≠ 0
    rw [g1]; norm_num
  · subst e
    show ((state_at Real.sqrt staticWorkspace 2 (spinor3 ⟨0, 0⟩ ⟨0, 0⟩ ⟨0, 0⟩)
      (spinor3 ⟨1, 0⟩ ⟨0, 0⟩ ⟨0, 0⟩) 2 bidiag_op 1).H 1 1).re ≠ 0
    rw [g2]; norm_num

/-- C25 fails on a reused workspace: after `first_call` (which returns -1 and leaves
`alpha[0] = -123/625 i` in the static buffer) the same call is made again with
`eps_sq = 1`.  Line 109 sets only `alpha[0].re`, so step 0 of the second call (which
passes the test of line 170, the call leaving with value 0) computes `s[0] = 4/5`,
`c[0] = 3/5 i` and `alpha[1] = s[0]*alpha[0] = 4/5 - 492/3125 i`: the estimate has a
non-zero imaginary part. -/
theorem C25_estimate_not_real_on_reused_workspace (la : DenseLA ℝ) :
    (gmres_dr Real.sqrt la (first_call Real.sqrt la).st.toWorkspace 2
      (spinor3 ⟨0, 0⟩ ⟨0, 0⟩ ⟨0, 0⟩) (spinor3 ⟨1, 0⟩ ⟨0, 0⟩ ⟨0, 0⟩) 2 1 1 1 0 bidiag_op).exit
      = ExitPath.inner 0 ∧
    (state_at Real.sqrt (first_call Real.sqrt la).st.toWorkspace 2
      (spinor3 ⟨0, 0⟩ ⟨0, 0⟩ ⟨0, 0⟩) (spinor3 ⟨1, 0⟩ ⟨0, 0⟩ ⟨0, 0⟩) 2 bidiag_op 0).s 0
      = 4 / 5 ∧
    (state_at Real.sqrt (first_call Real.sqrt la).st.toWorkspace 2
      (spinor3 ⟨0, 0⟩ ⟨0, 0⟩ ⟨0, 0⟩) (spinor3 ⟨1, 0⟩ ⟨0, 0⟩ ⟨0, 0⟩) 2 bidiag_op 0).c 0
      = ⟨0, 3 / 5⟩ ∧
    (state_at Real.sqrt (first_call Real.sqrt la).st.toWorkspace 2
      (spinor3 ⟨0, 0⟩ ⟨0, 0⟩ ⟨0, 0⟩) (spinor3 ⟨1, 0⟩ ⟨0, 0⟩ ⟨0, 0⟩) 2 bidiag_op 0).alpha 1
      = ⟨4 / 5, -492 / 3125⟩ ∧
    ((state_at Real.sqrt (first_call Real.sqrt la).st.toWorkspace 2
      (spinor3 ⟨0, 0⟩ ⟨0, 0⟩ ⟨0, 0⟩) (spinor3 ⟨1, 0⟩ ⟨0, 0⟩ ⟨0, 0⟩) 2 bidiag_op 0).alpha 1).im
      ≠ 0 := by
  obtain ⟨-, -, f3, f4, f5, f6⟩ := first_call_result la
  obtain ⟨n1, n2, n3⟩ := bidiag_entry
  obtain ⟨-, -, h3, h4⟩ := bidiag_step0
  obtain ⟨d1, d2, -⟩ := bidiag_step0_derived
  have hws : init_gmres (first_call Real.sqrt la).st.toWorkspace ((2 : Nat) : Int)
      (Int.tdiv 2 2) = (first_call Real.sqrt la).st.toWorkspace :=
    init_gmres_reuse _ _ _ f4 f5 f6
  have ha : entry_alpha0 Real.sqrt (first_call Real.sqrt la).st.toWorkspace 2
      (spinor3 ⟨0, 0⟩ ⟨0, 0⟩ ⟨0, 0⟩) (spinor3 ⟨1, 0⟩ ⟨0, 0⟩ ⟨0, 0⟩) 2 bidiag_op
      = ⟨1, -123 / 625⟩ := by
    rw [entry_alpha0, hws, n1, n2, Real.sqrt_one, f3]
  have h0 : Real.sqrt (square_norm (diff (spinor3 ⟨1, 0⟩ ⟨0, 0⟩ ⟨0, 0⟩ : Vec ℝ)
      (bidiag_op (spinor3 ⟨0, 0⟩ ⟨0, 0⟩ ⟨0, 0⟩)))) ≠ 0 := by
    rw [n1, n2, Real.sqrt_one]; norm_num
  obtain ⟨-, r2, -⟩ := gmres_dr_first_step Real.sqrt la
    (first_call Real.sqrt la).st.toWorkspace 2
    (spinor3 ⟨0, 0⟩ ⟨0, 0⟩ ⟨0, 0⟩) (spinor3 ⟨1, 0⟩ ⟨0, 0⟩ ⟨0, 0⟩) 2 1 1 1 0
    bidiag_op (by norm_num) h0
    (Or.inl ⟨by rw [n3, n1, n2, h3, h4, Real.sqrt_one]; norm_num, rfl⟩)
  obtain ⟨v0, a0, -⟩ := loop_entry_fields Real.sqrt (first_call Real.sqrt la).st.toWorkspace 2
    (spinor3 ⟨0, 0⟩ ⟨0, 0⟩ ⟨0, 0⟩) (spinor3 ⟨1, 0⟩ ⟨0, 0⟩ ⟨0, 0⟩) 2 bidiag_op
  rw [n3] at v0
  rw [ha] at a0
  obtain ⟨z1, -⟩ := arnoldi0_zero Real.sqrt bidiag_op
    (loop_entry Real.sqrt (first_call Real.sqrt la).st.toWorkspace 2
      (spinor3 ⟨0, 0⟩ ⟨0, 0⟩ ⟨0, 0⟩) (spinor3 ⟨1, 0⟩ ⟨0, 0⟩ ⟨0, 0⟩) 2 bidiag_op)
  obtain ⟨b1, b2⟩ := arnoldi0_zero_sc Real.sqrt bidiag_op
    (loop_entry Real.sqrt (first_call Real.sqrt la).st.toWorkspace 2
      (spinor3 ⟨0, 0⟩ ⟨0, 0⟩ ⟨0, 0⟩) (spinor3 ⟨1, 0⟩ ⟨0, 0⟩ ⟨0, 0⟩) 2 bidiag_op)
  rw [v0] at z1 b1 b2
  rw [a0, h3, h4] at z1
  rw [d1] at b1
  rw [d2] at b2
  have hal : (state_at Real.sqrt (first_call Real.sqrt la).st.toWorkspace 2
      (spinor3 ⟨0, 0⟩ ⟨0, 0⟩ ⟨0, 0⟩) (spinor3 ⟨1, 0⟩ ⟨0, 0⟩ ⟨0, 0⟩) 2 bidiag_op 0).alpha 1
      = ⟨4 / 5, -492 / 3125⟩ := by
    refine z1.trans ?_
    simp only [Cx._mult_real, Cx.mk.injEq]
    constructor <;> norm_num
  refine ⟨r2, b1, b2, hal, ?_⟩
  rw [hal]
  norm_num

/-- C22: if for the arrays of this deflation step `quicksort` returns `sortarray` in
ascending order, permuted by some injective map of `0..m-1` into itself, and `idx`
permuted alongside, then `idx` holds indices in `0..m-1`, the Ritz values satisfy
`|evalues[idx[i]]| <= |evalues[idx[k]]|` for `i < nr_ev <= k < m`, the copy loop of lines
258-262 leaves `work[i][l] = G[idx[i]][l]` for `i < nr_ev`, `l < m`, and the matrix that
the step leaves in `work` is the orthonormalisation (lines 264-270) of that copy. -/
theorem C22_smallest_ritz_pairs_retained (la : DenseLA ℝ) (m nr_ev : Nat) (st : St ℝ)
    (hsorted : ∀ i j, i ≤ j → j < m →
      (deflate_sorted la m st).1 i ≤ (deflate_sorted la m st).1 j)
    (hperm : ∃ σ : Nat → Nat, (∀ i, i < m → σ i < m) ∧
      (∀ i j, i < m → j < m → σ i = σ j → i = j) ∧
      ∀ i, i < m → (deflate_sorted la m st).1 i = (deflate_keys la m st).1 (σ i) ∧
        (deflate_sorted la m st).2 i = (deflate_keys la m st).2 (σ i)) :
    (∀ i, i < m → 0 ≤ (deflate_select Real.sqrt la m nr_ev st).idx i ∧
      (deflate_select Real.sqrt la m nr_ev st).idx i < (m : Int)) ∧
    (∀ i k, i < nr_ev → nr_ev ≤ k → k < m →
      Real.sqrt (Cx._complex_square_norm ((deflate_select Real.sqrt la m nr_ev st).evalues
          ((deflate_select Real.sqrt la m nr_ev st).idx i).toNat))
        ≤ Real.sqrt (Cx._complex_square_norm
          ((deflate_select Real.sqrt la m nr_ev st).evalues
            ((deflate_select Real.sqrt la m nr_ev st).idx k).toNat))) ∧
    (∀ i l, i < nr_ev → l < m →
      deflate_copied Real.sqrt la m nr_ev st i l
        = (deflate_select Real.sqrt la m nr_ev st).G
            ((deflate_select Real.sqrt la m nr_ev st).idx i).toNat l) ∧
    (deflate_select Real.sqrt la m nr_ev st).work
      = deflate_orthonormalise Real.sqrt m nr_ev (deflate_copied Real.sqrt la m nr_ev st) := by
  obtain ⟨σ, h1, -, h3⟩ := hperm
  obtain ⟨p1, p2, -, p4, p5⟩ := deflate_select_phases Real.sqrt la m nr_ev st
  have hidx : ∀ i, i < m → (deflate_sorted la m st).2 i = ((σ i : Nat) : Int) := fun i hi => by
    rw [(h3 i hi).2, (deflate_keys_lt la m st (σ i) (h1 i hi)).2]
  have hkey : ∀ i, i < m → (deflate_sorted la m st).1 i
      = Cx._complex_square_norm ((deflate_eig la m st).2.2
          ((deflate_sorted la m st).2 i).toNat) := fun i hi => by
    rw [(h3 i hi).1, (deflate_keys_lt la m st (σ i) (h1 i hi)).1, hidx i hi, Int.toNat_ofNat]
  refine ⟨fun i hi => ?_, fun i k hi hk hkm => ?_, fun i l hi hl => ?_, p5⟩
  · rw [p4, hidx i hi]
    have := h1 i hi
    omega
  · rw [p2, p4, ← hkey i (by omega), ← hkey k hkm]
    exact Real.sqrt_le_sqrt (hsorted i k (by omega) hkm)
  · rw [p1, p4]
    show (if i < nr_ev ∧ l < m then
        (deflate_eig la m st).1 ((deflate_sorted la m st).2 i).toNat l else _) = _
    rw [if_pos ⟨hi, hl⟩]

/-- C22 at `m = 2`, `nr_ev = 1` with routines that return their arguments unchanged: the
Ritz values are `0` and `1`, already in ascending order. -/
theorem C22_smallest_ritz_pairs_retained_witness :
    Real.sqrt (Cx._complex_square_norm
        ((deflate_select Real.sqrt idle_la 2 1 (bidiag_loop_entry Real.sqrt)).evalues
          ((deflate_select Real.sqrt idle_la 2 1 (bidiag_loop_entry Real.sqrt)).idx 0).toNat))
      ≤ Real.sqrt (Cx._complex_square_norm
        ((deflate_select Real.sqrt idle_la 2 1 (bidiag_loop_entry Real.sqrt)).evalues
          ((deflate_select Real.sqrt idle_la 2 1 (bidiag_loop_entry Real.sqrt)).idx 1).toNat)) ∧
    deflate_copied Real.sqrt idle_la 2 1 (bidiag_loop_entry Real.sqrt) 0 0
      = (deflate_select Real.sqrt idle_la 2 1 (bidiag_loop_entry Real.sqrt)).G
          ((deflate_select Real.sqrt idle_la 2 1 (bidiag_loop_entry Real.sqrt)).idx 0).toNat
          0 := by
  have k0 : (deflate_keys idle_la 2 (bidiag_loop_entry Real.sqrt)).1 0 = 0 := by
    simp [deflate_keys, deflate_eig, idle_la, Function.update, Cx._complex_square_norm,
      Cx.czero]
  have k1 : (deflate_keys idle_la 2 (bidiag_loop_entry Real.sqrt)).1 1 = 1 := by
    simp [deflate_keys, deflate_eig, idle_la, Function.update, Cx._complex_square_norm,
      Cx.czero]
  have hs : deflate_sorted idle_la 2 (bidiag_loop_entry Real.sqrt)
      = deflate_keys idle_la 2 (bidiag_loop_entry Real.sqrt) := rfl
  have h := C22_smallest_ritz_pairs_retained idle_la 2 1 (bidiag_loop_entry Real.sqrt)
    (fun i j hij hj => by
      rw [hs]
      have hc : (i = 0 ∧ j = 0) ∨ (i = 0 ∧ j = 1) ∨ (i = 1 ∧ j = 1) := by omega
      rcases hc with ⟨rfl, rfl⟩ | ⟨rfl, rfl⟩ | ⟨rfl, rfl⟩
      · exact le_rfl
      · rw [k0, k1]; norm_num
      · exact le_rfl)
    ⟨fun i => i, fun i hi => hi, fun i j _ _ h => h, fun i _ => ⟨rfl, rfl⟩⟩
  exact ⟨h.2.1 0 1 (by norm_num) le_rfl (by norm_num), h.2.2.1 0 0 (by norm_num) (by norm_num)⟩

/-- C23: in exact arithmetic, `short_ModifiedGS(v, n, k, A)` with the first `k` rows of
`A` orthonormal and `v` not a combination of them leaves `v` with
`short_scalar_prod(v, v, n) = 1` and `short_scalar_prod(A_i, v, n) = 0` for every
`i < k`; and if the rows `0..nr_ev` of `work` that lines 264-270 read (the copied
eigenvector rows with entry `m` cleared, and row `nr_ev`) are linearly independent, the
rows `0..nr_ev` of length `m + 1` that the deflation step leaves in `work` are
orthonormal. -/
theorem C23_short_ModifiedGS_orthonormalises (v : Nat → Cx ℝ) (n k : Nat)
    (A : Nat → Nat → Cx ℝ) (la : DenseLA ℝ) (m nr_ev : Nat) (st : St ℝ)
    (hA : rows_orthonormal A k n) (hv : ¬ in_row_span A n k v)
    (hli : rows_independent
      (cleared_rows m nr_ev (deflate_copied Real.sqrt la m nr_ev st)) (nr_ev + 1) (m + 1)) :
    short_scalar_prod (short_ModifiedGS Real.sqrt v n k A)
        (short_ModifiedGS Real.sqrt v n k A) n = ⟨1, 0⟩ ∧
    (∀ i, i < k →
      short_scalar_prod (A i) (short_ModifiedGS Real.sqrt v n k A) n = ⟨0, 0⟩) ∧
    rows_orthonormal (deflate_select Real.sqrt la m nr_ev st).work (nr_ev + 1) (m + 1) := by
  obtain ⟨g1, g2⟩ := short_ModifiedGS_spec Real.sqrt (fun y hy => Real.mul_self_sqrt hy)
    v n k A hA (gs_projected_ne_zero v n k A hv)
  refine ⟨g1, g2, ?_⟩
  rw [(deflate_select_phases Real.sqrt la m nr_ev st).2.2.2.2]
  exact deflate_orthonormalise_spec Real.sqrt (fun y hy => Real.mul_self_sqrt hy) m nr_ev _ hli

/-- C23 at `v = (1, 1)`, `A_0 = (1, 0)` and at the deflation step of `select_probe` with
`m = 2`, `nr_ev = 1`, where the rows read are `(0, 1, 0)` and `(1, 0, 0)`. -/
theorem C23_short_ModifiedGS_orthonormalises_witness :
    short_scalar_prod
        (short_ModifiedGS Real.sqrt (fun _ => (⟨1, 0⟩ : Cx ℝ)) 2 1 unit_row)
        (short_ModifiedGS Real.sqrt (fun _ => (⟨1, 0⟩ : Cx ℝ)) 2 1 unit_row) 2 = ⟨1, 0⟩ ∧
    rows_orthonormal (deflate_select Real.sqrt idle_la 2 1 (select_probe Real.sqrt)).work
      2 3 := by
  have e00 : cleared_rows 2 1
      (deflate_copied Real.sqrt idle_la 2 1 (select_probe Real.sqrt)) 0 0 = ⟨0, 0⟩ := by
    simp [cleared_rows, deflate_copied, deflate_eig, deflate_sorted, deflate_keys, idle_la,
      select_probe, set2, Function.update]
  have e01 : cleared_rows 2 1
      (deflate_copied Real.sqrt idle_la 2 1 (select_probe Real.sqrt)) 0 1 = ⟨1, 0⟩ := by
    simp [cleared_rows, deflate_copied, deflate_eig, deflate_sorted, deflate_keys, idle_la,
      select_probe, set2, Function.update]
  have e10 : cleared_rows 2 1
      (deflate_copied Real.sqrt idle_la 2 1 (select_probe Real.sqrt)) 1 0 = ⟨1, 0⟩ := by
    simp [cleared_rows, deflate_copied, deflate_eig, deflate_sorted, deflate_keys, idle_la,
      select_probe, set2, Function.update, zgemv_sub, csum, cmul, cadd, Cx.czero,
      List.range_succ]
  have h := C23_short_ModifiedGS_orthonormalises (fun _ => (⟨1, 0⟩ : Cx ℝ)) 2 1 unit_row
    idle_la 2 1 (select_probe Real.sqrt)
    (fun a b ha hb => by
      have ea : a = 0 := by omega
      have eb : b = 0 := by omega
      subst ea eb
      simp [short_scalar_prod, unit_row, List.range_succ])
    (by
      rintro ⟨c, w, hw, h⟩
      have h1 := h 1 (by norm_num)
      rw [hw 1 (by norm_num)] at h1
      simp [unit_row, cadd, cmul] at h1)
    (fun i hi => by
      have hc : i = 0 ∨ i = 1 := by omega
      rcases hc with rfl | rfl
      · intro h
        have h1 := h 1 (by norm_num)
        rw [e01] at h1
        simp at h1
      · rintro ⟨c, w, hw, h⟩
        have h1 := h 0 (by norm_num)
        rw [hw 0 (by norm_num), e10, e00] at h1
        simp [cadd, cmul] at h1)
  exact ⟨h.1, h.2.2⟩

end Claims

end GmresDR
